import Mathlib

/-!
# ScriptLang: lexer, parser, bytecode compiler and stack VM

A shallow embedding of the C++ sources (`src/*.cc`, `include/*.h`) and the
properties of the specification checked against it.

Conventions of the embedding.

* A source text is a `List Char`, one element per C `char`; offsets, lines and
  columns are `Nat` (the source's `uint32_t` counters do not wrap on texts
  shorter than 2^32 characters).
* C++ `while` loops are recursive functions on a `fuel : Nat` argument.  Where
  the loop provably ends the fuel is computed from the state; where it may not
  end (the parser, the virtual machine) the fuel is a parameter and the result
  is an `Option`, `none` meaning that the fuel ran out.
* Operations that are undefined behaviour in C++ (dereferencing a null
  pointer, reading or writing outside an array) are explicit outcomes: `none`
  in the compiler, `InterpreterResult.Undefined` in the virtual machine.
-/

namespace scriptlang

/-! ## Tokens and source positions (`include/token.h`, `include/source_position.h`) -/

/-- Token kinds: `enum class TokenType`. -/
inductive TokenType
  | Unknown
  | LetKeyword
  | DefunKeyword
  | IfKeyword
  | ElseKeyword
  | WhileKeyword
  | ContinueKeyword
  | BreakKeyword
  | ReturnKeyword
  | PrintKeyword
  | OrKeyword
  | AndKeyword
  | NotKeyword
  | TrueKeyword
  | FalseKeyword
  | NilKeyword
  | Plus
  | Minus
  | Star
  | Slash
  | Exponent
  | Greater
  | Less
  | GreaterEqual
  | LessEqual
  | Equal
  | NotEqual
  | Assign
  | Dot
  | Comma
  | Semicolon
  | LeftParen
  | RightParen
  | LeftBrace
  | RightBrace
  | Identifier
  | StringLiteral
  | NumberLiteral
  | Eof
  deriving DecidableEq, Repr

/-- Position in the source: `struct SourcePosition` (the `source` view itself is
the lexer's and is not repeated in every position). -/
structure SourcePosition where
  offset : Nat
  line : Nat
  column : Nat
  deriving DecidableEq, Repr

/-- Pair of positions: `struct SourceRange` (`end` is written `end_`). -/
structure SourceRange where
  start : SourcePosition
  end_ : SourcePosition
  deriving DecidableEq, Repr

/-- Token: `struct Token`. -/
structure Token where
  type : TokenType
  lexeme : List Char
  position : SourceRange
  deriving DecidableEq, Repr

/-- Value of a default-constructed `SourcePosition` in the embedding. -/
def SourcePosition.zero : SourcePosition := ⟨0, 0, 0⟩

/-- Value of a default-constructed `SourceRange` in the embedding. -/
def SourceRange.zero : SourceRange := ⟨SourcePosition.zero, SourcePosition.zero⟩

/-- Value of a default-constructed `Token` in the embedding (empty lexeme). -/
def Token.default : Token := ⟨TokenType.Unknown, [], SourceRange.zero⟩

/-! ## Lexer (`src/lexer.cc`) -/

/-- The character `'\0'`. -/
def NUL : Char := Char.ofNat 0

/-- Keyword table `keywords_` filled by the constructor `Lexer::Lexer`. -/
def keywords : List (List Char × TokenType) :=
  [ ("let".toList, TokenType.LetKeyword),
    ("defun".toList, TokenType.DefunKeyword),
    ("if".toList, TokenType.IfKeyword),
    ("else".toList, TokenType.ElseKeyword),
    ("while".toList, TokenType.WhileKeyword),
    ("continue".toList, TokenType.ContinueKeyword),
    ("break".toList, TokenType.BreakKeyword),
    ("return".toList, TokenType.ReturnKeyword),
    ("print".toList, TokenType.PrintKeyword),
    ("or".toList, TokenType.OrKeyword),
    ("and".toList, TokenType.AndKeyword),
    ("not".toList, TokenType.NotKeyword),
    ("true".toList, TokenType.TrueKeyword),
    ("false".toList, TokenType.FalseKeyword),
    ("nil".toList, TokenType.NilKeyword) ]

/-- State of `class Lexer`: the iterators `curr_` and `start_` are offsets into
`source`. -/
structure Lexer where
  source : List Char
  hasNext : Bool
  curr : Nat
  start : Nat
  line : Nat
  column : Nat
  tokenStartPosition : SourcePosition
  deriving DecidableEq, Repr

/-- Constructor `Lexer::Lexer(source)`. -/
def Lexer.new (source : List Char) : Lexer :=
  { source := source, hasNext := true, curr := 0, start := 0, line := 1, column := 0,
    tokenStartPosition := SourcePosition.zero }

/-- `Lexer::isAtEnd`. -/
def Lexer.isAtEnd (l : Lexer) : Bool :=
  decide (l.source.length ≤ l.curr)

/-- `Lexer::peek(pos)`. -/
def Lexer.peek (l : Lexer) (pos : Nat) : Char :=
  if l.curr + pos < l.source.length then l.source.getD (l.curr + pos) NUL else NUL

/-- `Lexer::advance`: the character read and the lexer after the call. -/
def Lexer.advance (l : Lexer) : Char × Lexer :=
  if l.isAtEnd then (NUL, l)
  else (l.source.getD l.curr NUL, { l with column := l.column + 1, curr := l.curr + 1 })

/-- `Lexer::match(c)`. -/
def Lexer.match_ (l : Lexer) (c : Char) : Bool × Lexer :=
  if l.peek 0 = c then (true, l.advance.2) else (false, l)

/-- `Lexer::getCurrentPosition`. -/
def Lexer.getCurrentPosition (l : Lexer) : SourcePosition :=
  { offset := l.curr, line := l.line, column := l.column }

/-- `Lexer::makeToken`. -/
def Lexer.makeToken (l : Lexer) (type : TokenType) : Token :=
  { type := type,
    lexeme := (l.source.drop l.start).take (l.curr - l.start),
    position := ⟨l.tokenStartPosition, l.getCurrentPosition⟩ }

/-- The loops `while(!isAtEnd() && p(peek(0))) advance();` of the lexer. -/
def Lexer.advanceWhileLoop (p : Char → Bool) : Nat → Lexer → Lexer
  | 0, l => l
  | fuel + 1, l =>
    if !l.isAtEnd && p (l.peek 0) then Lexer.advanceWhileLoop p fuel l.advance.2 else l

/-- The loop above with the fuel it needs: the number of characters left. -/
def Lexer.advanceWhile (p : Char → Bool) (l : Lexer) : Lexer :=
  Lexer.advanceWhileLoop p (l.source.length - l.curr) l

/-- Body of `Lexer::skipWhiteSpaces`, one iteration of the outer `while` per unit
of fuel. -/
def Lexer.skipWhiteSpacesLoop : Nat → Lexer → Lexer
  | 0, l => l
  | fuel + 1, l =>
    if l.isAtEnd then l
    else if l.peek 0 = '#' then
      let l1 := l.advanceWhile (fun c => c != '\n')
      if l1.isAtEnd then Lexer.skipWhiteSpacesLoop fuel l1.advance.2
      else Lexer.skipWhiteSpacesLoop fuel ({ l1 with line := l1.line + 1, column := 1 }).advance.2
    else if l.peek 0 = '\n' then
      Lexer.skipWhiteSpacesLoop fuel ({ l with line := l.line + 1, column := 1 }).advance.2
    else if l.peek 0 = '\t' ∨ l.peek 0 = ' ' ∨ l.peek 0 = '\r' then
      Lexer.skipWhiteSpacesLoop fuel l.advance.2
    else l

/-- `Lexer::skipWhiteSpaces`. -/
def Lexer.skipWhiteSpaces (l : Lexer) : Lexer :=
  Lexer.skipWhiteSpacesLoop (l.source.length - l.curr) l

/-- `Lexer::stringLiteral`. -/
def Lexer.stringLiteral (l : Lexer) : Token × Lexer :=
  let l1 := l.advanceWhile (fun c => c != '"')
  if l1.isAtEnd then (l1.makeToken TokenType.Unknown, l1)
  else (l1.advance.2.makeToken TokenType.StringLiteral, l1.advance.2)

/-- First part of `Lexer::numberLiteral`: the integer digits and, when a `.` is
followed by a digit, the fraction. -/
def Lexer.numberMantissa (l : Lexer) : Lexer :=
  if (l.advanceWhile Char.isDigit).peek 0 = '.' ∧ ((l.advanceWhile Char.isDigit).peek 1).isDigit then
    (l.advanceWhile Char.isDigit).advance.2.advanceWhile Char.isDigit
  else l.advanceWhile Char.isDigit

/-- Second part of `Lexer::numberLiteral`: after `match('e') || match('E')`
succeeded, an optional sign and the exponent digits. -/
def Lexer.numberExponent (l : Lexer) : Lexer :=
  (if l.peek 0 = '-' ∨ l.peek 0 = '+' then l.advance.2 else l).advanceWhile Char.isDigit

/-- `Lexer::numberLiteral`. -/
def Lexer.numberLiteral (l : Lexer) : Token × Lexer :=
  if (l.numberMantissa.match_ 'e').1 then
    ((l.numberMantissa.match_ 'e').2.numberExponent.makeToken TokenType.NumberLiteral,
      (l.numberMantissa.match_ 'e').2.numberExponent)
  else if (l.numberMantissa.match_ 'E').1 then
    ((l.numberMantissa.match_ 'E').2.numberExponent.makeToken TokenType.NumberLiteral,
      (l.numberMantissa.match_ 'E').2.numberExponent)
  else (l.numberMantissa.makeToken TokenType.NumberLiteral, l.numberMantissa)

/-- `Lexer::getIdentiferType`: look the lexeme up in `keywords_`. -/
def Lexer.getIdentiferType (l : Lexer) : TokenType :=
  match keywords.lookup ((l.source.drop l.start).take (l.curr - l.start)) with
  | some type => type
  | none => TokenType.Identifier

/-- `Lexer::isValidIdentiferCharacter`. -/
def isValidIdentiferCharacter (c : Char) : Bool :=
  c.isAlphanum || c == '-' || c == '_'

/-- `Lexer::identifier`. -/
def Lexer.identifier (l : Lexer) : Token × Lexer :=
  let l1 := l.advanceWhile isValidIdentiferCharacter
  (l1.makeToken l1.getIdentiferType, l1)

/-- The `switch(c)` of `Lexer::next`, entered with the character `c` that
`advance()` returned and the lexer after that call. -/
def Lexer.scanToken (c : Char) (l : Lexer) : Token × Lexer :=
  if c = NUL then
    (({ l with hasNext := false }).makeToken TokenType.Eof, { l with hasNext := false })
  else if c = '+' then (l.makeToken TokenType.Plus, l)
  else if c = '-' then (l.makeToken TokenType.Minus, l)
  else if c = '*' then
    ((l.match_ '*').2.makeToken
      (if (l.match_ '*').1 then TokenType.Exponent else TokenType.Star), (l.match_ '*').2)
  else if c = '/' then (l.makeToken TokenType.Slash, l)
  else if c = '>' then
    ((l.match_ '=').2.makeToken
      (if (l.match_ '=').1 then TokenType.GreaterEqual else TokenType.Greater), (l.match_ '=').2)
  else if c = '<' then
    ((l.match_ '=').2.makeToken
      (if (l.match_ '=').1 then TokenType.LessEqual else TokenType.Less), (l.match_ '=').2)
  else if c = '=' then
    ((l.match_ '=').2.makeToken
      (if (l.match_ '=').1 then TokenType.Equal else TokenType.Assign), (l.match_ '=').2)
  else if c = '!' then
    ((l.match_ '=').2.makeToken
      (if (l.match_ '=').1 then TokenType.NotEqual else TokenType.Unknown), (l.match_ '=').2)
  else if c = '.' then (l.makeToken TokenType.Dot, l)
  else if c = ',' then (l.makeToken TokenType.Comma, l)
  else if c = ';' then (l.makeToken TokenType.Semicolon, l)
  else if c = '(' then (l.makeToken TokenType.LeftParen, l)
  else if c = ')' then (l.makeToken TokenType.RightParen, l)
  else if c = '{' then (l.makeToken TokenType.LeftBrace, l)
  else if c = '}' then (l.makeToken TokenType.RightBrace, l)
  else if c = '"' then l.stringLiteral
  else if c.isDigit then l.numberLiteral
  else if c.isAlpha ∨ c = '_' then l.identifier
  else (l.makeToken TokenType.Unknown, l)

/-- The lexer state in which `Lexer::next` reads the first character of the token:
after `skipWhiteSpaces`, with `start_` and `tokenStartPosition_` set. -/
def Lexer.atTokenStart (l : Lexer) : Lexer :=
  { l.skipWhiteSpaces with
    start := l.skipWhiteSpaces.curr,
    tokenStartPosition := l.skipWhiteSpaces.getCurrentPosition }

/-- `Lexer::next`. -/
def Lexer.next (l : Lexer) : Token × Lexer :=
  Lexer.scanToken l.atTokenStart.advance.1 l.atTokenStart.advance.2

/-- Successive `next()` calls up to and including the first `Eof` token. -/
def Lexer.tokensLoop : Nat → Lexer → List Token
  | 0, _ => []
  | fuel + 1, l =>
    if l.next.1.type = TokenType.Eof then [l.next.1]
    else l.next.1 :: Lexer.tokensLoop fuel l.next.2

/-- All tokens of a source text, the final `Eof` included. Every token but `Eof`
consumes a character, so `length + 1` calls are enough. -/
def tokenize (source : List Char) : List Token :=
  Lexer.tokensLoop (source.length + 1) (Lexer.new source)

end scriptlang

namespace scriptlang

/-! ### Vocabulary for the lexer properties -/

/-- The text of `src` between offsets `a` and `b`, as `std::string_view::substr(a, b - a)`. -/
def slice (src : List Char) (a b : Nat) : List Char :=
  (src.drop a).take (b - a)

/-- Text that the lexer skips: blanks, tabs, carriage returns, line feeds and `#`
comments, a comment running to the end of its line or of the text. The flag tells
whether the scan is inside a comment. -/
def isSkippedText : Bool → List Char → Bool
  | _, [] => true
  | true, c :: cs => isSkippedText (c != '\n') cs
  | false, c :: cs =>
    if c = '#' then isSkippedText true cs
    else if c = ' ' ∨ c = '\t' ∨ c = '\r' ∨ c = '\n' then isSkippedText false cs
    else false

/-- The tokens `ts` lie in `src` one after the other from offset `pos` on: each
starts at or after the end of the one before, its lexeme is the text of its range,
and the text in between is skipped text. -/
def Contiguous (src : List Char) : Nat → List Token → Prop
  | _, [] => True
  | pos, t :: ts =>
    pos ≤ t.position.start.offset ∧
    t.position.start.offset ≤ t.position.end_.offset ∧
    t.position.end_.offset ≤ src.length ∧
    isSkippedText false (slice src pos t.position.start.offset) = true ∧
    t.lexeme = slice src t.position.start.offset t.position.end_.offset ∧
    Contiguous src t.position.end_.offset ts

/-- Skipped text and lexeme, token after token, from offset `pos` on. -/
def interleave (src : List Char) : Nat → List Token → List Char
  | _, [] => []
  | pos, t :: ts =>
    slice src pos t.position.start.offset ++ t.lexeme ++ interleave src t.position.end_.offset ts

/-- The lexer `l` reads the characters `xs` and becomes `k`: same source, the
cursor moved over exactly `xs`. -/
def Lexer.Reads (l : Lexer) (xs : List Char) (k : Lexer) : Prop :=
  k.source = l.source ∧ k.curr = l.curr + xs.length ∧
  l.source.drop l.curr = xs ++ l.source.drop k.curr

end scriptlang

namespace scriptlang

/-- Reading within one token: `Reads`, and the token start marks are kept. -/
def Lexer.Scans (l : Lexer) (xs : List Char) (k : Lexer) : Prop :=
  l.Reads xs k ∧ k.start = l.start ∧ k.tokenStartPosition = l.tokenStartPosition

end scriptlang

namespace scriptlang

/-- The pair `r` is a token made by `makeToken` in the state reached from `l` by
reading within the token. -/
def Lexer.Emits (l : Lexer) (r : Token × Lexer) : Prop :=
  ∃ ty xs, l.Scans xs r.2 ∧ r.1 = r.2.makeToken ty

end scriptlang

namespace scriptlang

/-- End offset of the last token of `ts`, or `pos` when there is none. -/
def endOffset : Nat → List Token → Nat
  | pos, [] => pos
  | _, t :: ts => endOffset t.position.end_.offset ts

end scriptlang

namespace scriptlang

/-! ## Numbers

The language's numbers are C++ `double`s (IEEE-754 binary64). A number of the
embedding is a finite value, represented by the exact rational it denotes, or one of
the two infinities, or NaN. The operations follow IEEE-754 on these: a division by
zero gives an infinity or NaN, an operation on NaN gives NaN, and NaN compares
unequal to every number, itself included. Not represented are the rounding of a
finite result to the nearest `double` and its overflow to an infinity (a finite
result is the exact one), the sign of zero (`-0` is the number `0`, so that a division
by `-0` has the sign of a division by `0`) and the sign of a NaN. On integers of
magnitude below 2^53 the operations `+ - *` and the comparisons of `double` are exact,
and so agree with the embedding; every concrete run evaluated below stays in that
range or uses a division by zero. -/

/-- Payload of a number value: a `double`. -/
inductive Number
  | finite (value : Rat)
  | posInf
  | negInf
  | nan
  deriving DecidableEq

instance (n : Nat) : OfNat Number n := ⟨Number.finite n⟩

/-- Unary `-` of `double`. -/
def Number.neg : Number → Number
  | Number.finite a => Number.finite (- a)
  | Number.posInf => Number.negInf
  | Number.negInf => Number.posInf
  | Number.nan => Number.nan

/-- The infinity with the sign of the finite value `a`, which is not zero. -/
def Number.infinityOfSign (a : Rat) : Number :=
  if 0 < a then Number.posInf else Number.negInf

/-- Binary `+` of `double`. -/
def Number.add : Number → Number → Number
  | Number.finite a, Number.finite b => Number.finite (a + b)
  | Number.finite _, Number.posInf => Number.posInf
  | Number.finite _, Number.negInf => Number.negInf
  | Number.posInf, Number.finite _ => Number.posInf
  | Number.posInf, Number.posInf => Number.posInf
  | Number.posInf, Number.negInf => Number.nan
  | Number.negInf, Number.finite _ => Number.negInf
  | Number.negInf, Number.posInf => Number.nan
  | Number.negInf, Number.negInf => Number.negInf
  | Number.nan, _ => Number.nan
  | _, Number.nan => Number.nan

/-- Binary `-` of `double`. -/
def Number.sub (a b : Number) : Number :=
  a.add b.neg

/-- Binary `*` of `double`. -/
def Number.mul : Number → Number → Number
  | Number.finite a, Number.finite b => Number.finite (a * b)
  | Number.finite a, Number.posInf => if a = 0 then Number.nan else Number.infinityOfSign a
  | Number.finite a, Number.negInf => if a = 0 then Number.nan else Number.infinityOfSign (- a)
  | Number.posInf, Number.finite b => if b = 0 then Number.nan else Number.infinityOfSign b
  | Number.negInf, Number.finite b => if b = 0 then Number.nan else Number.infinityOfSign (- b)
  | Number.posInf, Number.posInf => Number.posInf
  | Number.posInf, Number.negInf => Number.negInf
  | Number.negInf, Number.posInf => Number.negInf
  | Number.negInf, Number.negInf => Number.posInf
  | Number.nan, _ => Number.nan
  | _, Number.nan => Number.nan

/-- Binary `/` of `double`. A zero divisor is taken as `+0`. -/
def Number.div : Number → Number → Number
  | Number.finite a, Number.finite b =>
    if b = 0 then (if a = 0 then Number.nan else Number.infinityOfSign a)
    else Number.finite (a / b)
  | Number.finite _, Number.posInf => Number.finite 0
  | Number.finite _, Number.negInf => Number.finite 0
  | Number.posInf, Number.finite b => if 0 ≤ b then Number.posInf else Number.negInf
  | Number.negInf, Number.finite b => if 0 ≤ b then Number.negInf else Number.posInf
  | Number.posInf, Number.posInf => Number.nan
  | Number.posInf, Number.negInf => Number.nan
  | Number.negInf, Number.posInf => Number.nan
  | Number.negInf, Number.negInf => Number.nan
  | Number.nan, _ => Number.nan
  | _, Number.nan => Number.nan

/-- Comparison `<` of `double`: false when an operand is NaN. -/
def Number.lt : Number → Number → Bool
  | Number.finite a, Number.finite b => decide (a < b)
  | Number.finite _, Number.posInf => true
  | Number.negInf, Number.finite _ => true
  | Number.negInf, Number.posInf => true
  | _, _ => false

/-- Comparison `==` of `double`: false when an operand is NaN. -/
def Number.eq : Number → Number → Bool
  | Number.nan, _ => false
  | _, Number.nan => false
  | a, b => decide (a = b)

instance : Neg Number := ⟨Number.neg⟩
instance : Add Number := ⟨Number.add⟩
instance : Sub Number := ⟨Number.sub⟩
instance : Mul Number := ⟨Number.mul⟩
instance : Div Number := ⟨Number.div⟩
instance : LT Number := ⟨fun a b => a.lt b = true⟩
instance (a b : Number) : Decidable (a < b) := inferInstanceAs (Decidable (a.lt b = true))

/-- Value of a decimal digit character. -/
def digitValue (c : Char) : Nat :=
  c.toNat - 48

/-- Value of a string of decimal digits. -/
def digitsValue (ds : List Char) : Nat :=
  ds.foldl (fun acc c => acc * 10 + digitValue c) 0

/-- Exponent part of a decimal floating literal: the text after the mantissa. An
`e` or `E` that is not followed by an optionally signed digit sequence is not part
of the number. -/
def strtodExponent : List Char → Int
  | [] => 0
  | c :: r =>
    if c = 'e' ∨ c = 'E' then
      match r with
      | '-' :: r1 => - (digitsValue (r1.takeWhile Char.isDigit) : Int)
      | '+' :: r1 => (digitsValue (r1.takeWhile Char.isDigit) : Int)
      | _ => (digitsValue (r.takeWhile Char.isDigit) : Int)
    else 0

/-- The C library function `strtod` on a text that starts with a decimal digit, as
`Parser::primaryExpression` calls it: the longest prefix of the form
`digits [. digits] [(e|E) [+|-] digits]` is converted, exactly. (The hexadecimal
form `0x...` that `strtod` also accepts is not represented.) -/
def strtod (s : List Char) : Number :=
  let fraction : List Char :=
    match s.dropWhile Char.isDigit with
    | '.' :: r => r.takeWhile Char.isDigit
    | _ => []
  let rest : List Char :=
    match s.dropWhile Char.isDigit with
    | '.' :: r => r.dropWhile Char.isDigit
    | r => r
  let mantissa : Nat := digitsValue (s.takeWhile Char.isDigit ++ fraction)
  let exponent : Int := strtodExponent rest - (fraction.length : Int)
  Number.finite
    (mkRat ((mantissa : Int) * ((10 ^ exponent.toNat : Nat) : Int)) (10 ^ (- exponent).toNat))

/-- Stream insertion of a `double` at the default precision (`printf("%g")`): an
integral value of magnitude below 10^6 is written as its decimal digits, an infinity
as `inf` or `-inf`, a NaN as `nan` (the C library writes `-nan` for a NaN with the
sign bit, which is not represented). Other finite values are outside the embedding
and written as a fraction `num/den`. -/
def showNumber : Number → String
  | Number.finite q => if q.den = 1 then toString q.num else toString q.num ++ "/" ++ toString q.den
  | Number.posInf => "inf"
  | Number.negInf => "-inf"
  | Number.nan => "nan"

/-! ## Abstract syntax tree (`include/ast.h`)

`ExpressionPtr` and `StatementPtr` are owning pointers that may be null; the null
pointer is the constructor `null`. -/

/-- Data of a `LiteralExpression`. -/
inductive Literal
  | string (value : List Char)
  | number (value : Number)
  | boolean (value : Bool)
  | nil

/-- Expressions: the subclasses of `class Expression`. -/
inductive Expression
  | null
  | Assignment (location : SourceRange) (name : Token) (value : Expression)
  | Binary (location : SourceRange) (op : Token) (left : Expression) (right : Expression)
  | Unary (location : SourceRange) (op : Token) (right : Expression)
  | Call (location : SourceRange) (callee : Expression) (arguments : List Expression)
  | Grouping (location : SourceRange) (expression : Expression)
  | Variable (location : SourceRange) (name : Token)
  | Literal (location : SourceRange) (value : Literal)

/-- Statements: the subclasses of `class Statement`. An absent `else` branch and an
absent `return` value are `null`. -/
inductive Statement
  | null
  | VariableDeclaration (location : SourceRange) (name : Token) (init : Expression)
  | FunctionDeclaration (location : SourceRange) (name : Token) (params : List Token)
      (body : Statement)
  | Block (location : SourceRange) (statements : List Statement)
  | While (location : SourceRange) (condition : Expression) (body : Statement)
  | If (location : SourceRange) (condition : Expression) (thenBranch : Statement)
      (elseBranch : Statement)
  | ExpressionStatement (location : SourceRange) (expression : Expression)
  | Continue (location : SourceRange)
  | Break (location : SourceRange)
  | Return (location : SourceRange) (expression : Expression)
  | Print (location : SourceRange) (expression : Expression)

/-- `instanceof<Expression, VariableExpression>`. -/
def Expression.isVariable : Expression → Bool
  | Expression.Variable _ _ => true
  | _ => false

/-- `expr == nullptr`. -/
def Expression.isNull : Expression → Bool
  | Expression.null => true
  | _ => false

/-- `stmt == nullptr`. -/
def Statement.isNull : Statement → Bool
  | Statement.null => true
  | _ => false

/-- Text of a literal, for `Expression.render`. -/
def Literal.render : Literal → String
  | Literal.string s => "\"" ++ String.mk s ++ "\""
  | Literal.number n => showNumber n
  | Literal.boolean b => if b then "true" else "false"
  | Literal.nil => "nil"

mutual
/-- Shape of an expression, written with the constructor names of the
specification; source locations are left out, tokens are shown by their lexeme. -/
def Expression.render : Expression → String
  | Expression.null => "null"
  | Expression.Assignment _ name value =>
    "Assign(" ++ String.mk name.lexeme ++ ", " ++ value.render ++ ")"
  | Expression.Binary _ op left right =>
    "Binary(" ++ String.mk op.lexeme ++ ", " ++ left.render ++ ", " ++ right.render ++ ")"
  | Expression.Unary _ op right =>
    "Unary(" ++ String.mk op.lexeme ++ ", " ++ right.render ++ ")"
  | Expression.Call _ callee arguments =>
    "Call(" ++ callee.render ++ ", [" ++ Expression.renderList arguments ++ "])"
  | Expression.Grouping _ expression => "Grouping(" ++ expression.render ++ ")"
  | Expression.Variable _ name => "Variable(" ++ String.mk name.lexeme ++ ")"
  | Expression.Literal _ value => "Literal(" ++ value.render ++ ")"
/-- Shapes of a list of expressions, separated by commas. -/
def Expression.renderList : List Expression → String
  | [] => ""
  | [e] => e.render
  | e :: es => e.render ++ ", " ++ Expression.renderList es
end

/-- Lexemes of a list of tokens, separated by commas. -/
def renderTokens : List Token → String
  | [] => ""
  | [t] => String.mk t.lexeme
  | t :: ts => String.mk t.lexeme ++ ", " ++ renderTokens ts

mutual
/-- Shape of a statement, written with the constructor names of the specification. -/
def Statement.render : Statement → String
  | Statement.null => "null"
  | Statement.VariableDeclaration _ name init =>
    "VarDecl(" ++ String.mk name.lexeme ++ ", " ++ init.render ++ ")"
  | Statement.FunctionDeclaration _ name params body =>
    "FunDecl(" ++ String.mk name.lexeme ++ ", [" ++ renderTokens params ++ "], "
      ++ body.render ++ ")"
  | Statement.Block _ statements => "Block([" ++ Statement.renderList statements ++ "])"
  | Statement.While _ condition body =>
    "While(" ++ condition.render ++ ", " ++ body.render ++ ")"
  | Statement.If _ condition thenBranch elseBranch =>
    "If(" ++ condition.render ++ ", " ++ thenBranch.render ++ ", " ++ elseBranch.render ++ ")"
  | Statement.ExpressionStatement _ expression => "ExprStmt(" ++ expression.render ++ ")"
  | Statement.Continue _ => "Continue"
  | Statement.Break _ => "Break"
  | Statement.Return _ expression => "Return(" ++ expression.render ++ ")"
  | Statement.Print _ expression => "Print(" ++ expression.render ++ ")"
/-- Shapes of a list of statements, separated by commas. -/
def Statement.renderList : List Statement → String
  | [] => ""
  | [s] => s.render
  | s :: ss => s.render ++ ", " ++ Statement.renderList ss
end

end scriptlang

namespace scriptlang

/-! ## Error reporter (`include/error_reporter.h`)

The collaborator is represented by its contract: `error` records one diagnostic
(message and location) and sets the flag `hadError_`; `reset` clears the flag. -/

/-- State of an `ErrorReporter`. -/
structure ErrorReporter where
  hadError : Bool
  errors : List (String × SourceRange)

/-- A new reporter. -/
def ErrorReporter.new : ErrorReporter :=
  { hadError := false, errors := [] }

/-- `ErrorReporter::error(location, fmt, args...)` with the formatted message. -/
def ErrorReporter.error (r : ErrorReporter) (location : SourceRange) (message : String) :
    ErrorReporter :=
  { hadError := true, errors := r.errors ++ [(message, location)] }

/-- `ErrorReporter::reset`. -/
def ErrorReporter.reset (r : ErrorReporter) : ErrorReporter :=
  { r with hadError := false }

/-- Messages of the recorded diagnostics, oldest first. -/
def ErrorReporter.messages (r : ErrorReporter) : List String :=
  r.errors.map Prod.fst

/-! ## Parser (`src/parser.cc`, `include/parser.h`) -/

/-- `enum Precedence`, by its integer value. -/
abbrev Precedence := Nat

/-- `Precedence::None`. -/
def Precedence.None : Precedence := 0
/-- `Precedence::Assignment`. -/
def Precedence.Assignment : Precedence := 1
/-- `Precedence::LogicOr`. -/
def Precedence.LogicOr : Precedence := 2
/-- `Precedence::LogicAnd`. -/
def Precedence.LogicAnd : Precedence := 3
/-- `Precedence::Equality`. -/
def Precedence.Equality : Precedence := 4
/-- `Precedence::Comparison`. -/
def Precedence.Comparison : Precedence := 5
/-- `Precedence::Term`. -/
def Precedence.Term : Precedence := 6
/-- `Precedence::Factor`. -/
def Precedence.Factor : Precedence := 7
/-- `Precedence::Unary`. -/
def Precedence.Unary : Precedence := 8
/-- `Precedence::Exponent`. -/
def Precedence.Exponent : Precedence := 9
/-- `Precedence::Call`. -/
def Precedence.Call : Precedence := 10
/-- `Precedence::Primary`. -/
def Precedence.Primary : Precedence := 11

/-- The member functions a `ParsePrefix` pointer can hold. -/
inductive ParsePrefix
  | unaryExpression
  | primaryExpression
  deriving DecidableEq, Repr

/-- The member functions a `ParseInfix` pointer can hold. -/
inductive ParseInfix
  | assignmentExpression
  | binaryExpression
  | callExpression
  deriving DecidableEq, Repr

/-- `struct ParseRule`; a null function pointer is `none`. -/
structure ParseRule where
  prec : Precedence
  infixRule : Option ParseInfix
  prefixRule : Option ParsePrefix
  deriving DecidableEq, Repr

/-- `Parser::getParseRules`: the table `rules_` registered by the constructor, and
`{None, nullptr, nullptr}` for a token type without a rule. -/
def getParseRules : TokenType → ParseRule
  | TokenType.Assign => ⟨Precedence.Assignment, some ParseInfix.assignmentExpression, none⟩
  | TokenType.Slash => ⟨Precedence.Factor, some ParseInfix.binaryExpression, none⟩
  | TokenType.Star => ⟨Precedence.Factor, some ParseInfix.binaryExpression, none⟩
  | TokenType.Exponent => ⟨Precedence.Exponent, some ParseInfix.binaryExpression, none⟩
  | TokenType.Less => ⟨Precedence.Comparison, some ParseInfix.binaryExpression, none⟩
  | TokenType.Greater => ⟨Precedence.Comparison, some ParseInfix.binaryExpression, none⟩
  | TokenType.GreaterEqual => ⟨Precedence.Comparison, some ParseInfix.binaryExpression, none⟩
  | TokenType.LessEqual => ⟨Precedence.Comparison, some ParseInfix.binaryExpression, none⟩
  | TokenType.NotEqual => ⟨Precedence.Equality, some ParseInfix.binaryExpression, none⟩
  | TokenType.Equal => ⟨Precedence.Equality, some ParseInfix.binaryExpression, none⟩
  | TokenType.AndKeyword => ⟨Precedence.LogicAnd, some ParseInfix.binaryExpression, none⟩
  | TokenType.OrKeyword => ⟨Precedence.LogicOr, some ParseInfix.binaryExpression, none⟩
  | TokenType.Plus =>
    ⟨Precedence.Term, some ParseInfix.binaryExpression, some ParsePrefix.unaryExpression⟩
  | TokenType.Minus =>
    ⟨Precedence.Term, some ParseInfix.binaryExpression, some ParsePrefix.unaryExpression⟩
  | TokenType.LeftParen =>
    ⟨Precedence.Call, some ParseInfix.callExpression, some ParsePrefix.primaryExpression⟩
  | TokenType.NotKeyword => ⟨Precedence.Unary, none, some ParsePrefix.unaryExpression⟩
  | TokenType.Identifier => ⟨Precedence.Primary, none, some ParsePrefix.primaryExpression⟩
  | TokenType.NumberLiteral => ⟨Precedence.Primary, none, some ParsePrefix.primaryExpression⟩
  | TokenType.StringLiteral => ⟨Precedence.Primary, none, some ParsePrefix.primaryExpression⟩
  | TokenType.TrueKeyword => ⟨Precedence.Primary, none, some ParsePrefix.primaryExpression⟩
  | TokenType.FalseKeyword => ⟨Precedence.Primary, none, some ParsePrefix.primaryExpression⟩
  | TokenType.NilKeyword => ⟨Precedence.Primary, none, some ParsePrefix.primaryExpression⟩
  | _ => ⟨Precedence.None, none, none⟩

/-- State of `class Parser`; `reporter` is the state of the reporter it points to. -/
structure Parser where
  lex : Lexer
  curr : Token
  prev : Token
  start : Token
  panicMode : Bool
  reporter : ErrorReporter

/-- `Parser::isAtEnd`. -/
def Parser.isAtEnd (p : Parser) : Bool :=
  !p.lex.hasNext

/-- `Parser::advance`. -/
def Parser.advance (p : Parser) : Parser :=
  if p.isAtEnd then p
  else { p with prev := p.curr, curr := p.lex.next.1, lex := p.lex.next.2 }

/-- Constructor `Parser::Parser(source, reporter)`: it reads the first token. -/
def Parser.new (source : List Char) (reporter : ErrorReporter) : Parser :=
  Parser.advance
    { lex := Lexer.new source, curr := Token.default, prev := Token.default,
      start := Token.default, panicMode := false, reporter := reporter }

/-- `Parser::previous`. -/
def Parser.previous (p : Parser) : Token :=
  p.prev

/-- `Parser::peek`. -/
def Parser.peek (p : Parser) : Token :=
  p.curr

/-- `Parser::check`. -/
def Parser.check (p : Parser) (type : TokenType) : Bool :=
  decide (p.peek.type = type)

/-- `Parser::match`. -/
def Parser.match_ (p : Parser) (type : TokenType) : Bool × Parser :=
  if p.check type then (true, p.advance) else (false, p)

/-- `Parser::currentSourceRange`. -/
def Parser.currentSourceRange (p : Parser) : SourceRange :=
  ⟨p.start.position.start, p.curr.position.end_⟩

/-- `Parser::error`: report and enter panic mode. -/
def Parser.error (p : Parser) (message : String) : Parser :=
  { p with reporter := p.reporter.error p.currentSourceRange message, panicMode := true }

/-- `Parser::consume`. -/
def Parser.consume (p : Parser) (type : TokenType) (errorMessage : String) :
    Option Token × Parser :=
  if (p.match_ type).1 then (some (p.match_ type).2.previous, (p.match_ type).2)
  else (none, p.error errorMessage)

/-- The token types at which `Parser::synchronize` stops. -/
def isSynchronizePoint (type : TokenType) : Bool :=
  decide (type = TokenType.DefunKeyword ∨ type = TokenType.LetKeyword ∨
    type = TokenType.IfKeyword ∨ type = TokenType.WhileKeyword ∨
    type = TokenType.BreakKeyword ∨ type = TokenType.ContinueKeyword ∨
    type = TokenType.ReturnKeyword)

/-- The `while` loop of `Parser::synchronize` with the statement after it: the
`return` inside the `switch` leaves the function, the assignment
`panicMode_ = false` is reached only when the loop ends at the end of input. -/
def Parser.synchronizeLoop : Nat → Parser → Parser
  | 0, p => p
  | fuel + 1, p =>
    if p.isAtEnd then { p with panicMode := false }
    else if isSynchronizePoint p.peek.type then p
    else Parser.synchronizeLoop fuel p.advance

/-- `Parser::synchronize`. Every iteration reads a token, so the number of
characters left plus two bounds the iterations. -/
def Parser.synchronize (p : Parser) : Parser :=
  Parser.synchronizeLoop (p.lex.source.length - p.lex.curr + 2) p

/-- An upper bound on the number of tokens that `Parser::synchronize` can still
read. -/
def Parser.remaining (p : Parser) : Nat :=
  if p.isAtEnd then 0 else p.lex.source.length - p.lex.curr + 1

/-- The parameter loop of `Parser::functionDeclaration`
(`do { ... } while(match(Comma))`): `none` when a parameter name is missing. -/
def Parser.parameters : Nat → Parser → List Token → Option (Option (List Token) × Parser)
  | 0, _, _ => none
  | fuel + 1, p, parameters =>
    match p.consume TokenType.Identifier "Expect parameter name." with
    | (none, p1) => some (none, p1)
    | (some param, p1) =>
      if (p1.match_ TokenType.Comma).1 then
        Parser.parameters fuel (p1.match_ TokenType.Comma).2 (parameters ++ [param])
      else some (some (parameters ++ [param]), p1)

/-- `Parser::continueStatement`. -/
def Parser.continueStatement (p : Parser) : Statement × Parser :=
  let p1 := (p.consume TokenType.Semicolon "Expect ';' after continue statement.").2
  (Statement.Continue p1.currentSourceRange, p1)

/-- `Parser::breakStatement`. -/
def Parser.breakStatement (p : Parser) : Statement × Parser :=
  let p1 := (p.consume TokenType.Semicolon "Expect ';' after break statement.").2
  (Statement.Break p1.currentSourceRange, p1)

/-- The literal cases of `Parser::primaryExpression` (every case but the grouping):
`none` for the `default` case. -/
def Parser.literalExpression (p : Parser) (token : Token) : Option Expression :=
  match token.type with
  | TokenType.StringLiteral =>
    some (Expression.Literal p.currentSourceRange
      (Literal.string ((token.lexeme.drop 1).take (token.lexeme.length - 2))))
  | TokenType.NumberLiteral =>
    some (Expression.Literal p.currentSourceRange
      (Literal.number (strtod (p.lex.source.drop token.position.start.offset))))
  | TokenType.TrueKeyword => some (Expression.Literal p.currentSourceRange (Literal.boolean true))
  | TokenType.FalseKeyword =>
    some (Expression.Literal p.currentSourceRange (Literal.boolean false))
  | TokenType.Identifier => some (Expression.Variable p.currentSourceRange token)
  | TokenType.NilKeyword => some (Expression.Literal p.currentSourceRange Literal.nil)
  | _ => none

mutual

/-- `Parser::declaration`. -/
def Parser.declaration : Nat → Parser → Option (Statement × Parser)
  | 0, _ => none
  | fuel + 1, p =>
    if (p.match_ TokenType.LetKeyword).1 then
      Parser.variableDeclaration fuel (p.match_ TokenType.LetKeyword).2
    else if (p.match_ TokenType.DefunKeyword).1 then
      Parser.functionDeclaration fuel (p.match_ TokenType.DefunKeyword).2
    else Parser.statement fuel p

/-- `Parser::variableDeclaration`. -/
def Parser.variableDeclaration : Nat → Parser → Option (Statement × Parser)
  | 0, _ => none
  | fuel + 1, p =>
    match p.consume TokenType.Identifier "Expect variable name after 'let' keyword." with
    | (none, p1) => some (Statement.null, p1)
    | (some name, p1) =>
      match Parser.expression fuel
          (p1.consume TokenType.Assign "Expect '=' after variable name.").2 with
      | none => none
      | some (init, p3) =>
        some (Statement.VariableDeclaration
            (p3.consume TokenType.Semicolon "Expect ';' at end of let statement.").2.currentSourceRange
            name init,
          (p3.consume TokenType.Semicolon "Expect ';' at end of let statement.").2)

/-- `Parser::functionDeclaration`. -/
def Parser.functionDeclaration : Nat → Parser → Option (Statement × Parser)
  | 0, _ => none
  | fuel + 1, p =>
    match p.consume TokenType.Identifier "Expect function name after 'defun' keyword." with
    | (none, p1) => some (Statement.null, p1)
    | (some name, p1) =>
      let p2 := (p1.consume TokenType.LeftParen "Expect '(' after function name.").2
      let params : Option (Option (List Token) × Parser) :=
        if (p2.match_ TokenType.RightParen).1 then
          some (some [], (p2.match_ TokenType.RightParen).2)
        else
          match Parser.parameters fuel p2 [] with
          | none => none
          | some (none, p3) => some (none, p3)
          | some (some ps, p3) =>
            some (some ps, (p3.consume TokenType.RightParen "Expect ')' after parameters.").2)
      match params with
      | none => none
      | some (none, p4) => some (Statement.null, p4)
      | some (some ps, p4) =>
        match Parser.block fuel
            (p4.consume TokenType.LeftBrace "Expect '\x7b' before function body.").2 with
        | none => none
        | some (body, p6) =>
          some (Statement.FunctionDeclaration p6.currentSourceRange name ps body, p6)

/-- `Parser::statement`. -/
def Parser.statement : Nat → Parser → Option (Statement × Parser)
  | 0, _ => none
  | fuel + 1, p =>
    if (p.match_ TokenType.IfKeyword).1 then
      Parser.ifStatement fuel (p.match_ TokenType.IfKeyword).2
    else if (p.match_ TokenType.WhileKeyword).1 then
      Parser.whileStatement fuel (p.match_ TokenType.WhileKeyword).2
    else if (p.match_ TokenType.PrintKeyword).1 then
      Parser.printStatement fuel (p.match_ TokenType.PrintKeyword).2
    else if (p.match_ TokenType.ReturnKeyword).1 then
      Parser.returnStatement fuel (p.match_ TokenType.ReturnKeyword).2
    else if (p.match_ TokenType.ContinueKeyword).1 then
      some (p.match_ TokenType.ContinueKeyword).2.continueStatement
    else if (p.match_ TokenType.BreakKeyword).1 then
      some (p.match_ TokenType.BreakKeyword).2.breakStatement
    else if (p.match_ TokenType.LeftBrace).1 then
      Parser.block fuel (p.match_ TokenType.LeftBrace).2
    else Parser.expressionStatement fuel p

/-- `Parser::block`: the loop is `Parser.blockLoop`. -/
def Parser.block : Nat → Parser → Option (Statement × Parser)
  | 0, _ => none
  | fuel + 1, p =>
    match Parser.blockLoop fuel p [] with
    | none => none
    | some (statements, p1) =>
      some (Statement.Block
          (p1.consume TokenType.RightBrace "Expect '\x7d' after block.").2.currentSourceRange
          statements,
        (p1.consume TokenType.RightBrace "Expect '\x7d' after block.").2)

/-- The loop `while(!check(RightBrace) && !isAtEnd())` of `Parser::block`. -/
def Parser.blockLoop : Nat → Parser → List Statement → Option (List Statement × Parser)
  | 0, _, _ => none
  | fuel + 1, p, statements =>
    if !p.check TokenType.RightBrace && !p.isAtEnd then
      match Parser.declaration fuel p with
      | none => none
      | some (stmt, p1) => Parser.blockLoop fuel p1 (statements ++ [stmt])
    else some (statements, p)

/-- `Parser::whileStatement`. -/
def Parser.whileStatement : Nat → Parser → Option (Statement × Parser)
  | 0, _ => none
  | fuel + 1, p =>
    match Parser.expression fuel p with
    | none => none
    | some (condition, p1) =>
      match Parser.block fuel
          (p1.consume TokenType.LeftBrace "Expect '\x7b' before then branch.").2 with
      | none => none
      | some (body, p3) => some (Statement.While p3.currentSourceRange condition body, p3)

/-- `Parser::ifStatement`. -/
def Parser.ifStatement : Nat → Parser → Option (Statement × Parser)
  | 0, _ => none
  | fuel + 1, p =>
    match Parser.expression fuel p with
    | none => none
    | some (condition, p1) =>
      match Parser.block fuel
          (p1.consume TokenType.LeftBrace "Expect '\x7b' before then branch.").2 with
      | none => none
      | some (thenBranch, p3) =>
        if (p3.match_ TokenType.ElseKeyword).1 then
          match Parser.block fuel
              ((p3.match_ TokenType.ElseKeyword).2.consume TokenType.LeftBrace
                "Expect '\x7b' before else branch.").2 with
          | none => none
          | some (elseBranch, p5) =>
            some (Statement.If p5.currentSourceRange condition thenBranch elseBranch, p5)
        else some (Statement.If p3.currentSourceRange condition thenBranch Statement.null, p3)

/-- `Parser::expressionStatement`. -/
def Parser.expressionStatement : Nat → Parser → Option (Statement × Parser)
  | 0, _ => none
  | fuel + 1, p =>
    match Parser.expression fuel p with
    | none => none
    | some (expr, p1) =>
      some (Statement.ExpressionStatement
          (p1.consume TokenType.Semicolon "Expect ';' after expression.").2.currentSourceRange expr,
        (p1.consume TokenType.Semicolon "Expect ';' after expression.").2)

/-- `Parser::returnStatement`. -/
def Parser.returnStatement : Nat → Parser → Option (Statement × Parser)
  | 0, _ => none
  | fuel + 1, p =>
    if (p.match_ TokenType.Semicolon).1 then
      some (Statement.Return
          ((p.match_ TokenType.Semicolon).2.consume TokenType.Semicolon
            "Expect ';' at end of return statement.").2.currentSourceRange Expression.null,
        ((p.match_ TokenType.Semicolon).2.consume TokenType.Semicolon
          "Expect ';' at end of return statement.").2)
    else
      match Parser.expression fuel p with
      | none => none
      | some (value, p1) =>
        some (Statement.Return
            (p1.consume TokenType.Semicolon
              "Expect ';' at end of return statement.").2.currentSourceRange value,
          (p1.consume TokenType.Semicolon "Expect ';' at end of return statement.").2)

/-- `Parser::printStatement`. -/
def Parser.printStatement : Nat → Parser → Option (Statement × Parser)
  | 0, _ => none
  | fuel + 1, p =>
    match Parser.expression fuel p with
    | none => none
    | some (expr, p1) =>
      some (Statement.Print
          (p1.consume TokenType.Semicolon
            "Expect ';' at end of print statement.").2.currentSourceRange expr,
        (p1.consume TokenType.Semicolon "Expect ';' at end of print statement.").2)

/-- `Parser::expression`. -/
def Parser.expression : Nat → Parser → Option (Expression × Parser)
  | 0, _ => none
  | fuel + 1, p => Parser.parsePrecedence fuel Precedence.None p

/-- `Parser::parsePrecedence`: the part before the `while` loop. -/
def Parser.parsePrecedence : Nat → Precedence → Parser → Option (Expression × Parser)
  | 0, _, _ => none
  | fuel + 1, prec, p =>
    match (getParseRules p.advance.previous.type).prefixRule with
    | none => some (Expression.null, p.advance.error "Expect an expression.")
    | some ParsePrefix.unaryExpression =>
      match Parser.unaryExpression fuel p.advance with
      | none => none
      | some (left, p1) => Parser.infixLoop fuel prec left p1
    | some ParsePrefix.primaryExpression =>
      match Parser.primaryExpression fuel p.advance with
      | none => none
      | some (left, p1) => Parser.infixLoop fuel prec left p1

/-- The `while` loop of `Parser::parsePrecedence` and its `return left`. -/
def Parser.infixLoop : Nat → Precedence → Expression → Parser → Option (Expression × Parser)
  | 0, _, _, _ => none
  | fuel + 1, prec, left, p =>
    if prec < (getParseRules p.peek.type).prec then
      match (getParseRules p.advance.previous.type).infixRule with
      | none => some (left, p.advance)
      | some ParseInfix.assignmentExpression =>
        match Parser.assignmentExpression fuel left p.advance with
        | none => none
        | some (left1, p1) => Parser.infixLoop fuel prec left1 p1
      | some ParseInfix.binaryExpression =>
        match Parser.binaryExpression fuel left p.advance with
        | none => none
        | some (left1, p1) => Parser.infixLoop fuel prec left1 p1
      | some ParseInfix.callExpression =>
        match Parser.callExpression fuel left p.advance with
        | none => none
        | some (left1, p1) => Parser.infixLoop fuel prec left1 p1
    else some (left, p)

/-- `Parser::assignmentExpression`. -/
def Parser.assignmentExpression : Nat → Expression → Parser → Option (Expression × Parser)
  | 0, _, _ => none
  | fuel + 1, left, p =>
    match left with
    | Expression.Variable _ name =>
      match Parser.parsePrecedence fuel (Precedence.Assignment - 1) p with
      | none => none
      | some (right, p1) => some (Expression.Assignment p1.currentSourceRange name right, p1)
    | _ => some (Expression.null, p.error "Expect an lvalue.")

/-- `Parser::binaryExpression`. -/
def Parser.binaryExpression : Nat → Expression → Parser → Option (Expression × Parser)
  | 0, _, _ => none
  | fuel + 1, left, p =>
    match Parser.parsePrecedence fuel (getParseRules p.previous.type).prec p with
    | none => none
    | some (right, p1) =>
      some (Expression.Binary p1.currentSourceRange p.previous left right, p1)

/-- `Parser::unaryExpression`. -/
def Parser.unaryExpression : Nat → Parser → Option (Expression × Parser)
  | 0, _ => none
  | fuel + 1, p =>
    match Parser.parsePrecedence fuel Precedence.Unary p with
    | none => none
    | some (right, p1) => some (Expression.Unary p1.currentSourceRange p.previous right, p1)

/-- `Parser::callExpression`: the argument loop is `Parser.arguments`. -/
def Parser.callExpression : Nat → Expression → Parser → Option (Expression × Parser)
  | 0, _, _ => none
  | fuel + 1, left, p =>
    if (p.match_ TokenType.RightParen).1 then
      some (Expression.Call (p.match_ TokenType.RightParen).2.currentSourceRange left [],
        (p.match_ TokenType.RightParen).2)
    else
      match Parser.arguments fuel p [] with
      | none => none
      | some (none, p1) => some (Expression.null, p1)
      | some (some args, p1) =>
        some (Expression.Call
            (p1.consume TokenType.RightParen "Expect ')' after arguments.").2.currentSourceRange
            left args,
          (p1.consume TokenType.RightParen "Expect ')' after arguments.").2)

/-- The argument loop of `Parser::callExpression` (`do { ... } while(match(Comma))`):
`none` when an argument is null. -/
def Parser.arguments : Nat → Parser → List Expression →
    Option (Option (List Expression) × Parser)
  | 0, _, _ => none
  | fuel + 1, p, args =>
    match Parser.expression fuel p with
    | none => none
    | some (expr, p1) =>
      if expr.isNull then some (none, p1.error "Invalid argument.")
      else if (p1.match_ TokenType.Comma).1 then
        Parser.arguments fuel (p1.match_ TokenType.Comma).2 (args ++ [expr])
      else some (some (args ++ [expr]), p1)

/-- `Parser::primaryExpression`. -/
def Parser.primaryExpression : Nat → Parser → Option (Expression × Parser)
  | 0, _ => none
  | fuel + 1, p =>
    if p.previous.type = TokenType.LeftParen then
      match Parser.expression fuel p with
      | none => none
      | some (expr, p1) =>
        some (Expression.Grouping
            (p1.consume TokenType.RightParen
              "Expect ')' after a grouping expression.").2.currentSourceRange expr,
          (p1.consume TokenType.RightParen "Expect ')' after a grouping expression.").2)
    else
      match p.literalExpression p.previous with
      | some expr => some (expr, p)
      | none => some (Expression.null, p.error "Expect a literal or grouping expression.")

end

/-- The loop of `Parser::parseSoruce`. -/
def Parser.parseSoruceLoop : Nat → Parser → List Statement → Option (List Statement × Parser)
  | 0, _, _ => none
  | fuel + 1, p, statements =>
    if p.isAtEnd then some (statements, p)
    else
      match Parser.declaration fuel { p with start := p.peek } with
      | none => none
      | some (stmt, p1) =>
        Parser.parseSoruceLoop fuel (if p1.panicMode then p1.synchronize else p1)
          (statements ++ [stmt])

/-- `Parser::parseSoruce`: the statements and the parser after the call; `none`
when `fuel` calls and iterations were not enough. -/
def Parser.parseSoruce (fuel : Nat) (p : Parser) : Option (List Statement × Parser) :=
  Parser.parseSoruceLoop fuel p []

/-- Outcome of parsing a source text with a new reporter: the shapes of the
statements and the messages reported. -/
def parseShapes (fuel : Nat) (source : String) : Option (List String × List String) :=
  match Parser.parseSoruce fuel (Parser.new source.toList ErrorReporter.new) with
  | none => none
  | some (statements, p) => some (statements.map Statement.render, p.reporter.messages)

end scriptlang

namespace scriptlang

/-! ## Bytes, opcodes, chunks and values
(`include/types.h`, `include/opcode.h`, `include/chunk.h`, `include/objects.h`,
`include/value.h`, `src/value.cc`) -/

/-- `types::Byte` is `std::uint8_t`; a byte is a `Nat` below 256. -/
abbrev Byte := Nat

/-- `BYTE_MAX`. -/
def BYTE_MAX : Nat := 255

/-- `SHORT_MAX`, also `UINT16_MAX`. -/
def SHORT_MAX : Nat := 65535

/-- `enum OpCode : Byte`. -/
inductive OpCode
  | PushConstant
  | Pop
  | Add
  | Sub
  | Div
  | Mult
  | Pow
  | Less
  | Greater
  | Equal
  | Not
  | Negate
  | Print
  | JumpIfFalse
  | Jump
  | Loop
  | GetLocal
  | SetLocal
  | DefineGlobal
  | GetGlobal
  | SetGlobal
  | Call
  | Return
  | True
  | False
  | Nil
  deriving DecidableEq, Repr

/-- Byte value of an opcode: its position in the enumeration. -/
def OpCode.toByte : OpCode → Byte
  | OpCode.PushConstant => 0
  | OpCode.Pop => 1
  | OpCode.Add => 2
  | OpCode.Sub => 3
  | OpCode.Div => 4
  | OpCode.Mult => 5
  | OpCode.Pow => 6
  | OpCode.Less => 7
  | OpCode.Greater => 8
  | OpCode.Equal => 9
  | OpCode.Not => 10
  | OpCode.Negate => 11
  | OpCode.Print => 12
  | OpCode.JumpIfFalse => 13
  | OpCode.Jump => 14
  | OpCode.Loop => 15
  | OpCode.GetLocal => 16
  | OpCode.SetLocal => 17
  | OpCode.DefineGlobal => 18
  | OpCode.GetGlobal => 19
  | OpCode.SetGlobal => 20
  | OpCode.Call => 21
  | OpCode.Return => 22
  | OpCode.True => 23
  | OpCode.False => 24
  | OpCode.Nil => 25

/-- The opcode with a given byte value, if any. -/
def OpCode.ofByte : Byte → Option OpCode
  | 0 => some OpCode.PushConstant
  | 1 => some OpCode.Pop
  | 2 => some OpCode.Add
  | 3 => some OpCode.Sub
  | 4 => some OpCode.Div
  | 5 => some OpCode.Mult
  | 6 => some OpCode.Pow
  | 7 => some OpCode.Less
  | 8 => some OpCode.Greater
  | 9 => some OpCode.Equal
  | 10 => some OpCode.Not
  | 11 => some OpCode.Negate
  | 12 => some OpCode.Print
  | 13 => some OpCode.JumpIfFalse
  | 14 => some OpCode.Jump
  | 15 => some OpCode.Loop
  | 16 => some OpCode.GetLocal
  | 17 => some OpCode.SetLocal
  | 18 => some OpCode.DefineGlobal
  | 19 => some OpCode.GetGlobal
  | 20 => some OpCode.SetGlobal
  | 21 => some OpCode.Call
  | 22 => some OpCode.Return
  | 23 => some OpCode.True
  | 24 => some OpCode.False
  | 25 => some OpCode.Nil
  | _ => none

/-- `struct LineInfo`. -/
structure LineInfo where
  line : Nat
  offset : Nat
  deriving DecidableEq, Repr

mutual
/-- `class Value`: the alternatives of its `std::variant`. -/
inductive Value
  | nil
  | boolean (value : Bool)
  | number (value : Number)
  | string (value : List Char)
  | function (value : ObjectFunction)
/-- `struct ObjectFunction`. -/
inductive ObjectFunction
  | mk (name : List Char) (arity : Int) (chunk : Chunk)
/-- `class Chunk`. -/
inductive Chunk
  | mk (constants : List Value) (code : List Byte) (lines : List LineInfo)
end

/-- Member `name`. -/
def ObjectFunction.name : ObjectFunction → List Char
  | ObjectFunction.mk name _ _ => name

/-- Member `arity`. -/
def ObjectFunction.arity : ObjectFunction → Int
  | ObjectFunction.mk _ arity _ => arity

/-- Member `chunk`. -/
def ObjectFunction.chunk : ObjectFunction → Chunk
  | ObjectFunction.mk _ _ chunk => chunk

/-- Member `constants_`. -/
def Chunk.constants : Chunk → List Value
  | Chunk.mk constants _ _ => constants

/-- Member `code_`. -/
def Chunk.code : Chunk → List Byte
  | Chunk.mk _ code _ => code

/-- Member `lines_`. -/
def Chunk.lines : Chunk → List LineInfo
  | Chunk.mk _ _ lines => lines

/-- A default-constructed chunk. -/
def Chunk.empty : Chunk :=
  Chunk.mk [] [] []

/-- `Chunk::write(byte, line)`. The offset recorded is `code_.size() - 1` computed
in `std::uint32_t` after the byte has been appended: the old size modulo `2^32`. -/
def Chunk.write (c : Chunk) (byte : Byte) (line : Nat) : Chunk :=
  match c.lines.getLast? with
  | some last =>
    if last.line = line then Chunk.mk c.constants (c.code ++ [byte]) c.lines
    else
      Chunk.mk c.constants (c.code ++ [byte])
        (c.lines ++ [⟨line, c.code.length % 4294967296⟩])
  | none =>
    Chunk.mk c.constants (c.code ++ [byte]) (c.lines ++ [⟨line, c.code.length % 4294967296⟩])

/-- `Chunk::size`. -/
def Chunk.size (c : Chunk) : Nat :=
  c.code.length

/-- Read through `Chunk::operator[]`; `none` outside the code. -/
def Chunk.get (c : Chunk) (index : Nat) : Option Byte :=
  c.code.get? index

/-- Write through `Chunk::operator[]`; `none` outside the code. -/
def Chunk.set (c : Chunk) (index : Nat) (byte : Byte) : Option Chunk :=
  if index < c.code.length then some (Chunk.mk c.constants (c.code.set index byte) c.lines)
  else none

/-- `Chunk::addConstant`: the chunk with the constant appended and the returned
index, which is `constants_.size() - 1` converted to `std::uint8_t`. -/
def Chunk.addConstant (c : Chunk) (v : Value) : Byte × Chunk :=
  (c.constants.length % 256, Chunk.mk (c.constants ++ [v]) c.code c.lines)

/-- `Chunk::getConstant`; `none` outside the pool. -/
def Chunk.getConstant (c : Chunk) (index : Nat) : Option Value :=
  c.constants.get? index

/-- The loop of `Chunk::getLine` on its `std::uint32_t` variables `start`, `end`
and `mid`: `none` when the fuel runs out or when the line table is read outside its
bounds. -/
def Chunk.getLineLoop (lines : List LineInfo) (instructionOffset : Nat) :
    Nat → Nat → Nat → Option Nat
  | 0, _, _ => none
  | fuel + 1, start, end_ =>
    let mid := (start + end_) % 4294967296 / 2
    match lines.get? mid with
    | none => none
    | some midInfo =>
      if instructionOffset < midInfo.offset then
        Chunk.getLineLoop lines instructionOffset fuel start ((mid + 4294967295) % 4294967296)
      else if mid + 1 = lines.length then some midInfo.line
      else
        match lines.get? (mid + 1) with
        | none => none
        | some nextInfo =>
          if instructionOffset < nextInfo.offset then some midInfo.line
          else Chunk.getLineLoop lines instructionOffset fuel ((mid + 1) % 4294967296) end_

/-- `Chunk::getLine`, with as many iterations as the table has entries, plus one. -/
def Chunk.getLine (c : Chunk) (instructionOffset : Nat) : Option Nat :=
  Chunk.getLineLoop c.lines instructionOffset (c.lines.length + 1) 0
    ((c.lines.length + 4294967295) % 4294967296)

/-- `Value::isNumber`. -/
def Value.isNumber : Value → Bool
  | Value.number _ => true
  | _ => false

/-- `Value::isString`. -/
def Value.isString : Value → Bool
  | Value.string _ => true
  | _ => false

/-- `Value::isFunction`. -/
def Value.isFunction : Value → Bool
  | Value.function _ => true
  | _ => false

/-- `Value::isCallable`. -/
def Value.isCallable (v : Value) : Bool :=
  v.isFunction

/-- `Value::isFalsey` (`FalsinessVisitor`). -/
def Value.isFalsey : Value → Bool
  | Value.boolean b => !b
  | Value.nil => true
  | Value.number n => n.eq 0
  | _ => false

/-- `Value::operator==`: equality of the variants, which compares two `double`s with
their `==`; `ObjectFunction::operator==` returns `false`. -/
def Value.eq : Value → Value → Bool
  | Value.nil, Value.nil => true
  | Value.boolean a, Value.boolean b => decide (a = b)
  | Value.number a, Value.number b => a.eq b
  | Value.string a, Value.string b => decide (a = b)
  | _, _ => false

/-- `operator<<(std::ostream&, const Value&)` (`OutputVisitor`). -/
def Value.show : Value → String
  | Value.nil => "nil"
  | Value.boolean b => if b then "true" else "false"
  | Value.number n => showNumber n
  | Value.string s => String.mk s
  | Value.function f =>
    "<function '" ++ (if f.name = [] then "<script>" else String.mk f.name)
      ++ "' (param count: " ++ toString f.arity ++ ") >"

end scriptlang

namespace scriptlang

/-! ## Compiler (`src/compiler.cc`, `include/compiler.h`)

The compiler's member functions return `Option Compiler`: `none` stands for
undefined behaviour of the C++ code (a null `loop_`, `ExpressionPtr` or
`StatementPtr` is dereferenced, or the array `locals_` is accessed outside its
bounds). -/

/-- `BREAK_PLACEHOLDER`. -/
def BREAK_PLACEHOLDER : Byte := 187

/-- `Compiler::MAX_LOCALS`, the declared size of `locals_`. -/
def MAX_LOCALS : Nat := BYTE_MAX

/-- `enum class FunctionType`. -/
inductive FunctionType
  | Function
  | Script
  deriving DecidableEq, Repr

/-- `struct Local`. -/
structure Local where
  name : Token
  depth : Int
  deriving DecidableEq, Repr

/-- `struct Loop`; the pointer `enclosing` is the rest of the list `Compiler.loop`. -/
structure Loop where
  scopeDepth : Int
  start : Nat
  end_ : Nat
  deriving DecidableEq, Repr

/-- Values of the members that the source reads without having initialised them:
`locals_[0].depth` of a `Compiler` (slot 0 is reserved by `localsCount_ = 1` but
never written) and `compilingFunction_.arity` of the script compiler
(`ObjectFunction() = default` leaves the `int` indeterminate). -/
structure Uninitialized where
  depth : Int
  arity : Int
  deriving DecidableEq, Repr

/-- Zero-filled memory. -/
def Uninitialized.zero : Uninitialized :=
  ⟨0, 0⟩

/-- State of `class Compiler`. `locals` holds `locals_[0 .. localsCount_)`, so
`localsCount_` is its length; `loop` is the chain that starts at `loop_`, innermost
first, and is empty when `loop_` is null. -/
structure Compiler where
  type : FunctionType
  reporter : ErrorReporter
  currentNodeLocation : SourceRange
  compilingFunction : ObjectFunction
  loop : List Loop
  scopeDepth : Nat
  locals : List Local

/-- Constructor `Compiler::Compiler(type, reporter)`. -/
def Compiler.new (u : Uninitialized) (type : FunctionType) (reporter : ErrorReporter) :
    Compiler :=
  { type := type, reporter := reporter, currentNodeLocation := SourceRange.zero,
    compilingFunction := ObjectFunction.mk [] u.arity Chunk.empty,
    loop := [], scopeDepth := 0, locals := [⟨Token.default, u.depth⟩] }

/-- `localsCount_`. -/
def Compiler.localsCount (c : Compiler) : Nat :=
  c.locals.length

/-- `Compiler::currentChunk`. -/
def Compiler.currentChunk (c : Compiler) : Chunk :=
  c.compilingFunction.chunk

/-- Assignment through the reference `currentChunk()`. -/
def Compiler.setChunk (c : Compiler) (chunk : Chunk) : Compiler :=
  { c with compilingFunction :=
      ObjectFunction.mk c.compilingFunction.name c.compilingFunction.arity chunk }

/-- `Compiler::emit(byte)`. -/
def Compiler.emit (c : Compiler) (byte : Byte) : Compiler :=
  c.setChunk (c.currentChunk.write byte c.currentNodeLocation.start.line)

/-- `Compiler::emit(opcode)`. -/
def Compiler.emitOp (c : Compiler) (op : OpCode) : Compiler :=
  c.emit op.toByte

/-- `Compiler::emitError` with the formatted message. -/
def Compiler.emitError (c : Compiler) (message : String) : Compiler :=
  { c with reporter := c.reporter.error c.currentNodeLocation message }

/-- `Compiler::emitJump`: the compiler after the three bytes and the returned
offset, a `Short`. -/
def Compiler.emitJump (c : Compiler) (instruction : OpCode) : Nat × Compiler :=
  (((((c.emitOp instruction).emit 255).emit 255).currentChunk.size - 2) % 65536,
    ((c.emitOp instruction).emit 255).emit 255)

/-- `Compiler::patchJump`. -/
def Compiler.patchJump (c : Compiler) (offset : Nat) : Option Compiler :=
  if c.currentChunk.size - offset - 2 > SHORT_MAX then some (c.emitError "Too long jump.")
  else
    match c.currentChunk.set offset ((c.currentChunk.size - offset - 2) / 256 % 256) with
    | none => none
    | some chunk1 =>
      match chunk1.set (offset + 1) ((c.currentChunk.size - offset - 2) % 256) with
      | none => none
      | some chunk2 => some (c.setChunk chunk2)

/-- `Compiler::beginScope`; `scopeDepth_` is a `Short`. -/
def Compiler.beginScope (c : Compiler) : Compiler :=
  { c with scopeDepth := (c.scopeDepth + 1) % 65536 }

/-- The loop of `Compiler::endScope`, on the locals from the top down. -/
def Compiler.endScopeLoop : Nat → Compiler → Compiler
  | 0, c => c
  | fuel + 1, c =>
    match c.locals.getLast? with
    | none => c
    | some top =>
      if top.depth > (c.scopeDepth : Int) then
        Compiler.endScopeLoop fuel { c.emitOp OpCode.Pop with locals := c.locals.dropLast }
      else c

/-- `Compiler::endScope`. -/
def Compiler.endScope (c : Compiler) : Compiler :=
  Compiler.endScopeLoop c.locals.length { c with scopeDepth := (c.scopeDepth + 65535) % 65536 }

/-- `Compiler::addLocal`; writing `locals_[MAX_LOCALS]` or beyond is outside the
array. -/
def Compiler.addLocal (c : Compiler) (name : Token) : Option Compiler :=
  if c.locals.length < MAX_LOCALS then some { c with locals := c.locals ++ [⟨name, -1⟩] }
  else none

/-- The `for` loop of `Compiler::declareVariable` over the locals from the top
down: whether it reports "Variable already declared.". -/
def Compiler.alreadyDeclared (scopeDepth : Nat) (name : Token) : List Local → Bool
  | [] => false
  | local_ :: below =>
    if local_.depth ≠ -1 ∧ local_.depth < (scopeDepth : Int) then false
    else if name.lexeme = local_.name.lexeme then true
    else Compiler.alreadyDeclared scopeDepth name below

/-- `Compiler::declareVariable`. -/
def Compiler.declareVariable (c : Compiler) (name : Token) : Option Compiler :=
  if c.scopeDepth = 0 then some c
  else if c.locals.length > MAX_LOCALS then
    some (c.emitError "Each scope can have maximun 256 locals.")
  else if Compiler.alreadyDeclared c.scopeDepth name c.locals.reverse then
    (c.emitError "Variable already declared.").addLocal name
  else c.addLocal name

/-- `Compiler::markVariableAsDefined`; with no local it writes `locals_[-1]`. -/
def Compiler.markVariableAsDefined (c : Compiler) : Option Compiler :=
  match c.locals.getLast? with
  | none => none
  | some top =>
    some { c with locals := c.locals.dropLast ++ [{ top with depth := (c.scopeDepth : Int) }] }

/-- `Compiler::defineVariable`. -/
def Compiler.defineVariable (c : Compiler) (name : Token) : Option Compiler :=
  if c.scopeDepth > 0 then c.markVariableAsDefined
  else
    some (((c.setChunk (c.currentChunk.addConstant (Value.string name.lexeme)).2).emitOp
      OpCode.DefineGlobal).emit (c.currentChunk.addConstant (Value.string name.lexeme)).1)

/-- The `for` loop of `Compiler::resolveVariableName` over the locals from the
top down: the index returned, which is the number of locals below the match (`-1`
when there is no match), and whether the matching local has depth `-1`. -/
def Compiler.resolveLoop (name : Token) : List Local → Int × Bool
  | [] => (-1, false)
  | local_ :: below =>
    if name.lexeme = local_.name.lexeme then ((below.length : Int), decide (local_.depth = -1))
    else Compiler.resolveLoop name below

/-- `Compiler::resolveVariableName`: the index and the compiler after the call. -/
def Compiler.resolveVariableName (c : Compiler) (name : Token) : Int × Compiler :=
  ((Compiler.resolveLoop name c.locals.reverse).1,
    if (Compiler.resolveLoop name c.locals.reverse).2 then
      c.emitError "You can't use a variable in it's own initializer."
    else c)

/-- `Compiler::beginLoop`. -/
def Compiler.beginLoop (c : Compiler) : Compiler :=
  { c with loop := ⟨(c.scopeDepth : Int), c.currentChunk.size, 0⟩ :: c.loop }

/-- Length of the instruction that starts with `byte`, as the `switch` of
`Compiler::patchLoopBreaks` decodes it. -/
def instructionLength (byte : Byte) : Nat :=
  match OpCode.ofByte byte with
  | some OpCode.JumpIfFalse => 3
  | some OpCode.Jump => 3
  | some OpCode.Loop => 3
  | some OpCode.PushConstant => 2
  | some OpCode.GetLocal => 2
  | some OpCode.SetLocal => 2
  | some OpCode.DefineGlobal => 2
  | some OpCode.GetGlobal => 2
  | some OpCode.SetGlobal => 2
  | some OpCode.Call => 2
  | _ => 1

/-- The loop of `Compiler::patchLoopBreaks` on the chunk, from offset `i` to
`end_`. -/
def patchLoopBreaksLoop (end_ : Nat) : Nat → Nat → Chunk → Option Chunk
  | 0, _, chunk => some chunk
  | fuel + 1, i, chunk =>
    if i < end_ then
      match chunk.get i with
      | none => none
      | some byte =>
        if byte = BREAK_PLACEHOLDER then
          match chunk.set i OpCode.Jump.toByte with
          | none => none
          | some chunk1 =>
            match chunk1.set (i + 1) ((end_ - i) % 65536 / 256 % 256) with
            | none => none
            | some chunk2 =>
              match chunk2.set (i + 2) ((end_ - i) % 65536 % 256) with
              | none => none
              | some chunk3 => patchLoopBreaksLoop end_ fuel (i + 3) chunk3
        else patchLoopBreaksLoop end_ fuel (i + instructionLength byte) chunk
    else some chunk

/-- `Compiler::patchLoopBreaks`. -/
def Compiler.patchLoopBreaks (c : Compiler) : Option Compiler :=
  match c.loop with
  | [] => none
  | loop :: _ =>
    match patchLoopBreaksLoop loop.end_ (loop.end_ - loop.start + 1) loop.start c.currentChunk with
    | none => none
    | some chunk => some (c.setChunk chunk)

/-- `Compiler::endLoop`. -/
def Compiler.endLoop (c : Compiler) : Option Compiler :=
  match c.patchLoopBreaks with
  | none => none
  | some c1 => some { c1 with loop := c1.loop.tail }

/-- `Compiler::emitLoop`. -/
def Compiler.emitLoop (c : Compiler) (start : Nat) : Option Compiler :=
  match c.loop with
  | [] => none
  | loop :: enclosing =>
    let c1 : Compiler :=
      ({ c with loop := { loop with end_ := c.currentChunk.size } :: enclosing }).emitOp OpCode.Loop
    if ((c1.currentChunk.size : Int) - start + 2) > SHORT_MAX then
      some (c1.emitError "Loop body too large.")
    else
      some ((c1.emit (((c1.currentChunk.size : Int) - start + 2) / 256 % 256).toNat).emit
        (((c1.currentChunk.size : Int) - start + 2) % 256).toNat)

/-- The `for` loops of `visitContinueStatement` and `visitBreakStatement`: one
`Pop` for every local, from the top down, while its depth exceeds the loop's. -/
def Compiler.popLoopLocals (loopDepth : Int) : List Local → Compiler → Compiler
  | [], c => c
  | local_ :: below, c =>
    if local_.depth > loopDepth then Compiler.popLoopLocals loopDepth below (c.emitOp OpCode.Pop)
    else c

/-- `Compiler::visitContinueStatement`. Without a loop it reports and goes on to
read `loop_->scopeDepth` or `loop_->start` through the null pointer. -/
def Compiler.visitContinueStatement (c : Compiler) : Option Compiler :=
  match c.loop with
  | [] => none
  | loop :: _ => (Compiler.popLoopLocals loop.scopeDepth c.locals.reverse c).emitLoop loop.start

/-- `Compiler::visitBreakStatement`. Without a loop it reports and goes on to
read `loop_->scopeDepth` through the null pointer, unless there is no local. -/
def Compiler.visitBreakStatement (c : Compiler) : Option Compiler :=
  match c.loop with
  | [] =>
    if c.locals.length = 0 then
      some ((((c.emitError "Can't use 'break' outside a loop.").emit BREAK_PLACEHOLDER).emit
        255).emit 255)
    else none
  | loop :: _ =>
    some ((((Compiler.popLoopLocals loop.scopeDepth c.locals.reverse c).emit
      BREAK_PLACEHOLDER).emit 255).emit 255)

/-- `Compiler::visitLiteralExpression`. -/
def Compiler.visitLiteralExpression (c : Compiler) : Literal → Compiler
  | Literal.boolean b => c.emitOp (if b then OpCode.True else OpCode.False)
  | Literal.number n =>
    ((c.emitOp OpCode.PushConstant).setChunk
      ((c.emitOp OpCode.PushConstant).currentChunk.addConstant (Value.number n)).2).emit
      ((c.emitOp OpCode.PushConstant).currentChunk.addConstant (Value.number n)).1
  | Literal.string s =>
    ((c.emitOp OpCode.PushConstant).setChunk
      ((c.emitOp OpCode.PushConstant).currentChunk.addConstant (Value.string s)).2).emit
      ((c.emitOp OpCode.PushConstant).currentChunk.addConstant (Value.string s)).1
  | Literal.nil => c.emitOp OpCode.Nil

/-- The common end of `visitVariableExpression` and `visitAssignmentExpression`:
resolve the name, then emit `local` with the slot, or add the name as a constant
and emit `global` with its index. -/
def Compiler.emitVariableAccess (c : Compiler) (name : Token) (global local_ : OpCode) :
    Compiler :=
  if (c.resolveVariableName name).1 = -1 then
    (((c.resolveVariableName name).2.setChunk
      ((c.resolveVariableName name).2.currentChunk.addConstant (Value.string name.lexeme)).2).emitOp
      global).emit
      ((c.resolveVariableName name).2.currentChunk.addConstant (Value.string name.lexeme)).1
  else
    ((c.resolveVariableName name).2.emitOp local_).emit
      ((c.resolveVariableName name).1.toNat % 256)

/-- The `switch` of `Compiler::visitBinaryExpression` for the operators that are
not `and` or `or`. -/
def Compiler.emitBinaryOperator (c : Compiler) (op : Token) : Compiler :=
  match op.type with
  | TokenType.Minus => c.emitOp OpCode.Sub
  | TokenType.Plus => c.emitOp OpCode.Add
  | TokenType.Star => c.emitOp OpCode.Mult
  | TokenType.Slash => c.emitOp OpCode.Div
  | TokenType.Exponent => c.emitOp OpCode.Pow
  | TokenType.Less => c.emitOp OpCode.Less
  | TokenType.Greater => c.emitOp OpCode.Greater
  | TokenType.LessEqual => (c.emitOp OpCode.Greater).emitOp OpCode.Not
  | TokenType.GreaterEqual => (c.emitOp OpCode.Less).emitOp OpCode.Not
  | TokenType.Equal => c.emitOp OpCode.Equal
  | TokenType.NotEqual => (c.emitOp OpCode.Equal).emitOp OpCode.Not
  | _ => c.emitError ("Unkown operator '" ++ String.mk op.lexeme ++ "'.")

/-- The `switch` of `Compiler::visitUnaryExpression`. -/
def Compiler.emitUnaryOperator (c : Compiler) (op : Token) : Compiler :=
  match op.type with
  | TokenType.Minus => c.emitOp OpCode.Negate
  | TokenType.NotKeyword => c.emitOp OpCode.Not
  | TokenType.Plus => c
  | _ => c.emitError ("Invalid unary operator '" ++ String.mk op.lexeme ++ "'.")

/-- The parameter loop of `Compiler::visitFunctionDeclaration`. -/
def Compiler.declareParameters : List Token → Compiler → Option Compiler
  | [], c => some c
  | param :: params, c =>
    match c.declareVariable param with
    | none => none
    | some c1 =>
      match c1.defineVariable param with
      | none => none
      | some c2 => Compiler.declareParameters params c2

/-- The end of `Compiler::compile`: `emit(OpCode::Nil); emit(OpCode::Return);`. -/
def Compiler.finish (c : Compiler) : Compiler :=
  (c.emitOp OpCode.Nil).emitOp OpCode.Return

mutual

/-- `Compiler::compileExpression`: set `currentNodeLocation_` and dispatch to the
`visit...Expression` member of the node. -/
def Compiler.compileExpression (u : Uninitialized) : Expression → Compiler → Option Compiler
  | Expression.null, _ => none
  | Expression.Assignment location name value, c =>
    match Compiler.compileExpression u value { c with currentNodeLocation := location } with
    | none => none
    | some c1 => some (c1.emitVariableAccess name OpCode.SetGlobal OpCode.SetLocal)
  | Expression.Binary location op left right, c =>
    if op.type = TokenType.AndKeyword then
      match Compiler.compileExpression u left { c with currentNodeLocation := location } with
      | none => none
      | some c1 =>
        match Compiler.compileExpression u right
            ((c1.emitJump OpCode.JumpIfFalse).2.emitOp OpCode.Pop) with
        | none => none
        | some c2 => c2.patchJump (c1.emitJump OpCode.JumpIfFalse).1
    else if op.type = TokenType.OrKeyword then
      match Compiler.compileExpression u left { c with currentNodeLocation := location } with
      | none => none
      | some c1 =>
        match ((c1.emitJump OpCode.JumpIfFalse).2.emitJump OpCode.Jump).2.patchJump
            (c1.emitJump OpCode.JumpIfFalse).1 with
        | none => none
        | some c2 =>
          match Compiler.compileExpression u right (c2.emitOp OpCode.Pop) with
          | none => none
          | some c3 =>
            c3.patchJump ((c1.emitJump OpCode.JumpIfFalse).2.emitJump OpCode.Jump).1
    else
      match Compiler.compileExpression u left { c with currentNodeLocation := location } with
      | none => none
      | some c1 =>
        match Compiler.compileExpression u right c1 with
        | none => none
        | some c2 => some (c2.emitBinaryOperator op)
  | Expression.Unary location op right, c =>
    match Compiler.compileExpression u right { c with currentNodeLocation := location } with
    | none => none
    | some c1 => some (c1.emitUnaryOperator op)
  | Expression.Call location callee arguments, c =>
    match Compiler.compileExpression u callee { c with currentNodeLocation := location } with
    | none => none
    | some c1 =>
      match Compiler.compileExpressions u arguments c1 with
      | none => none
      | some c2 => some ((c2.emitOp OpCode.Call).emit (arguments.length % 256))
  | Expression.Grouping location expression, c =>
    Compiler.compileExpression u expression { c with currentNodeLocation := location }
  | Expression.Variable location name, c =>
    some (({ c with currentNodeLocation := location } : Compiler).emitVariableAccess name
      OpCode.GetGlobal OpCode.GetLocal)
  | Expression.Literal location value, c =>
    some (({ c with currentNodeLocation := location } : Compiler).visitLiteralExpression value)

/-- The argument loop of `Compiler::visitCallExpression`. -/
def Compiler.compileExpressions (u : Uninitialized) : List Expression → Compiler → Option Compiler
  | [], c => some c
  | e :: es, c =>
    match Compiler.compileExpression u e c with
    | none => none
    | some c1 => Compiler.compileExpressions u es c1

end

mutual

/-- `Compiler::compileStatement`: set `currentNodeLocation_` and dispatch to the
`visit...` member of the node. -/
def Compiler.compileStatement (u : Uninitialized) : Statement → Compiler → Option Compiler
  | Statement.null, _ => none
  | Statement.VariableDeclaration location name init, c =>
    match ({ c with currentNodeLocation := location } : Compiler).declareVariable name with
    | none => none
    | some c1 =>
      match Compiler.compileExpression u init c1 with
      | none => none
      | some c2 => c2.defineVariable name
  | Statement.FunctionDeclaration location name params body, c =>
    if c.type = FunctionType.Function then
      some (({ c with currentNodeLocation := location } : Compiler).emitError
        "Can't declare a function inside another function.")
    else
      match Compiler.declareParameters params
          ({ Compiler.new u FunctionType.Function c.reporter with
              compilingFunction := ObjectFunction.mk name.lexeme u.arity Chunk.empty }
            : Compiler).beginScope with
      | none => none
      | some sub =>
        match body with
        | Statement.Block _ statements =>
          match Compiler.compileStatements u statements sub with
          | none => none
          | some sub1 =>
            let c1 : Compiler :=
              ({ c with currentNodeLocation := location, reporter := sub1.reporter }
                : Compiler).emitOp OpCode.PushConstant
            let function : ObjectFunction :=
              ObjectFunction.mk sub1.finish.compilingFunction.name (params.length : Int)
                sub1.finish.compilingFunction.chunk
            ((c1.setChunk (c1.currentChunk.addConstant (Value.function function)).2).emit
              (c1.currentChunk.addConstant (Value.function function)).1).defineVariable name
        | _ =>
          some (({ c with currentNodeLocation := location, reporter := sub.reporter }
            : Compiler).emitError "Invalid function body.")
  | Statement.Block location statements, c =>
    match Compiler.compileStatements u statements
        ({ c with currentNodeLocation := location } : Compiler).beginScope with
    | none => none
    | some c1 => some c1.endScope
  | Statement.While location condition body, c =>
    match Compiler.compileExpression u condition
        ({ c with currentNodeLocation := location } : Compiler).beginLoop with
    | none => none
    | some c1 =>
      match Compiler.compileStatement u body
          ((c1.emitJump OpCode.JumpIfFalse).2.emitOp OpCode.Pop) with
      | none => none
      | some c2 =>
        match c2.loop with
        | [] => none
        | loop :: _ =>
          match c2.emitLoop loop.start with
          | none => none
          | some c3 =>
            match c3.patchJump (c1.emitJump OpCode.JumpIfFalse).1 with
            | none => none
            | some c4 =>
              match c4.endLoop with
              | none => none
              | some c5 => some (c5.emitOp OpCode.Pop)
  | Statement.If location condition thenBranch elseBranch, c =>
    match Compiler.compileExpression u condition { c with currentNodeLocation := location } with
    | none => none
    | some c1 =>
      match Compiler.compileStatement u thenBranch
          ((c1.emitJump OpCode.JumpIfFalse).2.emitOp OpCode.Pop) with
      | none => none
      | some c2 =>
        match (c2.emitJump OpCode.Jump).2.patchJump (c1.emitJump OpCode.JumpIfFalse).1 with
        | none => none
        | some c3 =>
          if elseBranch.isNull then
            (c3.emitOp OpCode.Pop).patchJump (c2.emitJump OpCode.Jump).1
          else
            match Compiler.compileStatement u elseBranch (c3.emitOp OpCode.Pop) with
            | none => none
            | some c4 => c4.patchJump (c2.emitJump OpCode.Jump).1
  | Statement.ExpressionStatement location expression, c =>
    match Compiler.compileExpression u expression { c with currentNodeLocation := location } with
    | none => none
    | some c1 => some (c1.emitOp OpCode.Pop)
  | Statement.Continue location, c =>
    if c.loop = [] then
      (({ c with currentNodeLocation := location } : Compiler).emitError
        "Can't use 'continue' outside a loop.").visitContinueStatement
    else ({ c with currentNodeLocation := location } : Compiler).visitContinueStatement
  | Statement.Break location, c =>
    ({ c with currentNodeLocation := location } : Compiler).visitBreakStatement
  | Statement.Return location expression, c =>
    if c.type = FunctionType.Script then
      some (({ c with currentNodeLocation := location } : Compiler).emitError
        "Can't return from top-level.")
    else
      match expression with
      | Expression.null =>
        some ((({ c with currentNodeLocation := location } : Compiler).emitOp OpCode.Nil).emitOp
          OpCode.Return)
      | value =>
        match Compiler.compileExpression u value { c with currentNodeLocation := location } with
        | none => none
        | some c1 => some (c1.emitOp OpCode.Return)
  | Statement.Print location expression, c =>
    match Compiler.compileExpression u expression { c with currentNodeLocation := location } with
    | none => none
    | some c1 => some (c1.emitOp OpCode.Print)

/-- The loop `for(const auto& stmt : ast) compileStatement(stmt);`. -/
def Compiler.compileStatements (u : Uninitialized) : List Statement → Compiler → Option Compiler
  | [], c => some c
  | s :: ss, c =>
    match Compiler.compileStatement u s c with
    | none => none
    | some c1 => Compiler.compileStatements u ss c1

end

/-- `Compiler::compile`: the function built, and the compiler after the call. -/
def Compiler.compile (u : Uninitialized) (c : Compiler) (ast : List Statement) :
    Option (ObjectFunction × Compiler) :=
  match Compiler.compileStatements u ast c with
  | none => none
  | some c1 => some (c1.finish.compilingFunction, c1.finish)

end scriptlang

namespace scriptlang

/-! ## Virtual machine (`src/vm.cc`, `include/vm.h`)

`InterpreterResult.Undefined` is not a value of the C++ enumeration: it stands
for a run that leaves defined behaviour (the stack pointer leaves the stack array,
a frame, constant or code byte is read outside its array, `std::get` throws). -/

/-- `enum class InterpreterResult`, and `Undefined` (see above). -/
inductive InterpreterResult
  | Success
  | RuntimeError
  | Undefined
  deriving DecidableEq, Repr

/-- `VM::CALL_FRAMES`. -/
def CALL_FRAMES : Nat := 64

/-- `VM::STACK_SIZE`. -/
def STACK_SIZE : Nat := CALL_FRAMES * BYTE_MAX

/-- `struct CallFrame`. `function` is the function the frame's pointer refers to;
`slots` is the index in the stack that the pointer `slots` refers to. For the frame
of the script the pointer is the one passed to `execute`; for a frame seated by
`Call` it points into the stack cell `slots` itself, and `function` is the function
that cell held when the frame was seated: it stands for the pointer as long as the
cell holds that function. -/
structure CallFrame where
  function : ObjectFunction
  ip : Nat
  slots : Nat

/-- State of `class VM`, with the text written to `std::cout`. `frames` holds
`frames_[0 .. frameCount_)`, the current frame first. `stack` holds the cells of
`stack_` written so far (the others hold `Nil`, as initialised) and `stackTop` is
the index `stackTop_ - stack_`. -/
structure VM where
  frames : List CallFrame
  stack : List Value
  stackTop : Nat
  globals : List (List Char × Value)
  output : String

/-- Constructor `VM::VM`. -/
def VM.new : VM :=
  { frames := [], stack := [], stackTop := 0, globals := [], output := "" }

/-- `VM::resetStack`. -/
def VM.resetStack (vm : VM) : VM :=
  { vm with frames := [], stackTop := 0 }

/-- The cell `stack_[index]`. -/
def VM.cell (vm : VM) (index : Nat) : Value :=
  vm.stack.getD index Value.nil

/-- The stack cells with `stack_[index]` set to `v`. -/
def writeCell (stack : List Value) (index : Nat) (v : Value) : List Value :=
  if index < stack.length then stack.set index v
  else stack ++ List.replicate (index - stack.length) Value.nil ++ [v]

/-- `VM::push`; `none` when the write is outside `stack_`. -/
def VM.push (vm : VM) (v : Value) : Option VM :=
  if vm.stackTop < STACK_SIZE then
    some { vm with stack := writeCell vm.stack vm.stackTop v, stackTop := vm.stackTop + 1 }
  else none

/-- `VM::pop`; `none` when the read is outside `stack_`. -/
def VM.pop (vm : VM) : Option (Value × VM) :=
  if 0 < vm.stackTop ∧ vm.stackTop ≤ STACK_SIZE then
    some (vm.cell (vm.stackTop - 1), { vm with stackTop := vm.stackTop - 1 })
  else none

/-- `VM::peek(distance)`; `none` when the read is outside `stack_`. -/
def VM.peek (vm : VM) (distance : Nat) : Option Value :=
  if distance < vm.stackTop ∧ vm.stackTop - 1 - distance < STACK_SIZE then
    some (vm.cell (vm.stackTop - 1 - distance))
  else none

/-- Outcome of one iteration of the loop of `VM::run`: go on, or return. -/
inductive StepResult
  | next (vm : VM)
  | done (result : InterpreterResult) (vm : VM)

/-- Lines "    in <function ...>" of `VM::runtimeError`, newest frame first. -/
def stackTrace : List CallFrame → String
  | [] => ""
  | frame :: callers =>
    "    in " ++ (Value.function frame.function).show ++ "\n" ++ stackTrace callers

/-- `VM::runtimeError` with the formatted message, followed by the
`return InterpreterResult::RuntimeError` of its callers. -/
def VM.runtimeError (vm : VM) (message : String) : StepResult :=
  match vm.frames with
  | [] => StepResult.done InterpreterResult.Undefined vm
  | frame :: _ =>
    match frame.function.chunk.getLine ((frame.ip + 4294967295) % 4294967296) with
    | none => StepResult.done InterpreterResult.Undefined vm
    | some line =>
      StepResult.done InterpreterResult.RuntimeError
        ({ vm with output := vm.output ++ "Runtime error [Ln: " ++ toString line ++ "] "
            ++ message ++ "\n" ++ stackTrace vm.frames }).resetStack

/-- `VM::call`: the machine with the new frame, or the outcome of the failure. -/
def VM.call (vm : VM) (function : ObjectFunction) (argc : Nat) : Except StepResult VM :=
  if vm.frames.length = CALL_FRAMES then Except.error (vm.runtimeError "Stack overflow.")
  else if (argc : Int) ≠ function.arity then
    Except.error (vm.runtimeError
      ("Expect " ++ toString function.arity ++ " arguments, got " ++ toString argc ++ "."))
  else if vm.stackTop < argc + 1 then
    Except.error (StepResult.done InterpreterResult.Undefined vm)
  else
    Except.ok { vm with frames := ⟨function, 0, vm.stackTop - argc - 1⟩ :: vm.frames }

/-- `VM::callValue`. -/
def VM.callValue (vm : VM) (value : Value) (argc : Nat) : Except StepResult VM :=
  match value with
  | Value.function function => vm.call function argc
  | _ => Except.error (vm.runtimeError "Can only call functions.")

/-- `VM::readByte`: the byte and the machine with the frame's `ip` advanced;
`none` when there is no frame or the read is outside the code. -/
def VM.readByte (vm : VM) : Option (Byte × VM) :=
  match vm.frames with
  | [] => none
  | frame :: callers =>
    match frame.function.chunk.get frame.ip with
    | none => none
    | some byte => some (byte, { vm with frames := { frame with ip := frame.ip + 1 } :: callers })

/-- `READ_SHORT()`, the first byte read being the high one. -/
def VM.readShort (vm : VM) : Option (Nat × VM) :=
  match vm.readByte with
  | none => none
  | some (high, vm1) =>
    match vm1.readByte with
    | none => none
    | some (low, vm2) => some ((high * 256 + low) % 65536, vm2)

/-- `READ_CONSTANT()`. -/
def VM.readConstant (vm : VM) : Option (Value × VM) :=
  match vm.frames with
  | [] => none
  | frame :: _ =>
    match vm.readByte with
    | none => none
    | some (index, vm1) =>
      match frame.function.chunk.getConstant index with
      | none => none
      | some v => some (v, vm1)

/-- `READ_CONSTANT().asString()`; `std::get` throws on another alternative. -/
def VM.readName (vm : VM) : Option (List Char × VM) :=
  match vm.readConstant with
  | some (Value.string name, vm1) => some (name, vm1)
  | _ => none

/-- Assignment to the current frame's `ip`, a `std::uint32_t`. -/
def VM.setIp (vm : VM) (f : Nat → Nat) : VM :=
  match vm.frames with
  | [] => vm
  | frame :: callers => { vm with frames := { frame with ip := f frame.ip % 4294967296 } :: callers }

/-- `globals_.find(name) != globals_.end()`. -/
def VM.hasGlobal (vm : VM) (name : List Char) : Bool :=
  (vm.globals.lookup name).isSome

/-- The map after `globals_[name] = v`. -/
def assignGlobal : List (List Char × Value) → List Char → Value → List (List Char × Value)
  | [], name, v => [(name, v)]
  | (key, old) :: rest, name, v =>
    if key = name then (key, v) :: rest else (key, old) :: assignGlobal rest name v

/-- Continue with the machine, or stop as undefined when there is none. -/
def StepResult.ofOption (vm : VM) : Option VM → StepResult
  | some vm1 => StepResult.next vm1
  | none => StepResult.done InterpreterResult.Undefined vm

/-- `base ** exponent` for a natural exponent. -/
def powNat (base : Number) : Nat → Number
  | 0 => 1
  | n + 1 => powNat base n * base

/-- `std::pow(base, exponent)`: for an integral exponent the product, or its
inverse; for an infinite or NaN operand the value that the C standard gives
(`pow(x, NaN)` is NaN except for `x = 1`, `pow(x, +inf)` is `0`, `1` or `+inf` as the
magnitude of `x` is below, at or above `1`, and so on). A finite exponent that is
not integral gives NaN for a negative base, `0` or `+inf` for the base `0`, `1` for
the base `1`; for another finite positive base the power is outside the embedding
and represented by `0`. -/
def powNumber (base exponent : Number) : Number :=
  match exponent with
  | Number.finite y =>
    if y.den = 1 then
      if 0 ≤ y.num then powNat base y.num.toNat
      else 1 / powNat base (- y.num).toNat
    else
      match base with
      | Number.finite x =>
        if x < 0 then Number.nan
        else if x = 0 then (if 0 < y then 0 else Number.posInf)
        else if x = 1 then 1
        else 0
      | Number.nan => Number.nan
      | _ => if 0 < y then Number.posInf else 0
  | Number.posInf =>
    match base with
    | Number.finite x => if |x| < 1 then 0 else if |x| = 1 then 1 else Number.posInf
    | Number.nan => Number.nan
    | _ => Number.posInf
  | Number.negInf =>
    match base with
    | Number.finite x => if |x| < 1 then Number.posInf else if |x| = 1 then 1 else 0
    | Number.nan => Number.nan
    | _ => 0
  | Number.nan => if base = 1 then 1 else Number.nan

/-- The macro `BINARY_OPERATION(op)`, `op` giving the value pushed. -/
def VM.binaryOperation (vm : VM) (op : Number → Number → Value) : StepResult :=
  match vm.pop with
  | none => StepResult.done InterpreterResult.Undefined vm
  | some (b, vm1) =>
    match vm1.pop with
    | none => StepResult.done InterpreterResult.Undefined vm1
    | some (a, vm2) =>
      match a, b with
      | Value.number x, Value.number y => StepResult.ofOption vm2 (vm2.push (op x y))
      | _, _ => vm2.runtimeError "Expect two numbers."

/-- The `switch(instruction)` of `VM::run` for one opcode, entered after the
opcode byte has been read. -/
def VM.dispatch (vm : VM) : OpCode → StepResult
  | OpCode.PushConstant =>
    match vm.readConstant with
    | none => StepResult.done InterpreterResult.Undefined vm
    | some (v, vm1) => StepResult.ofOption vm1 (vm1.push v)
  | OpCode.Pop =>
    match vm.pop with
    | none => StepResult.done InterpreterResult.Undefined vm
    | some (_, vm1) => StepResult.next vm1
  | OpCode.Add =>
    match vm.pop with
    | none => StepResult.done InterpreterResult.Undefined vm
    | some (b, vm1) =>
      match vm1.pop with
      | none => StepResult.done InterpreterResult.Undefined vm1
      | some (a, vm2) =>
        match a, b with
        | Value.number x, Value.number y => StepResult.ofOption vm2 (vm2.push (Value.number (x + y)))
        | Value.string x, Value.string y => StepResult.ofOption vm2 (vm2.push (Value.string (x ++ y)))
        | _, _ => vm2.runtimeError "Expect two numbers or two strings."
  | OpCode.Sub => vm.binaryOperation (fun x y => Value.number (x - y))
  | OpCode.Div => vm.binaryOperation (fun x y => Value.number (x / y))
  | OpCode.Mult => vm.binaryOperation (fun x y => Value.number (x * y))
  | OpCode.Less => vm.binaryOperation (fun x y => Value.boolean (decide (x < y)))
  | OpCode.Greater => vm.binaryOperation (fun x y => Value.boolean (decide (x > y)))
  | OpCode.Equal =>
    match vm.pop with
    | none => StepResult.done InterpreterResult.Undefined vm
    | some (b, vm1) =>
      match vm1.pop with
      | none => StepResult.done InterpreterResult.Undefined vm1
      | some (a, vm2) => StepResult.ofOption vm2 (vm2.push (Value.boolean (b.eq a)))
  | OpCode.Pow =>
    match vm.pop with
    | none => StepResult.done InterpreterResult.Undefined vm
    | some (exponent, vm1) =>
      match vm1.pop with
      | none => StepResult.done InterpreterResult.Undefined vm1
      | some (base, vm2) =>
        match base, exponent with
        | Value.number x, Value.number y =>
          StepResult.ofOption vm2 (vm2.push (Value.number (powNumber x y)))
        | _, _ => vm2.runtimeError "Expect two numbers."
  | OpCode.Not =>
    match vm.pop with
    | none => StepResult.done InterpreterResult.Undefined vm
    | some (v, vm1) => StepResult.ofOption vm1 (vm1.push (Value.boolean v.isFalsey))
  | OpCode.Negate =>
    match vm.peek 0 with
    | none => StepResult.done InterpreterResult.Undefined vm
    | some (Value.number x) =>
      match vm.pop with
      | none => StepResult.done InterpreterResult.Undefined vm
      | some (_, vm1) => StepResult.ofOption vm1 (vm1.push (Value.number (- x)))
    | some _ => vm.runtimeError "Expect a number."
  | OpCode.Print =>
    match vm.pop with
    | none => StepResult.done InterpreterResult.Undefined vm
    | some (v, vm1) => StepResult.next { vm1 with output := vm1.output ++ v.show ++ "\n" }
  | OpCode.JumpIfFalse =>
    match vm.readShort with
    | none => StepResult.done InterpreterResult.Undefined vm
    | some (offset, vm1) =>
      match vm1.peek 0 with
      | none => StepResult.done InterpreterResult.Undefined vm1
      | some v => StepResult.next (if v.isFalsey then vm1.setIp (fun ip => ip + offset) else vm1)
  | OpCode.Jump =>
    match vm.readShort with
    | none => StepResult.done InterpreterResult.Undefined vm
    | some (offset, vm1) => StepResult.next (vm1.setIp (fun ip => ip + offset))
  | OpCode.Loop =>
    match vm.readShort with
    | none => StepResult.done InterpreterResult.Undefined vm
    | some (offset, vm1) => StepResult.next (vm1.setIp (fun ip => ip + 4294967296 - offset))
  | OpCode.DefineGlobal =>
    match vm.readName with
    | none => StepResult.done InterpreterResult.Undefined vm
    | some (name, vm1) =>
      if vm1.hasGlobal name then
        vm1.runtimeError ("Global variable '" ++ String.mk name ++ "' already defined.")
      else
        match vm1.pop with
        | none => StepResult.done InterpreterResult.Undefined vm1
        | some (v, vm2) => StepResult.next { vm2 with globals := assignGlobal vm2.globals name v }
  | OpCode.GetGlobal =>
    match vm.readName with
    | none => StepResult.done InterpreterResult.Undefined vm
    | some (name, vm1) =>
      match vm1.globals.lookup name with
      | none => vm1.runtimeError ("Undefined global variable '" ++ String.mk name ++ "'.")
      | some v => StepResult.ofOption vm1 (vm1.push v)
  | OpCode.SetGlobal =>
    match vm.readName with
    | none => StepResult.done InterpreterResult.Undefined vm
    | some (name, vm1) =>
      if vm1.hasGlobal name then
        match vm1.peek 0 with
        | none => StepResult.done InterpreterResult.Undefined vm1
        | some v => StepResult.next { vm1 with globals := assignGlobal vm1.globals name v }
      else vm1.runtimeError ("Undefined global variable '" ++ String.mk name ++ "'.")
  | OpCode.GetLocal =>
    match vm.readByte with
    | none => StepResult.done InterpreterResult.Undefined vm
    | some (slot, vm1) =>
      match vm1.frames with
      | [] => StepResult.done InterpreterResult.Undefined vm1
      | frame :: _ =>
        if frame.slots + slot < STACK_SIZE then
          StepResult.ofOption vm1 (vm1.push (vm1.cell (frame.slots + slot)))
        else StepResult.done InterpreterResult.Undefined vm1
  | OpCode.SetLocal =>
    match vm.readByte with
    | none => StepResult.done InterpreterResult.Undefined vm
    | some (slot, vm1) =>
      match vm1.frames, vm1.peek 0 with
      | frame :: _, some v =>
        if frame.slots + slot < STACK_SIZE then
          StepResult.next { vm1 with stack := writeCell vm1.stack (frame.slots + slot) v }
        else StepResult.done InterpreterResult.Undefined vm1
      | _, _ => StepResult.done InterpreterResult.Undefined vm1
  | OpCode.Call =>
    match vm.readByte with
    | none => StepResult.done InterpreterResult.Undefined vm
    | some (argc, vm1) =>
      match vm1.peek argc with
      | none => StepResult.done InterpreterResult.Undefined vm1
      | some callee =>
        match vm1.callValue callee argc with
        | Except.error r => r
        | Except.ok vm2 => StepResult.next vm2
  | OpCode.Return =>
    match vm.pop with
    | none => StepResult.done InterpreterResult.Undefined vm
    | some (returnValue, vm1) =>
      match vm1.frames with
      | [] => StepResult.done InterpreterResult.Undefined vm1
      | frame :: callers =>
        if callers.length = 0 then
          match ({ vm1 with frames := callers } : VM).pop with
          | none => StepResult.done InterpreterResult.Undefined { vm1 with frames := callers }
          | some (_, vm2) => StepResult.done InterpreterResult.Success vm2
        else
          StepResult.ofOption vm1
            (({ vm1 with frames := callers, stackTop := frame.slots } : VM).push returnValue)
  | OpCode.True => StepResult.ofOption vm (vm.push (Value.boolean true))
  | OpCode.False => StepResult.ofOption vm (vm.push (Value.boolean false))
  | OpCode.Nil => StepResult.ofOption vm (vm.push Value.nil)

/-- One iteration of the `while` loop of `VM::run`, or the statements after the
loop when its condition fails. -/
def VM.step (vm : VM) : StepResult :=
  match vm.frames with
  | [] => StepResult.done InterpreterResult.Undefined vm
  | frame :: _ =>
    if frame.ip < frame.function.chunk.size then
      match vm.readByte with
      | none => StepResult.done InterpreterResult.Undefined vm
      | some (instruction, vm1) =>
        match OpCode.ofByte instruction with
        | none => vm1.runtimeError "Unknow operation."
        | some op => vm1.dispatch op
    else StepResult.done InterpreterResult.Success vm.resetStack

/-- `VM::run`: at most `fuel` iterations; `none` when they were not enough. -/
def VM.run : Nat → VM → Option (InterpreterResult × VM)
  | 0, _ => none
  | fuel + 1, vm =>
    match vm.step with
    | StepResult.next vm1 => VM.run fuel vm1
    | StepResult.done result vm1 => some (result, vm1)

/-- `VM::execute`: the result of `call` is not looked at. -/
def VM.execute (fuel : Nat) (vm : VM) (function : ObjectFunction) :
    Option (InterpreterResult × VM) :=
  match vm.push (Value.function function) with
  | none => some (InterpreterResult.Undefined, vm)
  | some vm1 =>
    match vm1.call function 0 with
    | Except.ok vm2 => VM.run fuel vm2
    | Except.error (StepResult.done _ vm2) => VM.run fuel vm2
    | Except.error (StepResult.next vm2) => VM.run fuel vm2

/-! ## Driver (`src/main.cc`) -/

/-- How a call of `runCode` went. -/
inductive RunStatus
  | parseError
  | compileError
  | compilerUndefined
  | notExecuted
  | executed (result : InterpreterResult)
  deriving DecidableEq, Repr

/-- What a call of `runCode` leaves: the reporter, how the call went, and the
machine (the static `vm`) after it. -/
structure RunOutcome where
  reporter : ErrorReporter
  status : RunStatus
  vm : VM

/-- `EXECUTE`, the value of `flags` that requests execution. -/
def EXECUTE : Nat := 0

/-- `runCode(source, flags)` on the machine `vm`. The text of the diagnostics that
the driver prints, and the dumps, are not represented. `none` when `fuel` was not
enough for the parser or for the machine. -/
def runCode (fuel : Nat) (u : Uninitialized) (source : List Char) (flags : Nat) (vm : VM) :
    Option RunOutcome :=
  match Parser.parseSoruce fuel (Parser.new source ErrorReporter.new) with
  | none => none
  | some (ast, parser) =>
    if parser.reporter.hadError then some ⟨parser.reporter, RunStatus.parseError, vm⟩
    else
      match Compiler.compile u (Compiler.new u FunctionType.Script parser.reporter.reset) ast with
      | none => some ⟨parser.reporter.reset, RunStatus.compilerUndefined, vm⟩
      | some (function, compiler) =>
        if compiler.reporter.hadError then some ⟨compiler.reporter, RunStatus.compileError, vm⟩
        else if flags = EXECUTE then
          match vm.execute fuel function with
          | none => none
          | some (result, vm1) => some ⟨compiler.reporter, RunStatus.executed result, vm1⟩
        else some ⟨compiler.reporter, RunStatus.notExecuted, vm⟩

/-- The observable part of a `runCode` call on a new machine: the messages
reported, how the call went, and the text written by the machine. -/
def runSource (fuel : Nat) (u : Uninitialized) (source : String) :
    Option (List String × RunStatus × String) :=
  match runCode fuel u source.toList EXECUTE VM.new with
  | none => none
  | some outcome => some (outcome.reporter.messages, outcome.status, outcome.vm.output)

end scriptlang

namespace scriptlang

/-! ## Vocabulary for the properties of the parser, the compiler and the machine -/

/-- Lexemes of the operators whose infix rule is `Parser::binaryExpression`. -/
def binaryOperators : List String :=
  ["/", "*", "**", "<", ">", ">=", "<=", "!=", "==", "and", "or", "+", "-"]

/-- Token type that the lexer gives to an operator lexeme. -/
def operatorType (lexeme : String) : TokenType :=
  ((tokenize lexeme.toList).headD Token.default).type

/-- Precedence that the rule table gives to an operator lexeme. -/
def operatorPrecedence (lexeme : String) : Precedence :=
  (getParseRules (operatorType lexeme)).prec

/-- The token types with which `Parser::declaration` does not go to
`Parser::expressionStatement`. -/
def startsOtherStatement (type : TokenType) : Bool :=
  decide (type = TokenType.LetKeyword ∨ type = TokenType.DefunKeyword ∨
    type = TokenType.IfKeyword ∨ type = TokenType.WhileKeyword ∨
    type = TokenType.PrintKeyword ∨ type = TokenType.ReturnKeyword ∨
    type = TokenType.ContinueKeyword ∨ type = TokenType.BreakKeyword ∨
    type = TokenType.LeftBrace)

/-- The parser in front of the first token of a source text, with a new reporter. -/
def Parser.ofSource (source : String) : Parser :=
  Parser.new source.toList ErrorReporter.new

/-- Parse and compile a source text in `Script` mode with a new reporter, as
`runCode` does: the function built. -/
def compileSource (fuel : Nat) (u : Uninitialized) (source : String) : Option ObjectFunction :=
  match Parser.parseSoruce fuel (Parser.ofSource source) with
  | none => none
  | some (ast, parser) =>
    match Compiler.compile u (Compiler.new u FunctionType.Script parser.reporter.reset) ast with
    | none => none
    | some (function, _) => some function

/-- Bytes of the chunk that `compileSource` builds. -/
def compiledCode (fuel : Nat) (u : Uninitialized) (source : String) : Option (List Byte) :=
  (compileSource fuel u source).map (fun function => function.chunk.code)

/-- `VM::execute` up to its call of `run`: the function value is pushed and the
first frame is seated. -/
def VM.enter (vm : VM) (function : ObjectFunction) : Option VM :=
  match vm.push (Value.function function) with
  | none => none
  | some vm1 =>
    match vm1.call function 0 with
    | Except.ok vm2 => some vm2
    | Except.error _ => none

/-- Stack heights `stackTop_ - stack_` seen, during at most `fuel` iterations of
`VM::run`, each time the machine is about to execute the instruction at offset
`ip` of the outermost frame. -/
def VM.heightsAt (ip : Nat) : Nat → VM → List Nat
  | 0, _ => []
  | fuel + 1, vm =>
    (match vm.frames with
      | [frame] => if frame.ip = ip then [vm.stackTop] else []
      | _ => []) ++
    (match vm.step with
      | StepResult.next vm1 => VM.heightsAt ip fuel vm1
      | StepResult.done _ _ => [])

/-- Stack heights at offset `ip` of the script's chunk while the compiled source
runs on a new machine. -/
def heightsAt (fuel : Nat) (u : Uninitialized) (source : String) (ip : Nat) : Option (List Nat) :=
  match compileSource fuel u source with
  | none => none
  | some function =>
    match VM.new.enter function with
    | none => none
    | some vm => some (VM.heightsAt ip fuel vm)

/-- The parser after `parseSoruce`'s first `declaration()` and, when that left the
parser in panic mode, after `synchronize()`. -/
def Parser.afterFirstDeclaration (fuel : Nat) (p : Parser) : Option (Parser × Parser) :=
  match Parser.declaration fuel { p with start := p.peek } with
  | none => none
  | some (_, p1) => some (p1, if p1.panicMode then p1.synchronize else p1)

end scriptlang

namespace scriptlang

/-! ## Vocabulary for the properties of chunks, values and calls -/

/-- The chunk after a sequence of `Chunk::write(byte, line)` calls, oldest first. -/
def Chunk.writeAll (c : Chunk) : List (Byte × Nat) → Chunk
  | [] => c
  | (byte, line) :: rest => Chunk.writeAll (c.write byte line) rest

/-- The machine that `VM::runtimeError` leaves when the current frame's line is
`line`: the report and the stack trace are written, and the stack is reset. -/
def VM.afterError (vm : VM) (line : Nat) (message : String) : VM :=
  ({ vm with output := vm.output ++ "Runtime error [Ln: " ++ toString line ++ "] "
      ++ message ++ "\n" ++ stackTrace vm.frames }).resetStack

/-- The machine with the cells `stack_[stackTop_ - n .. stackTop_)` popped and `v`
pushed in their place. -/
def VM.replaceTop (vm : VM) (n : Nat) (v : Value) : VM :=
  { vm with stack := writeCell vm.stack (vm.stackTop - n) v, stackTop := vm.stackTop - n + 1 }

end scriptlang

namespace scriptlang

/-- A compiler in `Script` mode whose chunk already holds the given constants. -/
def Compiler.withConstants (u : Uninitialized) (constants : List Value) : Compiler :=
  (Compiler.new u FunctionType.Script ErrorReporter.new).setChunk (Chunk.mk constants [] [])

/-- Compile the statements with the given compiler, as `Compiler::compile` does, and
execute the function on a new machine: the result and the text written. -/
def compileAndRun (fuel : Nat) (u : Uninitialized) (c : Compiler) (ast : List Statement) :
    Option (InterpreterResult × String) :=
  match Compiler.compile u c ast with
  | none => none
  | some (function, _) =>
    match VM.new.execute fuel function with
    | none => none
    | some (result, vm) => some (result, vm.output)

end scriptlang

namespace scriptlang

/-- The chunk's code is the bytes of the writes `done` and its line table records
their lines: the table is empty only with the code, starts at offset 0, has strictly
increasing offsets inside the code and no two consecutive entries with the same line,
and every byte lies in the range of an entry that carries its line. -/
def Chunk.Records (c : Chunk) (done : List (Byte × Nat)) : Prop :=
  c.code = done.map Prod.fst ∧
  (c.lines = [] ↔ c.code = []) ∧
  (∀ e, c.lines.head? = some e → e.offset = 0) ∧
  c.lines.Pairwise (fun a b => a.offset < b.offset) ∧
  (∀ e ∈ c.lines, e.offset < c.code.length) ∧
  c.lines.Chain' (fun a b => a.line ≠ b.line) ∧
  ∀ i w, done[i]? = some w →
    ∃ k e, c.lines[k]? = some e ∧ e.offset ≤ i ∧
      (∀ e1, c.lines[k + 1]? = some e1 → i < e1.offset) ∧ e.line = w.2

end scriptlang

namespace scriptlang

/-- `Reaches code i j`: decoding `code` instruction by instruction from offset `i`,
with the lengths that the `switch` of `patchLoopBreaks` gives to the opcodes, arrives
at offset `j`: `j` is the first byte of an instruction when `i` is. -/
inductive Reaches (code : List Byte) : Nat → Nat → Prop
  | here (i : Nat) : Reaches code i i
  | next (i j : Nat) : Reaches code (i + instructionLength (code.getD i 0)) j → Reaches code i j

/-- `Compiler::visitWhileStatement` up to its call of `endLoop`: the compiler on
which `patchLoopBreaks` runs. -/
def Compiler.whileUntilEndLoop (u : Uninitialized) (location : SourceRange)
    (condition : Expression) (body : Statement) (c : Compiler) : Option Compiler :=
  match Compiler.compileExpression u condition
      ({ c with currentNodeLocation := location } : Compiler).beginLoop with
  | none => none
  | some c1 =>
    match Compiler.compileStatement u body
        ((c1.emitJump OpCode.JumpIfFalse).2.emitOp OpCode.Pop) with
    | none => none
    | some c2 =>
      match c2.loop with
      | [] => none
      | loop :: _ =>
        match c2.emitLoop loop.start with
        | none => none
        | some c3 => c3.patchJump (c1.emitJump OpCode.JumpIfFalse).1

/-- For a source text that is one `while` statement, compiled in `Script` mode: whether
a diagnostic was reported, the loop's `start` and `end`, and the code of the chunk,
all taken right after `patchLoopBreaks` has run for that loop. -/
def patchedLoop (fuel : Nat) (u : Uninitialized) (source : String) :
    Option (Bool × Nat × Nat × List Byte) :=
  match Parser.parseSoruce fuel (Parser.ofSource source) with
  | some ([Statement.While location condition body], parser) =>
    match Compiler.whileUntilEndLoop u location condition body
        (Compiler.new u FunctionType.Script parser.reporter.reset) with
    | some c4 =>
      match c4.loop, c4.patchLoopBreaks with
      | loop :: _, some c5 =>
        some (c5.reporter.hadError, loop.start, loop.end_, c5.currentChunk.code)
      | _, _ => none
    | none => none
  | _ => none

end scriptlang

namespace scriptlang

/-! ## Vocabulary for the jumps of a chunk -/

/-- Number of bytes that `patchLoopBreaks` steps over at an offset whose byte is
`byte`: three for the break placeholder, else the length of the instruction. -/
def spanLength (byte : Byte) : Nat :=
  if byte = BREAK_PLACEHOLDER then 3 else instructionLength byte

/-- The 16-bit operand, high byte first, of the instruction at offset `i`, as
`READ_SHORT()` reads it. -/
def operandAt (code : List Byte) (i : Nat) : Nat :=
  (code.getD (i + 1) 0 : Nat) * 256 + (code.getD (i + 2) 0 : Nat)

/-- `Steps code i j`: stepping from offset `i` over instructions and break
placeholders arrives at offset `j`. -/
inductive Steps (code : List Byte) : Nat → Nat → Prop
  | here (i : Nat) : Steps code i i
  | next (i j : Nat) : Steps code (i + spanLength (code.getD i 0)) j → Steps code i j

/-- What holds of the code of a chunk while it is compiled: `starts` are the starts of
the loops being compiled, and `P i` says that the jump at offset `i` has been emitted
and is not patched yet.
* `steps`: the code is a sequence of whole instructions and placeholders;
* `bytes`: every element is a byte;
* `jumps`: a `JumpIfFalse` (13) or `Jump` (14) is pending or lands on an instruction
  start, not beyond the end of the code;
* `loops`: a `Loop` (15) lands on an instruction start at or before itself;
* `breaks`: a placeholder (187) lies in a loop that is being compiled;
* `starts`: the loops being compiled start at instruction starts;
* `pending`: a pending jump is a jump instruction of the code. -/
structure InvCode (code : List Byte) (starts : List Nat) (P : Nat → Prop) : Prop where
  steps : Steps code 0 code.length
  bytes : ∀ b ∈ code, (b : Nat) < 256
  jumps : ∀ i, Steps code 0 i → i < code.length →
    (code.getD i 0 = 13 ∨ code.getD i 0 = 14) →
    P i ∨ (Steps code 0 (i + 3 + operandAt code i) ∧ i + 3 + operandAt code i ≤ code.length)
  loops : ∀ i, Steps code 0 i → i < code.length → code.getD i 0 = 15 →
    3 ≤ operandAt code i ∧ operandAt code i ≤ i + 3 ∧ Steps code 0 (i + 3 - operandAt code i)
  breaks : ∀ i, Steps code 0 i → i < code.length → code.getD i 0 = 187 → ∃ s ∈ starts, s ≤ i
  starts : ∀ s ∈ starts, Steps code 0 s ∧ s ≤ code.length
  pending : ∀ i, P i →
    Steps code 0 i ∧ i < code.length ∧ (code.getD i 0 = 13 ∨ code.getD i 0 = 14)

/-- Every `Jump`, `JumpIfFalse` and `Loop` instruction of the code has its two operand
bytes inside the code, and its target (`offset + 3 + operand` for the jumps,
`offset + 3 - operand` for `Loop`) is the first byte of an instruction of the code. -/
def ValidJumps (code : List Byte) : Prop :=
  ∀ i, Reaches code 0 i → i < code.length →
    ((code.getD i 0 = OpCode.JumpIfFalse.toByte ∨ code.getD i 0 = OpCode.Jump.toByte) →
      i + 2 < code.length ∧ (code.getD (i + 1) 0 : Nat) < 256 ∧
      (code.getD (i + 2) 0 : Nat) < 256 ∧
      Reaches code 0 (i + 3 + operandAt code i) ∧ i + 3 + operandAt code i < code.length) ∧
    (code.getD i 0 = OpCode.Loop.toByte →
      i + 2 < code.length ∧ (code.getD (i + 1) 0 : Nat) < 256 ∧
      (code.getD (i + 2) 0 : Nat) < 256 ∧
      operandAt code i ≤ i + 3 ∧ Reaches code 0 (i + 3 - operandAt code i) ∧
      i + 3 - operandAt code i < code.length)

/-- The chunk of a function value. -/
def Value.functionChunk : Value → Option Chunk
  | Value.function f => some f.chunk
  | _ => none

/-- The chunks that a compilation emits: the chunk of the function built and the
chunks of the functions in its constant pool. -/
def emittedChunks (function : ObjectFunction) : List Chunk :=
  function.chunk :: function.chunk.constants.filterMap Value.functionChunk

/-- What holds of the constant pool of a chunk while it is compiled in mode `type`:
every function in it was built in `Script` mode, has valid jumps and has no function
in its own pool. -/
def ConstantsOk (type : FunctionType) (constants : List Value) : Prop :=
  ∀ g, Value.function g ∈ constants →
    type = FunctionType.Script ∧ ValidJumps g.chunk.code ∧
    ∀ w ∈ g.chunk.constants, w.isFunction = false

/-- The invariant of the compiler for the jumps: `InvCode` of the code of the chunk
being built, with the starts of the loops being compiled, and `ConstantsOk` of its
constant pool. -/
def Compiler.Inv (c : Compiler) (P : Nat → Prop) : Prop :=
  InvCode c.currentChunk.code (c.loop.map Loop.start) P ∧
  ConstantsOk c.type c.currentChunk.constants

end scriptlang

namespace scriptlang

/-- `c.Keeps c1`: the compiler `c1` is in the mode of `c`, the loops being compiled
start where they did in `c`, and, when `c1` has no diagnostic, neither has `c` and the
invariant of `c` is that of `c1`, with the same pending jumps. -/
def Compiler.Keeps (c c1 : Compiler) : Prop :=
  c1.type = c.type ∧ c1.loop.map Loop.start = c.loop.map Loop.start ∧
  (c1.reporter.hadError = false →
    c.reporter.hadError = false ∧ ∀ P, c.Inv P → c1.Inv P)

end scriptlang

namespace scriptlang

/-! ## Vocabulary for the properties of runs -/

/-- Two successive calls of `runCode` with the flags `EXECUTE` on the static machine,
as the REPL makes them, the first on a new machine: how each call went, and the text
written by the machine. -/
def runTwice (fuel : Nat) (u : Uninitialized) (first second : String) :
    Option (RunStatus × RunStatus × String) :=
  match runCode fuel u first.toList EXECUTE VM.new with
  | none => none
  | some outcome1 =>
    match runCode fuel u second.toList EXECUTE outcome1.vm with
    | none => none
    | some outcome2 => some (outcome1.status, outcome2.status, outcome2.vm.output)

/-- The globals of the machine that a step returns with are `globals`; nothing is
said of a step after which the run goes on. -/
def StepResult.DoneWith (globals : List (List Char × Value)) : StepResult → Prop
  | StepResult.done _ vm => vm.globals = globals
  | StepResult.next _ => True

end scriptlang

namespace scriptlang

/-- `c.Appends c1`: when `c1` has no diagnostic, neither has `c`, and the code of `c1`
is the code of `c` followed by more bytes. -/
def Compiler.Appends (c c1 : Compiler) : Prop :=
  c1.reporter.hadError = false →
    c.reporter.hadError = false ∧
    ∃ ext : List Byte, c1.currentChunk.code = c.currentChunk.code ++ ext

end scriptlang

namespace scriptlang

/-! ## Vocabulary for the properties of positions, locals and calls -/

/-- Number of newline characters of `source` before the offset `offset`. -/
def newlinesBefore (source : List Char) (offset : Nat) : Nat :=
  (source.take offset).count '\n'

/-- The identifier tokens `v0`, `v1`, ..., `v(n-1)`, all different. -/
def identifiers (n : Nat) : List Token :=
  (List.range n).map
    (fun i => ⟨TokenType.Identifier, 'v' :: (Nat.repr i).toList, SourceRange.zero⟩)

/-- Successive calls of `Compiler::declareVariable`, one for every name. -/
def Compiler.declareAll : List Token → Compiler → Option Compiler
  | [], c => some c
  | name :: names, c =>
    match c.declareVariable name with
    | none => none
    | some c1 => Compiler.declareAll names c1

/-- The declaration `defun f(v0, ..., v(n-1)) \x7b\x7d` as the parser builds it. -/
def functionWithParameters (n : Nat) : Statement :=
  Statement.FunctionDeclaration SourceRange.zero
    ⟨TokenType.Identifier, ['f'], SourceRange.zero⟩ (identifiers n)
    (Statement.Block SourceRange.zero [])

/-- Whether the token that the parser has just read is an operand that
`primaryExpression` turns into a literal or a variable. -/
def Parser.afterOperand (p : Parser) : Bool :=
  decide ((getParseRules p.previous.type).prefixRule = some ParsePrefix.primaryExpression) &&
    decide (p.previous.type ≠ TokenType.LeftParen) && (p.literalExpression p.previous).isSome

/-- The expression that `primaryExpression` returns for the operand just read. -/
def Parser.operand (p : Parser) : Expression :=
  (p.literalExpression p.previous).getD Expression.null

/-- Whether the next tokens of the parser are `a op b op' c t`: operands `a`, `b`,
`c`; operators `op`, `op'` whose infix rule is `binaryExpression`, the precedence of
`op'` not above that of `op`; and a token `t` of precedence `None` (such as `;`). -/
def Parser.atBinaryChain (p : Parser) : Bool :=
  p.advance.afterOperand &&
  decide (Precedence.None < (getParseRules p.advance.peek.type).prec) &&
  decide ((getParseRules p.advance.advance.previous.type).infixRule =
    some ParseInfix.binaryExpression) &&
  p.advance.advance.advance.afterOperand &&
  decide ((getParseRules p.advance.advance.advance.peek.type).prec ≤
    (getParseRules p.advance.advance.previous.type).prec) &&
  decide (Precedence.None < (getParseRules p.advance.advance.advance.peek.type).prec) &&
  decide ((getParseRules p.advance.advance.advance.advance.previous.type).infixRule =
    some ParseInfix.binaryExpression) &&
  p.advance.advance.advance.advance.advance.afterOperand &&
  decide ((getParseRules p.advance.advance.advance.advance.advance.peek.type).prec =
    Precedence.None)

/-- Whether the machine is inside the call whose frame lies on `depth` frames and
whose stack base is `base`: there are more than `depth` frames, the frames above
the lowest `depth` have their slots at or above `base`, and the stack pointer is
above `base`. -/
def VM.within (depth base : Nat) (vm : VM) : Bool :=
  decide (depth < vm.frames.length) && decide (base < vm.stackTop) &&
    (vm.frames.take (vm.frames.length - depth)).all (fun frame => decide (base ≤ frame.slots))

/-- The machine after `k` iterations of the loop of `VM::run`, each of which goes on
and leaves the machine inside the call (`VM.within`); `none` when an iteration
returns from `run` or leaves the call. -/
def VM.runWithin (depth base : Nat) : Nat → VM → Option VM
  | 0, vm => some vm
  | k + 1, vm =>
    match vm.step with
    | StepResult.next vm1 =>
      if vm1.within depth base then VM.runWithin depth base k vm1 else none
    | StepResult.done _ _ => none

/-- The frames above the lowest `depth` still have their functions. Such a frame was
seated by a `Call`, and its `CallFrame::function` points into the stack cell `slots`
of the frame (`call(&value.asFunction(), argc)`, `value` being the cell `peek(argc)`);
the frame of the embedding holds the function that was in that cell when the frame
was seated. So the function of the frame is the one the code reads through the
pointer as long as that cell holds it; once the cell is overwritten the pointer of the
code refers to another or to a destroyed object. -/
def VM.CalleesIntact (depth : Nat) (vm : VM) : Prop :=
  ∀ frame ∈ vm.frames.take (vm.frames.length - depth),
    vm.cell frame.slots = Value.function frame.function

/-- `vm1` has the frames of `vm`, whose current frame is `frame` on `callers`, with
another `ip` in the current frame at most, and the same stack cells. -/
def VM.Same (frame : CallFrame) (callers : List CallFrame) (vm vm1 : VM) : Prop :=
  (∃ ip, vm1.frames = ⟨frame.function, ip, frame.slots⟩ :: callers) ∧ vm1.stack = vm.stack

/-- What an iteration of `run` may do to the frames and the stack, seen from the
frame `frame` that was current on `callers`: afterwards that frame is current with
another `ip` at most, or one frame was pushed on it, or it was popped; and every
stack cell below the frame's slots, the new top cell apart, is as it was. -/
def VM.Local (frame : CallFrame) (callers : List CallFrame) (vm vm1 : VM) : Prop :=
  ((∃ ip, vm1.frames = ⟨frame.function, ip, frame.slots⟩ :: callers) ∨
    (∃ ip pushed, vm1.frames = pushed :: ⟨frame.function, ip, frame.slots⟩ :: callers) ∨
    vm1.frames = callers) ∧
  ∀ i, i < frame.slots → i + 1 < vm1.stackTop → vm1.cell i = vm.cell i

/-- The machine is inside the call of `f` whose frame lies on the frames `callers`
with the stack base `base`: its frames are those of the functions called from there,
then the frame of `f`, then `callers`; the stack pointer is above `base`; and the
cells below `base` are those of `vm0`. -/
def VM.Inside (f : ObjectFunction) (base : Nat) (callers : List CallFrame) (vm0 vm : VM) :
    Prop :=
  ∃ inner ip, vm.frames = inner ++ ⟨f, ip, base⟩ :: callers ∧
    (∀ frame ∈ inner, base ≤ frame.slots) ∧ base < vm.stackTop ∧
    ∀ i, i < base → vm.cell i = vm0.cell i

/-- `VM.Local` for the outcome of an iteration; nothing is said when `run` returns. -/
def StepResult.Local (frame : CallFrame) (callers : List CallFrame) (vm : VM) :
    StepResult → Prop
  | StepResult.next vm1 => VM.Local frame callers vm vm1
  | StepResult.done _ _ => True

end scriptlang

namespace scriptlang

/-! ## Lexer lemmas -/

theorem Lexer.reads_refl (l : Lexer) : l.Reads [] l := by
  simp [Lexer.Reads]

theorem Lexer.reads_trans {l k m : Lexer} {xs ys : List Char}
    (h1 : l.Reads xs k) (h2 : k.Reads ys m) : l.Reads (xs ++ ys) m := by
  obtain ⟨hs1, hc1, hd1⟩ := h1
  obtain ⟨hs2, hc2, hd2⟩ := h2
  refine ⟨by rw [hs2, hs1], by rw [hc2, hc1, List.length_append, Nat.add_assoc], ?_⟩
  rw [hd1, ← hs1, hd2, List.append_assoc]

theorem Lexer.peek_zero_of_drop {l : Lexer} {c : Char} {rest : List Char}
    (h : l.source.drop l.curr = c :: rest) : l.peek 0 = c := by
  have hlt : l.curr < l.source.length := by
    by_contra hge
    rw [List.drop_eq_nil_of_le (Nat.le_of_not_lt hge)] at h
    exact List.noConfusion h
  have hget : l.source[l.curr] = c := by
    have := List.drop_eq_getElem_cons hlt
    rw [this] at h
    exact (List.cons.inj h).1
  simp [Lexer.peek, hlt, hget]

theorem Lexer.isAtEnd_of_drop {l : Lexer} {c : Char} {rest : List Char}
    (h : l.source.drop l.curr = c :: rest) : l.isAtEnd = false := by
  have hlt : l.curr < l.source.length := by
    by_contra hge
    rw [List.drop_eq_nil_of_le (Nat.le_of_not_lt hge)] at h
    exact List.noConfusion h
  simp [Lexer.isAtEnd, hlt]

theorem Lexer.drop_of_not_isAtEnd {l : Lexer} (h : l.isAtEnd = false) :
    l.source.drop l.curr = l.peek 0 :: l.source.drop (l.curr + 1) := by
  have hlt : l.curr < l.source.length := by
    simpa [Lexer.isAtEnd] using h
  rw [List.drop_eq_getElem_cons hlt]
  simp [Lexer.peek, hlt, List.getD_eq_getElem _ _ hlt]

theorem Lexer.advance_of_isAtEnd {l : Lexer} (h : l.isAtEnd = true) :
    l.advance = (NUL, l) := by
  simp [Lexer.advance, h]

theorem Lexer.advance_of_not_isAtEnd {l : Lexer} (h : l.isAtEnd = false) :
    l.advance = (l.peek 0, { l with column := l.column + 1, curr := l.curr + 1 }) := by
  have hlt : l.curr < l.source.length := by
    simpa [Lexer.isAtEnd] using h
  simp [Lexer.advance, h, Lexer.peek, hlt]

theorem Lexer.advance_reads {l : Lexer} (h : l.isAtEnd = false) :
    l.Reads [l.peek 0] l.advance.2 := by
  rw [Lexer.advance_of_not_isAtEnd h]
  refine ⟨rfl, rfl, ?_⟩
  simpa using Lexer.drop_of_not_isAtEnd h

theorem Lexer.advance_start (l : Lexer) : l.advance.2.start = l.start := by
  unfold Lexer.advance
  split <;> rfl

theorem Lexer.advance_tokenStartPosition (l : Lexer) :
    l.advance.2.tokenStartPosition = l.tokenStartPosition := by
  unfold Lexer.advance
  split <;> rfl

end scriptlang

namespace scriptlang

theorem Lexer.scans_refl (l : Lexer) : l.Scans [] l :=
  ⟨l.reads_refl, rfl, rfl⟩

theorem Lexer.scans_trans {l k m : Lexer} {xs ys : List Char}
    (h1 : l.Scans xs k) (h2 : k.Scans ys m) : l.Scans (xs ++ ys) m :=
  ⟨Lexer.reads_trans h1.1 h2.1, h2.2.1.trans h1.2.1, h2.2.2.trans h1.2.2⟩

theorem Lexer.advance_scans {l : Lexer} (h : l.isAtEnd = false) :
    l.Scans [l.peek 0] l.advance.2 :=
  ⟨Lexer.advance_reads h, l.advance_start, l.advance_tokenStartPosition⟩

theorem Lexer.drop_eq_nil_of_isAtEnd {l : Lexer} (h : l.isAtEnd = true) :
    l.source.drop l.curr = [] := by
  apply List.drop_eq_nil_of_le
  simpa [Lexer.isAtEnd] using h

theorem Lexer.advanceWhileLoop_scans (p : Char → Bool) :
    ∀ (fuel : Nat) (l : Lexer), l.source.length - l.curr ≤ fuel →
      l.Scans ((l.source.drop l.curr).takeWhile p) (Lexer.advanceWhileLoop p fuel l) := by
  intro fuel
  induction fuel with
  | zero =>
    intro l hl
    have hend : l.isAtEnd = true := by
      simp only [Lexer.isAtEnd, decide_eq_true_eq]
      omega
    rw [Lexer.drop_eq_nil_of_isAtEnd hend]
    exact l.scans_refl
  | succ n ih =>
    intro l hl
    unfold Lexer.advanceWhileLoop
    cases hend : l.isAtEnd with
    | true =>
      rw [Lexer.drop_eq_nil_of_isAtEnd hend]
      simpa using l.scans_refl
    | false =>
      have hdrop := Lexer.drop_of_not_isAtEnd hend
      cases hp : p (l.peek 0) with
      | false =>
        rw [hdrop, List.takeWhile_cons, hp]
        simpa using l.scans_refl
      | true =>
        have hadv := Lexer.advance_scans hend
        have hlt : l.curr < l.source.length := by
          simpa [Lexer.isAtEnd] using hend
        have hsrc : l.advance.2.source = l.source := hadv.1.1
        have hcur : l.advance.2.curr = l.curr + 1 := by simpa using hadv.1.2.1
        have hfuel : l.advance.2.source.length - l.advance.2.curr ≤ n := by
          rw [hsrc, hcur]
          omega
        have hrec := ih l.advance.2 hfuel
        rw [hsrc, hcur] at hrec
        rw [hdrop, List.takeWhile_cons, hp]
        simpa using Lexer.scans_trans hadv hrec

theorem Lexer.advanceWhile_scans (p : Char → Bool) (l : Lexer) :
    l.Scans ((l.source.drop l.curr).takeWhile p) (l.advanceWhile p) :=
  Lexer.advanceWhileLoop_scans p _ l (Nat.le_refl _)

/-- After `advanceWhile p` the text left is what `dropWhile p` leaves. -/
theorem Lexer.advanceWhile_drop (p : Char → Bool) (l : Lexer) :
    l.source.drop (l.advanceWhile p).curr = (l.source.drop l.curr).dropWhile p := by
  have h := (l.advanceWhile_scans p).1.2.2
  have h2 := List.takeWhile_append_dropWhile p (l.source.drop l.curr)
  exact (List.append_cancel_left (h2.trans h)).symm

theorem Lexer.match_scans (l : Lexer) (c : Char) :
    ∃ xs, l.Scans xs (l.match_ c).2 := by
  unfold Lexer.match_
  by_cases hc : l.peek 0 = c
  · rw [if_pos hc]
    cases hend : l.isAtEnd with
    | true =>
      rw [Lexer.advance_of_isAtEnd hend]
      exact ⟨[], l.scans_refl⟩
    | false => exact ⟨_, Lexer.advance_scans hend⟩
  · rw [if_neg hc]
    exact ⟨[], l.scans_refl⟩

theorem Lexer.advance_scans_any (l : Lexer) : ∃ xs, l.Scans xs l.advance.2 := by
  cases hend : l.isAtEnd with
  | true =>
    rw [Lexer.advance_of_isAtEnd hend]
    exact ⟨[], l.scans_refl⟩
  | false => exact ⟨_, Lexer.advance_scans hend⟩

end scriptlang

namespace scriptlang

theorem dropWhile_head_false {p : Char → Bool} :
    ∀ {xs : List Char} {c : Char} {ys : List Char}, xs.dropWhile p = c :: ys → p c = false := by
  intro xs
  induction xs with
  | nil => intro c ys h; exact List.noConfusion h
  | cons x xs ih =>
    intro c ys h
    rw [List.dropWhile_cons] at h
    cases hx : p x with
    | true =>
      rw [hx] at h
      exact ih h
    | false =>
      rw [hx] at h
      have := (List.cons.inj h).1
      rw [← this]
      exact hx

theorem isSkippedText_comment :
    ∀ (cs rest : List Char), (∀ c ∈ cs, (c != '\n') = true) →
      isSkippedText true (cs ++ rest) = isSkippedText true rest := by
  intro cs
  induction cs with
  | nil => intro rest _; rfl
  | cons c cs ih =>
    intro rest h
    have hc : (c != '\n') = true := h c (List.mem_cons_self c cs)
    have hcs : ∀ d ∈ cs, (d != '\n') = true := fun d hd => h d (List.mem_cons_of_mem c hd)
    rw [List.cons_append, isSkippedText, hc]
    exact ih rest hcs

theorem Lexer.skipWhiteSpacesLoop_reads :
    ∀ (fuel : Nat) (l : Lexer), l.source.length - l.curr ≤ fuel →
      ∃ sk, l.Reads sk (Lexer.skipWhiteSpacesLoop fuel l) ∧ isSkippedText false sk = true := by
  intro fuel
  induction fuel with
  | zero =>
    intro l _
    exact ⟨[], l.reads_refl, rfl⟩
  | succ n ih =>
    intro l hl
    unfold Lexer.skipWhiteSpacesLoop
    cases hend : l.isAtEnd with
    | true => exact ⟨[], by simpa using l.reads_refl, rfl⟩
    | false =>
      have hlt : l.curr < l.source.length := by simpa [Lexer.isAtEnd] using hend
      have hadv := Lexer.advance_reads hend
      have hadvcur : l.advance.2.curr = l.curr + 1 := by simpa using hadv.2.1
      simp only [Bool.false_eq_true, if_false]
      by_cases hhash : l.peek 0 = '#'
      · rw [if_pos hhash]
        have hsc := l.advanceWhile_scans (fun c => c != '\n')
        have hdw := l.advanceWhile_drop (fun c => c != '\n')
        generalize l.advanceWhile (fun c => c != '\n') = l1 at hsc hdw
        have hdrop := Lexer.drop_of_not_isAtEnd hend
        rw [hhash] at hdrop
        have htw : (l.source.drop l.curr).takeWhile (fun c => c != '\n')
            = '#' :: (l.source.drop (l.curr + 1)).takeWhile (fun c => c != '\n') := by
          rw [hdrop, List.takeWhile_cons]
          rfl
        have hall : ∀ c ∈ (l.source.drop (l.curr + 1)).takeWhile (fun c => c != '\n'),
            (c != '\n') = true :=
          fun c hc => List.mem_takeWhile_imp (p := fun c => c != '\n') hc
        rw [htw] at hsc
        have hsrc1 : l1.source = l.source := hsc.1.1
        have hcur1 : l1.curr = l.curr + (1 + ((l.source.drop (l.curr + 1)).takeWhile
            (fun c => c != '\n')).length) := by
          have := hsc.1.2.1
          simp only [List.length_cons] at this
          omega
        cases hend1 : l1.isAtEnd with
        | true =>
          simp only [if_true]
          rw [Lexer.advance_of_isAtEnd hend1]
          have hfuel : l1.source.length - l1.curr ≤ n := by
            have : l1.source.length ≤ l1.curr := by simpa [Lexer.isAtEnd] using hend1
            omega
          obtain ⟨sk, hr, _⟩ := ih l1 hfuel
          have hnil : sk = [] := by
            have h3 := hr.2.2
            rw [Lexer.drop_eq_nil_of_isAtEnd hend1] at h3
            exact (List.append_eq_nil.mp h3.symm).1
          subst hnil
          refine ⟨_, Lexer.reads_trans hsc.1 hr, ?_⟩
          simp only [List.append_nil]
          rw [isSkippedText]
          simp only [if_true]
          have := isSkippedText_comment _ [] hall
          simpa using this
        | false =>
          simp only [Bool.false_eq_true, if_false]
          have hd1 := Lexer.drop_of_not_isAtEnd hend1
          have hnl : l1.peek 0 = '\n' := by
            have h4 : (l.source.drop l.curr).dropWhile (fun c => c != '\n')
                = l1.peek 0 :: l1.source.drop (l1.curr + 1) := by
              rw [← hdw, ← hsrc1]
              exact hd1
            have := dropWhile_head_false h4
            simpa using this
          have hu : l1.Reads ['\n']
              ({ l1 with line := l1.line + 1, column := 1 } : Lexer).advance.2 := by
            have hendu : ({ l1 with line := l1.line + 1, column := 1 } : Lexer).isAtEnd = false :=
              hend1
            have := Lexer.advance_reads hendu
            have hpk : ({ l1 with line := l1.line + 1, column := 1 } : Lexer).peek 0 = '\n' :=
              hnl
            rw [hpk] at this
            exact this
          have hfuel : ({ l1 with line := l1.line + 1, column := 1 } : Lexer).advance.2.source.length
              - ({ l1 with line := l1.line + 1, column := 1 } : Lexer).advance.2.curr ≤ n := by
            rw [hu.1, hu.2.1, hsrc1]
            simp only [List.length_singleton]
            omega
          obtain ⟨sk, hr, hsk⟩ := ih _ hfuel
          refine ⟨_, Lexer.reads_trans (Lexer.reads_trans hsc.1 hu) hr, ?_⟩
          simp only [List.cons_append, List.append_assoc, List.nil_append]
          rw [isSkippedText]
          simp only [if_true]
          rw [isSkippedText_comment _ _ hall, isSkippedText]
          simpa using hsk
      · rw [if_neg hhash]
        by_cases hnl : l.peek 0 = '\n'
        · rw [if_pos hnl]
          have hu : l.Reads ['\n']
              ({ l with line := l.line + 1, column := 1 } : Lexer).advance.2 := by
            have hendu : ({ l with line := l.line + 1, column := 1 } : Lexer).isAtEnd = false :=
              hend
            have := Lexer.advance_reads hendu
            have hpk : ({ l with line := l.line + 1, column := 1 } : Lexer).peek 0 = '\n' := hnl
            rw [hpk] at this
            exact this
          have hfuel : ({ l with line := l.line + 1, column := 1 } : Lexer).advance.2.source.length
              - ({ l with line := l.line + 1, column := 1 } : Lexer).advance.2.curr ≤ n := by
            rw [hu.1, hu.2.1]
            simp only [List.length_singleton]
            omega
          obtain ⟨sk, hr, hsk⟩ := ih _ hfuel
          refine ⟨_, Lexer.reads_trans hu hr, ?_⟩
          simp only [List.cons_append, List.nil_append]
          rw [isSkippedText]
          simpa using hsk
        · rw [if_neg hnl]
          by_cases hws : l.peek 0 = '\t' ∨ l.peek 0 = ' ' ∨ l.peek 0 = '\r'
          · rw [if_pos hws]
            have hfuel : l.advance.2.source.length - l.advance.2.curr ≤ n := by
              rw [hadv.1, hadvcur]
              omega
            obtain ⟨sk, hr, hsk⟩ := ih _ hfuel
            refine ⟨_, Lexer.reads_trans hadv hr, ?_⟩
            simp only [List.cons_append, List.nil_append]
            rw [isSkippedText]
            rw [if_neg hhash, if_pos (by tauto)]
            exact hsk
          · rw [if_neg hws]
            exact ⟨[], l.reads_refl, rfl⟩

theorem Lexer.skipWhiteSpaces_reads (l : Lexer) :
    ∃ sk, l.Reads sk l.skipWhiteSpaces ∧ isSkippedText false sk = true :=
  Lexer.skipWhiteSpacesLoop_reads _ l (Nat.le_refl _)

end scriptlang

namespace scriptlang

theorem Lexer.emits_here (l : Lexer) (ty : TokenType) : l.Emits (l.makeToken ty, l) :=
  ⟨ty, [], l.scans_refl, rfl⟩

theorem Lexer.emits_match (l : Lexer) (c : Char) (ty : TokenType) :
    l.Emits ((l.match_ c).2.makeToken ty, (l.match_ c).2) := by
  obtain ⟨xs, h⟩ := l.match_scans c
  exact ⟨ty, xs, h, rfl⟩

theorem Lexer.emits_of_scans {l k : Lexer} {xs : List Char} (h : l.Scans xs k)
    {r : Token × Lexer} (hr : k.Emits r) : l.Emits r := by
  obtain ⟨ty, ys, hs, he⟩ := hr
  exact ⟨ty, xs ++ ys, Lexer.scans_trans h hs, he⟩

theorem Lexer.stringLiteral_emits (l : Lexer) : l.Emits l.stringLiteral := by
  unfold Lexer.stringLiteral
  have h1 := l.advanceWhile_scans (fun c => c != '"')
  simp only
  split
  · exact Lexer.emits_of_scans h1 (Lexer.emits_here _ _)
  · obtain ⟨ys, h2⟩ := (l.advanceWhile (fun c => c != '"')).advance_scans_any
    exact Lexer.emits_of_scans h1 (Lexer.emits_of_scans h2 (Lexer.emits_here _ _))

theorem Lexer.numberMantissa_scans (l : Lexer) : ∃ xs, l.Scans xs l.numberMantissa := by
  unfold Lexer.numberMantissa
  have h1 := l.advanceWhile_scans Char.isDigit
  split
  · obtain ⟨ys, h⟩ := (l.advanceWhile Char.isDigit).advance_scans_any
    exact ⟨_, Lexer.scans_trans h1 (Lexer.scans_trans h
      (Lexer.advanceWhile_scans Char.isDigit _))⟩
  · exact ⟨_, h1⟩

theorem Lexer.numberExponent_scans (l : Lexer) : ∃ xs, l.Scans xs l.numberExponent := by
  unfold Lexer.numberExponent
  split
  · obtain ⟨ys, h⟩ := l.advance_scans_any
    exact ⟨_, Lexer.scans_trans h (Lexer.advanceWhile_scans Char.isDigit _)⟩
  · exact ⟨_, Lexer.advanceWhile_scans Char.isDigit _⟩

theorem Lexer.numberLiteral_emits (l : Lexer) : l.Emits l.numberLiteral := by
  unfold Lexer.numberLiteral
  obtain ⟨xs1, h1⟩ := l.numberMantissa_scans
  split
  · obtain ⟨xs2, h2⟩ := l.numberMantissa.match_scans 'e'
    obtain ⟨xs3, h3⟩ := (l.numberMantissa.match_ 'e').2.numberExponent_scans
    exact Lexer.emits_of_scans h1 (Lexer.emits_of_scans h2 (Lexer.emits_of_scans h3
      (Lexer.emits_here _ _)))
  · split
    · obtain ⟨xs2, h2⟩ := l.numberMantissa.match_scans 'E'
      obtain ⟨xs3, h3⟩ := (l.numberMantissa.match_ 'E').2.numberExponent_scans
      exact Lexer.emits_of_scans h1 (Lexer.emits_of_scans h2 (Lexer.emits_of_scans h3
        (Lexer.emits_here _ _)))
    · exact Lexer.emits_of_scans h1 (Lexer.emits_here _ _)

theorem Lexer.identifier_emits (l : Lexer) : l.Emits l.identifier := by
  unfold Lexer.identifier
  exact Lexer.emits_of_scans (l.advanceWhile_scans isValidIdentiferCharacter)
    (Lexer.emits_here _ _)

theorem Lexer.scanToken_emits (c : Char) (l : Lexer) : l.Emits (Lexer.scanToken c l) := by
  unfold Lexer.scanToken
  by_cases h0 : c = NUL
  · rw [if_pos h0]
    exact ⟨TokenType.Eof, [], ⟨⟨rfl, rfl, by simp⟩, rfl, rfl⟩, rfl⟩
  rw [if_neg h0]
  by_cases h1 : c = '+'
  · rw [if_pos h1]
    exact Lexer.emits_here _ _
  rw [if_neg h1]
  by_cases h2 : c = '-'
  · rw [if_pos h2]
    exact Lexer.emits_here _ _
  rw [if_neg h2]
  by_cases h3 : c = '*'
  · rw [if_pos h3]
    exact Lexer.emits_match _ _ _
  rw [if_neg h3]
  by_cases h4 : c = '/'
  · rw [if_pos h4]
    exact Lexer.emits_here _ _
  rw [if_neg h4]
  by_cases h5 : c = '>'
  · rw [if_pos h5]
    exact Lexer.emits_match _ _ _
  rw [if_neg h5]
  by_cases h6 : c = '<'
  · rw [if_pos h6]
    exact Lexer.emits_match _ _ _
  rw [if_neg h6]
  by_cases h7 : c = '='
  · rw [if_pos h7]
    exact Lexer.emits_match _ _ _
  rw [if_neg h7]
  by_cases h8 : c = '!'
  · rw [if_pos h8]
    exact Lexer.emits_match _ _ _
  rw [if_neg h8]
  by_cases h9 : c = '.'
  · rw [if_pos h9]
    exact Lexer.emits_here _ _
  rw [if_neg h9]
  by_cases h10 : c = ','
  · rw [if_pos h10]
    exact Lexer.emits_here _ _
  rw [if_neg h10]
  by_cases h11 : c = ';'
  · rw [if_pos h11]
    exact Lexer.emits_here _ _
  rw [if_neg h11]
  by_cases h12 : c = '('
  · rw [if_pos h12]
    exact Lexer.emits_here _ _
  rw [if_neg h12]
  by_cases h13 : c = ')'
  · rw [if_pos h13]
    exact Lexer.emits_here _ _
  rw [if_neg h13]
  by_cases h14 : c = '{'
  · rw [if_pos h14]
    exact Lexer.emits_here _ _
  rw [if_neg h14]
  by_cases h15 : c = '}'
  · rw [if_pos h15]
    exact Lexer.emits_here _ _
  rw [if_neg h15]
  by_cases h16 : c = '"'
  · rw [if_pos h16]
    exact Lexer.stringLiteral_emits _
  rw [if_neg h16]
  by_cases hd : c.isDigit = true
  · rw [if_pos hd]
    exact Lexer.numberLiteral_emits _
  rw [if_neg hd]
  by_cases ha : c.isAlpha = true ∨ c = '_'
  · rw [if_pos ha]
    exact Lexer.identifier_emits _
  rw [if_neg ha]
  exact Lexer.emits_here _ _

theorem Lexer.scanToken_type_of_NUL (l : Lexer) :
    (Lexer.scanToken NUL l).1.type = TokenType.Eof := by
  unfold Lexer.scanToken
  rw [if_pos rfl]
  rfl

/-- What `next` returns: the token is made in the returned state, reached from the
state at the token start by reading the lexeme; only an `Eof` token can have read
nothing. -/
theorem Lexer.next_emits (l : Lexer) :
    ∃ ty xs, l.atTokenStart.Scans xs l.next.2 ∧ l.next.1 = l.next.2.makeToken ty ∧
      (l.next.1.type ≠ TokenType.Eof → xs ≠ []) := by
  unfold Lexer.next
  generalize l.atTokenStart = l1
  obtain ⟨ty, ys, hs, he⟩ := Lexer.scanToken_emits l1.advance.1 l1.advance.2
  cases hend : l1.isAtEnd with
  | true =>
    rw [Lexer.advance_of_isAtEnd hend] at hs he ⊢
    refine ⟨ty, ys, hs, he, ?_⟩
    intro hne
    exact absurd (Lexer.scanToken_type_of_NUL l1) hne
  | false =>
    have h1 := Lexer.advance_scans hend
    refine ⟨ty, [l1.peek 0] ++ ys, Lexer.scans_trans h1 hs, he, ?_⟩
    intro _
    simp

end scriptlang

namespace scriptlang

theorem slice_of_drop {src : List Char} {a : Nat} {xs rest : List Char}
    (h : src.drop a = xs ++ rest) : slice src a (a + xs.length) = xs := by
  unfold slice
  rw [h, Nat.add_sub_cancel_left]
  exact List.take_left' rfl

theorem slice_append {src : List Char} {a b c : Nat} (hab : a ≤ b) (hbc : b ≤ c) :
    slice src a b ++ slice src b c = slice src a c := by
  unfold slice
  have h1 : src.drop b = (src.drop a).drop (b - a) := by
    rw [List.drop_drop]
    congr 1
    omega
  have h2 : c - a = (b - a) + (c - b) := by omega
  rw [h1, h2, List.take_add]

theorem slice_zero (src : List Char) (b : Nat) : slice src 0 b = src.take b := by
  simp [slice]

/-- Summary of one `next()` call from a lexer at offset `l.curr`. -/
theorem Lexer.next_spec (l : Lexer) :
    ∃ sk lx,
      isSkippedText false sk = true ∧
      l.source.drop l.curr = sk ++ l.source.drop (l.curr + sk.length) ∧
      l.source.drop (l.curr + sk.length) = lx ++ l.source.drop (l.curr + sk.length + lx.length) ∧
      l.next.2.source = l.source ∧
      l.next.2.curr = l.curr + sk.length + lx.length ∧
      l.next.1.lexeme = lx ∧
      l.next.1.position.start.offset = l.curr + sk.length ∧
      l.next.1.position.end_.offset = l.curr + sk.length + lx.length ∧
      (l.next.1.type ≠ TokenType.Eof → lx ≠ []) := by
  obtain ⟨sk, hsk, hskip⟩ := l.skipWhiteSpaces_reads
  obtain ⟨ty, lx, hs, he, hne⟩ := l.next_emits
  obtain ⟨hsrc0, hcur0, hdrop0⟩ := hsk
  obtain ⟨⟨hsrc1, hcur1, hdrop1⟩, hstart, htsp⟩ := hs
  have hats : l.atTokenStart.source = l.source := hsrc0
  have hatc : l.atTokenStart.curr = l.curr + sk.length := hcur0
  have hatst : l.atTokenStart.start = l.curr + sk.length := hcur0
  have hattsp : l.atTokenStart.tokenStartPosition.offset = l.curr + sk.length := hcur0
  rw [hats] at hsrc1 hdrop1
  rw [hatc] at hcur1 hdrop1
  rw [hatst] at hstart
  rw [hcur1] at hdrop1
  rw [hcur0] at hdrop0
  refine ⟨sk, lx, hskip, hdrop0, hdrop1, hsrc1, hcur1, ?_, ?_, ?_, hne⟩
  · rw [he]
    show (l.next.2.source.drop l.next.2.start).take (l.next.2.curr - l.next.2.start) = lx
    rw [hsrc1, hstart, hcur1, hdrop1, Nat.add_sub_cancel_left]
    exact List.take_left' rfl
  · rw [he]
    show l.next.2.tokenStartPosition.offset = _
    rw [htsp, hattsp]
  · rw [he]
    exact hcur1

theorem Lexer.tokensLoop_contiguous :
    ∀ (fuel : Nat) (l : Lexer), l.curr ≤ l.source.length →
      Contiguous l.source l.curr (Lexer.tokensLoop fuel l) := by
  intro fuel
  induction fuel with
  | zero => intro l _; exact True.intro
  | succ n ih =>
    intro l hl
    obtain ⟨sk, lx, hskip, hd0, hd1, hsrc, hcur, hlex, hst, hen, _⟩ := l.next_spec
    have hlen : l.curr + sk.length + lx.length ≤ l.source.length := by
      have h1 := congrArg List.length hd0
      have h2 := congrArg List.length hd1
      simp only [List.length_append, List.length_drop] at h1 h2
      omega
    have hhead : Contiguous l.source l.curr [l.next.1] ∧
        (Contiguous l.source l.next.1.position.end_.offset (Lexer.tokensLoop n l.next.2) →
          Contiguous l.source l.curr (l.next.1 :: Lexer.tokensLoop n l.next.2)) := by
      have hcore : l.curr ≤ l.next.1.position.start.offset ∧
          l.next.1.position.start.offset ≤ l.next.1.position.end_.offset ∧
          l.next.1.position.end_.offset ≤ l.source.length ∧
          isSkippedText false (slice l.source l.curr l.next.1.position.start.offset) = true ∧
          l.next.1.lexeme = slice l.source l.next.1.position.start.offset
            l.next.1.position.end_.offset := by
        rw [hst, hen, hlex]
        refine ⟨by omega, by omega, hlen, ?_, ?_⟩
        · rw [slice_of_drop hd0]
          exact hskip
        · rw [slice_of_drop hd1]
      obtain ⟨c1, c2, c3, c4, c5⟩ := hcore
      exact ⟨⟨c1, c2, c3, c4, c5, True.intro⟩, fun h => ⟨c1, c2, c3, c4, c5, h⟩⟩
    unfold Lexer.tokensLoop
    split
    · exact hhead.1
    · apply hhead.2
      have hrec := ih l.next.2 (by rw [hsrc, hcur]; exact hlen)
      rw [hsrc, hcur, ← hen] at hrec
      exact hrec

theorem Lexer.tokensLoop_eof :
    ∀ (fuel : Nat) (l : Lexer), l.source.length - l.curr < fuel →
      ∃ toks eof, Lexer.tokensLoop fuel l = toks ++ [eof] ∧ eof.type = TokenType.Eof ∧
        ∀ t ∈ toks, t.type ≠ TokenType.Eof := by
  intro fuel
  induction fuel with
  | zero => intro l h; exact absurd h (Nat.not_lt_zero _)
  | succ n ih =>
    intro l hl
    unfold Lexer.tokensLoop
    by_cases he : l.next.1.type = TokenType.Eof
    · rw [if_pos he]
      exact ⟨[], l.next.1, rfl, he, fun t ht => absurd ht (List.not_mem_nil t)⟩
    · rw [if_neg he]
      obtain ⟨sk, lx, _, hd0, hd1, hsrc, hcur, _, _, _, hne⟩ := l.next_spec
      have hpos : 0 < lx.length := List.length_pos.mpr (hne he)
      have hlen : l.curr + sk.length + lx.length ≤ l.source.length ∨ l.source.length ≤ l.curr := by
        have h1 := congrArg List.length hd0
        have h2 := congrArg List.length hd1
        simp only [List.length_append, List.length_drop] at h1 h2
        omega
      have hfuel : l.next.2.source.length - l.next.2.curr < n := by
        rw [hsrc, hcur]
        have h2 := congrArg List.length hd1
        simp only [List.length_append, List.length_drop] at h2
        omega
      obtain ⟨toks, eof, htoks, heof, hall⟩ := ih l.next.2 hfuel
      refine ⟨l.next.1 :: toks, eof, by rw [htoks]; rfl, heof, ?_⟩
      intro t ht
      rcases List.mem_cons.mp ht with h | h
      · rw [h]; exact he
      · exact hall t h

theorem interleave_eq_slice (src : List Char) :
    ∀ (ts : List Token) (pos : Nat), Contiguous src pos ts →
      interleave src pos ts = slice src pos (endOffset pos ts) ∧ pos ≤ endOffset pos ts := by
  intro ts
  induction ts with
  | nil =>
    intro pos _
    simp [interleave, endOffset, slice]
  | cons t ts ih =>
    intro pos h
    obtain ⟨h1, h2, _, _, h5, h6⟩ := h
    obtain ⟨ih1, ih2⟩ := ih _ h6
    refine ⟨?_, ?_⟩
    · rw [interleave, endOffset, ih1, h5, slice_append h1 h2, slice_append (Nat.le_trans h1 h2) ih2]
    · rw [endOffset]
      omega

theorem endOffset_append_singleton :
    ∀ (ts : List Token) (pos : Nat) (t : Token),
      endOffset pos (ts ++ [t]) = t.position.end_.offset := by
  intro ts
  induction ts with
  | nil => intro pos t; rfl
  | cons u us ih => intro pos t; exact ih _ t

end scriptlang

namespace scriptlang

theorem isDigit_false_of_isAlpha {c : Char} (h : c.isAlpha = true) : c.isDigit = false := by
  simp only [Char.isAlpha, Char.isUpper, Char.isLower, Char.isDigit, Bool.or_eq_true,
    Bool.and_eq_true, decide_eq_true_eq, ge_iff_le, UInt32.le_def, BitVec.le_def] at h
  simp only [Char.isDigit, Bool.and_eq_false_imp, decide_eq_true_eq, decide_eq_false_iff_not,
    ge_iff_le, UInt32.le_def, BitVec.le_def]
  intro h2
  have e1 : (65 : UInt32).toBitVec.toNat = 65 := rfl
  have e2 : (90 : UInt32).toBitVec.toNat = 90 := rfl
  have e3 : (97 : UInt32).toBitVec.toNat = 97 := rfl
  have e4 : (122 : UInt32).toBitVec.toNat = 122 := rfl
  have e5 : (48 : UInt32).toBitVec.toNat = 48 := rfl
  have e6 : (57 : UInt32).toBitVec.toNat = 57 := rfl
  rw [e1, e2, e3, e4] at h
  rw [e5] at h2
  rw [e6]
  omega

end scriptlang

namespace scriptlang

/-- Characters tested by `Lexer::next` and `Lexer::skipWhiteSpaces` before the
identifier case; none of them can start an identifier. -/
theorem identStart_not_special :
    ∀ d ∈ [NUL, '+', '-', '*', '/', '>', '<', '=', '!', '.', ',', ';', '(', ')', '{', '}', '"',
      '#', '\n', '\t', ' ', '\r'], ¬ (d.isAlpha = true ∨ d = '_') := by
  decide

theorem isDigit_false_of_identStart {c : Char} (hc : c.isAlpha = true ∨ c = '_') :
    ¬ c.isDigit = true := by
  rcases hc with h | h
  · rw [isDigit_false_of_isAlpha h]
    exact Bool.false_ne_true
  · rw [h]
    decide

theorem Lexer.scanToken_of_identStart {c : Char} (hc : c.isAlpha = true ∨ c = '_') (l : Lexer) :
    Lexer.scanToken c l = l.identifier := by
  have hs : ∀ d, d ∈ [NUL, '+', '-', '*', '/', '>', '<', '=', '!', '.', ',', ';', '(', ')', '{',
      '}', '"', '#', '\n', '\t', ' ', '\r'] → c ≠ d := by
    intro d hd e
    exact identStart_not_special d hd (e ▸ hc)
  unfold Lexer.scanToken
  rw [if_neg (hs NUL (by decide)), if_neg (hs '+' (by decide)), if_neg (hs '-' (by decide)),
    if_neg (hs '*' (by decide)), if_neg (hs '/' (by decide)), if_neg (hs '>' (by decide)),
    if_neg (hs '<' (by decide)), if_neg (hs '=' (by decide)), if_neg (hs '!' (by decide)),
    if_neg (hs '.' (by decide)), if_neg (hs ',' (by decide)), if_neg (hs ';' (by decide)),
    if_neg (hs '(' (by decide)), if_neg (hs ')' (by decide)), if_neg (hs '{' (by decide)),
    if_neg (hs '}' (by decide)), if_neg (hs '"' (by decide)),
    if_neg (isDigit_false_of_identStart hc), if_pos hc]

theorem Lexer.skipWhiteSpaces_of_identStart {l : Lexer} {c : Char} {rest : List Char}
    (hsrc : l.source.drop l.curr = c :: rest) (hc : c.isAlpha = true ∨ c = '_') :
    l.skipWhiteSpaces = l := by
  have hs : ∀ d, d ∈ [NUL, '+', '-', '*', '/', '>', '<', '=', '!', '.', ',', ';', '(', ')', '{',
      '}', '"', '#', '\n', '\t', ' ', '\r'] → c ≠ d := by
    intro d hd e
    exact identStart_not_special d hd (e ▸ hc)
  have hend := Lexer.isAtEnd_of_drop hsrc
  have hpk := Lexer.peek_zero_of_drop hsrc
  have hlt : l.curr < l.source.length := by simpa [Lexer.isAtEnd] using hend
  obtain ⟨k, hk⟩ : ∃ k, l.source.length - l.curr = k + 1 :=
    ⟨l.source.length - l.curr - 1, by omega⟩
  unfold Lexer.skipWhiteSpaces
  rw [hk]
  unfold Lexer.skipWhiteSpacesLoop
  rw [hend, hpk]
  simp only [Bool.false_eq_true, if_false]
  rw [if_neg (hs '#' (by decide)), if_neg (hs '\n' (by decide)), if_neg]
  intro h
  rcases h with h | h | h
  · exact hs '\t' (by decide) h
  · exact hs ' ' (by decide) h
  · exact hs '\r' (by decide) h

theorem Lexer.identifier_lexeme {l : Lexer} {c : Char} {rest : List Char}
    (hsrc : l.source.drop l.start = c :: rest) (hcur : l.curr = l.start + 1) :
    l.identifier.1.lexeme = c :: rest.takeWhile isValidIdentiferCharacter := by
  have hrest : l.source.drop l.curr = rest := by
    have h1 : l.source.drop l.curr = (l.source.drop l.start).drop 1 := by
      rw [List.drop_drop, hcur, Nat.add_comm]
    rw [h1, hsrc]
    rfl
  have hsc := l.advanceWhile_scans isValidIdentiferCharacter
  rw [hrest] at hsc
  obtain ⟨⟨h1, h2, _⟩, h4, _⟩ := hsc
  show ((l.advanceWhile isValidIdentiferCharacter).source.drop
    (l.advanceWhile isValidIdentiferCharacter).start).take
      ((l.advanceWhile isValidIdentiferCharacter).curr
        - (l.advanceWhile isValidIdentiferCharacter).start) = _
  rw [h1, h4, h2, hsrc, hcur]
  have hlen : l.start + 1 + (rest.takeWhile isValidIdentiferCharacter).length - l.start
      = (c :: rest.takeWhile isValidIdentiferCharacter).length := by
    simp only [List.length_cons]
    omega
  have hsplit : c :: rest = (c :: rest.takeWhile isValidIdentiferCharacter)
      ++ rest.dropWhile isValidIdentiferCharacter := by
    rw [List.cons_append, List.takeWhile_append_dropWhile]
  rw [hlen, hsplit]
  exact List.take_left' rfl

/-- Token returned by `next()` when the text at the cursor starts with a letter or
`_`: its lexeme is that character and the longest run of identifier characters
after it, and its type is the keyword table's entry for the lexeme, or
`Identifier` when there is none. -/
theorem Lexer.next_of_identStart {l : Lexer} {c : Char} {rest : List Char}
    (hsrc : l.source.drop l.curr = c :: rest) (hc : c.isAlpha = true ∨ c = '_') :
    l.next.1.lexeme = c :: rest.takeWhile isValidIdentiferCharacter ∧
    l.next.1.type =
      (match keywords.lookup l.next.1.lexeme with
        | some type => type
        | none => TokenType.Identifier) := by
  have hend := Lexer.isAtEnd_of_drop hsrc
  have hpk := Lexer.peek_zero_of_drop hsrc
  have hat : l.atTokenStart =
      { l with start := l.curr, tokenStartPosition := l.getCurrentPosition } := by
    unfold Lexer.atTokenStart
    rw [Lexer.skipWhiteSpaces_of_identStart hsrc hc]
  have hatend : l.atTokenStart.isAtEnd = false := by rw [hat]; exact hend
  have hatpk : l.atTokenStart.peek 0 = c := by rw [hat]; exact hpk
  have hnext : l.next = l.atTokenStart.advance.2.identifier := by
    unfold Lexer.next
    rw [Lexer.advance_of_not_isAtEnd hatend, hatpk]
    exact Lexer.scanToken_of_identStart hc _
  have hsrc2 : l.atTokenStart.advance.2.source.drop l.atTokenStart.advance.2.start
      = c :: rest := by
    rw [Lexer.advance_of_not_isAtEnd hatend, hat]
    exact hsrc
  have hcur2 : l.atTokenStart.advance.2.curr = l.atTokenStart.advance.2.start + 1 := by
    rw [Lexer.advance_of_not_isAtEnd hatend, hat]
  rw [hnext]
  exact ⟨Lexer.identifier_lexeme hsrc2 hcur2, rfl⟩

end scriptlang

namespace scriptlang

/-! ## Parser lemmas -/

theorem Lexer.scans_curr_le {l k : Lexer} {xs : List Char} (h : l.Scans xs k) :
    l.curr ≤ k.curr := by
  rw [h.1.2.1]
  exact Nat.le_add_right _ _

/-- A call of `next()` either ends the token stream or moves the cursor forward
inside the source; the source is kept. -/
theorem Lexer.next_progress (l : Lexer) :
    l.next.2.source = l.source ∧
    (l.next.2.hasNext = false ∨ (l.curr < l.source.length ∧ l.curr < l.next.2.curr)) := by
  obtain ⟨sk, hsk, _⟩ := l.skipWhiteSpaces_reads
  have hat_src : l.atTokenStart.source = l.source := hsk.1
  have hat_cur : l.curr ≤ l.atTokenStart.curr := by
    have : l.atTokenStart.curr = l.curr + sk.length := hsk.2.1
    omega
  obtain ⟨ty, xs, hs, _⟩ := Lexer.scanToken_emits l.atTokenStart.advance.1 l.atTokenStart.advance.2
  have hsrc2 : (Lexer.scanToken l.atTokenStart.advance.1 l.atTokenStart.advance.2).2.source
      = l.atTokenStart.advance.2.source := hs.1.1
  have hcur2 := Lexer.scans_curr_le hs
  refine ⟨?_, ?_⟩
  · show (Lexer.scanToken l.atTokenStart.advance.1 l.atTokenStart.advance.2).2.source = _
    rw [hsrc2]
    obtain ⟨ys, hadv⟩ := l.atTokenStart.advance_scans_any
    rw [hadv.1.1, hat_src]
  · show (Lexer.scanToken l.atTokenStart.advance.1 l.atTokenStart.advance.2).2.hasNext = false ∨ _
    by_cases hc : l.atTokenStart.advance.1 = NUL
    · left
      unfold Lexer.scanToken
      rw [if_pos hc]
    · right
      have hend : l.atTokenStart.isAtEnd = false := by
        cases h : l.atTokenStart.isAtEnd with
        | false => rfl
        | true =>
          rw [Lexer.advance_of_isAtEnd h] at hc
          exact absurd rfl hc
      have hlt : l.atTokenStart.curr < l.atTokenStart.source.length := by
        simpa [Lexer.isAtEnd] using hend
      have hadv := (Lexer.advance_reads hend).2.1
      simp only [List.length_singleton] at hadv
      rw [hat_src] at hlt
      refine ⟨by omega, ?_⟩
      show l.curr < (Lexer.scanToken l.atTokenStart.advance.1 l.atTokenStart.advance.2).2.curr
      omega

theorem Parser.advance_remaining {p : Parser} (h : p.isAtEnd = false) :
    p.advance.remaining < p.remaining := by
  have hadv : p.advance = { p with prev := p.curr, curr := p.lex.next.1, lex := p.lex.next.2 } := by
    unfold Parser.advance
    rw [h]
    rfl
  obtain ⟨hsrc, hprog⟩ := p.lex.next_progress
  unfold Parser.remaining
  rw [h]
  simp only [Bool.false_eq_true, if_false]
  rcases hprog with hn | ⟨hlt, hcur⟩
  · have : p.advance.isAtEnd = true := by
      rw [hadv]
      simp [Parser.isAtEnd, hn]
    rw [this]
    simp
  · split
    · omega
    · rw [hadv]
      show p.lex.next.2.source.length - p.lex.next.2.curr + 1 < _
      rw [hsrc]
      omega

theorem Parser.advance_reporter (p : Parser) : p.advance.reporter = p.reporter := by
  unfold Parser.advance
  split <;> rfl

theorem Parser.advance_panicMode (p : Parser) : p.advance.panicMode = p.panicMode := by
  unfold Parser.advance
  split <;> rfl

/-- `synchronize` reports nothing and stops either at the end of input, with the
panic flag cleared, or in front of a synchronisation keyword, with the panic flag
as it was. -/
theorem Parser.synchronizeLoop_spec :
    ∀ (fuel : Nat) (p : Parser), p.remaining < fuel →
      (Parser.synchronizeLoop fuel p).reporter = p.reporter ∧
      (((Parser.synchronizeLoop fuel p).isAtEnd = true ∧
          (Parser.synchronizeLoop fuel p).panicMode = false) ∨
        ((Parser.synchronizeLoop fuel p).isAtEnd = false ∧
          isSynchronizePoint (Parser.synchronizeLoop fuel p).peek.type = true ∧
          (Parser.synchronizeLoop fuel p).panicMode = p.panicMode)) := by
  intro fuel
  induction fuel with
  | zero => intro p h; exact absurd h (Nat.not_lt_zero _)
  | succ n ih =>
    intro p hp
    cases hend : p.isAtEnd with
    | true =>
      have e : Parser.synchronizeLoop (n + 1) p = { p with panicMode := false } := by
        rw [Parser.synchronizeLoop, hend]
        rfl
      rw [e]
      exact ⟨rfl, Or.inl ⟨hend, rfl⟩⟩
    | false =>
      cases hsync : isSynchronizePoint p.peek.type with
      | true =>
        have e : Parser.synchronizeLoop (n + 1) p = p := by
          rw [Parser.synchronizeLoop, hend, hsync]
          rfl
        rw [e]
        exact ⟨rfl, Or.inr ⟨hend, hsync, rfl⟩⟩
      | false =>
        have e : Parser.synchronizeLoop (n + 1) p = Parser.synchronizeLoop n p.advance := by
          rw [Parser.synchronizeLoop, hend, hsync]
          rfl
        rw [e]
        have hlt := Parser.advance_remaining hend
        obtain ⟨h1, h2⟩ := ih p.advance (by omega)
        rw [p.advance_reporter] at h1
        rw [p.advance_panicMode] at h2
        exact ⟨h1, h2⟩

theorem Parser.synchronize_spec (p : Parser) :
    p.synchronize.reporter = p.reporter ∧
    ((p.synchronize.isAtEnd = true ∧ p.synchronize.panicMode = false) ∨
      (p.synchronize.isAtEnd = false ∧ isSynchronizePoint p.synchronize.peek.type = true ∧
        p.synchronize.panicMode = p.panicMode)) := by
  apply Parser.synchronizeLoop_spec
  unfold Parser.remaining
  split <;> omega

/-- `synchronize` in front of a synchronisation keyword returns at once: nothing
changes, the panic flag included. -/
theorem Parser.synchronize_at_keyword {p : Parser} (hend : p.isAtEnd = false)
    (hsync : isSynchronizePoint p.peek.type = true) : p.synchronize = p := by
  unfold Parser.synchronize Parser.synchronizeLoop
  rw [hend, hsync]
  rfl

end scriptlang

namespace scriptlang

theorem eq_some_getD {α : Type} {o : Option α} (d : α) (h : o.isSome = true) :
    o = some (o.getD d) := by
  cases o with
  | none => exact absurd h (by simp)
  | some x => rfl

theorem Parser.match_of_ne {p : Parser} {type : TokenType} (h : p.peek.type ≠ type) :
    p.match_ type = (false, p) := by
  unfold Parser.match_ Parser.check
  rw [if_neg]
  simpa using h

theorem Parser.consume_of_ne {p : Parser} {type : TokenType} (message : String)
    (h : p.peek.type ≠ type) : p.consume type message = (none, p.error message) := by
  unfold Parser.consume
  rw [Parser.match_of_ne h]
  rfl

/-- With a first token that starts no other statement, `declaration` is
`expressionStatement`, two calls further down. -/
theorem Parser.declaration_eq_expressionStatement (k : Nat) {p : Parser}
    (h : startsOtherStatement p.peek.type = false) :
    Parser.declaration (k + 2) p = Parser.expressionStatement k p := by
  simp only [startsOtherStatement, decide_eq_false_iff_not, not_or] at h
  obtain ⟨h1, h2, h3, h4, h5, h6, h7, h8, h9⟩ := h
  rw [Parser.declaration, Parser.match_of_ne h1, Parser.match_of_ne h2]
  simp only [Bool.false_eq_true, if_false]
  rw [Parser.statement, Parser.match_of_ne h3, Parser.match_of_ne h4, Parser.match_of_ne h5,
    Parser.match_of_ne h6, Parser.match_of_ne h7, Parser.match_of_ne h8, Parser.match_of_ne h9]
  simp only [Bool.false_eq_true, if_false]

theorem Parser.error_messages (p : Parser) (message : String) :
    (p.error message).reporter.messages = p.reporter.messages ++ [message] := by
  simp [Parser.error, ErrorReporter.error, ErrorReporter.messages]

/-- `expressionStatement` when the token after the expression is not `;`. -/
theorem Parser.expressionStatement_missing_semicolon (k : Nat) {p p1 : Parser} {e : Expression}
    (hexpr : Parser.expression k p = some (e, p1))
    (hsemi : p1.peek.type ≠ TokenType.Semicolon) :
    Parser.expressionStatement (k + 1) p =
      some (Statement.ExpressionStatement
          (p1.error "Expect ';' after expression.").currentSourceRange e,
        p1.error "Expect ';' after expression.") := by
  rw [Parser.expressionStatement, hexpr]
  simp only
  rw [Parser.consume_of_ne _ hsemi]

/-- One turn of the loop of `parseSoruce` on an expression statement whose `;` is
missing. -/
theorem Parser.parseSoruceLoop_missing_semicolon (k : Nat) {p p1 : Parser} {e : Expression}
    (statements : List Statement)
    (hend : p.isAtEnd = false)
    (hkind : startsOtherStatement p.peek.type = false)
    (hexpr : Parser.expression k { p with start := p.peek } = some (e, p1))
    (hsemi : p1.peek.type ≠ TokenType.Semicolon) :
    Parser.parseSoruceLoop (k + 4) p statements =
      Parser.parseSoruceLoop (k + 3) (p1.error "Expect ';' after expression.").synchronize
        (statements ++ [Statement.ExpressionStatement
          (p1.error "Expect ';' after expression.").currentSourceRange e]) := by
  have hkind2 : startsOtherStatement ({ p with start := p.peek } : Parser).peek.type = false :=
    hkind
  rw [Parser.parseSoruceLoop, hend]
  simp only [Bool.false_eq_true, if_false]
  rw [Parser.declaration_eq_expressionStatement (k + 1) hkind2,
    Parser.expressionStatement_missing_semicolon k hexpr hsemi]
  simp only
  have hpanic : (p1.error "Expect ';' after expression.").panicMode = true := rfl
  rw [hpanic]
  simp only [if_true]

theorem Parser.assignmentExpression_not_variable (fuel : Nat) {left : Expression} (p : Parser)
    (h : left.isVariable = false) :
    Parser.assignmentExpression (fuel + 1) left p =
      some (Expression.null, p.error "Expect an lvalue.") := by
  cases left <;> first | rfl | exact absurd h (by simp [Expression.isVariable])

theorem Parser.assignmentExpression_variable (fuel : Nat) {left : Expression} (p : Parser)
    (h : left.isVariable = true) :
    (Parser.assignmentExpression (fuel + 1) left p).map (fun r => r.2.reporter) =
      (Parser.parsePrecedence fuel Precedence.None p).map (fun r => r.2.reporter) := by
  cases left with
  | Variable location name =>
    rw [Parser.assignmentExpression]
    have hprec : Precedence.Assignment - 1 = Precedence.None := rfl
    rw [hprec]
    cases Parser.parsePrecedence fuel Precedence.None p with
    | none => rfl
    | some r => rfl
  | _ => exact absurd h (by simp [Expression.isVariable])

end scriptlang

namespace scriptlang

/-! ## Compiler lemmas -/

theorem Chunk.write_code (c : Chunk) (byte : Byte) (line : Nat) :
    (c.write byte line).code = c.code ++ [byte] := by
  unfold Chunk.write
  split
  · split <;> rfl
  · rfl

theorem Compiler.emit_code (c : Compiler) (byte : Byte) :
    (c.emit byte).currentChunk.code = c.currentChunk.code ++ [byte] := by
  unfold Compiler.emit Compiler.setChunk Compiler.currentChunk
  exact Chunk.write_code _ _ _

theorem Compiler.finish_code (c : Compiler) :
    c.finish.compilingFunction.chunk.code =
      c.currentChunk.code ++ [OpCode.Nil.toByte, OpCode.Return.toByte] := by
  unfold Compiler.finish Compiler.emitOp
  show ((c.emit OpCode.Nil.toByte).emit OpCode.Return.toByte).currentChunk.code = _
  rw [Compiler.emit_code, Compiler.emit_code, List.append_assoc]
  rfl

/-- Whatever the statements and the mode, a chunk returned by `compile` is the
code emitted for the statements followed by `Nil`, `Return`. -/
theorem Compiler.compile_code {u : Uninitialized} {c c1 : Compiler} {ast : List Statement}
    {function : ObjectFunction} (h : Compiler.compile u c ast = some (function, c1)) :
    ∃ body : List Byte,
      function.chunk.code = body ++ [OpCode.Nil.toByte, OpCode.Return.toByte] := by
  unfold Compiler.compile at h
  cases hs : Compiler.compileStatements u ast c with
  | none =>
    rw [hs] at h
    exact Option.noConfusion h
  | some c2 =>
    rw [hs] at h
    have hf : function = c2.finish.compilingFunction := by
      have := Option.some.inj h
      exact (congrArg Prod.fst this).symm
    rw [hf]
    exact ⟨_, c2.finish_code⟩

end scriptlang

namespace scriptlang

/-! ## What `emit` leaves unchanged -/

theorem Compiler.emit_reporter (c : Compiler) (byte : Byte) :
    (c.emit byte).reporter = c.reporter := rfl

theorem Compiler.emit_loop (c : Compiler) (byte : Byte) : (c.emit byte).loop = c.loop := rfl

theorem Compiler.emit_locals (c : Compiler) (byte : Byte) :
    (c.emit byte).locals = c.locals := rfl

theorem Compiler.emit_scopeDepth (c : Compiler) (byte : Byte) :
    (c.emit byte).scopeDepth = c.scopeDepth := rfl

theorem Compiler.emit_type (c : Compiler) (byte : Byte) : (c.emit byte).type = c.type := rfl

theorem Compiler.emit_location (c : Compiler) (byte : Byte) :
    (c.emit byte).currentNodeLocation = c.currentNodeLocation := rfl

theorem Compiler.emitOp_code (c : Compiler) (op : OpCode) :
    (c.emitOp op).currentChunk.code = c.currentChunk.code ++ [op.toByte] :=
  Compiler.emit_code c op.toByte

end scriptlang

namespace scriptlang

/-! ## Constants and code of the chunk being built -/

theorem Chunk.write_constants (c : Chunk) (byte : Byte) (line : Nat) :
    (c.write byte line).constants = c.constants := by
  unfold Chunk.write
  split
  · split <;> rfl
  · rfl

theorem Compiler.emit_constants (c : Compiler) (byte : Byte) :
    (c.emit byte).currentChunk.constants = c.currentChunk.constants := by
  unfold Compiler.emit Compiler.setChunk Compiler.currentChunk
  exact Chunk.write_constants _ _ _

theorem Compiler.setChunk_currentChunk (c : Compiler) (chunk : Chunk) :
    (c.setChunk chunk).currentChunk = chunk := rfl

theorem Chunk.addConstant_code (c : Chunk) (v : Value) : (c.addConstant v).2.code = c.code := rfl

theorem Chunk.addConstant_constants (c : Chunk) (v : Value) :
    (c.addConstant v).2.constants = c.constants ++ [v] := rfl

theorem Chunk.addConstant_index (c : Chunk) (v : Value) :
    (c.addConstant v).1 = c.constants.length % 256 := rfl

/-- Code and constants after `visitLiteralExpression` for a number. -/
theorem Compiler.visitLiteralExpression_number (c : Compiler) (n : Number) :
    (c.visitLiteralExpression (Literal.number n)).currentChunk.code =
      c.currentChunk.code ++ [OpCode.PushConstant.toByte, c.currentChunk.constants.length % 256] ∧
    (c.visitLiteralExpression (Literal.number n)).currentChunk.constants =
      c.currentChunk.constants ++ [Value.number n] := by
  unfold Compiler.visitLiteralExpression
  constructor
  · rw [Compiler.emit_code, Compiler.setChunk_currentChunk, Chunk.addConstant_code,
      Compiler.emitOp_code, Chunk.addConstant_index, Compiler.emitOp, Compiler.emit_constants,
      List.append_assoc]
    rfl
  · rw [Compiler.emit_constants, Compiler.setChunk_currentChunk, Chunk.addConstant_constants,
      Compiler.emitOp, Compiler.emit_constants]

end scriptlang

namespace scriptlang

/-! ## Stack lemmas of the machine -/

theorem VM.pop_eq (vm : VM) (h1 : 0 < vm.stackTop) (h2 : vm.stackTop ≤ STACK_SIZE) :
    vm.pop = some (vm.cell (vm.stackTop - 1), { vm with stackTop := vm.stackTop - 1 }) := by
  unfold VM.pop
  rw [if_pos ⟨h1, h2⟩]

theorem VM.push_eq (vm : VM) (v : Value) (h : vm.stackTop < STACK_SIZE) :
    vm.push v =
      some { vm with stack := writeCell vm.stack vm.stackTop v, stackTop := vm.stackTop + 1 } := by
  unfold VM.push
  rw [if_pos h]

theorem VM.peek_eq (vm : VM) (h1 : 0 < vm.stackTop) (h2 : vm.stackTop ≤ STACK_SIZE) :
    vm.peek 0 = some (vm.cell (vm.stackTop - 1)) := by
  unfold VM.peek
  rw [if_pos ⟨h1, by omega⟩]
  rfl

/-- Two pops followed by one push, as the binary opcodes do. -/
theorem VM.pop_pop_push (vm : VM) (h1 : 2 ≤ vm.stackTop) (h2 : vm.stackTop ≤ STACK_SIZE) :
    vm.pop = some (vm.cell (vm.stackTop - 1), { vm with stackTop := vm.stackTop - 1 }) ∧
    ({ vm with stackTop := vm.stackTop - 1 } : VM).pop =
      some (vm.cell (vm.stackTop - 2), { vm with stackTop := vm.stackTop - 2 }) ∧
    ∀ v, ({ vm with stackTop := vm.stackTop - 2 } : VM).push v = some (vm.replaceTop 2 v) := by
  refine ⟨VM.pop_eq vm (by omega) h2, ?_, ?_⟩
  · rw [VM.pop_eq _ (show 0 < vm.stackTop - 1 by omega) (show vm.stackTop - 1 ≤ STACK_SIZE by omega)]
    simp only [VM.cell, Nat.sub_sub]
  · intro v
    rw [VM.push_eq _ _ (show vm.stackTop - 2 < STACK_SIZE by omega)]
    rfl

/-- One pop followed by one push, as the unary opcodes do. -/
theorem VM.pop_push (vm : VM) (v : Value) (h1 : 1 ≤ vm.stackTop)
    (h2 : vm.stackTop ≤ STACK_SIZE) :
    ∃ vm1, vm.pop = some (vm.cell (vm.stackTop - 1), vm1) ∧
      vm1.push v = some (vm.replaceTop 1 v) := by
  refine ⟨{ vm with stackTop := vm.stackTop - 1 }, VM.pop_eq vm (by omega) h2, ?_⟩
  rw [VM.push_eq _ _ (show vm.stackTop - 1 < STACK_SIZE by omega)]
  rfl

end scriptlang

namespace scriptlang

/-- `VM::runtimeError` when the current frame's line is found. -/
theorem VM.runtimeError_eq (vm : VM) (message : String) (frame : CallFrame)
    (callers : List CallFrame) (line : Nat) (hframe : vm.frames = frame :: callers)
    (hline : frame.function.chunk.getLine ((frame.ip + 4294967295) % 4294967296) = some line) :
    vm.runtimeError message =
      StepResult.done InterpreterResult.RuntimeError (vm.afterError line message) := by
  unfold VM.runtimeError
  rw [hframe]
  simp only [hline]
  rw [← hframe]
  rfl

/-- The report does not depend on the height of the stack. -/
theorem VM.afterError_stackTop (vm : VM) (n line : Nat) (message : String) :
    ({ vm with stackTop := n } : VM).afterError line message = vm.afterError line message := rfl

end scriptlang

namespace scriptlang

theorem string_append_left_cancel {a b c : String} (h : a ++ b = a ++ c) : b = c := by
  have h1 := congrArg String.data h
  simp only [String.data_append] at h1
  exact String.ext (List.append_cancel_left h1)

theorem string_append_right_cancel {a b c : String} (h : a ++ c = b ++ c) : a = b := by
  have h1 := congrArg String.data h
  simp only [String.data_append] at h1
  exact String.ext (List.append_cancel_right h1)

/-- Two reports on the same machine and line are equal only for equal messages. -/
theorem VM.afterError_inj {vm : VM} {line : Nat} {m1 m2 : String}
    (h : vm.afterError line m1 = vm.afterError line m2) : m1 = m2 := by
  have h1 : (vm.afterError line m1).output = (vm.afterError line m2).output := by rw [h]
  simp only [VM.afterError, VM.resetStack] at h1
  exact string_append_left_cancel
    (string_append_right_cancel (string_append_right_cancel h1))

/-- The arity report is not the overflow report. -/
theorem arity_message_ne (a b : String) :
    "Expect " ++ a ++ " arguments, got " ++ b ++ "." ≠ "Stack overflow." := by
  intro h
  have h1 := congrArg String.data h
  simp only [String.data_append] at h1
  have h2 := congrArg List.head? h1
  simp at h2

end scriptlang

namespace scriptlang

/-! ## The line table of a chunk -/

theorem Chunk.write_lines_same (c : Chunk) (byte : Byte) (line : Nat) (last : LineInfo)
    (h1 : c.lines.getLast? = some last) (h2 : last.line = line) :
    (c.write byte line).lines = c.lines := by
  unfold Chunk.write
  rw [h1]
  simp only [h2, if_true]
  rfl

theorem Chunk.write_lines_new (c : Chunk) (byte : Byte) (line : Nat)
    (h : ∀ last, c.lines.getLast? = some last → last.line ≠ line) :
    (c.write byte line).lines = c.lines ++ [⟨line, c.code.length % 4294967296⟩] := by
  unfold Chunk.write
  cases h1 : c.lines.getLast? with
  | none => rfl
  | some last =>
    simp only [if_neg (h last h1)]
    rfl

theorem Chunk.records_empty : Chunk.empty.Records [] := by
  refine ⟨rfl, ⟨fun _ => rfl, fun _ => rfl⟩, ?_, List.Pairwise.nil, ?_, List.chain'_nil, ?_⟩
  · intro e h
    exact Option.noConfusion h
  · intro e h
    exact absurd h (List.not_mem_nil e)
  · intro i w h
    simp at h

/-- One `write` keeps the record, as long as the offset fits 32 bits. -/
theorem Chunk.records_write (c : Chunk) (done : List (Byte × Nat)) (byte : Byte) (line : Nat)
    (h : c.Records done) (hsize : done.length < 4294967296) :
    (c.write byte line).Records (done ++ [(byte, line)]) := by
  obtain ⟨hcode, hempty, hhead, hpair, hoff, hchain, hline⟩ := h
  have hlen : c.code.length = done.length := by rw [hcode, List.length_map]
  have hcode1 : (c.write byte line).code = (done ++ [(byte, line)]).map Prod.fst := by
    rw [Chunk.write_code, hcode, List.map_append]
    rfl
  have hlen1 : (c.write byte line).code.length = done.length + 1 := by
    rw [hcode1, List.length_map, List.length_append]
    rfl
  have hne : (c.write byte line).code ≠ [] := by
    rw [Chunk.write_code]
    simp
  by_cases hsame : ∃ last, c.lines.getLast? = some last ∧ last.line = line
  · obtain ⟨last, h1, h2⟩ := hsame
    have hl := Chunk.write_lines_same c byte line last h1 h2
    have hnonempty : c.lines ≠ [] := by
      intro h0
      rw [h0] at h1
      exact Option.noConfusion h1
    refine ⟨hcode1, ?_, ?_, ?_, ?_, ?_, ?_⟩
    · rw [hl]
      exact ⟨fun h0 => absurd h0 hnonempty, fun h0 => absurd h0 hne⟩
    · rw [hl]
      exact hhead
    · rw [hl]
      exact hpair
    · rw [hl, hlen1]
      intro e he
      have := hoff e he
      omega
    · rw [hl]
      exact hchain
    · rw [hl]
      intro i w hi
      by_cases hlt : i < done.length
      · rw [List.getElem?_append_left hlt] at hi
        exact hline i w hi
      · have hi1 : i < (done ++ [(byte, line)]).length := by
          by_contra hge
          rw [List.getElem?_eq_none (by omega)] at hi
          exact Option.noConfusion hi
        rw [List.length_append, List.length_singleton] at hi1
        have hieq : i = done.length := by omega
        rw [hieq, List.getElem?_append_right (le_refl _), Nat.sub_self] at hi
        have hw : w = (byte, line) := (Option.some.inj hi).symm
        have hk : c.lines[c.lines.length - 1]? = some last := by
          rw [← h1, List.getLast?_eq_getElem?]
        refine ⟨c.lines.length - 1, last, hk, ?_, ?_, ?_⟩
        · have := hoff last (List.getElem?_mem hk)
          omega
        · intro e1 he1
          have hlpos : 0 < c.lines.length := List.length_pos.mpr hnonempty
          rw [List.getElem?_eq_none (by omega)] at he1
          exact Option.noConfusion he1
        · rw [h2, hw]
  · have hnot : ∀ last, c.lines.getLast? = some last → last.line ≠ line := by
      intro last h1 h2
      exact hsame ⟨last, h1, h2⟩
    have hl := Chunk.write_lines_new c byte line hnot
    rw [hlen, Nat.mod_eq_of_lt hsize] at hl
    refine ⟨hcode1, ?_, ?_, ?_, ?_, ?_, ?_⟩
    · rw [hl]
      exact ⟨fun h0 => absurd h0 (by simp), fun h0 => absurd h0 hne⟩
    · rw [hl]
      intro e he
      cases hc : c.lines with
      | nil =>
        rw [hc] at he
        have h0 : c.code = [] := hempty.mp hc
        have h00 : done.length = 0 := by rw [← hlen, h0]; rfl
        have := Option.some.inj he
        rw [← this, h00]
      | cons first rest =>
        rw [hc] at he
        exact hhead e (by rw [hc]; exact he)
    · rw [hl, List.pairwise_append]
      refine ⟨hpair, List.pairwise_singleton _ _, ?_⟩
      intro a ha b hb
      rw [List.mem_singleton] at hb
      rw [hb]
      have := hoff a ha
      show a.offset < done.length
      omega
    · rw [hl, hlen1]
      intro e he
      rw [List.mem_append, List.mem_singleton] at he
      cases he with
      | inl he =>
        have := hoff e he
        omega
      | inr he =>
        rw [he]
        show done.length < done.length + 1
        omega
    · rw [hl, List.chain'_append]
      refine ⟨hchain, List.chain'_singleton _, ?_⟩
      intro x hx y hy
      have hy1 : y = ⟨line, done.length⟩ := by
        simp only [List.head?_cons, Option.mem_def, Option.some.injEq] at hy
        exact hy.symm
      rw [hy1]
      exact hnot x hx
    · rw [hl]
      intro i w hi
      by_cases hlt : i < done.length
      · rw [List.getElem?_append_left hlt] at hi
        obtain ⟨k, e, hk, hle, hnext, hw⟩ := hline i w hi
        have hklt : k < c.lines.length := by
          by_contra hge
          rw [List.getElem?_eq_none (by omega)] at hk
          exact Option.noConfusion hk
        refine ⟨k, e, ?_, hle, ?_, hw⟩
        · rw [List.getElem?_append_left hklt]
          exact hk
        · intro e1 he1
          by_cases hk1 : k + 1 < c.lines.length
          · rw [List.getElem?_append_left hk1] at he1
            exact hnext e1 he1
          · have hkeq : k + 1 = c.lines.length := by omega
            rw [hkeq, List.getElem?_append_right (le_refl _), Nat.sub_self] at he1
            have := Option.some.inj he1
            rw [← this]
            exact hlt
      · have hi1 : i < (done ++ [(byte, line)]).length := by
          by_contra hge
          rw [List.getElem?_eq_none (by omega)] at hi
          exact Option.noConfusion hi
        rw [List.length_append, List.length_singleton] at hi1
        have hieq : i = done.length := by omega
        rw [hieq, List.getElem?_append_right (le_refl _), Nat.sub_self] at hi
        have hw : w = (byte, line) := (Option.some.inj hi).symm
        refine ⟨c.lines.length, ⟨line, done.length⟩, ?_, ?_, ?_, ?_⟩
        · rw [List.getElem?_append_right (le_refl _), Nat.sub_self]
          rfl
        · show done.length ≤ i
          omega
        · intro e1 he1
          rw [List.getElem?_eq_none (by simp)] at he1
          exact Option.noConfusion he1
        · rw [hw]

end scriptlang

namespace scriptlang

/-- A sequence of writes keeps the record, as long as the offsets fit 32 bits. -/
theorem Chunk.records_writeAll (rest : List (Byte × Nat)) :
    ∀ (c : Chunk) (done : List (Byte × Nat)), c.Records done →
      done.length + rest.length ≤ 4294967296 → (c.writeAll rest).Records (done ++ rest) := by
  induction rest with
  | nil =>
    intro c done h _
    rw [List.append_nil]
    exact h
  | cons w rest ih =>
    intro c done h hsize
    obtain ⟨byte, line⟩ := w
    rw [List.length_cons] at hsize
    have h1 := Chunk.records_write c done byte line h (by omega)
    have h2 := ih (c.write byte line) (done ++ [(byte, line)]) h1
      (by rw [List.length_append, List.length_singleton]; omega)
    rw [List.append_assoc] at h2
    exact h2

/-- Strictly increasing offsets, by index. -/
theorem pairwise_offset_lt {lines : List LineInfo}
    (h : lines.Pairwise (fun a b => a.offset < b.offset)) {a b : Nat} {ea eb : LineInfo}
    (hab : a < b) (ha : lines[a]? = some ea) (hb : lines[b]? = some eb) :
    ea.offset < eb.offset := by
  have hbl : b < lines.length := by
    by_contra hge
    rw [List.getElem?_eq_none (by omega)] at hb
    exact Option.noConfusion hb
  have hal : a < lines.length := by omega
  rw [List.getElem?_eq_getElem hal] at ha
  rw [List.getElem?_eq_getElem hbl] at hb
  have := (List.pairwise_iff_getElem.mp h) a b hal hbl hab
  rw [Option.some.inj ha, Option.some.inj hb] at this
  exact this

/-- The binary search of `Chunk::getLine` between `start` and `end_` finds the entry
whose range contains the offset, within `end_ - start + 1` iterations. -/
theorem Chunk.getLineLoop_spec (lines : List LineInfo) (i k : Nat) (ek : LineInfo)
    (hpair : lines.Pairwise (fun a b => a.offset < b.offset))
    (hlen : lines.length ≤ 2147483648)
    (hk : lines[k]? = some ek) (hle : ek.offset ≤ i)
    (hnext : ∀ e, lines[k + 1]? = some e → i < e.offset) :
    ∀ fuel start end_, start ≤ k → k ≤ end_ → end_ < lines.length → end_ - start < fuel →
      Chunk.getLineLoop lines i fuel start end_ = some ek.line := by
  intro fuel
  induction fuel with
  | zero =>
    intro start end_ _ _ _ h
    omega
  | succ fuel ih =>
    intro start end_ hs he hend hfuel
    have hmid : (start + end_) % 4294967296 / 2 = (start + end_) / 2 := by
      rw [Nat.mod_eq_of_lt (by omega)]
    unfold Chunk.getLineLoop
    simp only [hmid, List.get?_eq_getElem?]
    have hmlt : (start + end_) / 2 < lines.length := by omega
    rw [List.getElem?_eq_getElem hmlt]
    simp only []
    have hm : lines[(start + end_) / 2]? = some (lines[(start + end_) / 2]) :=
      List.getElem?_eq_getElem hmlt
    -- `k` is not below `mid` once `lines[mid].offset ≤ i`
    have hkge : ¬ i < (lines[(start + end_) / 2]).offset → (start + end_) / 2 ≤ k := by
      intro hnot
      by_contra hlt
      have hk1 : k + 1 < lines.length := by omega
      have h1 := hnext _ (List.getElem?_eq_getElem hk1)
      by_cases heq : k + 1 = (start + end_) / 2
      · have h2 : lines[k + 1]? = some (lines[(start + end_) / 2]) := by
          rw [heq]
          exact hm
        rw [List.getElem?_eq_getElem hk1] at h2
        rw [Option.some.inj h2] at h1
        exact hnot h1
      · have h2 := pairwise_offset_lt hpair (show k + 1 < (start + end_) / 2 by omega)
          (List.getElem?_eq_getElem hk1) hm
        omega
    by_cases hlt : i < (lines[(start + end_) / 2]).offset
    · rw [if_pos hlt]
      have hklt : k < (start + end_) / 2 := by
        by_contra hge
        by_cases heq : k = (start + end_) / 2
        · rw [heq, hm] at hk
          rw [Option.some.inj hk] at hlt
          omega
        · have h2 := pairwise_offset_lt hpair (show (start + end_) / 2 < k by omega) hm hk
          omega
      have hend1 : ((start + end_) / 2 + 4294967295) % 4294967296 = (start + end_) / 2 - 1 := by
        omega
      rw [hend1]
      exact ih start ((start + end_) / 2 - 1) hs (by omega) (by omega) (by omega)
    · rw [if_neg hlt]
      have hge := hkge hlt
      by_cases hlast : (start + end_) / 2 + 1 = lines.length
      · rw [if_pos hlast]
        have heq : k = (start + end_) / 2 := by omega
        rw [heq, hm] at hk
        rw [Option.some.inj hk]
      · rw [if_neg hlast]
        have hn : (start + end_) / 2 + 1 < lines.length := by omega
        rw [List.getElem?_eq_getElem hn]
        simp only []
        by_cases hlt1 : i < (lines[(start + end_) / 2 + 1]).offset
        · rw [if_pos hlt1]
          have heq : k = (start + end_) / 2 := by
            by_contra hne
            by_cases heq1 : k = (start + end_) / 2 + 1
            · rw [heq1, List.getElem?_eq_getElem hn] at hk
              rw [Option.some.inj hk] at hlt1
              omega
            · have h2 := pairwise_offset_lt hpair (show (start + end_) / 2 + 1 < k by omega)
                (List.getElem?_eq_getElem hn) hk
              omega
          rw [heq, hm] at hk
          rw [Option.some.inj hk]
        · rw [if_neg hlt1]
          have hne : k ≠ (start + end_) / 2 := by
            intro heq
            have := hnext _ (by rw [heq]; exact List.getElem?_eq_getElem hn)
            exact hlt1 this
          have hstart1 : ((start + end_) / 2 + 1) % 4294967296 = (start + end_) / 2 + 1 := by
            omega
          rw [hstart1]
          exact ih ((start + end_) / 2 + 1) end_ (by omega) he hend (by omega)

/-- `Chunk::getLine` on a recorded chunk of at most `2^31` bytes. -/
theorem Chunk.getLine_of_records (c : Chunk) (done : List (Byte × Nat)) (h : c.Records done)
    (hsize : done.length ≤ 2147483648) (i : Nat) (w : Byte × Nat) (hi : done[i]? = some w) :
    c.getLine i = some w.2 := by
  obtain ⟨hcode, _, _, hpair, hoff, _, hline⟩ := h
  obtain ⟨k, e, hk, hle, hnext, hw⟩ := hline i w hi
  have hklt : k < c.lines.length := by
    by_contra hge
    rw [List.getElem?_eq_none (by omega)] at hk
    exact Option.noConfusion hk
  have hlen : c.lines.length ≤ c.code.length := by
    have hnodup : (c.lines.map LineInfo.offset).Nodup := by
      rw [List.Nodup, List.pairwise_map]
      exact hpair.imp (fun h => Nat.ne_of_lt h)
    have hsub : c.lines.map LineInfo.offset ⊆ List.range c.code.length := by
      intro x hx
      obtain ⟨e1, he1, rfl⟩ := List.mem_map.mp hx
      exact List.mem_range.mpr (hoff e1 he1)
    have := (List.subperm_of_subset hnodup hsub).length_le
    rw [List.length_map, List.length_range] at this
    exact this
  have hcl : c.code.length = done.length := by rw [hcode, List.length_map]
  unfold Chunk.getLine
  have hend : (c.lines.length + 4294967295) % 4294967296 = c.lines.length - 1 := by omega
  rw [hend, ← hw]
  exact Chunk.getLineLoop_spec c.lines i k e hpair (by omega) hk hle hnext _ 0 _
    (Nat.zero_le k) (by omega) (by omega) (by omega)

end scriptlang

namespace scriptlang

/-! ## The scan of `patchLoopBreaks` -/

theorem instructionLength_pos (byte : Byte) : 0 < instructionLength byte := by
  unfold instructionLength
  split <;> decide

theorem Chunk.set_code {c c1 : Chunk} {index : Nat} {byte : Byte}
    (h : c.set index byte = some c1) : c1.code = c.code.set index byte := by
  unfold Chunk.set at h
  split at h
  · rw [← Option.some.inj h]
    rfl
  · exact Option.noConfusion h

theorem Reaches.start_le {code : List Byte} {i j : Nat} (h : Reaches code i j) : i ≤ j := by
  induction h with
  | here i => exact le_refl _
  | next i j _ ih => exact le_trans (Nat.le_add_right _ _) ih

/-- The scan from offset `i` leaves the bytes below `i` as they are. -/
theorem patchLoopBreaksLoop_below (end_ : Nat) :
    ∀ (fuel i : Nat) (chunk chunk1 : Chunk), patchLoopBreaksLoop end_ fuel i chunk = some chunk1 →
      ∀ j, j < i → chunk1.code.get? j = chunk.code.get? j := by
  intro fuel
  induction fuel with
  | zero =>
    intro i chunk chunk1 h j _
    unfold patchLoopBreaksLoop at h
    rw [Option.some.inj h]
  | succ fuel ih =>
    intro i chunk chunk1 h j hj
    unfold patchLoopBreaksLoop at h
    by_cases hi : i < end_
    · rw [if_pos hi] at h
      cases hb : chunk.get i with
      | none =>
        rw [hb] at h
        exact Option.noConfusion h
      | some byte =>
        rw [hb] at h
        simp only [] at h
        by_cases hp : byte = BREAK_PLACEHOLDER
        · rw [if_pos hp] at h
          cases h1 : chunk.set i OpCode.Jump.toByte with
          | none =>
            rw [h1] at h
            exact Option.noConfusion h
          | some c1 =>
            rw [h1] at h
            simp only [] at h
            cases h2 : c1.set (i + 1) ((end_ - i) % 65536 / 256 % 256) with
            | none =>
              rw [h2] at h
              exact Option.noConfusion h
            | some c2 =>
              rw [h2] at h
              simp only [] at h
              cases h3 : c2.set (i + 2) ((end_ - i) % 65536 % 256) with
              | none =>
                rw [h3] at h
                exact Option.noConfusion h
              | some c3 =>
                rw [h3] at h
                simp only [] at h
                rw [ih (i + 3) c3 chunk1 h j (by omega), Chunk.set_code h3, Chunk.set_code h2,
                  Chunk.set_code h1, List.get?_eq_getElem?, List.get?_eq_getElem?,
                  List.getElem?_set_ne (by omega), List.getElem?_set_ne (by omega),
                  List.getElem?_set_ne (by omega)]
        · rw [if_neg hp] at h
          exact ih _ chunk chunk1 h j (by omega)
    · rw [if_neg hi] at h
      rw [Option.some.inj h]

/-- After the scan from offset `i`, no offset below `end_` that the decoding from `i`
reaches holds the placeholder. -/
theorem patchLoopBreaksLoop_reaches (end_ : Nat) :
    ∀ (fuel i : Nat) (chunk chunk1 : Chunk), patchLoopBreaksLoop end_ fuel i chunk = some chunk1 →
      end_ - i < fuel → ∀ j, Reaches chunk1.code i j → j < end_ →
      chunk1.code.get? j ≠ some BREAK_PLACEHOLDER := by
  intro fuel
  induction fuel with
  | zero =>
    intro i chunk chunk1 _ hfuel
    omega
  | succ fuel ih =>
    intro i chunk chunk1 h hfuel j hreach hj
    have hle : i ≤ j := Reaches.start_le hreach
    have hi : i < end_ := by omega
    have h0 := h
    unfold patchLoopBreaksLoop at h
    rw [if_pos hi] at h
    cases hb : chunk.get i with
    | none =>
      rw [hb] at h
      exact Option.noConfusion h
    | some byte =>
      rw [hb] at h
      simp only [] at h
      by_cases hp : byte = BREAK_PLACEHOLDER
      · rw [if_pos hp] at h
        cases h1 : chunk.set i OpCode.Jump.toByte with
        | none =>
          rw [h1] at h
          exact Option.noConfusion h
        | some c1 =>
          rw [h1] at h
          simp only [] at h
          cases h2 : c1.set (i + 1) ((end_ - i) % 65536 / 256 % 256) with
          | none =>
            rw [h2] at h
            exact Option.noConfusion h
          | some c2 =>
            rw [h2] at h
            simp only [] at h
            cases h3 : c2.set (i + 2) ((end_ - i) % 65536 % 256) with
            | none =>
              rw [h3] at h
              exact Option.noConfusion h
            | some c3 =>
              rw [h3] at h
              simp only [] at h
              have hlen : i < chunk.code.length := by
                unfold Chunk.set at h1
                by_contra hge
                rw [if_neg hge] at h1
                exact Option.noConfusion h1
              have hat : chunk1.code.get? i = some OpCode.Jump.toByte := by
                rw [patchLoopBreaksLoop_below end_ fuel (i + 3) c3 chunk1 h i (by omega),
                  Chunk.set_code h3, Chunk.set_code h2, Chunk.set_code h1,
                  List.get?_eq_getElem?, List.getElem?_set_ne (by omega),
                  List.getElem?_set_ne (by omega), List.getElem?_set_self hlen]
              cases hreach with
              | here =>
                rw [hat]
                decide
              | next _ _ hnext =>
                have hd : chunk1.code.getD i 0 = OpCode.Jump.toByte := by
                  rw [List.getD_eq_getElem?_getD, ← List.get?_eq_getElem?, hat]
                  rfl
                rw [hd] at hnext
                exact ih (i + 3) c3 chunk1 h (by omega) j hnext hj
      · rw [if_neg hp] at h
        have hat : chunk1.code.get? i = some byte := by
          rw [patchLoopBreaksLoop_below end_ fuel _ chunk chunk1 h i
            (by have := instructionLength_pos byte; omega)]
          exact hb
        cases hreach with
        | here =>
          rw [hat]
          intro heq
          exact hp (Option.some.inj heq)
        | next _ _ hnext =>
          have hd : chunk1.code.getD i 0 = byte := by
            rw [List.getD_eq_getElem?_getD, ← List.get?_eq_getElem?, hat]
            rfl
          rw [hd] at hnext
          exact ih _ chunk chunk1 h (by have := instructionLength_pos byte; omega) j hnext hj

end scriptlang

namespace scriptlang

/-! ## Stepping over instructions -/

theorem spanLength_pos (byte : Byte) : 0 < spanLength byte := by
  unfold spanLength
  split
  · decide
  · exact instructionLength_pos byte

theorem Steps.le {code : List Byte} {i j : Nat} (h : Steps code i j) : i ≤ j := by
  induction h with
  | here i => exact le_refl _
  | next i j _ ih => exact le_trans (Nat.le_add_right _ _) ih

theorem Steps.chain {code : List Byte} {i j k : Nat} (h1 : Steps code i j)
    (h2 : Steps code j k) : Steps code i k := by
  induction h1 with
  | here i => exact h2
  | next i j _ ih => exact Steps.next _ _ (ih h2)

/-- One step. -/
theorem Steps.single (code : List Byte) (i : Nat) :
    Steps code i (i + spanLength (code.getD i 0)) :=
  Steps.next _ _ (Steps.here _)

/-- Two offsets reached from the same start are reached one from the other. -/
theorem Steps.linear {code : List Byte} {a b c : Nat} (h1 : Steps code a b)
    (h2 : Steps code a c) (hbc : b ≤ c) : Steps code b c := by
  induction h1 with
  | here i => exact h2
  | next i j h ih =>
    have hlt : i < j := by
      have := Steps.le h
      have := spanLength_pos (code.getD i 0)
      omega
    cases h2 with
    | here => omega
    | next _ _ h3 => exact ih h3 hbc

/-- No offset reached lies strictly inside an instruction. -/
theorem Steps.next_le {code : List Byte} {a b c : Nat} (h1 : Steps code a b)
    (h2 : Steps code a c) (hbc : b < c) : b + spanLength (code.getD b 0) ≤ c := by
  have h := Steps.linear h1 h2 (Nat.le_of_lt hbc)
  cases h with
  | here => omega
  | next _ _ h3 => exact Steps.le h3

/-- Stepping depends only on the lengths read at the offsets passed. -/
theorem Steps.congr_code {code code1 : List Byte} {a j : Nat} (h : Steps code a j)
    (hspan : ∀ k, Steps code a k → k < j →
      spanLength (code1.getD k 0) = spanLength (code.getD k 0)) :
    Steps code1 a j := by
  induction h with
  | here i => exact Steps.here _
  | next i j h ih =>
    have hlt : i < j := by
      have := Steps.le h
      have := spanLength_pos (code.getD i 0)
      omega
    have h1 := hspan i (Steps.here _) hlt
    refine Steps.next _ _ ?_
    rw [h1]
    exact ih (fun k hk hkj => hspan k (Steps.next _ _ hk) hkj)

theorem Steps.append_code {code : List Byte} {a j : Nat} (ext : List Byte) (h : Steps code a j)
    (hj : j ≤ code.length) : Steps (code ++ ext) a j := by
  refine Steps.congr_code h ?_
  intro k _ hk
  rw [List.getD_append _ _ _ _ (by omega)]

theorem Steps.of_append {code ext : List Byte} {a j : Nat} (h : Steps (code ++ ext) a j)
    (hj : j ≤ code.length) : Steps code a j := by
  refine Steps.congr_code h ?_
  intro k _ hk
  rw [List.getD_append _ _ _ _ (by omega)]

end scriptlang

namespace scriptlang

/-- Stepping is the same in two codes that give the same lengths at the offsets
passed in the first. -/
theorem Steps.congr_iff {code code1 : List Byte} {a j : Nat}
    (hspan : ∀ k, Steps code a k → k < j →
      spanLength (code1.getD k 0) = spanLength (code.getD k 0)) :
    Steps code a j ↔ Steps code1 a j := by
  constructor
  · intro h
    exact Steps.congr_code h hspan
  · intro h
    induction h with
    | here i => exact Steps.here _
    | next i j h ih =>
      have hlt : i < j := by
        have := Steps.le h
        have := spanLength_pos (code1.getD i 0)
        omega
      have h1 := hspan i (Steps.here _) hlt
      rw [h1] at h ih
      exact Steps.next _ _ (ih (fun k hk hkj => hspan k (Steps.next _ _ hk) hkj))

/-- An offset reached other than `i` lies outside the instruction at `i`. -/
theorem Steps.outside {code : List Byte} {i k : Nat} (hi : Steps code 0 i)
    (hk : Steps code 0 k) (hne : k ≠ i) : k < i ∨ i + spanLength (code.getD i 0) ≤ k := by
  by_cases hlt : k < i
  · exact Or.inl hlt
  · exact Or.inr (Steps.next_le hi hk (by omega))

theorem spanLength_jump {byte : Byte} (h : byte = 13 ∨ byte = 14) : spanLength byte = 3 := by
  cases h with
  | inl h => rw [h]; rfl
  | inr h => rw [h]; rfl

theorem spanLength_loop : spanLength 15 = 3 := rfl

theorem spanLength_break : spanLength 187 = 3 := rfl

theorem getD_lt_of_mem {code : List Byte} (h : ∀ b ∈ code, (b : Nat) < 256) (k : Nat) :
    (code.getD k 0 : Nat) < 256 := by
  rw [List.getD_eq_getElem?_getD]
  cases hk : code[k]? with
  | none => simp
  | some b => exact h b (List.getElem?_mem hk)

end scriptlang

namespace scriptlang

/-! ## The code invariant under the compiler's operations on the code -/

theorem InvCode.congr {code : List Byte} {starts : List Nat} {P Q : Nat → Prop}
    (h : InvCode code starts P) (hPQ : ∀ i, P i ↔ Q i) : InvCode code starts Q :=
  { steps := h.steps
    bytes := h.bytes
    jumps := fun i hi hlt hop => (h.jumps i hi hlt hop).imp (hPQ i).mp id
    loops := h.loops
    breaks := h.breaks
    starts := h.starts
    pending := fun i hq => h.pending i ((hPQ i).mpr hq) }

/-- A jump of the code has its three bytes inside the code. -/
theorem InvCode.span_le {code : List Byte} {starts : List Nat} {P : Nat → Prop}
    (h : InvCode code starts P) {i : Nat} (hi : Steps code 0 i) (hlt : i < code.length) :
    i + spanLength (code.getD i 0) ≤ code.length :=
  Steps.next_le hi h.steps hlt

/-- The offsets reached in the code extended by one instruction. -/
theorem steps_append_cases {code : List Byte} (b : Byte) (operands : List Byte)
    (hsteps : Steps code 0 code.length)
    (hlen : (b :: operands).length = spanLength b) {i : Nat}
    (hi : Steps (code ++ b :: operands) 0 i) (hlt : i < (code ++ b :: operands).length) :
    (i < code.length ∧ Steps code 0 i) ∨ i = code.length := by
  have hn : Steps (code ++ b :: operands) 0 code.length := Steps.append_code _ hsteps (le_refl _)
  by_cases h1 : i < code.length
  · exact Or.inl ⟨h1, Steps.of_append hi (by omega)⟩
  · by_cases h2 : i = code.length
    · exact Or.inr h2
    · have h3 := Steps.next_le hn hi (by omega)
      rw [List.getD_append_right _ _ _ _ (le_refl _), Nat.sub_self] at h3
      have h4 : (b :: operands).getD 0 0 = b := rfl
      rw [h4, ← hlen] at h3
      rw [List.length_append] at hlt
      omega

theorem operandAt_append {code : List Byte} (ext : List Byte) {i : Nat}
    (h : i + 3 ≤ code.length) : operandAt (code ++ ext) i = operandAt code i := by
  unfold operandAt
  rw [List.getD_append _ _ _ _ (by omega), List.getD_append _ _ _ _ (by omega)]

/-- The invariant after one more instruction or placeholder is appended. -/
theorem InvCode.append {code : List Byte} {starts : List Nat} {P Q : Nat → Prop}
    (h : InvCode code starts P) (b : Byte) (operands : List Byte)
    (hlen : (b :: operands).length = spanLength b)
    (hbytes : ∀ x ∈ b :: operands, (x : Nat) < 256)
    (hQ : ∀ i, Q i ↔ P i ∨ (i = code.length ∧ (b = 13 ∨ b = 14)))
    (hloop : b = 15 → 3 ≤ operandAt (b :: operands) 0 ∧
      operandAt (b :: operands) 0 ≤ code.length + 3 ∧
      Steps code 0 (code.length + 3 - operandAt (b :: operands) 0))
    (hbreak : b = 187 → ∃ s ∈ starts, s ≤ code.length) :
    InvCode (code ++ b :: operands) starts Q := by
  have hn : Steps (code ++ b :: operands) 0 code.length := Steps.append_code _ h.steps (le_refl _)
  have hat : (code ++ b :: operands).getD code.length 0 = b := by
    rw [List.getD_append_right _ _ _ _ (le_refl _), Nat.sub_self]
    rfl
  have hlen1 : (code ++ b :: operands).length = code.length + spanLength b := by
    rw [List.length_append, hlen]
  have hold : ∀ i, i < code.length → (code ++ b :: operands).getD i 0 = code.getD i 0 :=
    fun i hi => List.getD_append _ _ _ _ hi
  refine
    { steps := ?_, bytes := ?_, jumps := ?_, loops := ?_, breaks := ?_, starts := ?_,
      pending := ?_ }
  · rw [hlen1]
    refine Steps.chain hn ?_
    have := Steps.single (code ++ b :: operands) code.length
    rw [hat] at this
    exact this
  · intro x hx
    rw [List.mem_append] at hx
    cases hx with
    | inl hx => exact h.bytes x hx
    | inr hx => exact hbytes x hx
  · intro i hi hlt hop
    cases steps_append_cases b operands h.steps hlen hi hlt with
    | inl hc =>
      obtain ⟨hc1, hc2⟩ := hc
      rw [hold i hc1] at hop
      have hsp := h.span_le hc2 hc1
      rw [spanLength_jump hop] at hsp
      cases h.jumps i hc2 hc1 hop with
      | inl hp => exact Or.inl ((hQ i).mpr (Or.inl hp))
      | inr hv =>
        rw [operandAt_append _ hsp]
        exact Or.inr ⟨Steps.append_code _ hv.1 hv.2, by rw [hlen1]; omega⟩
    | inr hc =>
      rw [hc, hat] at hop
      exact Or.inl ((hQ i).mpr (Or.inr ⟨hc, hop⟩))
  · intro i hi hlt hop
    cases steps_append_cases b operands h.steps hlen hi hlt with
    | inl hc =>
      obtain ⟨hc1, hc2⟩ := hc
      rw [hold i hc1] at hop
      have hsp := h.span_le hc2 hc1
      rw [hop, spanLength_loop] at hsp
      obtain ⟨h1, h2, h3⟩ := h.loops i hc2 hc1 hop
      rw [operandAt_append _ hsp]
      exact ⟨h1, h2, Steps.append_code _ h3 (by omega)⟩
    | inr hc =>
      rw [hc, hat] at hop
      obtain ⟨h1, h2, h3⟩ := hloop hop
      have hlen2 : operands.length = 2 := by
        rw [hop, spanLength_loop, List.length_cons] at hlen
        omega
      have hopd : operandAt (code ++ b :: operands) code.length =
          operandAt (b :: operands) 0 := by
        unfold operandAt
        rw [List.getD_append_right _ _ _ _ (by omega),
          List.getD_append_right _ _ _ _ (by omega)]
        have e1 : code.length + 1 - code.length = 0 + 1 := by omega
        have e2 : code.length + 2 - code.length = 0 + 2 := by omega
        rw [e1, e2]
      rw [hc, hopd]
      exact ⟨h1, h2, Steps.append_code _ h3 (by omega)⟩
  · intro i hi hlt hop
    cases steps_append_cases b operands h.steps hlen hi hlt with
    | inl hc =>
      obtain ⟨hc1, hc2⟩ := hc
      rw [hold i hc1] at hop
      exact h.breaks i hc2 hc1 hop
    | inr hc =>
      rw [hc, hat] at hop
      rw [hc]
      exact hbreak hop
  · intro s hs
    obtain ⟨h1, h2⟩ := h.starts s hs
    exact ⟨Steps.append_code _ h1 h2, by rw [hlen1]; omega⟩
  · intro i hq
    cases (hQ i).mp hq with
    | inl hp =>
      obtain ⟨h1, h2, h3⟩ := h.pending i hp
      exact ⟨Steps.append_code _ h1 (by omega), by rw [hlen1]; omega, by rw [hold i h2]; exact h3⟩
    | inr hp =>
      obtain ⟨h1, h2⟩ := hp
      have := spanLength_pos b
      exact ⟨by rw [h1]; exact hn, by rw [hlen1, h1]; omega, by rw [h1, hat]; exact h2⟩

end scriptlang

namespace scriptlang

/-- The invariant after the three bytes at the offset `i` of a jump or placeholder
are overwritten by a jump that lands on an instruction start. -/
theorem InvCode.patch {code code1 : List Byte} {starts : List Nat} {P : Nat → Prop}
    (h : InvCode code starts P) {i : Nat} (hi : Steps code 0 i)
    (hspan : spanLength (code.getD i 0) = 3)
    (hlen : code1.length = code.length)
    (hout : ∀ k, k < i ∨ i + 3 ≤ k → code1.getD k 0 = code.getD k 0)
    (hop : code1.getD i 0 = 13 ∨ code1.getD i 0 = 14)
    (hbytes : ∀ b ∈ code1, (b : Nat) < 256)
    (htarget : Steps code 0 (i + 3 + operandAt code1 i) ∧
      i + 3 + operandAt code1 i ≤ code.length) :
    InvCode code1 starts (fun p => p ≠ i ∧ P p) := by
  have hsame : ∀ k, Steps code 0 k → k ≠ i → code1.getD k 0 = code.getD k 0 := by
    intro k hk hne
    have := Steps.outside hi hk hne
    rw [hspan] at this
    exact hout k this
  have hspan1 : ∀ k, Steps code 0 k →
      spanLength (code1.getD k 0) = spanLength (code.getD k 0) := by
    intro k hk
    by_cases hki : k = i
    · rw [hki, hspan, spanLength_jump hop]
    · rw [hsame k hk hki]
  have hiff : ∀ j, Steps code 0 j ↔ Steps code1 0 j :=
    fun j => Steps.congr_iff (fun k hk _ => hspan1 k hk)
  have hopd : ∀ k, Steps code 0 k → k ≠ i → k < code.length →
      spanLength (code.getD k 0) = 3 → operandAt code1 k = operandAt code k := by
    intro k hk hne hklt hk3
    have h1 := Steps.outside hi hk hne
    rw [hspan] at h1
    have h2 : k + 3 ≤ i ∨ i + 3 ≤ k := by
      cases h1 with
      | inl h1 =>
        have := Steps.next_le hk hi h1
        rw [hk3] at this
        exact Or.inl this
      | inr h1 => exact Or.inr h1
    unfold operandAt
    rw [hout (k + 1) (by omega), hout (k + 2) (by omega)]
  refine
    { steps := ?_, bytes := hbytes, jumps := ?_, loops := ?_, breaks := ?_, starts := ?_,
      pending := ?_ }
  · rw [hlen]
    exact (hiff _).mp h.steps
  · intro k hk hklt hkop
    rw [hlen] at hklt
    have hk0 := (hiff k).mpr hk
    by_cases hki : k = i
    · rw [hki, hlen]
      exact Or.inr ⟨(hiff _).mp htarget.1, htarget.2⟩
    · rw [hsame k hk0 hki] at hkop
      cases h.jumps k hk0 hklt hkop with
      | inl hp => exact Or.inl ⟨hki, hp⟩
      | inr hv =>
        rw [hopd k hk0 hki hklt (spanLength_jump hkop), hlen]
        exact Or.inr ⟨(hiff _).mp hv.1, hv.2⟩
  · intro k hk hklt hkop
    rw [hlen] at hklt
    have hk0 := (hiff k).mpr hk
    by_cases hki : k = i
    · rw [hki] at hkop
      cases hop with
      | inl hop => rw [hop] at hkop; exact absurd hkop (by decide)
      | inr hop => rw [hop] at hkop; exact absurd hkop (by decide)
    · rw [hsame k hk0 hki] at hkop
      obtain ⟨h1, h2, h3⟩ := h.loops k hk0 hklt hkop
      rw [hopd k hk0 hki hklt (by rw [hkop]; rfl)]
      exact ⟨h1, h2, (hiff _).mp h3⟩
  · intro k hk hklt hkop
    rw [hlen] at hklt
    have hk0 := (hiff k).mpr hk
    by_cases hki : k = i
    · rw [hki] at hkop
      cases hop with
      | inl hop => rw [hop] at hkop; exact absurd hkop (by decide)
      | inr hop => rw [hop] at hkop; exact absurd hkop (by decide)
    · rw [hsame k hk0 hki] at hkop
      exact h.breaks k hk0 hklt hkop
  · intro s hs
    obtain ⟨h1, h2⟩ := h.starts s hs
    exact ⟨(hiff _).mp h1, by rw [hlen]; exact h2⟩
  · intro k hq
    obtain ⟨hki, hp⟩ := hq
    obtain ⟨h1, h2, h3⟩ := h.pending k hp
    exact ⟨(hiff _).mp h1, by rw [hlen]; exact h2, by rw [hsame k h1 hki]; exact h3⟩

/-- The invariant when a loop starts at the end of the code. -/
theorem InvCode.push {code : List Byte} {starts : List Nat} {P : Nat → Prop}
    (h : InvCode code starts P) : InvCode code (code.length :: starts) P :=
  { steps := h.steps
    bytes := h.bytes
    jumps := h.jumps
    loops := h.loops
    breaks := fun i hi hlt hop => by
      obtain ⟨s, hs, hle⟩ := h.breaks i hi hlt hop
      exact ⟨s, List.mem_cons_of_mem _ hs, hle⟩
    starts := fun s hs => by
      rw [List.mem_cons] at hs
      cases hs with
      | inl hs => rw [hs]; exact ⟨h.steps, le_refl _⟩
      | inr hs => exact h.starts s hs
    pending := h.pending }

/-- The invariant when the innermost loop ends with no placeholder left in it. -/
theorem InvCode.pop {code : List Byte} {s : Nat} {starts : List Nat} {P : Nat → Prop}
    (h : InvCode code (s :: starts) P)
    (hnone : ∀ i, Steps code 0 i → i < code.length → s ≤ i → code.getD i 0 ≠ 187) :
    InvCode code starts P :=
  { steps := h.steps
    bytes := h.bytes
    jumps := h.jumps
    loops := h.loops
    breaks := fun i hi hlt hop => by
      obtain ⟨s1, hs1, hle⟩ := h.breaks i hi hlt hop
      rw [List.mem_cons] at hs1
      cases hs1 with
      | inl hs1 =>
        rw [hs1] at hle
        exact absurd hop (hnone i hi hlt hle)
      | inr hs1 => exact ⟨s1, hs1, hle⟩
    starts := fun s1 hs1 => h.starts s1 (List.mem_cons_of_mem _ hs1)
    pending := h.pending }

/-- Without a placeholder at the offsets passed, stepping is decoding. -/
theorem Steps.reaches {code : List Byte} {a j : Nat} (h : Steps code a j)
    (hnone : ∀ k, Steps code a k → k < j → code.getD k 0 ≠ 187) : Reaches code a j := by
  induction h with
  | here i => exact Reaches.here _
  | next i j h ih =>
    have hlt : i < j := by
      have := Steps.le h
      have := spanLength_pos (code.getD i 0)
      omega
    have h1 : spanLength (code.getD i 0) = instructionLength (code.getD i 0) :=
      if_neg (hnone i (Steps.here _) hlt)
    rw [h1] at h ih
    exact Reaches.next _ _ (ih (fun k hk hkj => hnone k (Steps.next _ _ (by rw [h1]; exact hk)) hkj))

theorem Reaches.steps {code : List Byte} {a j : Nat} (h : Reaches code a j)
    (hnone : ∀ k, Steps code a k → k < j → code.getD k 0 ≠ 187) : Steps code a j := by
  induction h with
  | here i => exact Steps.here _
  | next i j h ih =>
    have hlt : i < j := by
      have := Reaches.start_le h
      have := instructionLength_pos (code.getD i 0)
      omega
    have h1 : spanLength (code.getD i 0) = instructionLength (code.getD i 0) :=
      if_neg (hnone i (Steps.here _) hlt)
    refine Steps.next _ _ ?_
    rw [h1]
    exact ih (fun k hk hkj => hnone k (Steps.next _ _ (by rw [h1]; exact hk)) hkj)

end scriptlang

namespace scriptlang

/-- The code of a compiled function: the invariant without loop and without pending
jump, followed by `Nil`, `Return`, gives valid jumps. -/
theorem InvCode.validJumps {code : List Byte} (h : InvCode code [] (fun _ => False)) :
    ValidJumps (code ++ [OpCode.Nil.toByte, OpCode.Return.toByte]) := by
  have inv1 : InvCode (code ++ [25]) [] (fun _ => False) :=
    h.append 25 [] rfl (by intro x hx; rw [List.mem_singleton] at hx; rw [hx]; decide)
      (fun i => by simp) (fun hb => absurd hb (by decide)) (fun hb => absurd hb (by decide))
  have inv2 : InvCode ((code ++ [25]) ++ [22]) [] (fun _ => False) :=
    inv1.append 22 [] rfl (by intro x hx; rw [List.mem_singleton] at hx; rw [hx]; decide)
      (fun i => by simp) (fun hb => absurd hb (by decide)) (fun hb => absurd hb (by decide))
  have hcode : code ++ [OpCode.Nil.toByte, OpCode.Return.toByte] = (code ++ [25]) ++ [22] := by
    rw [List.append_assoc]
    rfl
  rw [hcode]
  have no187 : ∀ k, Steps ((code ++ [25]) ++ [22]) 0 k → k < ((code ++ [25]) ++ [22]).length →
      ((code ++ [25]) ++ [22]).getD k 0 ≠ 187 := by
    intro k hk hklt hop
    obtain ⟨s, hs, _⟩ := inv2.breaks k hk hklt hop
    exact absurd hs (List.not_mem_nil s)
  have hlen2 : ((code ++ [25]) ++ [22]).length = (code ++ [25]).length + 1 := by
    rw [List.length_append]
    rfl
  have toReach : ∀ t, Steps (code ++ [25]) 0 t → t ≤ (code ++ [25]).length →
      Reaches ((code ++ [25]) ++ [22]) 0 t := by
    intro t ht hle
    exact (Steps.append_code [22] ht hle).reaches (fun k hk hkj => no187 k hk (by omega))
  intro i hreach hlt
  have hs : Steps ((code ++ [25]) ++ [22]) 0 i :=
    hreach.steps (fun k hk hkj => no187 k hk (by omega))
  have hb1 := getD_lt_of_mem inv2.bytes (i + 1)
  have hb2 := getD_lt_of_mem inv2.bytes (i + 2)
  cases steps_append_cases 22 [] inv1.steps rfl hs hlt with
  | inl hc =>
    obtain ⟨hc1, hc2⟩ := hc
    have hbyte : ((code ++ [25]) ++ [22]).getD i 0 = (code ++ [25]).getD i 0 :=
      List.getD_append _ _ _ _ hc1
    have hsp := inv1.span_le hc2 hc1
    constructor
    · intro hop
      have hop1 : (code ++ [25]).getD i 0 = 13 ∨ (code ++ [25]).getD i 0 = 14 := by
        rw [← hbyte]
        exact hop
      rw [spanLength_jump hop1] at hsp
      rw [operandAt_append _ hsp]
      cases inv1.jumps i hc2 hc1 hop1 with
      | inl hp => exact absurd hp id
      | inr hv => exact ⟨by omega, hb1, hb2, toReach _ hv.1 hv.2, by omega⟩
    · intro hop
      have hop1 : (code ++ [25]).getD i 0 = 15 := by
        rw [← hbyte]
        exact hop
      rw [hop1, spanLength_loop] at hsp
      rw [operandAt_append _ hsp]
      obtain ⟨h1, h2, h3⟩ := inv1.loops i hc2 hc1 hop1
      exact ⟨by omega, hb1, hb2, h2, toReach _ h3 (by omega), by omega⟩
  | inr hc =>
    have hbyte : ((code ++ [25]) ++ [22]).getD i 0 = 22 := by
      rw [hc, List.getD_append_right _ _ _ _ (le_refl _), Nat.sub_self]
      rfl
    constructor
    · intro hop
      rw [hbyte] at hop
      cases hop with
      | inl hop => exact absurd hop (by decide)
      | inr hop => exact absurd hop (by decide)
    · intro hop
      rw [hbyte] at hop
      exact absurd hop (by decide)

end scriptlang

namespace scriptlang

/-! ## The invariant under `patchJump` and `patchLoopBreaks` -/

theorem getD_set_ne {l : List Byte} {i k : Nat} (v : Byte) (h : k ≠ i) :
    (l.set i v).getD k 0 = l.getD k 0 := by
  rw [List.getD_eq_getElem?_getD, List.getD_eq_getElem?_getD, List.getElem?_set_ne (Ne.symm h)]

theorem getD_set_self {l : List Byte} {i : Nat} (v : Byte) (h : i < l.length) :
    (l.set i v).getD i 0 = v := by
  rw [List.getD_eq_getElem?_getD, List.getElem?_set_self h]
  rfl

theorem bytes_set {l : List Byte} {i : Nat} {v : Byte} (h : ∀ b ∈ l, (b : Nat) < 256)
    (hv : (v : Nat) < 256) : ∀ b ∈ l.set i v, (b : Nat) < 256 := by
  intro b hb
  cases List.mem_or_eq_of_mem_set hb with
  | inl hb => exact h b hb
  | inr hb => rw [hb]; exact hv

theorem Chunk.set_constants {c c1 : Chunk} {index : Nat} {byte : Byte}
    (h : c.set index byte = some c1) : c1.constants = c.constants := by
  unfold Chunk.set at h
  split at h
  · rw [← Option.some.inj h]
    rfl
  · exact Option.noConfusion h

theorem Chunk.set_lt {c c1 : Chunk} {index : Nat} {byte : Byte}
    (h : c.set index byte = some c1) : index < c.code.length := by
  unfold Chunk.set at h
  split at h
  · assumption
  · exact Option.noConfusion h

theorem Chunk.get_getD {c : Chunk} {i : Nat} {byte : Byte} (h : c.get i = some byte) :
    c.code.getD i 0 = byte := by
  unfold Chunk.get at h
  rw [List.getD_eq_getElem?_getD, ← List.get?_eq_getElem?, h]
  rfl

/-- The two operand bytes of a 16-bit value. -/
theorem operand_bytes (n : Nat) (h : n < 65536) : n / 256 % 256 * 256 + n % 256 = n := by
  omega

/-- The three bytes at offset `i` after they are overwritten. -/
theorem set3_spec (code : List Byte) (i : Nat) (b x y : Byte) (h : i + 3 ≤ code.length) :
    (((code.set i b).set (i + 1) x).set (i + 2) y).length = code.length ∧
    (∀ k, k < i ∨ i + 3 ≤ k →
      (((code.set i b).set (i + 1) x).set (i + 2) y).getD k 0 = code.getD k 0) ∧
    (((code.set i b).set (i + 1) x).set (i + 2) y).getD i 0 = b ∧
    operandAt (((code.set i b).set (i + 1) x).set (i + 2) y) i = (x : Nat) * 256 + (y : Nat) := by
  refine ⟨by simp, ?_, ?_, ?_⟩
  · intro k hk
    rw [getD_set_ne _ (by omega), getD_set_ne _ (by omega), getD_set_ne _ (by omega)]
  · rw [getD_set_ne _ (by omega), getD_set_ne _ (by omega), getD_set_self _ (by omega)]
  · unfold operandAt
    rw [getD_set_ne _ (by omega), getD_set_self _ (by simp; omega),
      getD_set_self _ (by simp; omega)]

/-- The two operand bytes at offset `i + 1` after they are overwritten. -/
theorem set2_spec (code : List Byte) (i : Nat) (x y : Byte) (h : i + 3 ≤ code.length) :
    ((code.set (i + 1) x).set (i + 2) y).length = code.length ∧
    (∀ k, k < i ∨ i + 3 ≤ k →
      ((code.set (i + 1) x).set (i + 2) y).getD k 0 = code.getD k 0) ∧
    ((code.set (i + 1) x).set (i + 2) y).getD i 0 = code.getD i 0 ∧
    operandAt ((code.set (i + 1) x).set (i + 2) y) i = (x : Nat) * 256 + (y : Nat) := by
  refine ⟨by simp, ?_, ?_, ?_⟩
  · intro k hk
    rw [getD_set_ne _ (by omega), getD_set_ne _ (by omega)]
  · rw [getD_set_ne _ (by omega), getD_set_ne _ (by omega)]
  · unfold operandAt
    rw [getD_set_ne _ (by omega), getD_set_self _ (by omega),
      getD_set_self _ (by simp; omega)]

/-- Overwriting the bytes of one instruction without changing its length keeps the
offsets reached. -/
theorem steps_patch_iff {code code1 : List Byte} {i : Nat} (hi : Steps code 0 i)
    (hspan : spanLength (code1.getD i 0) = spanLength (code.getD i 0))
    (hout : ∀ k, k < i ∨ i + spanLength (code.getD i 0) ≤ k → code1.getD k 0 = code.getD k 0)
    (j : Nat) : Steps code 0 j ↔ Steps code1 0 j := by
  refine Steps.congr_iff ?_
  intro k hk _
  by_cases hki : k = i
  · rw [hki, hspan]
  · rw [hout k (Steps.outside hi hk hki)]

end scriptlang

namespace scriptlang

/-- At the end of the scan: the only offset reached between the `Loop` instruction at
`end_` and the end of the code is `end_`. -/
theorem no_break_after_end {code : List Byte} {end_ k : Nat} (hend : Steps code 0 end_)
    (hlen : end_ + 3 = code.length) (hop : code.getD end_ 0 = 15) (hk : Steps code 0 k)
    (hle : end_ ≤ k) (hklt : k < code.length) : code.getD k 0 ≠ 187 := by
  by_cases heq : k = end_
  · rw [heq, hop]
    decide
  · have := Steps.next_le hend hk (by omega)
    rw [hop, spanLength_loop] at this
    omega

/-- The scan of `patchLoopBreaks` keeps the invariant and leaves no placeholder at or
after the start `s` of the loop. -/
theorem patchLoopBreaksLoop_inv (end_ s : Nat) (starts : List Nat) (P : Nat → Prop)
    (hrange : end_ - s < 65536) :
    ∀ (fuel i : Nat) (chunk chunk1 : Chunk),
      patchLoopBreaksLoop end_ fuel i chunk = some chunk1 →
      InvCode chunk.code (s :: starts) P → Steps chunk.code 0 i → s ≤ i →
      Steps chunk.code 0 end_ → end_ + 3 = chunk.code.length → chunk.code.getD end_ 0 = 15 →
      (end_ - i < fuel ∨ end_ ≤ i) →
      (∀ k, Steps chunk.code 0 k → s ≤ k → k < i → chunk.code.getD k 0 ≠ 187) →
      InvCode chunk1.code (s :: starts) P ∧ chunk1.code.length = chunk.code.length ∧
      chunk1.constants = chunk.constants ∧
      ∀ k, Steps chunk1.code 0 k → s ≤ k → k < chunk1.code.length →
        chunk1.code.getD k 0 ≠ 187 := by
  intro fuel
  induction fuel with
  | zero =>
    intro i chunk chunk1 h inv hi hsi hend hlen hop hfuel hnone
    have heq : chunk1 = chunk := (Option.some.inj h).symm
    rw [heq]
    refine ⟨inv, rfl, rfl, ?_⟩
    intro k hk hsk hklt
    by_cases hki : k < i
    · exact hnone k hk hsk hki
    · exact no_break_after_end hend hlen hop hk (by omega) hklt
  | succ fuel ih =>
    intro i chunk chunk1 h inv hi hsi hend hlen hop hfuel hnone
    unfold patchLoopBreaksLoop at h
    by_cases hie : i < end_
    · rw [if_pos hie] at h
      cases hb : chunk.get i with
      | none =>
        rw [hb] at h
        exact Option.noConfusion h
      | some byte =>
        rw [hb] at h
        simp only [] at h
        have hbyte := Chunk.get_getD hb
        by_cases hp : byte = BREAK_PLACEHOLDER
        · rw [if_pos hp] at h
          cases h1 : chunk.set i OpCode.Jump.toByte with
          | none =>
            rw [h1] at h
            exact Option.noConfusion h
          | some c1 =>
            rw [h1] at h
            simp only [] at h
            cases h2 : c1.set (i + 1) ((end_ - i) % 65536 / 256 % 256) with
            | none =>
              rw [h2] at h
              exact Option.noConfusion h
            | some c2 =>
              rw [h2] at h
              simp only [] at h
              cases h3 : c2.set (i + 2) ((end_ - i) % 65536 % 256) with
              | none =>
                rw [h3] at h
                exact Option.noConfusion h
              | some c3 =>
                rw [h3] at h
                simp only [] at h
                have hcode3 : c3.code = ((chunk.code.set i 14).set (i + 1)
                    ((end_ - i) % 65536 / 256 % 256)).set (i + 2) ((end_ - i) % 65536 % 256) := by
                  rw [Chunk.set_code h3, Chunk.set_code h2, Chunk.set_code h1]
                  rfl
                have hconst3 : c3.constants = chunk.constants := by
                  rw [Chunk.set_constants h3, Chunk.set_constants h2, Chunk.set_constants h1]
                have hat : chunk.code.getD i 0 = 187 := by rw [hbyte, hp]; rfl
                have hspan : spanLength (chunk.code.getD i 0) = 3 := by rw [hat]; rfl
                have hi3 : i + 3 ≤ end_ := by
                  have := Steps.next_le hi hend hie
                  rw [hspan] at this
                  exact this
                obtain ⟨e1, e2, e3, e4⟩ := set3_spec chunk.code i 14
                  ((end_ - i) % 65536 / 256 % 256) ((end_ - i) % 65536 % 256) (by omega)
                rw [← hcode3] at e1 e2 e3 e4
                have hopd : operandAt c3.code i = end_ - i := by
                  rw [e4]
                  have hlt : end_ - i < 65536 := by omega
                  rw [Nat.mod_eq_of_lt hlt]
                  exact operand_bytes _ hlt
                have hbytes3 : ∀ b ∈ c3.code, (b : Nat) < 256 := by
                  rw [hcode3]
                  exact bytes_set (bytes_set (bytes_set inv.bytes (by decide))
                    (Nat.mod_lt _ (by decide))) (Nat.mod_lt _ (by decide))
                have inv3 : InvCode c3.code (s :: starts) P := by
                  refine (inv.patch hi hspan e1 e2 (Or.inr e3) hbytes3 ?_).congr ?_
                  · rw [hopd]
                    have ht : i + 3 + (end_ - i) = chunk.code.length := by omega
                    rw [ht]
                    exact ⟨inv.steps, le_refl _⟩
                  · intro p
                    constructor
                    · exact fun hq => hq.2
                    · intro hq
                      refine ⟨?_, hq⟩
                      intro hpi
                      rw [hpi] at hq
                      obtain ⟨_, _, hj⟩ := inv.pending i hq
                      rw [hat] at hj
                      cases hj with
                      | inl hj => exact absurd hj (by decide)
                      | inr hj => exact absurd hj (by decide)
                have hiff : ∀ j, Steps chunk.code 0 j ↔ Steps c3.code 0 j :=
                  steps_patch_iff hi (by rw [e3, hspan]; rfl) (by rw [hspan]; exact e2)
                have hnext : Steps chunk.code 0 (i + 3) := by
                  have := Steps.single chunk.code i
                  rw [hspan] at this
                  exact Steps.chain hi this
                obtain ⟨r1, r2, r3, r4⟩ := ih (i + 3) c3 chunk1 h inv3 ((hiff _).mp hnext)
                  (by omega) ((hiff _).mp hend) (by rw [e1]; exact hlen)
                  (by rw [e2 end_ (Or.inr hi3)]; exact hop) (by omega)
                  (by
                    intro k hk hsk hklt
                    have hk0 := (hiff k).mpr hk
                    by_cases hki : k = i
                    · rw [hki, e3]
                      decide
                    · have hout := Steps.outside hi hk0 hki
                      rw [hspan] at hout
                      rw [e2 k hout]
                      exact hnone k hk0 hsk (by omega))
                exact ⟨r1, by rw [r2, e1], by rw [r3, hconst3], r4⟩
        · rw [if_neg hp] at h
          have hne : chunk.code.getD i 0 ≠ 187 := by rw [hbyte]; exact hp
          have hspan : spanLength (chunk.code.getD i 0) = instructionLength byte := by
            rw [hbyte]
            exact if_neg hp
          have hnext : Steps chunk.code 0 (i + instructionLength byte) := by
            have := Steps.single chunk.code i
            rw [hspan] at this
            exact Steps.chain hi this
          have hpos := instructionLength_pos byte
          exact ih (i + instructionLength byte) chunk chunk1 h inv hnext (by omega) hend hlen hop
            (by omega)
            (by
              intro k hk hsk hklt
              by_cases hki : k = i
              · rw [hki]
                exact hne
              · have hout := Steps.outside hi hk hki
                rw [hspan] at hout
                exact hnone k hk hsk (by omega))
    · rw [if_neg hie] at h
      have heq : chunk1 = chunk := (Option.some.inj h).symm
      rw [heq]
      refine ⟨inv, rfl, rfl, ?_⟩
      intro k hk hsk hklt
      by_cases hki : k < i
      · exact hnone k hk hsk hki
      · exact no_break_after_end hend hlen hop hk (by omega) hklt

end scriptlang

namespace scriptlang

/-! ## Compiler steps that keep the invariant -/

theorem Compiler.Keeps.refl (c : Compiler) : c.Keeps c :=
  ⟨rfl, rfl, fun h => ⟨h, fun _ hinv => hinv⟩⟩

theorem Compiler.Keeps.trans {c c1 c2 : Compiler} (h1 : c.Keeps c1) (h2 : c1.Keeps c2) :
    c.Keeps c2 := by
  obtain ⟨a1, b1, d1⟩ := h1
  obtain ⟨a2, b2, d2⟩ := h2
  refine ⟨a2.trans a1, b2.trans b1, ?_⟩
  intro hok
  obtain ⟨hok1, hinv2⟩ := d2 hok
  obtain ⟨hok0, hinv1⟩ := d1 hok1
  exact ⟨hok0, fun P hP => hinv2 P (hinv1 P hP)⟩

/-- A step that ends with a diagnostic keeps the invariant, there being nothing to
keep. -/
theorem Compiler.Keeps.of_error {c c1 : Compiler} (htype : c1.type = c.type)
    (hloop : c1.loop.map Loop.start = c.loop.map Loop.start)
    (herr : c1.reporter.hadError = true) : c.Keeps c1 := by
  refine ⟨htype, hloop, ?_⟩
  intro hok
  rw [herr] at hok
  exact Bool.noConfusion hok

/-- A step that leaves mode, loops, reporter, code and constants as they are. -/
theorem Compiler.Keeps.of_same {c c1 : Compiler} (htype : c1.type = c.type)
    (hloop : c1.loop.map Loop.start = c.loop.map Loop.start)
    (hrep : c1.reporter = c.reporter)
    (hcode : c1.currentChunk.code = c.currentChunk.code)
    (hconst : c1.currentChunk.constants = c.currentChunk.constants) : c.Keeps c1 := by
  refine ⟨htype, hloop, ?_⟩
  intro hok
  rw [hrep] at hok
  refine ⟨hok, ?_⟩
  intro P hP
  unfold Compiler.Inv at hP ⊢
  rw [hcode, hloop, htype, hconst]
  exact hP

/-- A step that appends one instruction which is neither a jump, nor `Loop`, nor the
placeholder, and adds no function to the constants. -/
theorem Compiler.Keeps.of_instruction {c c1 : Compiler} (b : Byte) (operands : List Byte)
    (htype : c1.type = c.type)
    (hloop : c1.loop.map Loop.start = c.loop.map Loop.start)
    (hrep : c1.reporter = c.reporter)
    (hcode : c1.currentChunk.code = c.currentChunk.code ++ b :: operands)
    (hlen : (b :: operands).length = spanLength b)
    (hbytes : ∀ x ∈ b :: operands, (x : Nat) < 256)
    (hb : b ≠ 13 ∧ b ≠ 14 ∧ b ≠ 15 ∧ b ≠ 187)
    (hconst : ∀ g, Value.function g ∈ c1.currentChunk.constants →
      Value.function g ∈ c.currentChunk.constants) : c.Keeps c1 := by
  refine ⟨htype, hloop, ?_⟩
  intro hok
  rw [hrep] at hok
  refine ⟨hok, ?_⟩
  intro P hP
  obtain ⟨h1, h2⟩ := hP
  refine ⟨?_, ?_⟩
  · rw [hcode, hloop]
    refine h1.append b operands hlen hbytes ?_ (fun h => absurd h hb.2.2.1)
      (fun h => absurd h hb.2.2.2)
    intro i
    constructor
    · exact fun h => Or.inl h
    · intro h
      cases h with
      | inl h => exact h
      | inr h =>
        cases h.2 with
        | inl h3 => exact absurd h3 hb.1
        | inr h3 => exact absurd h3 hb.2.1
  · intro g hg
    rw [htype]
    exact h2 g (hconst g hg)

theorem Compiler.emitError_hadError (c : Compiler) (message : String) :
    (c.emitError message).reporter.hadError = true := rfl

theorem Compiler.keeps_emitError (c : Compiler) (message : String) :
    c.Keeps (c.emitError message) :=
  Compiler.Keeps.of_error rfl rfl rfl

/-- A one-byte instruction. -/
theorem Compiler.keeps_emit1 (c : Compiler) (b : Byte) (hlen : spanLength b = 1)
    (hb : b ≠ 13 ∧ b ≠ 14 ∧ b ≠ 15 ∧ b ≠ 187) (hlt : (b : Nat) < 256) : c.Keeps (c.emit b) := by
  refine Compiler.Keeps.of_instruction b [] rfl rfl rfl (Compiler.emit_code c b) hlen.symm ?_ hb ?_
  · intro x hx
    rw [List.mem_singleton] at hx
    rw [hx]
    exact hlt
  · intro g hg
    rw [Compiler.emit_constants] at hg
    exact hg

/-- The location of the node being compiled has no part in the invariant. -/
theorem Compiler.keeps_location (c : Compiler) (location : SourceRange) :
    c.Keeps { c with currentNodeLocation := location } :=
  Compiler.Keeps.of_same rfl rfl rfl rfl rfl

end scriptlang

namespace scriptlang

theorem Compiler.keeps_emitOp (c : Compiler) (op : OpCode)
    (hop : instructionLength op.toByte = 1) : c.Keeps (c.emitOp op) := by
  unfold Compiler.emitOp
  refine Compiler.keeps_emit1 c op.toByte ?_ ?_ ?_
  · cases op <;> first | rfl | exact absurd hop (by decide)
  · cases op <;> first | decide | exact absurd hop (by decide)
  · cases op <;> decide

/-- A two-byte instruction, with a constant that is not a function added or not. -/
theorem Compiler.keeps_emit2 {c c1 : Compiler} (b x : Byte)
    (htype : c1.type = c.type) (hloop : c1.loop = c.loop) (hrep : c1.reporter = c.reporter)
    (hcode : c1.currentChunk.code = c.currentChunk.code ++ [b, x])
    (hlen : spanLength b = 2) (hb : (b : Nat) < 256) (hx : (x : Nat) < 256)
    (hconst : ∀ g, Value.function g ∈ c1.currentChunk.constants →
      Value.function g ∈ c.currentChunk.constants) : c.Keeps c1 := by
  refine Compiler.Keeps.of_instruction b [x] htype (by rw [hloop]) hrep hcode hlen.symm ?_ ?_ hconst
  · intro y hy
    rw [List.mem_cons, List.mem_singleton] at hy
    cases hy with
    | inl hy => rw [hy]; exact hb
    | inr hy => rw [hy]; exact hx
  · refine ⟨?_, ?_, ?_, ?_⟩ <;> intro h <;> rw [h] at hlen <;> exact absurd hlen (by decide)

/-- A function among the constants after a value that is not one was added. -/
theorem function_mem_append {constants : List Value} {v : Value} (hv : v.isFunction = false)
    {g : ObjectFunction} (h : Value.function g ∈ constants ++ [v]) :
    Value.function g ∈ constants := by
  rw [List.mem_append, List.mem_singleton] at h
  cases h with
  | inl h => exact h
  | inr h =>
    rw [← h] at hv
    exact Bool.noConfusion hv

theorem Compiler.keeps_visitLiteralExpression (c : Compiler) (value : Literal) :
    c.Keeps (c.visitLiteralExpression value) := by
  cases value with
  | boolean b =>
    cases b
    · exact Compiler.keeps_emitOp c OpCode.False rfl
    · exact Compiler.keeps_emitOp c OpCode.True rfl
  | nil => exact Compiler.keeps_emitOp c OpCode.Nil rfl
  | number n =>
    obtain ⟨e1, e2⟩ := c.visitLiteralExpression_number n
    refine Compiler.keeps_emit2 0 (c.currentChunk.constants.length % 256) rfl rfl rfl e1 rfl
      (by decide) (Nat.mod_lt _ (by decide)) ?_
    intro g hg
    rw [e2] at hg
    exact function_mem_append (v := Value.number n) rfl hg
  | string s =>
    have e1 : (c.visitLiteralExpression (Literal.string s)).currentChunk.code =
        c.currentChunk.code ++ [0, c.currentChunk.constants.length % 256] := by
      unfold Compiler.visitLiteralExpression
      rw [Compiler.emit_code, Compiler.setChunk_currentChunk, Chunk.addConstant_code,
        Compiler.emitOp_code, Chunk.addConstant_index, Compiler.emitOp, Compiler.emit_constants,
        List.append_assoc]
      rfl
    have e2 : (c.visitLiteralExpression (Literal.string s)).currentChunk.constants =
        c.currentChunk.constants ++ [Value.string s] := by
      unfold Compiler.visitLiteralExpression
      rw [Compiler.emit_constants, Compiler.setChunk_currentChunk, Chunk.addConstant_constants,
        Compiler.emitOp, Compiler.emit_constants]
    refine Compiler.keeps_emit2 0 (c.currentChunk.constants.length % 256) rfl rfl rfl e1 rfl
      (by decide) (Nat.mod_lt _ (by decide)) ?_
    intro g hg
    rw [e2] at hg
    exact function_mem_append (v := Value.string s) rfl hg

end scriptlang

namespace scriptlang

theorem Compiler.keeps_resolveVariableName (c : Compiler) (name : Token) :
    c.Keeps (c.resolveVariableName name).2 := by
  unfold Compiler.resolveVariableName
  simp only []
  split
  · exact Compiler.keeps_emitError c _
  · exact Compiler.Keeps.refl c

theorem Compiler.keeps_emitVariableAccess (c : Compiler) (name : Token) (global local_ : OpCode)
    (hglobal : instructionLength global.toByte = 2)
    (hlocal : instructionLength local_.toByte = 2) :
    c.Keeps (c.emitVariableAccess name global local_) := by
  refine Compiler.Keeps.trans (Compiler.keeps_resolveVariableName c name) ?_
  unfold Compiler.emitVariableAccess
  split
  · refine Compiler.keeps_emit2 global.toByte
      ((c.resolveVariableName name).2.currentChunk.constants.length % 256) rfl rfl rfl ?_ ?_ ?_
      (Nat.mod_lt _ (by decide)) ?_
    · rw [Compiler.emit_code, Compiler.emitOp_code, Compiler.setChunk_currentChunk,
        Chunk.addConstant_code, Chunk.addConstant_index, List.append_assoc]
      rfl
    · cases global <;> first | rfl | exact absurd hglobal (by decide)
    · cases global <;> decide
    · intro g hg
      rw [Compiler.emit_constants, Compiler.emitOp, Compiler.emit_constants,
        Compiler.setChunk_currentChunk, Chunk.addConstant_constants] at hg
      exact function_mem_append (v := Value.string name.lexeme) rfl hg
  · refine Compiler.keeps_emit2 local_.toByte ((c.resolveVariableName name).1.toNat % 256)
      rfl rfl rfl ?_ ?_ ?_ (Nat.mod_lt _ (by decide)) ?_
    · rw [Compiler.emit_code, Compiler.emitOp_code, List.append_assoc]
      rfl
    · cases local_ <;> first | rfl | exact absurd hlocal (by decide)
    · cases local_ <;> decide
    · intro g hg
      rw [Compiler.emit_constants, Compiler.emitOp, Compiler.emit_constants] at hg
      exact hg

theorem Compiler.keeps_emitBinaryOperator (c : Compiler) (op : Token) :
    c.Keeps (c.emitBinaryOperator op) := by
  unfold Compiler.emitBinaryOperator
  split
  · exact Compiler.keeps_emitOp c _ rfl
  · exact Compiler.keeps_emitOp c _ rfl
  · exact Compiler.keeps_emitOp c _ rfl
  · exact Compiler.keeps_emitOp c _ rfl
  · exact Compiler.keeps_emitOp c _ rfl
  · exact Compiler.keeps_emitOp c _ rfl
  · exact Compiler.keeps_emitOp c _ rfl
  · exact (Compiler.keeps_emitOp c OpCode.Greater rfl).trans
      (Compiler.keeps_emitOp _ OpCode.Not rfl)
  · exact (Compiler.keeps_emitOp c OpCode.Less rfl).trans
      (Compiler.keeps_emitOp _ OpCode.Not rfl)
  · exact Compiler.keeps_emitOp c _ rfl
  · exact (Compiler.keeps_emitOp c OpCode.Equal rfl).trans
      (Compiler.keeps_emitOp _ OpCode.Not rfl)
  · exact Compiler.keeps_emitError c _

theorem Compiler.keeps_emitUnaryOperator (c : Compiler) (op : Token) :
    c.Keeps (c.emitUnaryOperator op) := by
  unfold Compiler.emitUnaryOperator
  split
  · exact Compiler.keeps_emitOp c _ rfl
  · exact Compiler.keeps_emitOp c _ rfl
  · exact Compiler.Keeps.refl c
  · exact Compiler.keeps_emitError c _

/-- The `Call` instruction with its argument count. -/
theorem Compiler.keeps_emitCall (c : Compiler) (n : Nat) :
    c.Keeps ((c.emitOp OpCode.Call).emit (n % 256)) := by
  refine Compiler.keeps_emit2 21 (n % 256) rfl rfl rfl ?_ rfl (by decide)
    (Nat.mod_lt _ (by decide)) ?_
  · rw [Compiler.emit_code, Compiler.emitOp_code, List.append_assoc]
    rfl
  · intro g hg
    rw [Compiler.emit_constants, Compiler.emitOp, Compiler.emit_constants] at hg
    exact hg

theorem Compiler.keeps_beginScope (c : Compiler) : c.Keeps c.beginScope := by
  unfold Compiler.beginScope
  exact Compiler.Keeps.of_same rfl rfl rfl rfl rfl

theorem Compiler.keeps_endScopeLoop : ∀ (fuel : Nat) (c : Compiler),
    c.Keeps (Compiler.endScopeLoop fuel c) := by
  intro fuel
  induction fuel with
  | zero => exact fun c => Compiler.Keeps.refl c
  | succ fuel ih =>
    intro c
    unfold Compiler.endScopeLoop
    split
    · exact Compiler.Keeps.refl c
    · split
      · refine Compiler.Keeps.trans ?_ (ih _)
        refine Compiler.Keeps.trans (Compiler.keeps_emitOp c OpCode.Pop rfl) ?_
        exact Compiler.Keeps.of_same rfl rfl rfl rfl rfl
      · exact Compiler.Keeps.refl c

theorem Compiler.keeps_scopeDepth (c : Compiler) (depth : Nat) :
    c.Keeps { c with scopeDepth := depth } :=
  Compiler.Keeps.of_same rfl rfl rfl rfl rfl

theorem Compiler.keeps_endScope (c : Compiler) : c.Keeps c.endScope := by
  unfold Compiler.endScope
  exact (Compiler.keeps_scopeDepth c _).trans (Compiler.keeps_endScopeLoop _ _)

theorem Compiler.keeps_popLoopLocals (loopDepth : Int) : ∀ (locals : List Local) (c : Compiler),
    c.Keeps (Compiler.popLoopLocals loopDepth locals c) := by
  intro locals
  induction locals with
  | nil => exact fun c => Compiler.Keeps.refl c
  | cons local_ below ih =>
    intro c
    unfold Compiler.popLoopLocals
    split
    · exact Compiler.Keeps.trans (Compiler.keeps_emitOp c OpCode.Pop rfl) (ih _)
    · exact Compiler.Keeps.refl c

theorem Compiler.keeps_addLocal {c c1 : Compiler} {name : Token}
    (h : c.addLocal name = some c1) : c.Keeps c1 := by
  unfold Compiler.addLocal at h
  split at h
  · rw [← Option.some.inj h]
    exact Compiler.Keeps.of_same rfl rfl rfl rfl rfl
  · exact Option.noConfusion h

theorem Compiler.keeps_declareVariable {c c1 : Compiler} {name : Token}
    (h : c.declareVariable name = some c1) : c.Keeps c1 := by
  unfold Compiler.declareVariable at h
  split at h
  · rw [← Option.some.inj h]
    exact Compiler.Keeps.refl c
  · split at h
    · rw [← Option.some.inj h]
      exact Compiler.keeps_emitError c _
    · split at h
      · exact Compiler.Keeps.trans (Compiler.keeps_emitError c _) (Compiler.keeps_addLocal h)
      · exact Compiler.keeps_addLocal h

theorem Compiler.keeps_markVariableAsDefined {c c1 : Compiler}
    (h : c.markVariableAsDefined = some c1) : c.Keeps c1 := by
  unfold Compiler.markVariableAsDefined at h
  split at h
  · exact Option.noConfusion h
  · rw [← Option.some.inj h]
    exact Compiler.Keeps.of_same rfl rfl rfl rfl rfl

theorem Compiler.keeps_defineVariable {c c1 : Compiler} {name : Token}
    (h : c.defineVariable name = some c1) : c.Keeps c1 := by
  unfold Compiler.defineVariable at h
  split at h
  · exact Compiler.keeps_markVariableAsDefined h
  · rw [← Option.some.inj h]
    refine Compiler.keeps_emit2 18 (c.currentChunk.constants.length % 256) rfl rfl rfl ?_ rfl
      (by decide) (Nat.mod_lt _ (by decide)) ?_
    · rw [Compiler.emit_code, Compiler.emitOp_code, Compiler.setChunk_currentChunk,
        Chunk.addConstant_code, Chunk.addConstant_index, List.append_assoc]
      rfl
    · intro g hg
      rw [Compiler.emit_constants, Compiler.emitOp, Compiler.emit_constants,
        Compiler.setChunk_currentChunk, Chunk.addConstant_constants] at hg
      exact function_mem_append (v := Value.string name.lexeme) rfl hg

theorem Compiler.keeps_declareParameters : ∀ (params : List Token) (c c1 : Compiler),
    Compiler.declareParameters params c = some c1 → c.Keeps c1 := by
  intro params
  induction params with
  | nil =>
    intro c c1 h
    have h1 : some c = some c1 := h
    rw [← Option.some.inj h1]
    exact Compiler.Keeps.refl c
  | cons param params ih =>
    intro c c1 h
    unfold Compiler.declareParameters at h
    cases h1 : c.declareVariable param with
    | none =>
      rw [h1] at h
      exact Option.noConfusion h
    | some c2 =>
      rw [h1] at h
      simp only [] at h
      cases h2 : c2.defineVariable param with
      | none =>
        rw [h2] at h
        exact Option.noConfusion h
      | some c3 =>
        rw [h2] at h
        exact (Compiler.keeps_declareVariable h1).trans
          ((Compiler.keeps_defineVariable h2).trans (ih _ _ h))

end scriptlang

namespace scriptlang

/-! ## The invariant under the compiler's jump operations -/

theorem Compiler.emitJump_code (c : Compiler) (op : OpCode) :
    (c.emitJump op).2.currentChunk.code = c.currentChunk.code ++ [op.toByte, 255, 255] := by
  unfold Compiler.emitJump
  simp only []
  rw [Compiler.emit_code, Compiler.emit_code, Compiler.emitOp_code, List.append_assoc,
    List.append_assoc]
  rfl

theorem Compiler.emitJump_constants (c : Compiler) (op : OpCode) :
    (c.emitJump op).2.currentChunk.constants = c.currentChunk.constants := by
  unfold Compiler.emitJump
  simp only []
  rw [Compiler.emit_constants, Compiler.emit_constants, Compiler.emitOp, Compiler.emit_constants]

theorem Compiler.emitJump_offset (c : Compiler) (op : OpCode) :
    (c.emitJump op).1 = (c.currentChunk.code.length + 1) % 65536 := by
  have h := Compiler.emitJump_code c op
  unfold Compiler.emitJump at h ⊢
  simp only [] at h ⊢
  unfold Chunk.size
  rw [h, List.length_append]
  rfl

/-- After `emitJump` the new jump is pending. -/
theorem Compiler.inv_emitJump (c : Compiler) (op : OpCode)
    (hop : op = OpCode.JumpIfFalse ∨ op = OpCode.Jump) (P : Nat → Prop) (h : c.Inv P) :
    (c.emitJump op).2.Inv (fun i => i = c.currentChunk.code.length ∨ P i) := by
  obtain ⟨h1, h2⟩ := h
  have hb : op.toByte = 13 ∨ op.toByte = 14 := by
    cases hop with
    | inl hop => rw [hop]; exact Or.inl rfl
    | inr hop => rw [hop]; exact Or.inr rfl
  refine ⟨?_, ?_⟩
  · rw [Compiler.emitJump_code]
    have hloop : (c.emitJump op).2.loop = c.loop := rfl
    rw [hloop]
    refine h1.append op.toByte [255, 255] ?_ ?_ ?_ ?_ ?_
    · rw [spanLength_jump hb]
      rfl
    · intro x hx
      rw [List.mem_cons, List.mem_cons, List.mem_singleton] at hx
      rcases hx with hx | hx | hx
      · rw [hx]
        cases hb with
        | inl hb => rw [hb]; decide
        | inr hb => rw [hb]; decide
      · rw [hx]; decide
      · rw [hx]; decide
    · intro i
      constructor
      · intro hq
        cases hq with
        | inl hq => exact Or.inr ⟨hq, hb⟩
        | inr hq => exact Or.inl hq
      · intro hq
        cases hq with
        | inl hq => exact Or.inr hq
        | inr hq => exact Or.inl hq.1
    · intro h15
      rw [h15] at hb
      cases hb with
      | inl hb => exact absurd hb (by decide)
      | inr hb => exact absurd hb (by decide)
    · intro h187
      rw [h187] at hb
      cases hb with
      | inl hb => exact absurd hb (by decide)
      | inr hb => exact absurd hb (by decide)
  · rw [Compiler.emitJump_constants]
    exact h2

theorem Compiler.emitJump_keeps_rest (c : Compiler) (op : OpCode) :
    (c.emitJump op).2.type = c.type ∧ (c.emitJump op).2.loop = c.loop ∧
    (c.emitJump op).2.reporter = c.reporter :=
  ⟨rfl, rfl, rfl⟩

/-- `patchJump` on a pending jump: without a diagnostic the jump lands at the end of
the code and is no longer pending. -/
theorem Compiler.inv_patchJump {c c1 : Compiler} {r i : Nat} {Q : Nat → Prop}
    (h : c.patchJump r = some c1) (hok : c1.reporter.hadError = false)
    (hinv : c.Inv Q) (hq : Q i) (hr : r = (i + 1) % 65536) :
    c.reporter.hadError = false ∧ c1.type = c.type ∧ c1.loop = c.loop ∧
    c1.Inv (fun p => p ≠ i ∧ Q p) ∧
    c1.currentChunk.code.length = c.currentChunk.code.length ∧
    (∀ k, k < i ∨ i + 3 ≤ k → c1.currentChunk.code.getD k 0 = c.currentChunk.code.getD k 0) ∧
    ∀ j, Steps c.currentChunk.code 0 j ↔ Steps c1.currentChunk.code 0 j := by
  obtain ⟨h1, h2⟩ := hinv
  obtain ⟨hsteps, hlt, hop⟩ := h1.pending i hq
  have hsp := h1.span_le hsteps hlt
  rw [spanLength_jump hop] at hsp
  unfold Compiler.patchJump at h
  have hsize : c.currentChunk.size = c.currentChunk.code.length := rfl
  rw [hsize] at h
  have hshort : SHORT_MAX = 65535 := rfl
  rw [hshort] at h
  by_cases hbig : c.currentChunk.code.length - r - 2 > 65535
  · rw [if_pos hbig] at h
    rw [← Option.some.inj h] at hok
    exact Bool.noConfusion hok
  · rw [if_neg hbig] at h
    have hri : r = i + 1 := by omega
    rw [hri] at h
    cases hs1 : c.currentChunk.set (i + 1)
        ((c.currentChunk.code.length - (i + 1) - 2) / 256 % 256) with
    | none =>
      rw [hs1] at h
      exact Option.noConfusion h
    | some chunk1 =>
      rw [hs1] at h
      simp only [] at h
      cases hs2 : chunk1.set (i + 1 + 1) ((c.currentChunk.code.length - (i + 1) - 2) % 256) with
      | none =>
        rw [hs2] at h
        exact Option.noConfusion h
      | some chunk2 =>
        rw [hs2] at h
        simp only [] at h
        have hc1 : c1 = c.setChunk chunk2 := (Option.some.inj h).symm
        have hcode : chunk2.code = (c.currentChunk.code.set (i + 1)
            ((c.currentChunk.code.length - (i + 1) - 2) / 256 % 256)).set (i + 2)
            ((c.currentChunk.code.length - (i + 1) - 2) % 256) := by
          rw [Chunk.set_code hs2, Chunk.set_code hs1]
        have hconst : chunk2.constants = c.currentChunk.constants := by
          rw [Chunk.set_constants hs2, Chunk.set_constants hs1]
        obtain ⟨e1, e2, e3, e4⟩ := set2_spec c.currentChunk.code i
          ((c.currentChunk.code.length - (i + 1) - 2) / 256 % 256)
          ((c.currentChunk.code.length - (i + 1) - 2) % 256) hsp
        rw [← hcode] at e1 e2 e3 e4
        have hopd : operandAt chunk2.code i = c.currentChunk.code.length - (i + 1) - 2 := by
          rw [e4]
          exact operand_bytes _ (by omega)
        rw [hc1] at hok ⊢
        refine ⟨hok, rfl, rfl, ⟨?_, ?_⟩, e1, e2, ?_⟩
        rotate_left 2
        · rw [Compiler.setChunk_currentChunk]
          exact steps_patch_iff hsteps (by rw [e3]) (by rw [spanLength_jump hop]; exact e2)
        · rw [Compiler.setChunk_currentChunk]
          have hloop : (c.setChunk chunk2).loop = c.loop := rfl
          rw [hloop]
          refine h1.patch hsteps (spanLength_jump hop) e1 e2 (by rw [e3]; exact hop) ?_ ?_
          · rw [hcode]
            exact bytes_set (bytes_set h1.bytes (Nat.mod_lt _ (by decide)))
              (Nat.mod_lt _ (by decide))
          · rw [hopd]
            have ht : i + 3 + (c.currentChunk.code.length - (i + 1) - 2) =
                c.currentChunk.code.length := by omega
            rw [ht]
            exact ⟨h1.steps, le_refl _⟩
        · rw [Compiler.setChunk_currentChunk, hconst]
          exact h2

end scriptlang

namespace scriptlang

/-- `beginLoop`: the new loop starts at the end of the code. -/
theorem Compiler.inv_beginLoop (c : Compiler) (P : Nat → Prop) (h : c.Inv P) :
    c.beginLoop.Inv P ∧
    c.beginLoop.loop.map Loop.start = c.currentChunk.code.length :: c.loop.map Loop.start ∧
    c.beginLoop.type = c.type ∧ c.beginLoop.reporter = c.reporter ∧
    c.beginLoop.currentChunk = c.currentChunk := by
  refine ⟨⟨?_, h.2⟩, rfl, rfl, rfl, rfl⟩
  exact h.1.push

/-- The head of a list of loops whose starts are known. -/
theorem loop_of_starts {loops : List Loop} {start : Nat} {tailStarts : List Nat}
    (h : loops.map Loop.start = start :: tailStarts) :
    ∃ loop rest, loops = loop :: rest ∧ loop.start = start ∧ rest.map Loop.start = tailStarts := by
  cases loops with
  | nil => exact List.noConfusion h
  | cons loop rest =>
    rw [List.map_cons] at h
    exact ⟨loop, rest, rfl, (List.cons.inj h).1, (List.cons.inj h).2⟩

/-- `emitLoop(loop_->start)`: without a diagnostic the `Loop` instruction lands on the
start of the innermost loop, whose `end` is now the offset of that instruction. -/
theorem Compiler.emitLoop_spec {c c2 : Compiler} {start : Nat} {tailStarts : List Nat}
    (h : c.emitLoop start = some c2) (hstart : c.loop.map Loop.start = start :: tailStarts) :
    c2.type = c.type ∧ c2.loop.map Loop.start = c.loop.map Loop.start ∧
    (c2.reporter.hadError = false →
      c.reporter.hadError = false ∧
      ∀ P, c.Inv P →
        c2.Inv P ∧
        (∃ loop2 rest2, c2.loop = loop2 :: rest2 ∧ loop2.start = start ∧
          loop2.end_ = c.currentChunk.code.length ∧ rest2.map Loop.start = tailStarts) ∧
        c2.currentChunk.code.length = c.currentChunk.code.length + 3 ∧
        c2.currentChunk.code.getD c.currentChunk.code.length 0 = 15 ∧
        c.currentChunk.code.length - start < 65536 ∧ start ≤ c.currentChunk.code.length ∧
        Steps c2.currentChunk.code 0 c.currentChunk.code.length) := by
  obtain ⟨loop, rest, hloop, hls, hrest⟩ := loop_of_starts hstart
  unfold Compiler.emitLoop at h
  rw [hloop] at h
  simp only [] at h
  have hsize : (({ c with loop := { loop with end_ := c.currentChunk.size } :: rest }
      : Compiler).emitOp OpCode.Loop).currentChunk.size = c.currentChunk.code.length + 1 := by
    unfold Chunk.size
    rw [Compiler.emitOp_code, List.length_append]
    rfl
  rw [hsize] at h
  have hshort : SHORT_MAX = 65535 := rfl
  rw [hshort] at h
  by_cases hbig : (((c.currentChunk.code.length + 1 : Nat) : Int) - start + 2) > ((65535 : Nat) : Int)
  · rw [if_pos hbig] at h
    rw [← Option.some.inj h]
    refine ⟨rfl, ?_, ?_⟩
    · rw [hloop]
      rfl
    · intro hok
      exact Bool.noConfusion hok
  · rw [if_neg hbig] at h
    have hc2 := (Option.some.inj h).symm
    have hl : c2.loop = { loop with end_ := c.currentChunk.code.length } :: rest := by
      rw [hc2]
      rfl
    have hcode0 : c2.currentChunk.code =
        c.currentChunk.code ++ [15,
          ((((c.currentChunk.code.length + 1 : Nat) : Int) - start + 2) / 256 % 256).toNat,
          ((((c.currentChunk.code.length + 1 : Nat) : Int) - start + 2) % 256).toNat] := by
      rw [hc2, Compiler.emit_code, Compiler.emit_code, Compiler.emitOp_code, List.append_assoc,
        List.append_assoc]
      rfl
    have hconst : c2.currentChunk.constants = c.currentChunk.constants := by
      rw [hc2, Compiler.emit_constants, Compiler.emit_constants, Compiler.emitOp,
        Compiler.emit_constants]
      rfl
    have hrep : c2.reporter = c.reporter := by
      rw [hc2]
      rfl
    have htype : c2.type = c.type := by
      rw [hc2]
      rfl
    have hstarts : c2.loop.map Loop.start = c.loop.map Loop.start := by
      rw [hl, hloop]
      rfl
    refine ⟨htype, hstarts, ?_⟩
    intro hok
    rw [hrep] at hok
    refine ⟨hok, ?_⟩
    intro P hP
    obtain ⟨h1, h2⟩ := hP
    have hs : Steps c.currentChunk.code 0 start ∧ start ≤ c.currentChunk.code.length :=
      h1.starts start (by rw [hstart]; exact List.mem_cons_self _ _)
    have hhi : ((((c.currentChunk.code.length + 1 : Nat) : Int) - start + 2) / 256 % 256).toNat =
        (c.currentChunk.code.length + 3 - start) / 256 % 256 := by omega
    have hlo : ((((c.currentChunk.code.length + 1 : Nat) : Int) - start + 2) % 256).toNat =
        (c.currentChunk.code.length + 3 - start) % 256 := by omega
    have hcode : c2.currentChunk.code =
        c.currentChunk.code ++ [15, (c.currentChunk.code.length + 3 - start) / 256 % 256,
          (c.currentChunk.code.length + 3 - start) % 256] := by
      rw [hcode0, hhi, hlo]
    have hopd : operandAt [15, (c.currentChunk.code.length + 3 - start) / 256 % 256,
        (c.currentChunk.code.length + 3 - start) % 256] 0 =
        c.currentChunk.code.length + 3 - start :=
      operand_bytes _ (by omega)
    have hinv : InvCode (c.currentChunk.code ++
        [15, (c.currentChunk.code.length + 3 - start) / 256 % 256,
          (c.currentChunk.code.length + 3 - start) % 256]) (c.loop.map Loop.start) P := by
      refine h1.append 15 _ rfl ?_ (fun i => by simp) ?_ (fun hb => absurd hb (by decide))
      · intro x hx
        rw [List.mem_cons, List.mem_cons, List.mem_singleton] at hx
        rcases hx with hx | hx | hx
        · rw [hx]; decide
        · rw [hx]; exact Nat.mod_lt _ (by decide)
        · rw [hx]; exact Nat.mod_lt _ (by decide)
      · intro _
        rw [hopd]
        refine ⟨by omega, by omega, ?_⟩
        have ht : c.currentChunk.code.length + 3 - (c.currentChunk.code.length + 3 - start) =
            start := by omega
        rw [ht]
        exact hs.1
    refine ⟨⟨?_, ?_⟩, ⟨_, _, hl, hls, rfl, hrest⟩, ?_, ?_, by omega, hs.2, ?_⟩
    · rw [hcode, hstarts]
      exact hinv
    · rw [hconst, htype]
      exact h2
    · rw [hcode, List.length_append]
      rfl
    · rw [hcode, List.getD_append_right _ _ _ _ (le_refl _), Nat.sub_self]
      rfl
    · rw [hcode]
      exact Steps.append_code _ h1.steps (le_refl _)

end scriptlang

namespace scriptlang

/-- The break placeholder, emitted while a loop is compiled. -/
theorem Compiler.keeps_placeholder (c : Compiler) (hloop : c.loop ≠ []) :
    c.Keeps (((c.emit BREAK_PLACEHOLDER).emit 255).emit 255) := by
  refine ⟨rfl, rfl, ?_⟩
  intro hok
  refine ⟨hok, ?_⟩
  intro P hP
  obtain ⟨h1, h2⟩ := hP
  have hcode : (((c.emit BREAK_PLACEHOLDER).emit 255).emit 255).currentChunk.code =
      c.currentChunk.code ++ [187, 255, 255] := by
    rw [Compiler.emit_code, Compiler.emit_code, Compiler.emit_code, List.append_assoc,
      List.append_assoc]
    rfl
  refine ⟨?_, ?_⟩
  · rw [hcode]
    have hl : (((c.emit BREAK_PLACEHOLDER).emit 255).emit 255).loop = c.loop := rfl
    rw [hl]
    refine h1.append 187 [255, 255] rfl ?_ (fun i => by simp)
      (fun hb => absurd hb (by decide)) ?_
    · intro x hx
      rw [List.mem_cons, List.mem_cons, List.mem_singleton] at hx
      rcases hx with hx | hx | hx <;> rw [hx] <;> decide
    · intro _
      cases hc : c.loop with
      | nil => exact absurd hc hloop
      | cons loop rest =>
        have hmem : loop.start ∈ (loop :: rest).map Loop.start := List.mem_cons_self _ _
        refine ⟨loop.start, hmem, ?_⟩
        rw [hc] at h1
        exact (h1.starts loop.start hmem).2
  · rw [Compiler.emit_constants, Compiler.emit_constants, Compiler.emit_constants]
    exact h2

theorem Compiler.keeps_visitBreakStatement {c c1 : Compiler}
    (h : c.visitBreakStatement = some c1) : c.Keeps c1 := by
  unfold Compiler.visitBreakStatement at h
  cases hc : c.loop with
  | nil =>
    rw [hc] at h
    simp only [] at h
    split at h
    · rw [← Option.some.inj h]
      exact Compiler.Keeps.of_error rfl rfl rfl
    · exact Option.noConfusion h
  | cons loop rest =>
    rw [hc] at h
    simp only [] at h
    rw [← Option.some.inj h]
    have hk := Compiler.keeps_popLoopLocals loop.scopeDepth c.locals.reverse c
    refine hk.trans (Compiler.keeps_placeholder _ ?_)
    intro hnil
    have := hk.2.1
    rw [hnil, hc] at this
    exact List.noConfusion this

theorem Compiler.keeps_visitContinueStatement {c c1 : Compiler}
    (h : c.visitContinueStatement = some c1) : c.Keeps c1 := by
  unfold Compiler.visitContinueStatement at h
  cases hc : c.loop with
  | nil =>
    rw [hc] at h
    exact Option.noConfusion h
  | cons loop rest =>
    rw [hc] at h
    simp only [] at h
    have hk := Compiler.keeps_popLoopLocals loop.scopeDepth c.locals.reverse c
    have hstart : (Compiler.popLoopLocals loop.scopeDepth c.locals.reverse c).loop.map Loop.start =
        loop.start :: rest.map Loop.start := by
      rw [hk.2.1, hc]
      rfl
    obtain ⟨e1, e2, e3⟩ := Compiler.emitLoop_spec h hstart
    refine hk.trans ⟨e1, e2, ?_⟩
    intro hok
    obtain ⟨e4, e5⟩ := e3 hok
    exact ⟨e4, fun P hP => (e5 P hP).1⟩

/-- `endLoop` after the `Loop` instruction of the innermost loop has been emitted at
`loop.end`: the placeholders of the loop are patched and the loop is left. -/
theorem Compiler.inv_endLoop {c c1 : Compiler} {loop : Loop} {rest : List Loop}
    {P : Nat → Prop} (hloop : c.loop = loop :: rest) (h : c.endLoop = some c1)
    (hinv : c.Inv P) (hend : Steps c.currentChunk.code 0 loop.end_)
    (hlen : loop.end_ + 3 = c.currentChunk.code.length)
    (hop : c.currentChunk.code.getD loop.end_ 0 = 15)
    (hrange : loop.end_ - loop.start < 65536) :
    c1.type = c.type ∧ c1.loop = rest ∧ c1.reporter = c.reporter ∧ c1.Inv P := by
  unfold Compiler.endLoop Compiler.patchLoopBreaks at h
  rw [hloop] at h
  simp only [] at h
  cases hp : patchLoopBreaksLoop loop.end_ (loop.end_ - loop.start + 1) loop.start
      c.currentChunk with
  | none =>
    rw [hp] at h
    exact Option.noConfusion h
  | some chunk =>
    rw [hp] at h
    simp only [] at h
    have hc1 := (Option.some.inj h).symm
    obtain ⟨h1, h2⟩ := hinv
    rw [hloop, List.map_cons] at h1
    have hs := h1.starts loop.start (List.mem_cons_self _ _)
    obtain ⟨r1, _, r3, r4⟩ := patchLoopBreaksLoop_inv loop.end_ loop.start (rest.map Loop.start) P
      hrange _ loop.start c.currentChunk chunk hp h1 hs.1 (le_refl _) hend hlen hop
      (Or.inl (by omega)) (fun k _ hsk hklt => by omega)
    have hl : c1.loop = rest := by
      rw [hc1]
      show (c.setChunk chunk).loop.tail = rest
      have : (c.setChunk chunk).loop = c.loop := rfl
      rw [this, hloop]
      rfl
    refine ⟨by rw [hc1]; rfl, hl, by rw [hc1]; rfl, ?_, ?_⟩
    · rw [hl]
      have hcode : c1.currentChunk.code = chunk.code := by
        rw [hc1]
        rfl
      rw [hcode]
      exact r1.pop (fun k hk hklt hsk => r4 k hk hsk hklt)
    · have hconst : c1.currentChunk.constants = chunk.constants := by
        rw [hc1]
        rfl
      have htype : c1.type = c.type := by
        rw [hc1]
        rfl
      rw [hconst, r3, htype]
      exact h2

end scriptlang

namespace scriptlang

/-! ## Jumps over compiled code -/

/-- What `patchJump` leaves unchanged, whether it reports or not. -/
theorem Compiler.patchJump_rest {c c1 : Compiler} {r : Nat} (h : c.patchJump r = some c1) :
    c1.type = c.type ∧ c1.loop = c.loop ∧
    (c1.reporter.hadError = false → c.reporter.hadError = false) := by
  unfold Compiler.patchJump at h
  split at h
  · rw [← Option.some.inj h]
    exact ⟨rfl, rfl, fun hok => Bool.noConfusion hok⟩
  · split at h
    · exact Option.noConfusion h
    · split at h
      · exact Option.noConfusion h
      · rw [← Option.some.inj h]
        exact ⟨rfl, rfl, fun hok => hok⟩

/-- What `endLoop` leaves unchanged. -/
theorem Compiler.endLoop_rest {c c1 : Compiler} (h : c.endLoop = some c1) :
    c1.type = c.type ∧ c1.loop = c.loop.tail ∧ c1.reporter = c.reporter := by
  unfold Compiler.endLoop Compiler.patchLoopBreaks at h
  split at h
  · exact Option.noConfusion h
  · rename_i c2 hc2
    rw [← Option.some.inj h]
    split at hc2
    · exact Option.noConfusion hc2
    · split at hc2
      · exact Option.noConfusion hc2
      · rw [← Option.some.inj hc2]
        exact ⟨rfl, rfl, rfl⟩

/-- A jump emitted, code compiled with the invariant kept, and the jump patched to
land behind that code. -/
theorem Compiler.keeps_jump_over {c1 c2 c3 : Compiler} (op : OpCode)
    (hop : op = OpCode.JumpIfFalse ∨ op = OpCode.Jump)
    (hmid : (c1.emitJump op).2.Keeps c2)
    (hpatch : c2.patchJump (c1.emitJump op).1 = some c3) : c1.Keeps c3 := by
  obtain ⟨t1, l1, k1⟩ := hmid
  obtain ⟨t2, l2, k2⟩ := Compiler.patchJump_rest hpatch
  refine ⟨t2.trans t1, by rw [l2, l1]; rfl, ?_⟩
  intro hok
  obtain ⟨hokJ, hinvJ⟩ := k1 (k2 hok)
  refine ⟨hokJ, ?_⟩
  intro P hP
  have h1 := hinvJ _ (Compiler.inv_emitJump c1 op hop P hP)
  obtain ⟨_, _, _, h2, _⟩ := Compiler.inv_patchJump hpatch hok h1 (Or.inl rfl)
    (Compiler.emitJump_offset c1 op)
  refine ⟨h2.1.congr ?_, h2.2⟩
  intro p
  constructor
  · intro hq
    cases hq.2 with
    | inl hq1 => exact absurd hq1 hq.1
    | inr hq1 => exact hq1
  · intro hq
    refine ⟨?_, Or.inr hq⟩
    have := (hP.1.pending p hq).2.1
    omega

/-- Two jumps of which the first is patched after the second is emitted, as the
jumps of `if` and of `or`. -/
theorem Compiler.keeps_two_jumps {c1 c2 c3 c4 c5 : Compiler} (op1 op2 : OpCode)
    (hop1 : op1 = OpCode.JumpIfFalse ∨ op1 = OpCode.Jump)
    (hop2 : op2 = OpCode.JumpIfFalse ∨ op2 = OpCode.Jump)
    (hmid1 : (c1.emitJump op1).2.Keeps c2)
    (hpatch1 : (c2.emitJump op2).2.patchJump (c1.emitJump op1).1 = some c3)
    (hmid2 : c3.Keeps c4)
    (hpatch2 : c4.patchJump (c2.emitJump op2).1 = some c5) : c1.Keeps c5 := by
  obtain ⟨t1, l1, k1⟩ := hmid1
  obtain ⟨t2, l2, k2⟩ := Compiler.patchJump_rest hpatch1
  obtain ⟨t3, l3, k3⟩ := hmid2
  obtain ⟨t4, l4, k4⟩ := Compiler.patchJump_rest hpatch2
  refine ⟨?_, ?_, ?_⟩
  · rw [t4, t3, t2]
    exact t1
  · rw [l4, l3, l2]
    exact l1
  · intro hok
    obtain ⟨hok3, hinv3⟩ := k3 (k4 hok)
    obtain ⟨hokJ, hinvJ⟩ := k1 (k2 hok3)
    refine ⟨hokJ, ?_⟩
    intro P hP
    have h1 := hinvJ _ (Compiler.inv_emitJump c1 op1 hop1 P hP)
    have h2 := Compiler.inv_emitJump c2 op2 hop2 _ h1
    obtain ⟨_, _, _, h3, _⟩ := Compiler.inv_patchJump hpatch1 hok3 h2 (Or.inr (Or.inl rfl))
      (Compiler.emitJump_offset c1 op1)
    have hp1 := (h1.1.pending c1.currentChunk.code.length (Or.inl rfl)).2.1
    have h3a : c3.Inv (fun p => p = c2.currentChunk.code.length ∨ P p) := by
      refine ⟨h3.1.congr ?_, h3.2⟩
      intro p
      constructor
      · intro hq
        rcases hq.2 with hq1 | hq1 | hq1
        · exact Or.inl hq1
        · exact absurd hq1 hq.1
        · exact Or.inr hq1
      · intro hq
        cases hq with
        | inl hq => exact ⟨by omega, Or.inl hq⟩
        | inr hq =>
          refine ⟨?_, Or.inr (Or.inr hq)⟩
          have := (hP.1.pending p hq).2.1
          omega
    have h4 := hinv3 _ h3a
    obtain ⟨_, _, _, h5, _⟩ := Compiler.inv_patchJump hpatch2 hok h4 (Or.inl rfl)
      (Compiler.emitJump_offset c2 op2)
    refine ⟨h5.1.congr ?_, h5.2⟩
    intro p
    constructor
    · intro hq
      cases hq.2 with
      | inl hq1 => exact absurd hq1 hq.1
      | inr hq1 => exact hq1
    · intro hq
      refine ⟨?_, Or.inr hq⟩
      have := (h1.1.pending p (Or.inr hq)).2.1
      omega

end scriptlang

namespace scriptlang

/-! ## The cases of `compileExpression` and `compileStatement` -/

theorem Compiler.compileExpression_assignment (u : Uninitialized) (c : Compiler)
    (location : SourceRange) (name : Token) (value : Expression) :
    Compiler.compileExpression u (Expression.Assignment location name value) c =
      match Compiler.compileExpression u value { c with currentNodeLocation := location } with
      | none => none
      | some c1 => some (c1.emitVariableAccess name OpCode.SetGlobal OpCode.SetLocal) := rfl

theorem Compiler.compileExpression_binary (u : Uninitialized) (c : Compiler)
    (location : SourceRange) (op : Token) (left right : Expression) :
    Compiler.compileExpression u (Expression.Binary location op left right) c =
      if op.type = TokenType.AndKeyword then
        match Compiler.compileExpression u left { c with currentNodeLocation := location } with
        | none => none
        | some c1 =>
          match Compiler.compileExpression u right
              ((c1.emitJump OpCode.JumpIfFalse).2.emitOp OpCode.Pop) with
          | none => none
          | some c2 => c2.patchJump (c1.emitJump OpCode.JumpIfFalse).1
      else if op.type = TokenType.OrKeyword then
        match Compiler.compileExpression u left { c with currentNodeLocation := location } with
        | none => none
        | some c1 =>
          match ((c1.emitJump OpCode.JumpIfFalse).2.emitJump OpCode.Jump).2.patchJump
              (c1.emitJump OpCode.JumpIfFalse).1 with
          | none => none
          | some c2 =>
            match Compiler.compileExpression u right (c2.emitOp OpCode.Pop) with
            | none => none
            | some c3 =>
              c3.patchJump ((c1.emitJump OpCode.JumpIfFalse).2.emitJump OpCode.Jump).1
      else
        match Compiler.compileExpression u left { c with currentNodeLocation := location } with
        | none => none
        | some c1 =>
          match Compiler.compileExpression u right c1 with
          | none => none
          | some c2 => some (c2.emitBinaryOperator op) := rfl

theorem Compiler.compileExpression_unary (u : Uninitialized) (c : Compiler)
    (location : SourceRange) (op : Token) (right : Expression) :
    Compiler.compileExpression u (Expression.Unary location op right) c =
      match Compiler.compileExpression u right { c with currentNodeLocation := location } with
      | none => none
      | some c1 => some (c1.emitUnaryOperator op) := rfl

theorem Compiler.compileExpression_call (u : Uninitialized) (c : Compiler)
    (location : SourceRange) (callee : Expression) (arguments : List Expression) :
    Compiler.compileExpression u (Expression.Call location callee arguments) c =
      match Compiler.compileExpression u callee { c with currentNodeLocation := location } with
      | none => none
      | some c1 =>
        match Compiler.compileExpressions u arguments c1 with
        | none => none
        | some c2 => some ((c2.emitOp OpCode.Call).emit (arguments.length % 256)) := rfl

theorem Compiler.compileExpression_grouping (u : Uninitialized) (c : Compiler)
    (location : SourceRange) (expression : Expression) :
    Compiler.compileExpression u (Expression.Grouping location expression) c =
      Compiler.compileExpression u expression { c with currentNodeLocation := location } := rfl

theorem Compiler.compileExpression_variable (u : Uninitialized) (c : Compiler)
    (location : SourceRange) (name : Token) :
    Compiler.compileExpression u (Expression.Variable location name) c =
      some (({ c with currentNodeLocation := location } : Compiler).emitVariableAccess name
        OpCode.GetGlobal OpCode.GetLocal) := rfl

theorem Compiler.compileExpression_literal (u : Uninitialized) (c : Compiler)
    (location : SourceRange) (value : Literal) :
    Compiler.compileExpression u (Expression.Literal location value) c =
      some (({ c with currentNodeLocation := location } : Compiler).visitLiteralExpression
        value) := rfl

theorem Compiler.compileExpressions_cons (u : Uninitialized) (c : Compiler) (e : Expression)
    (es : List Expression) :
    Compiler.compileExpressions u (e :: es) c =
      match Compiler.compileExpression u e c with
      | none => none
      | some c1 => Compiler.compileExpressions u es c1 := rfl

theorem Compiler.compileStatement_variableDeclaration (u : Uninitialized) (c : Compiler)
    (location : SourceRange) (name : Token) (init : Expression) :
    Compiler.compileStatement u (Statement.VariableDeclaration location name init) c =
      match ({ c with currentNodeLocation := location } : Compiler).declareVariable name with
      | none => none
      | some c1 =>
        match Compiler.compileExpression u init c1 with
        | none => none
        | some c2 => c2.defineVariable name := rfl

theorem Compiler.compileStatement_functionDeclaration (u : Uninitialized) (c : Compiler)
    (location : SourceRange) (name : Token) (params : List Token) (body : Statement) :
    Compiler.compileStatement u (Statement.FunctionDeclaration location name params body) c =
      if c.type = FunctionType.Function then
        some (({ c with currentNodeLocation := location } : Compiler).emitError
          "Can't declare a function inside another function.")
      else
        match Compiler.declareParameters params
            ({ Compiler.new u FunctionType.Function c.reporter with
                compilingFunction := ObjectFunction.mk name.lexeme u.arity Chunk.empty }
              : Compiler).beginScope with
        | none => none
        | some sub =>
          match body with
          | Statement.Block _ statements =>
            match Compiler.compileStatements u statements sub with
            | none => none
            | some sub1 =>
              ((((({ c with currentNodeLocation := location, reporter := sub1.reporter }
                  : Compiler).emitOp OpCode.PushConstant).setChunk
                (((({ c with currentNodeLocation := location, reporter := sub1.reporter }
                  : Compiler).emitOp OpCode.PushConstant).currentChunk.addConstant
                  (Value.function (ObjectFunction.mk sub1.finish.compilingFunction.name
                    (params.length : Int) sub1.finish.compilingFunction.chunk))).2)).emit
                (((({ c with currentNodeLocation := location, reporter := sub1.reporter }
                  : Compiler).emitOp OpCode.PushConstant).currentChunk.addConstant
                  (Value.function (ObjectFunction.mk sub1.finish.compilingFunction.name
                    (params.length : Int) sub1.finish.compilingFunction.chunk))).1))).defineVariable
                name
          | _ =>
            some (({ c with currentNodeLocation := location, reporter := sub.reporter }
              : Compiler).emitError "Invalid function body.") := by
  cases body <;> rfl

theorem Compiler.compileStatement_block (u : Uninitialized) (c : Compiler)
    (location : SourceRange) (statements : List Statement) :
    Compiler.compileStatement u (Statement.Block location statements) c =
      match Compiler.compileStatements u statements
          ({ c with currentNodeLocation := location } : Compiler).beginScope with
      | none => none
      | some c1 => some c1.endScope := rfl

theorem Compiler.compileStatement_while (u : Uninitialized) (c : Compiler)
    (location : SourceRange) (condition : Expression) (body : Statement) :
    Compiler.compileStatement u (Statement.While location condition body) c =
      match Compiler.compileExpression u condition
          ({ c with currentNodeLocation := location } : Compiler).beginLoop with
      | none => none
      | some c1 =>
        match Compiler.compileStatement u body
            ((c1.emitJump OpCode.JumpIfFalse).2.emitOp OpCode.Pop) with
        | none => none
        | some c2 =>
          match c2.loop with
          | [] => none
          | loop :: _ =>
            match c2.emitLoop loop.start with
            | none => none
            | some c3 =>
              match c3.patchJump (c1.emitJump OpCode.JumpIfFalse).1 with
              | none => none
              | some c4 =>
                match c4.endLoop with
                | none => none
                | some c5 => some (c5.emitOp OpCode.Pop) := rfl

theorem Compiler.compileStatement_if (u : Uninitialized) (c : Compiler)
    (location : SourceRange) (condition : Expression) (thenBranch elseBranch : Statement) :
    Compiler.compileStatement u (Statement.If location condition thenBranch elseBranch) c =
      match Compiler.compileExpression u condition { c with currentNodeLocation := location } with
      | none => none
      | some c1 =>
        match Compiler.compileStatement u thenBranch
            ((c1.emitJump OpCode.JumpIfFalse).2.emitOp OpCode.Pop) with
        | none => none
        | some c2 =>
          match (c2.emitJump OpCode.Jump).2.patchJump (c1.emitJump OpCode.JumpIfFalse).1 with
          | none => none
          | some c3 =>
            if elseBranch.isNull = true then
              (c3.emitOp OpCode.Pop).patchJump (c2.emitJump OpCode.Jump).1
            else
              match Compiler.compileStatement u elseBranch (c3.emitOp OpCode.Pop) with
              | none => none
              | some c4 => c4.patchJump (c2.emitJump OpCode.Jump).1 := rfl

theorem Compiler.compileStatement_expressionStatement (u : Uninitialized) (c : Compiler)
    (location : SourceRange) (expression : Expression) :
    Compiler.compileStatement u (Statement.ExpressionStatement location expression) c =
      match Compiler.compileExpression u expression { c with currentNodeLocation := location } with
      | none => none
      | some c1 => some (c1.emitOp OpCode.Pop) := rfl

theorem Compiler.compileStatement_continue (u : Uninitialized) (c : Compiler)
    (location : SourceRange) :
    Compiler.compileStatement u (Statement.Continue location) c =
      if c.loop = [] then
        (({ c with currentNodeLocation := location } : Compiler).emitError
          "Can't use 'continue' outside a loop.").visitContinueStatement
      else ({ c with currentNodeLocation := location } : Compiler).visitContinueStatement := rfl

theorem Compiler.compileStatement_break (u : Uninitialized) (c : Compiler)
    (location : SourceRange) :
    Compiler.compileStatement u (Statement.Break location) c =
      ({ c with currentNodeLocation := location } : Compiler).visitBreakStatement := rfl

theorem Compiler.compileStatement_return (u : Uninitialized) (c : Compiler)
    (location : SourceRange) (expression : Expression) :
    Compiler.compileStatement u (Statement.Return location expression) c =
      if c.type = FunctionType.Script then
        some (({ c with currentNodeLocation := location } : Compiler).emitError
          "Can't return from top-level.")
      else if expression.isNull = true then
        some ((({ c with currentNodeLocation := location } : Compiler).emitOp OpCode.Nil).emitOp
          OpCode.Return)
      else
        match Compiler.compileExpression u expression { c with currentNodeLocation := location } with
        | none => none
        | some c1 => some (c1.emitOp OpCode.Return) := by
  cases expression <;> rfl

theorem Compiler.compileStatement_print (u : Uninitialized) (c : Compiler)
    (location : SourceRange) (expression : Expression) :
    Compiler.compileStatement u (Statement.Print location expression) c =
      match Compiler.compileExpression u expression { c with currentNodeLocation := location } with
      | none => none
      | some c1 => some (c1.emitOp OpCode.Print) := rfl

theorem Compiler.compileStatements_cons (u : Uninitialized) (c : Compiler) (s : Statement)
    (ss : List Statement) :
    Compiler.compileStatements u (s :: ss) c =
      match Compiler.compileStatement u s c with
      | none => none
      | some c1 => Compiler.compileStatements u ss c1 := rfl

end scriptlang

namespace scriptlang

/-! ## The compiler keeps the invariant -/

theorem of_match_some {x : Option Compiler} {f : Compiler → Option Compiler} {b : Compiler}
    (h : (match x with
      | none => none
      | some a => f a) = some b) : ∃ a, x = some a ∧ f a = some b := by
  cases x with
  | none => exact Option.noConfusion h
  | some a => exact ⟨a, rfl, h⟩

mutual

/-- Compiling an expression keeps the invariant. -/
theorem Compiler.compileExpression_keeps (u : Uninitialized) :
    ∀ (e : Expression) (c c1 : Compiler), Compiler.compileExpression u e c = some c1 →
      c.Keeps c1
  | Expression.null, c, c1, h => Option.noConfusion h
  | Expression.Assignment location name value, c, c1, h => by
    rw [Compiler.compileExpression_assignment] at h
    obtain ⟨c2, h2, h⟩ := of_match_some h
    have ih := Compiler.compileExpression_keeps u value _ _ h2
    rw [← Option.some.inj h]
    exact (Compiler.keeps_location c location).trans
      (ih.trans (Compiler.keeps_emitVariableAccess _ _ _ _ rfl rfl))
  | Expression.Binary location op left right, c, c1, h => by
    rw [Compiler.compileExpression_binary] at h
    split at h
    · obtain ⟨c2, h2, h⟩ := of_match_some h
      obtain ⟨c3, h3, h⟩ := of_match_some h
      have ih1 := Compiler.compileExpression_keeps u left _ _ h2
      have ih2 := Compiler.compileExpression_keeps u right _ _ h3
      exact (Compiler.keeps_location c location).trans (ih1.trans
        (Compiler.keeps_jump_over OpCode.JumpIfFalse (Or.inl rfl)
          ((Compiler.keeps_emitOp _ OpCode.Pop rfl).trans ih2) h))
    · split at h
      · obtain ⟨c2, h2, h⟩ := of_match_some h
        obtain ⟨c3, h3, h⟩ := of_match_some h
        obtain ⟨c4, h4, h⟩ := of_match_some h
        have ih1 := Compiler.compileExpression_keeps u left _ _ h2
        have ih2 := Compiler.compileExpression_keeps u right _ _ h4
        exact (Compiler.keeps_location c location).trans (ih1.trans
          (Compiler.keeps_two_jumps OpCode.JumpIfFalse OpCode.Jump (Or.inl rfl) (Or.inr rfl)
            (Compiler.Keeps.refl _) h3 ((Compiler.keeps_emitOp _ OpCode.Pop rfl).trans ih2) h))
      · obtain ⟨c2, h2, h⟩ := of_match_some h
        obtain ⟨c3, h3, h⟩ := of_match_some h
        have ih1 := Compiler.compileExpression_keeps u left _ _ h2
        have ih2 := Compiler.compileExpression_keeps u right _ _ h3
        rw [← Option.some.inj h]
        exact (Compiler.keeps_location c location).trans (ih1.trans
          (ih2.trans (Compiler.keeps_emitBinaryOperator _ _)))
  | Expression.Unary location op right, c, c1, h => by
    rw [Compiler.compileExpression_unary] at h
    obtain ⟨c2, h2, h⟩ := of_match_some h
    have ih := Compiler.compileExpression_keeps u right _ _ h2
    rw [← Option.some.inj h]
    exact (Compiler.keeps_location c location).trans
      (ih.trans (Compiler.keeps_emitUnaryOperator _ _))
  | Expression.Call location callee arguments, c, c1, h => by
    rw [Compiler.compileExpression_call] at h
    obtain ⟨c2, h2, h⟩ := of_match_some h
    obtain ⟨c3, h3, h⟩ := of_match_some h
    have ih1 := Compiler.compileExpression_keeps u callee _ _ h2
    have ih2 := Compiler.compileExpressions_keeps u arguments _ _ h3
    rw [← Option.some.inj h]
    exact (Compiler.keeps_location c location).trans (ih1.trans
      (ih2.trans (Compiler.keeps_emitCall _ _)))
  | Expression.Grouping location expression, c, c1, h => by
    rw [Compiler.compileExpression_grouping] at h
    have ih := Compiler.compileExpression_keeps u expression _ _ h
    exact (Compiler.keeps_location c location).trans ih
  | Expression.Variable location name, c, c1, h => by
    rw [Compiler.compileExpression_variable] at h
    rw [← Option.some.inj h]
    exact (Compiler.keeps_location c location).trans
      (Compiler.keeps_emitVariableAccess _ _ _ _ rfl rfl)
  | Expression.Literal location value, c, c1, h => by
    rw [Compiler.compileExpression_literal] at h
    rw [← Option.some.inj h]
    exact (Compiler.keeps_location c location).trans
      (Compiler.keeps_visitLiteralExpression _ _)

/-- Compiling the arguments of a call keeps the invariant. -/
theorem Compiler.compileExpressions_keeps (u : Uninitialized) :
    ∀ (es : List Expression) (c c1 : Compiler), Compiler.compileExpressions u es c = some c1 →
      c.Keeps c1
  | [], c, c1, h => by
    have h1 : some c = some c1 := h
    rw [← Option.some.inj h1]
    exact Compiler.Keeps.refl c
  | e :: es, c, c1, h => by
    rw [Compiler.compileExpressions_cons] at h
    obtain ⟨c2, h2, h⟩ := of_match_some h
    exact (Compiler.compileExpression_keeps u e _ _ h2).trans
      (Compiler.compileExpressions_keeps u es _ _ h)

end

end scriptlang

namespace scriptlang

/-! ## The `while` statement keeps the invariant -/

/-- `visitWhileStatement`, given that compiling the condition and the body keeps the
invariant. -/
theorem Compiler.keeps_while {c0 c1 c2 c3 c4 c5 : Compiler} {loop : Loop} {rest : List Loop}
    (K1 : c0.beginLoop.Keeps c1)
    (K2 : ((c1.emitJump OpCode.JumpIfFalse).2.emitOp OpCode.Pop).Keeps c2)
    (hl : c2.loop = loop :: rest) (h3 : c2.emitLoop loop.start = some c3)
    (h4 : c3.patchJump (c1.emitJump OpCode.JumpIfFalse).1 = some c4)
    (h5 : c4.endLoop = some c5) : c0.Keeps (c5.emitOp OpCode.Pop) := by
  obtain ⟨t1, l1, k1⟩ := K1
  obtain ⟨t2, l2, k2⟩ := K2
  have hb : c0.beginLoop.loop.map Loop.start =
      c0.currentChunk.code.length :: c0.loop.map Loop.start := rfl
  have hPl : ((c1.emitJump OpCode.JumpIfFalse).2.emitOp OpCode.Pop).loop = c1.loop := rfl
  have s2 : c2.loop.map Loop.start = c0.currentChunk.code.length :: c0.loop.map Loop.start := by
    rw [l2, hPl, l1, hb]
  have hstart : c2.loop.map Loop.start = loop.start :: c0.loop.map Loop.start := by
    have h0 := s2
    rw [hl, List.map_cons] at h0
    rw [s2, (List.cons.inj h0).1]
  obtain ⟨t3, l3, k3⟩ := Compiler.emitLoop_spec h3 hstart
  obtain ⟨t4, l4, k4⟩ := Compiler.patchJump_rest h4
  obtain ⟨t5, l5, r5⟩ := Compiler.endLoop_rest h5
  have hPt : ((c1.emitJump OpCode.JumpIfFalse).2.emitOp OpCode.Pop).type = c1.type := rfl
  have hPr : ((c1.emitJump OpCode.JumpIfFalse).2.emitOp OpCode.Pop).reporter = c1.reporter := rfl
  refine ⟨?_, ?_, ?_⟩
  · show c5.type = c0.type
    rw [t5, t4, t3, t2, hPt, t1]
    rfl
  · show c5.loop.map Loop.start = c0.loop.map Loop.start
    rw [l5, l4, List.map_tail, l3, hstart]
    rfl
  · intro hok
    have hok5 : c5.reporter.hadError = false := hok
    have hok4 : c4.reporter.hadError = false := by rw [← r5]; exact hok5
    have hok3 := k4 hok4
    obtain ⟨hok2, F⟩ := k3 hok3
    obtain ⟨hokP, T2⟩ := k2 hok2
    have hok1 : c1.reporter.hadError = false := by rw [← hPr]; exact hokP
    obtain ⟨hokB, T1⟩ := k1 hok1
    refine ⟨hokB, ?_⟩
    intro P hP
    have i1 := T1 P (Compiler.inv_beginLoop c0 P hP).1
    have iJ := Compiler.inv_emitJump c1 OpCode.JumpIfFalse (Or.inl rfl) P i1
    have iP := ((Compiler.keeps_emitOp (c1.emitJump OpCode.JumpIfFalse).2 OpCode.Pop rfl).2.2
      hokP).2 _ iJ
    have i2 := T2 _ iP
    obtain ⟨i3, ⟨loop3, rest3, e1, e2, e3, e4⟩, e5, e6, e7, e8, e9⟩ := F _ i2
    obtain ⟨_, _, _, i4, p1, p2, p3⟩ := Compiler.inv_patchJump h4 hok4 i3 (Or.inl rfl)
      (Compiler.emitJump_offset c1 OpCode.JumpIfFalse)
    have hpend := i2.1.pending c1.currentChunk.code.length (Or.inl rfl)
    have hsp := i2.1.span_le hpend.1 hpend.2.1
    rw [spanLength_jump hpend.2.2] at hsp
    have i4P : c4.Inv P := by
      refine ⟨i4.1.congr ?_, i4.2⟩
      intro p
      constructor
      · intro hq
        cases hq.2 with
        | inl hq1 => exact absurd hq1 hq.1
        | inr hq1 => exact hq1
      · intro hq
        refine ⟨?_, Or.inr hq⟩
        have := (i1.1.pending p hq).2.1
        omega
    have hl4 : c4.loop = loop3 :: rest3 := by rw [l4, e1]
    obtain ⟨_, q2, _, i5⟩ := Compiler.inv_endLoop hl4 h5 i4P
      (by rw [e3]; exact (p3 _).mp e9) (by rw [e3, p1, e5])
      (by rw [e3, p2 _ (Or.inr hsp)]; exact e6) (by rw [e3, e2]; exact e7)
    exact ((Compiler.keeps_emitOp c5 OpCode.Pop rfl).2.2 hok).2 P i5

end scriptlang

namespace scriptlang

/-! ## Function declarations keep the invariant -/

/-- The invariant holds of the empty code. -/
theorem InvCode.empty : InvCode [] [] (fun _ => False) where
  steps := Steps.here 0
  bytes := fun b hb => absurd hb (List.not_mem_nil b)
  jumps := fun i _ hlt _ => absurd hlt (Nat.not_lt_zero i)
  loops := fun i _ hlt _ => absurd hlt (Nat.not_lt_zero i)
  breaks := fun i _ hlt _ => absurd hlt (Nat.not_lt_zero i)
  starts := fun s hs => absurd hs (List.not_mem_nil s)
  pending := fun _ h => False.elim h

theorem Compiler.finish_constants (c : Compiler) :
    c.finish.compilingFunction.chunk.constants = c.currentChunk.constants := by
  unfold Compiler.finish Compiler.emitOp
  show ((c.emit OpCode.Nil.toByte).emit OpCode.Return.toByte).currentChunk.constants = _
  rw [Compiler.emit_constants, Compiler.emit_constants]

/-- `PushConstant` of a function built in `Script` mode, with valid jumps and no
function in its own pool. -/
theorem Compiler.keeps_pushFunction (c : Compiler) (g : ObjectFunction)
    (htype : c.type = FunctionType.Script)
    (hg : c.reporter.hadError = false →
      ValidJumps g.chunk.code ∧ ∀ w ∈ g.chunk.constants, w.isFunction = false) :
    c.Keeps (((c.emitOp OpCode.PushConstant).setChunk
      ((c.emitOp OpCode.PushConstant).currentChunk.addConstant (Value.function g)).2).emit
      ((c.emitOp OpCode.PushConstant).currentChunk.addConstant (Value.function g)).1) := by
  have e1 : (((c.emitOp OpCode.PushConstant).setChunk
      ((c.emitOp OpCode.PushConstant).currentChunk.addConstant (Value.function g)).2).emit
      ((c.emitOp OpCode.PushConstant).currentChunk.addConstant
        (Value.function g)).1).currentChunk.code =
      c.currentChunk.code ++ [0, c.currentChunk.constants.length % 256] := by
    rw [Compiler.emit_code, Compiler.setChunk_currentChunk, Chunk.addConstant_code,
      Compiler.emitOp_code, Chunk.addConstant_index, Compiler.emitOp, Compiler.emit_constants,
      List.append_assoc]
    rfl
  have e2 : (((c.emitOp OpCode.PushConstant).setChunk
      ((c.emitOp OpCode.PushConstant).currentChunk.addConstant (Value.function g)).2).emit
      ((c.emitOp OpCode.PushConstant).currentChunk.addConstant
        (Value.function g)).1).currentChunk.constants =
      c.currentChunk.constants ++ [Value.function g] := by
    rw [Compiler.emit_constants, Compiler.setChunk_currentChunk, Chunk.addConstant_constants,
      Compiler.emitOp, Compiler.emit_constants]
  refine ⟨rfl, rfl, ?_⟩
  intro hok
  have hok0 : c.reporter.hadError = false := hok
  refine ⟨hok0, ?_⟩
  intro P hP
  obtain ⟨h1, h2⟩ := hP
  refine ⟨?_, ?_⟩
  · rw [e1]
    refine h1.append 0 [c.currentChunk.constants.length % 256] rfl ?_ ?_
      (fun h => absurd h (by decide)) (fun h => absurd h (by decide))
    · intro x hx
      rw [List.mem_cons, List.mem_singleton] at hx
      cases hx with
      | inl hx => rw [hx]; decide
      | inr hx => rw [hx]; exact Nat.mod_lt _ (by decide)
    · intro i
      constructor
      · exact fun h => Or.inl h
      · intro h
        cases h with
        | inl h => exact h
        | inr h =>
          cases h.2 with
          | inl h3 => exact absurd h3 (by decide)
          | inr h3 => exact absurd h3 (by decide)
  · intro f hf
    rw [e2, List.mem_append, List.mem_singleton] at hf
    cases hf with
    | inl hf => exact h2 f hf
    | inr hf =>
      have hfg : f = g := Value.function.inj hf
      rw [hfg]
      exact ⟨htype, hg hok0⟩

/-- `visitFunctionDeclaration` with a block as body, given that compiling the body
keeps the invariant of the compiler of the function. -/
theorem Compiler.keeps_function {u : Uninitialized} {c sub sub1 c1 : Compiler}
    {location : SourceRange} {name : Token} {params : List Token} {arity : Int}
    (htype : ¬ c.type = FunctionType.Function)
    (hsub : Compiler.declareParameters params
      ({ Compiler.new u FunctionType.Function c.reporter with
          compilingFunction := ObjectFunction.mk name.lexeme u.arity Chunk.empty }
        : Compiler).beginScope = some sub)
    (K : sub.Keeps sub1)
    (h : ((((({ c with currentNodeLocation := location, reporter := sub1.reporter }
          : Compiler).emitOp OpCode.PushConstant).setChunk
        (((({ c with currentNodeLocation := location, reporter := sub1.reporter }
          : Compiler).emitOp OpCode.PushConstant).currentChunk.addConstant
          (Value.function (ObjectFunction.mk sub1.finish.compilingFunction.name
            arity sub1.finish.compilingFunction.chunk))).2)).emit
        (((({ c with currentNodeLocation := location, reporter := sub1.reporter }
          : Compiler).emitOp OpCode.PushConstant).currentChunk.addConstant
          (Value.function (ObjectFunction.mk sub1.finish.compilingFunction.name
            arity sub1.finish.compilingFunction.chunk))).1))).defineVariable
        name = some c1) : c.Keeps c1 := by
  have hscript : c.type = FunctionType.Script := by
    cases ht : c.type with
    | Function => exact absurd ht htype
    | Script => rfl
  have K0 := (Compiler.keeps_beginScope ({ Compiler.new u FunctionType.Function c.reporter with
      compilingFunction := ObjectFunction.mk name.lexeme u.arity Chunk.empty } : Compiler)).trans
    ((Compiler.keeps_declareParameters _ _ _ hsub).trans K)
  obtain ⟨k1, k2, k3⟩ := K0
  have kR : c.Keeps ({ c with currentNodeLocation := location, reporter := sub1.reporter }
      : Compiler) := by
    refine ⟨rfl, rfl, ?_⟩
    intro hok
    exact ⟨(k3 hok).1, fun P hP => hP⟩
  have kP := Compiler.keeps_pushFunction
    ({ c with currentNodeLocation := location, reporter := sub1.reporter } : Compiler)
    (ObjectFunction.mk sub1.finish.compilingFunction.name arity
      sub1.finish.compilingFunction.chunk) hscript
  refine kR.trans ((kP ?_).trans (Compiler.keeps_defineVariable h))
  intro hok
  obtain ⟨_, T⟩ := k3 hok
  obtain ⟨i1, i2⟩ := T (fun _ => False) ⟨InvCode.empty, fun g hg => absurd hg (List.not_mem_nil _)⟩
  rw [k2] at i1
  constructor
  · show ValidJumps sub1.finish.compilingFunction.chunk.code
    rw [Compiler.finish_code]
    exact InvCode.validJumps i1
  · show ∀ w ∈ sub1.finish.compilingFunction.chunk.constants, w.isFunction = false
    rw [Compiler.finish_constants]
    intro w hw
    cases w with
    | function f =>
      have := (i2 f hw).1
      rw [k1] at this
      exact FunctionType.noConfusion this
    | _ => rfl

end scriptlang

namespace scriptlang

/-! ## Compiling statements keeps the invariant -/

mutual

/-- Compiling a statement keeps the invariant. -/
theorem Compiler.compileStatement_keeps (u : Uninitialized) :
    ∀ (s : Statement) (c c1 : Compiler), Compiler.compileStatement u s c = some c1 →
      c.Keeps c1
  | Statement.null, c, c1, h => Option.noConfusion h
  | Statement.VariableDeclaration location name init, c, c1, h => by
    rw [Compiler.compileStatement_variableDeclaration] at h
    obtain ⟨c2, h2, h⟩ := of_match_some h
    obtain ⟨c3, h3, h⟩ := of_match_some h
    exact (Compiler.keeps_location c location).trans ((Compiler.keeps_declareVariable h2).trans
      ((Compiler.compileExpression_keeps u init _ _ h3).trans (Compiler.keeps_defineVariable h)))
  | Statement.FunctionDeclaration location name params body, c, c1, h => by
    rw [Compiler.compileStatement_functionDeclaration] at h
    split at h
    · rw [← Option.some.inj h]
      exact (Compiler.keeps_location c location).trans (Compiler.keeps_emitError _ _)
    · rename_i htype
      obtain ⟨sub, hsub, h⟩ := of_match_some h
      have kerr : c.Keeps (({ c with currentNodeLocation := location, reporter := sub.reporter }
          : Compiler).emitError "Invalid function body.") :=
        Compiler.Keeps.of_error rfl rfl rfl
      cases body with
      | Block bl statements =>
        obtain ⟨sub1, hsub1, h⟩ := of_match_some h
        exact Compiler.keeps_function htype hsub
          (Compiler.compileStatements_keeps u statements _ _ hsub1) h
      | null => rw [← Option.some.inj h]; exact kerr
      | VariableDeclaration _ _ _ => rw [← Option.some.inj h]; exact kerr
      | FunctionDeclaration _ _ _ _ => rw [← Option.some.inj h]; exact kerr
      | While _ _ _ => rw [← Option.some.inj h]; exact kerr
      | If _ _ _ _ => rw [← Option.some.inj h]; exact kerr
      | ExpressionStatement _ _ => rw [← Option.some.inj h]; exact kerr
      | Continue _ => rw [← Option.some.inj h]; exact kerr
      | Break _ => rw [← Option.some.inj h]; exact kerr
      | Return _ _ => rw [← Option.some.inj h]; exact kerr
      | Print _ _ => rw [← Option.some.inj h]; exact kerr
  | Statement.Block location statements, c, c1, h => by
    rw [Compiler.compileStatement_block] at h
    obtain ⟨c2, h2, h⟩ := of_match_some h
    rw [← Option.some.inj h]
    exact (Compiler.keeps_location c location).trans ((Compiler.keeps_beginScope _).trans
      ((Compiler.compileStatements_keeps u statements _ _ h2).trans (Compiler.keeps_endScope _)))
  | Statement.While location condition body, c, c1, h => by
    rw [Compiler.compileStatement_while] at h
    obtain ⟨c2, h2, h⟩ := of_match_some h
    obtain ⟨c3, h3, h⟩ := of_match_some h
    have ih2 := Compiler.compileStatement_keeps u body _ _ h3
    cases hl : c3.loop with
    | nil =>
      rw [hl] at h
      exact Option.noConfusion h
    | cons loop rest =>
      rw [hl] at h
      obtain ⟨c4, h4, h⟩ := of_match_some h
      obtain ⟨c5, h5, h⟩ := of_match_some h
      obtain ⟨c6, h6, h⟩ := of_match_some h
      rw [← Option.some.inj h]
      exact (Compiler.keeps_location c location).trans
        (Compiler.keeps_while (Compiler.compileExpression_keeps u condition _ _ h2) ih2 hl h4 h5
          h6)
  | Statement.If location condition thenBranch elseBranch, c, c1, h => by
    rw [Compiler.compileStatement_if] at h
    obtain ⟨c2, h2, h⟩ := of_match_some h
    obtain ⟨c3, h3, h⟩ := of_match_some h
    obtain ⟨c4, h4, h⟩ := of_match_some h
    have ih1 := Compiler.compileStatement_keeps u thenBranch _ _ h3
    refine (Compiler.keeps_location c location).trans
      ((Compiler.compileExpression_keeps u condition _ _ h2).trans ?_)
    split at h
    · exact Compiler.keeps_two_jumps OpCode.JumpIfFalse OpCode.Jump (Or.inl rfl) (Or.inr rfl)
        ((Compiler.keeps_emitOp _ OpCode.Pop rfl).trans ih1) h4
        (Compiler.keeps_emitOp _ OpCode.Pop rfl) h
    · obtain ⟨c5, h5, h⟩ := of_match_some h
      have ih2 := Compiler.compileStatement_keeps u elseBranch _ _ h5
      exact Compiler.keeps_two_jumps OpCode.JumpIfFalse OpCode.Jump (Or.inl rfl) (Or.inr rfl)
        ((Compiler.keeps_emitOp _ OpCode.Pop rfl).trans ih1) h4
        ((Compiler.keeps_emitOp _ OpCode.Pop rfl).trans ih2) h
  | Statement.ExpressionStatement location expression, c, c1, h => by
    rw [Compiler.compileStatement_expressionStatement] at h
    obtain ⟨c2, h2, h⟩ := of_match_some h
    rw [← Option.some.inj h]
    exact (Compiler.keeps_location c location).trans
      ((Compiler.compileExpression_keeps u expression _ _ h2).trans
        (Compiler.keeps_emitOp _ OpCode.Pop rfl))
  | Statement.Continue location, c, c1, h => by
    rw [Compiler.compileStatement_continue] at h
    split at h
    · exact (Compiler.keeps_location c location).trans ((Compiler.keeps_emitError _ _).trans
        (Compiler.keeps_visitContinueStatement h))
    · exact (Compiler.keeps_location c location).trans (Compiler.keeps_visitContinueStatement h)
  | Statement.Break location, c, c1, h => by
    rw [Compiler.compileStatement_break] at h
    exact (Compiler.keeps_location c location).trans (Compiler.keeps_visitBreakStatement h)
  | Statement.Return location expression, c, c1, h => by
    rw [Compiler.compileStatement_return] at h
    split at h
    · rw [← Option.some.inj h]
      exact (Compiler.keeps_location c location).trans (Compiler.keeps_emitError _ _)
    · split at h
      · rw [← Option.some.inj h]
        exact (Compiler.keeps_location c location).trans
          ((Compiler.keeps_emitOp _ OpCode.Nil rfl).trans
            (Compiler.keeps_emitOp _ OpCode.Return rfl))
      · obtain ⟨c2, h2, h⟩ := of_match_some h
        rw [← Option.some.inj h]
        exact (Compiler.keeps_location c location).trans
          ((Compiler.compileExpression_keeps u expression _ _ h2).trans
            (Compiler.keeps_emitOp _ OpCode.Return rfl))
  | Statement.Print location expression, c, c1, h => by
    rw [Compiler.compileStatement_print] at h
    obtain ⟨c2, h2, h⟩ := of_match_some h
    rw [← Option.some.inj h]
    exact (Compiler.keeps_location c location).trans
      ((Compiler.compileExpression_keeps u expression _ _ h2).trans
        (Compiler.keeps_emitOp _ OpCode.Print rfl))

/-- Compiling a list of statements keeps the invariant. -/
theorem Compiler.compileStatements_keeps (u : Uninitialized) :
    ∀ (ss : List Statement) (c c1 : Compiler), Compiler.compileStatements u ss c = some c1 →
      c.Keeps c1
  | [], c, c1, h => by
    have h1 : some c = some c1 := h
    rw [← Option.some.inj h1]
    exact Compiler.Keeps.refl c
  | s :: ss, c, c1, h => by
    rw [Compiler.compileStatements_cons] at h
    obtain ⟨c2, h2, h⟩ := of_match_some h
    exact (Compiler.compileStatement_keeps u s _ _ h2).trans
      (Compiler.compileStatements_keeps u ss _ _ h)

end

end scriptlang

namespace scriptlang

/-! ## Reading operands, and the table of globals -/

/-- `readByte` reads the byte at the current frame's `ip` and advances it; nothing
else of the machine changes. -/
theorem VM.readByte_spec {vm vm1 : VM} {byte : Byte} (h : vm.readByte = some (byte, vm1)) :
    ∃ frame callers, vm.frames = frame :: callers ∧
      frame.function.chunk.get frame.ip = some byte ∧
      vm1 = { vm with frames := { frame with ip := frame.ip + 1 } :: callers } := by
  unfold VM.readByte at h
  cases hf : vm.frames with
  | nil =>
    rw [hf] at h
    exact Option.noConfusion h
  | cons frame callers =>
    rw [hf] at h
    simp only [] at h
    cases hb : frame.function.chunk.get frame.ip with
    | none =>
      rw [hb] at h
      exact Option.noConfusion h
    | some b =>
      rw [hb] at h
      simp only [Option.some.injEq, Prod.mk.injEq] at h
      exact ⟨frame, callers, rfl, by rw [hb, h.1], h.2.symm⟩

/-- `READ_CONSTANT()` reads the constant whose index is the byte at `ip`. -/
theorem VM.readConstant_spec {vm vm1 : VM} {v : Value} (h : vm.readConstant = some (v, vm1)) :
    ∃ frame callers index, vm.frames = frame :: callers ∧
      frame.function.chunk.get frame.ip = some index ∧
      frame.function.chunk.getConstant index = some v ∧
      vm1 = { vm with frames := { frame with ip := frame.ip + 1 } :: callers } := by
  unfold VM.readConstant at h
  cases hf : vm.frames with
  | nil =>
    rw [hf] at h
    exact Option.noConfusion h
  | cons frame callers =>
    rw [hf] at h
    simp only [] at h
    cases hb : vm.readByte with
    | none =>
      rw [hb] at h
      exact Option.noConfusion h
    | some r =>
      obtain ⟨index, vm2⟩ := r
      rw [hb] at h
      simp only [] at h
      obtain ⟨frame1, callers1, e1, e2, e3⟩ := VM.readByte_spec hb
      rw [hf] at e1
      obtain ⟨e4, e5⟩ := List.cons.inj e1
      cases hc : frame.function.chunk.getConstant index with
      | none =>
        rw [hc] at h
        exact Option.noConfusion h
      | some w =>
        rw [hc] at h
        simp only [Option.some.injEq, Prod.mk.injEq] at h
        refine ⟨frame, callers, index, rfl, by rw [e4]; exact e2, by rw [hc, h.1], ?_⟩
        rw [← h.2, e3, e4, e5]

/-- `READ_CONSTANT().asString()` reads a string constant. -/
theorem VM.readName_spec {vm vm1 : VM} {name : List Char} (h : vm.readName = some (name, vm1)) :
    ∃ frame callers index, vm.frames = frame :: callers ∧
      frame.function.chunk.get frame.ip = some index ∧
      frame.function.chunk.getConstant index = some (Value.string name) ∧
      vm1 = { vm with frames := { frame with ip := frame.ip + 1 } :: callers } := by
  unfold VM.readName at h
  cases hc : vm.readConstant with
  | none =>
    rw [hc] at h
    exact Option.noConfusion h
  | some r =>
    obtain ⟨v, vm2⟩ := r
    rw [hc] at h
    cases v with
    | string s =>
      simp only [Option.some.injEq, Prod.mk.injEq] at h
      rw [← h.1, ← h.2]
      exact VM.readConstant_spec hc
    | number n => exact Option.noConfusion h
    | boolean b => exact Option.noConfusion h
    | nil => exact Option.noConfusion h
    | function f => exact Option.noConfusion h

theorem assignGlobal_lookup_self (globals : List (List Char × Value)) (name : List Char)
    (v : Value) : (assignGlobal globals name v).lookup name = some v := by
  induction globals with
  | nil => simp [assignGlobal, List.lookup]
  | cons entry rest ih =>
    obtain ⟨key, old⟩ := entry
    unfold assignGlobal
    by_cases hk : key = name
    · rw [if_pos hk, hk]
      simp [List.lookup]
    · rw [if_neg hk]
      have hne : (name == key) = false := by simpa using fun h => hk h.symm
      simp only [List.lookup, hne]
      exact ih

theorem assignGlobal_lookup_ne (globals : List (List Char × Value)) (name other : List Char)
    (v : Value) (h : other ≠ name) :
    (assignGlobal globals name v).lookup other = globals.lookup other := by
  induction globals with
  | nil =>
    have hne : (other == name) = false := by simpa using h
    simp [assignGlobal, List.lookup, hne]
  | cons entry rest ih =>
    obtain ⟨key, old⟩ := entry
    unfold assignGlobal
    by_cases hk : key = name
    · rw [if_pos hk]
      have hne : (other == key) = false := by rw [hk]; simpa using h
      simp only [List.lookup, hne]
    · rw [if_neg hk]
      cases ho : other == key with
      | true => simp only [List.lookup, ho]
      | false =>
        simp only [List.lookup, ho]
        exact ih

/-- `globals_[name] = v` adds no key other than `name` and removes none. -/
theorem assignGlobal_keys (globals : List (List Char × Value)) (name : List Char) (v : Value)
    (h : (globals.lookup name).isSome = true) :
    (assignGlobal globals name v).map Prod.fst = globals.map Prod.fst := by
  induction globals with
  | nil => simp [List.lookup] at h
  | cons entry rest ih =>
    obtain ⟨key, old⟩ := entry
    unfold assignGlobal
    by_cases hk : key = name
    · rw [if_pos hk]
      rfl
    · rw [if_neg hk]
      have hne : (name == key) = false := by simpa using fun h => hk h.symm
      simp only [List.lookup, hne] at h
      simp only [List.map_cons, ih h]

end scriptlang

namespace scriptlang

theorem VM.readByte_eq (vm : VM) (frame : CallFrame) (callers : List CallFrame) (byte : Byte)
    (hframe : vm.frames = frame :: callers)
    (hbyte : frame.function.chunk.get frame.ip = some byte) :
    vm.readByte =
      some (byte, { vm with frames := { frame with ip := frame.ip + 1 } :: callers }) := by
  unfold VM.readByte
  rw [hframe]
  simp only [hbyte]

theorem VM.readConstant_eq (vm : VM) (frame : CallFrame) (callers : List CallFrame)
    (index : Byte) (v : Value) (hframe : vm.frames = frame :: callers)
    (hbyte : frame.function.chunk.get frame.ip = some index)
    (hconstant : frame.function.chunk.getConstant index = some v) :
    vm.readConstant =
      some (v, { vm with frames := { frame with ip := frame.ip + 1 } :: callers }) := by
  unfold VM.readConstant
  rw [VM.readByte_eq vm frame callers index hframe hbyte, hframe]
  simp only [hconstant]

theorem VM.readName_eq (vm : VM) (frame : CallFrame) (callers : List CallFrame)
    (index : Byte) (name : List Char) (hframe : vm.frames = frame :: callers)
    (hbyte : frame.function.chunk.get frame.ip = some index)
    (hconstant : frame.function.chunk.getConstant index = some (Value.string name)) :
    vm.readName =
      some (name, { vm with frames := { frame with ip := frame.ip + 1 } :: callers }) := by
  unfold VM.readName
  rw [VM.readConstant_eq vm frame callers index _ hframe hbyte hconstant]

/-- The report of a failed instruction whose operand byte has been read. -/
theorem VM.runtimeError_after_read (vm : VM) (frame : CallFrame) (callers : List CallFrame)
    (line : Nat) (message : String)
    (hline : frame.function.chunk.getLine ((frame.ip + 1 + 4294967295) % 4294967296) =
      some line) :
    ({ vm with frames := { frame with ip := frame.ip + 1 } :: callers } : VM).runtimeError
        message =
      StepResult.done InterpreterResult.RuntimeError
        (({ vm with frames := { frame with ip := frame.ip + 1 } :: callers } : VM).afterError
          line message) :=
  VM.runtimeError_eq _ message { frame with ip := frame.ip + 1 } callers line rfl hline

end scriptlang

namespace scriptlang

theorem StepResult.doneWith_ofOption (vm : VM) (o : Option VM) :
    (StepResult.ofOption vm o).DoneWith vm.globals := by
  cases o with
  | none => exact rfl
  | some vm1 => exact True.intro

theorem VM.doneWith_runtimeError (vm : VM) (message : String) :
    (vm.runtimeError message).DoneWith vm.globals := by
  unfold VM.runtimeError
  split
  · exact rfl
  · split
    · exact rfl
    · exact rfl

theorem VM.pop_globals {vm vm1 : VM} {v : Value} (h : vm.pop = some (v, vm1)) :
    vm1.globals = vm.globals := by
  unfold VM.pop at h
  split at h
  · simp only [Option.some.injEq, Prod.mk.injEq] at h
    rw [← h.2]
  · exact Option.noConfusion h

theorem VM.readByte_globals {vm vm1 : VM} {b : Byte} (h : vm.readByte = some (b, vm1)) :
    vm1.globals = vm.globals := by
  obtain ⟨frame, callers, _, _, e⟩ := VM.readByte_spec h
  rw [e]

theorem VM.readShort_globals {vm vm1 : VM} {n : Nat} (h : vm.readShort = some (n, vm1)) :
    vm1.globals = vm.globals := by
  unfold VM.readShort at h
  split at h
  · exact Option.noConfusion h
  · rename_i high vm2 h2
    split at h
    · exact Option.noConfusion h
    · rename_i low vm3 h3
      simp only [Option.some.injEq, Prod.mk.injEq] at h
      rw [← h.2, VM.readByte_globals h3, VM.readByte_globals h2]

theorem VM.readConstant_globals {vm vm1 : VM} {v : Value} (h : vm.readConstant = some (v, vm1)) :
    vm1.globals = vm.globals := by
  obtain ⟨frame, callers, _, _, _, _, e⟩ := VM.readConstant_spec h
  rw [e]

theorem VM.readName_globals {vm vm1 : VM} {name : List Char}
    (h : vm.readName = some (name, vm1)) : vm1.globals = vm.globals := by
  obtain ⟨frame, callers, _, _, _, _, e⟩ := VM.readName_spec h
  rw [e]

theorem VM.doneWith_binaryOperation (vm : VM) (op : Number → Number → Value) :
    (vm.binaryOperation op).DoneWith vm.globals := by
  unfold VM.binaryOperation
  split
  · exact rfl
  · rename_i b vm1 h1
    split
    · exact VM.pop_globals h1
    · rename_i a vm2 h2
      have hg : vm2.globals = vm.globals := by rw [VM.pop_globals h2, VM.pop_globals h1]
      rw [← hg]
      split
      · exact StepResult.doneWith_ofOption _ _
      · exact VM.doneWith_runtimeError _ _

end scriptlang

namespace scriptlang

theorem VM.doneWith_call (vm : VM) (function : ObjectFunction) (argc : Nat) :
    match vm.call function argc with
    | Except.error r => r.DoneWith vm.globals
    | Except.ok _ => True := by
  unfold VM.call
  by_cases h1 : vm.frames.length = CALL_FRAMES
  · rw [if_pos h1]
    exact VM.doneWith_runtimeError _ _
  · rw [if_neg h1]
    by_cases h2 : (argc : Int) ≠ function.arity
    · rw [if_pos h2]
      exact VM.doneWith_runtimeError _ _
    · rw [if_neg h2]
      by_cases h3 : vm.stackTop < argc + 1
      · rw [if_pos h3]
        exact rfl
      · rw [if_neg h3]
        exact True.intro

theorem VM.doneWith_dispatch (vm : VM) (op : OpCode) : (vm.dispatch op).DoneWith vm.globals := by
  cases op
  case PushConstant =>
    simp only [VM.dispatch]
    split
    · exact rfl
    · rename_i v vm1 h1
      rw [← VM.readConstant_globals h1]
      exact StepResult.doneWith_ofOption _ _
  case Pop =>
    simp only [VM.dispatch]
    split
    · exact rfl
    · exact True.intro
  case Add =>
    simp only [VM.dispatch]
    split
    · exact rfl
    · rename_i b vm1 h1
      split
      · exact VM.pop_globals h1
      · rename_i a vm2 h2
        have hg : vm2.globals = vm.globals := by rw [VM.pop_globals h2, VM.pop_globals h1]
        rw [← hg]
        split
        · exact StepResult.doneWith_ofOption _ _
        · exact StepResult.doneWith_ofOption _ _
        · exact VM.doneWith_runtimeError _ _
  case Sub => exact VM.doneWith_binaryOperation _ _
  case Div => exact VM.doneWith_binaryOperation _ _
  case Mult => exact VM.doneWith_binaryOperation _ _
  case Less => exact VM.doneWith_binaryOperation _ _
  case Greater => exact VM.doneWith_binaryOperation _ _
  case Equal =>
    simp only [VM.dispatch]
    split
    · exact rfl
    · rename_i b vm1 h1
      split
      · exact VM.pop_globals h1
      · rename_i a vm2 h2
        have hg : vm2.globals = vm.globals := by rw [VM.pop_globals h2, VM.pop_globals h1]
        rw [← hg]
        exact StepResult.doneWith_ofOption _ _
  case Pow =>
    simp only [VM.dispatch]
    split
    · exact rfl
    · rename_i b vm1 h1
      split
      · exact VM.pop_globals h1
      · rename_i a vm2 h2
        have hg : vm2.globals = vm.globals := by rw [VM.pop_globals h2, VM.pop_globals h1]
        rw [← hg]
        split
        · exact StepResult.doneWith_ofOption _ _
        · exact VM.doneWith_runtimeError _ _
  case Not =>
    simp only [VM.dispatch]
    split
    · exact rfl
    · rename_i v vm1 h1
      rw [← VM.pop_globals h1]
      exact StepResult.doneWith_ofOption _ _
  case Negate =>
    simp only [VM.dispatch]
    split
    · exact rfl
    · split
      · exact rfl
      · rename_i v vm1 h1
        rw [← VM.pop_globals h1]
        exact StepResult.doneWith_ofOption _ _
    · exact VM.doneWith_runtimeError _ _
  case Print =>
    simp only [VM.dispatch]
    split
    · exact rfl
    · exact True.intro
  case JumpIfFalse =>
    simp only [VM.dispatch]
    split
    · exact rfl
    · rename_i n vm1 h1
      split
      · exact VM.readShort_globals h1
      · exact True.intro
  case Jump =>
    simp only [VM.dispatch]
    split
    · exact rfl
    · exact True.intro
  case Loop =>
    simp only [VM.dispatch]
    split
    · exact rfl
    · exact True.intro
  case DefineGlobal =>
    simp only [VM.dispatch]
    split
    · exact rfl
    · rename_i name vm1 h1
      rw [← VM.readName_globals h1]
      split
      · exact VM.doneWith_runtimeError _ _
      · split
        · exact rfl
        · exact True.intro
  case GetGlobal =>
    simp only [VM.dispatch]
    split
    · exact rfl
    · rename_i name vm1 h1
      rw [← VM.readName_globals h1]
      split
      · exact VM.doneWith_runtimeError _ _
      · exact StepResult.doneWith_ofOption _ _
  case SetGlobal =>
    simp only [VM.dispatch]
    split
    · exact rfl
    · rename_i name vm1 h1
      rw [← VM.readName_globals h1]
      split
      · split
        · exact rfl
        · exact True.intro
      · exact VM.doneWith_runtimeError _ _
  case GetLocal =>
    simp only [VM.dispatch]
    split
    · exact rfl
    · rename_i slot vm1 h1
      rw [← VM.readByte_globals h1]
      split
      · exact rfl
      · split
        · exact StepResult.doneWith_ofOption _ _
        · exact rfl
  case SetLocal =>
    simp only [VM.dispatch]
    split
    · exact rfl
    · rename_i slot vm1 h1
      rw [← VM.readByte_globals h1]
      split
      · split
        · exact True.intro
        · exact rfl
      · exact rfl
  case Call =>
    simp only [VM.dispatch]
    split
    · exact rfl
    · rename_i argc vm1 h1
      rw [← VM.readByte_globals h1]
      split
      · exact rfl
      · rename_i callee h2
        cases callee with
        | function g =>
          have := VM.doneWith_call vm1 g argc
          simp only [VM.callValue]
          split
          · rename_i r hr
            rw [hr] at this
            exact this
          · exact True.intro
        | number n => simp only [VM.callValue]; exact VM.doneWith_runtimeError _ _
        | string s => simp only [VM.callValue]; exact VM.doneWith_runtimeError _ _
        | boolean b => simp only [VM.callValue]; exact VM.doneWith_runtimeError _ _
        | nil => simp only [VM.callValue]; exact VM.doneWith_runtimeError _ _
  case Return =>
    simp only [VM.dispatch]
    split
    · exact rfl
    · rename_i v vm1 h1
      rw [← VM.pop_globals h1]
      split
      · exact rfl
      · split
        · split
          · exact rfl
          · rename_i w vm2 h2
            have h3 := VM.pop_globals h2
            exact h3
        · exact StepResult.doneWith_ofOption vm1 _
  case True => exact StepResult.doneWith_ofOption _ _
  case False => exact StepResult.doneWith_ofOption _ _
  case Nil => exact StepResult.doneWith_ofOption _ _

/-- The step that ends a run leaves the globals as they were. -/
theorem VM.doneWith_step (vm : VM) : vm.step.DoneWith vm.globals := by
  unfold VM.step
  split
  · exact rfl
  · split
    · split
      · exact rfl
      · rename_i b vm1 h1
        rw [← VM.readByte_globals h1]
        split
        · exact VM.doneWith_runtimeError _ _
        · exact VM.doneWith_dispatch _ _
    · exact rfl

end scriptlang

namespace scriptlang

/-- `VM::execute` runs the machine with the globals it was given, unless its `push`
is outside the stack. -/
theorem VM.execute_globals (fuel : Nat) (vm : VM) (function : ObjectFunction) :
    VM.execute fuel vm function = some (InterpreterResult.Undefined, vm) ∨
    ∃ vm1, vm1.globals = vm.globals ∧ VM.execute fuel vm function = VM.run fuel vm1 := by
  unfold VM.execute
  cases hpush : vm.push (Value.function function) with
  | none => exact Or.inl rfl
  | some vm1 =>
    right
    have hg1 : vm1.globals = vm.globals := by
      unfold VM.push at hpush
      split at hpush
      · rw [← Option.some.inj hpush]
      · exact Option.noConfusion hpush
    have hcall := VM.doneWith_call vm1 function 0
    cases hc : vm1.call function 0 with
    | ok vm2 =>
      refine ⟨vm2, ?_, by simp only [hc]⟩
      unfold VM.call at hc
      split at hc
      · exact Except.noConfusion hc
      · split at hc
        · exact Except.noConfusion hc
        · split at hc
          · exact Except.noConfusion hc
          · rw [← Except.ok.inj hc]
            exact hg1
    | error r =>
      rw [hc] at hcall
      cases r with
      | done result vm2 => exact ⟨vm2, hcall.trans hg1, by simp only [hc]⟩
      | next vm2 =>
        exfalso
        unfold VM.call at hc
        have hne : ∀ (m : VM) (message : String) (w : VM),
            m.runtimeError message ≠ StepResult.next w := by
          intro m message w
          unfold VM.runtimeError
          split
          · exact StepResult.noConfusion
          · split <;> exact StepResult.noConfusion
        split at hc
        · exact hne _ _ _ (Except.error.inj hc)
        · split at hc
          · exact hne _ _ _ (Except.error.inj hc)
          · split at hc
            · exact StepResult.noConfusion (Except.error.inj hc)
            · exact Except.noConfusion hc

end scriptlang

namespace scriptlang

/-! ## Resolution of local names -/

/-- The loop of `resolveVariableName` over locals none of which has the name. -/
theorem Compiler.resolveLoop_none (name : Token) : ∀ (locals : List Local),
    (∀ local_ ∈ locals, local_.name.lexeme ≠ name.lexeme) →
    Compiler.resolveLoop name locals = (-1, false)
  | [], _ => rfl
  | local_ :: below, h => by
    unfold Compiler.resolveLoop
    rw [if_neg (fun e => h local_ (List.mem_cons_self _ _) e.symm)]
    exact Compiler.resolveLoop_none name below
      (fun l hl => h l (List.mem_cons_of_mem _ hl))

/-- The loop of `resolveVariableName` stops at the first local, from the top, that
has the name: `k` locals are above it. -/
theorem Compiler.resolveLoop_first (name : Token) : ∀ (locals : List Local) (k : Nat)
    (local_ : Local), locals.get? k = some local_ → local_.name.lexeme = name.lexeme →
    (∀ j other, j < k → locals.get? j = some other → other.name.lexeme ≠ name.lexeme) →
    Compiler.resolveLoop name locals =
      (((locals.length - 1 - k : Nat) : Int), decide (local_.depth = -1))
  | [], k, local_, h, _, _ => by simp at h
  | top :: below, 0, local_, h, hname, _ => by
    have htop : top = local_ := by simpa using h
    unfold Compiler.resolveLoop
    rw [htop, if_pos hname.symm]
    simp
  | top :: below, k + 1, local_, h, hname, habove => by
    have htop : top.name.lexeme ≠ name.lexeme := habove 0 top (Nat.succ_pos k) rfl
    unfold Compiler.resolveLoop
    rw [if_neg (fun e => htop e.symm)]
    have hk : below.get? k = some local_ := by simpa using h
    rw [Compiler.resolveLoop_first name below k local_ hk hname
      (fun j other hj ho => habove (j + 1) other (Nat.succ_lt_succ hj) (by simpa using ho))]
    have hlt : k < below.length := by
      rw [List.get?_eq_some] at hk
      exact hk.1
    simp only [List.length_cons, Prod.mk.injEq, and_true]
    congr 1
    omega

end scriptlang

namespace scriptlang

/-- `resolveVariableName` when no local has the name. -/
theorem Compiler.resolveVariableName_none (c : Compiler) (name : Token)
    (h : ∀ local_ ∈ c.locals, local_.name.lexeme ≠ name.lexeme) :
    c.resolveVariableName name = (-1, c) := by
  have h1 := Compiler.resolveLoop_none name c.locals.reverse
    (fun l hl => h l (List.mem_reverse.mp hl))
  unfold Compiler.resolveVariableName
  rw [h1]
  rfl

/-- `resolveVariableName` when the local at index `i` has the name and no local
above it has. -/
theorem Compiler.resolveVariableName_at (c : Compiler) (name : Token) (i : Nat)
    (local_ : Local) (hi : c.locals.get? i = some local_)
    (hname : local_.name.lexeme = name.lexeme)
    (habove : ∀ j other, i < j → c.locals.get? j = some other →
      other.name.lexeme ≠ name.lexeme) :
    (c.resolveVariableName name).1 = (i : Int) ∧
    (local_.depth = -1 → (c.resolveVariableName name).2 =
      c.emitError "You can't use a variable in it's own initializer.") ∧
    (local_.depth ≠ -1 → (c.resolveVariableName name).2 = c) := by
  have hlt : i < c.locals.length := by
    rw [List.get?_eq_some] at hi
    exact hi.1
  have hrev : c.locals.reverse.get? (c.locals.length - 1 - i) = some local_ := by
    rw [List.get?_eq_getElem?, List.getElem?_reverse (by omega)]
    rw [List.get?_eq_getElem?] at hi
    rw [← hi]
    congr 1
    omega
  have h1 := Compiler.resolveLoop_first name c.locals.reverse (c.locals.length - 1 - i)
    local_ hrev hname (by
      intro j other hj ho
      rw [List.get?_eq_getElem?, List.getElem?_reverse (by omega)] at ho
      exact habove (c.locals.length - 1 - j) other (by omega)
        (by rw [List.get?_eq_getElem?]; exact ho))
  have hidx : ((c.locals.reverse.length - 1 - (c.locals.length - 1 - i) : Nat) : Int) =
      (i : Int) := by
    rw [List.length_reverse]
    congr 1
    omega
  unfold Compiler.resolveVariableName
  rw [h1, hidx]
  refine ⟨rfl, ?_, ?_⟩
  · intro hd
    simp only [hd, decide_True, if_true]
  · intro hd
    simp only [hd, decide_False]
    rfl

/-! ## Parameters of a function -/

/-- `declareVariable` in a scope adds a local with depth `-1`. -/
theorem Compiler.declareVariable_locals {c c1 : Compiler} {name : Token}
    (hdepth : 0 < c.scopeDepth) (hlen : c.locals.length ≤ MAX_LOCALS)
    (h : c.declareVariable name = some c1) :
    c1.locals = c.locals ++ [⟨name, -1⟩] ∧ c1.scopeDepth = c.scopeDepth ∧
    c1.currentChunk = c.currentChunk ∧ c.locals.length < MAX_LOCALS := by
  unfold Compiler.declareVariable at h
  rw [if_neg (by omega), if_neg (by omega)] at h
  split at h
  · unfold Compiler.addLocal at h
    split at h
    · rename_i hlt
      rw [← Option.some.inj h]
      exact ⟨rfl, rfl, rfl, hlt⟩
    · exact Option.noConfusion h
  · unfold Compiler.addLocal at h
    split at h
    · rename_i hlt
      rw [← Option.some.inj h]
      exact ⟨rfl, rfl, rfl, hlt⟩
    · exact Option.noConfusion h

/-- `defineVariable` in a scope gives the top local the depth of the scope. -/
theorem Compiler.defineVariable_locals {c c1 : Compiler} {name : Token} {below : List Local}
    {top : Local} (hdepth : 0 < c.scopeDepth) (hlocals : c.locals = below ++ [top])
    (h : c.defineVariable name = some c1) :
    c1.locals = below ++ [⟨top.name, (c.scopeDepth : Int)⟩] ∧ c1.scopeDepth = c.scopeDepth ∧
    c1.currentChunk = c.currentChunk := by
  unfold Compiler.defineVariable at h
  rw [if_pos hdepth] at h
  unfold Compiler.markVariableAsDefined at h
  rw [hlocals, List.getLast?_append_of_ne_nil _ (List.cons_ne_nil _ _)] at h
  simp only [List.getLast?_singleton, List.dropLast_concat, Option.some.injEq] at h
  rw [← h]
  exact ⟨rfl, rfl, rfl⟩

/-- The parameter loop of `visitFunctionDeclaration` adds one local per parameter, in
order, with the depth of the scope. -/
theorem Compiler.declareParameters_locals : ∀ (params : List Token) (c sub : Compiler),
    0 < c.scopeDepth → c.locals.length ≤ MAX_LOCALS →
    Compiler.declareParameters params c = some sub →
    sub.locals = c.locals ++ params.map (fun p => (⟨p, (c.scopeDepth : Int)⟩ : Local)) ∧
    sub.scopeDepth = c.scopeDepth ∧ sub.currentChunk = c.currentChunk ∧
    sub.locals.length ≤ MAX_LOCALS
  | [], c, sub, _, hlen, h => by
    have h1 : some c = some sub := h
    rw [← Option.some.inj h1]
    simp [hlen]
  | param :: params, c, sub, hdepth, hlen, h => by
    unfold Compiler.declareParameters at h
    cases h1 : c.declareVariable param with
    | none =>
      rw [h1] at h
      exact Option.noConfusion h
    | some c1 =>
      rw [h1] at h
      simp only [] at h
      obtain ⟨e1, e2, e3, e4⟩ := Compiler.declareVariable_locals hdepth hlen h1
      cases h2 : c1.defineVariable param with
      | none =>
        rw [h2] at h
        exact Option.noConfusion h
      | some c2 =>
        rw [h2] at h
        simp only [] at h
        obtain ⟨f1, f2, f3⟩ := Compiler.defineVariable_locals (by omega) e1 h2
        have hlen2 : c2.locals.length ≤ MAX_LOCALS := by
          rw [f1, List.length_append]
          simp only [List.length_singleton]
          omega
        obtain ⟨g1, g2, g3, g4⟩ := Compiler.declareParameters_locals params c2 sub (by omega)
          hlen2 h
        refine ⟨?_, by rw [g2, f2, e2], by rw [g3, f3, e3], g4⟩
        rw [g1, f1, f2, e2]
        simp

end scriptlang

namespace scriptlang

/-! ## Single steps of the machine -/

theorem getD_writeCell_self (stack : List Value) (index : Nat) (v : Value) :
    (writeCell stack index v).getD index Value.nil = v := by
  unfold writeCell
  split
  · rename_i h
    rw [List.getD_eq_getElem?_getD, List.getElem?_set_self h]
    rfl
  · rename_i h
    rw [List.getD_eq_getElem?_getD, List.getElem?_append_right (by simp; omega)]
    simp
    have : index - (stack.length + (index - stack.length)) = 0 := by omega
    rw [this]
    rfl

theorem VM.run_next {fuel : Nat} {vm vm1 : VM} (h : vm.step = StepResult.next vm1) :
    VM.run (fuel + 1) vm = VM.run fuel vm1 := by
  show (match vm.step with
    | StepResult.next vm1 => VM.run fuel vm1
    | StepResult.done result vm1 => some (result, vm1)) = _
  rw [h]

theorem VM.run_done {fuel : Nat} {vm vm1 : VM} {result : InterpreterResult}
    (h : vm.step = StepResult.done result vm1) :
    VM.run (fuel + 1) vm = some (result, vm1) := by
  show (match vm.step with
    | StepResult.next vm1 => VM.run fuel vm1
    | StepResult.done result vm1 => some (result, vm1)) = _
  rw [h]

/-- One iteration of the loop of `run` at an instruction: its byte is read and the
`switch` is entered. -/
theorem VM.step_eq (vm : VM) (frame : CallFrame) (callers : List CallFrame) (byte : Byte)
    (op : OpCode) (hframe : vm.frames = frame :: callers)
    (hbyte : frame.function.chunk.get frame.ip = some byte)
    (hop : OpCode.ofByte byte = some op) :
    vm.step =
      ({ vm with frames := { frame with ip := frame.ip + 1 } :: callers } : VM).dispatch op := by
  have hlt : frame.ip < frame.function.chunk.size := by
    unfold Chunk.get at hbyte
    rw [List.get?_eq_some] at hbyte
    exact hbyte.1
  unfold VM.step
  rw [hframe]
  simp only []
  rw [if_pos hlt, VM.readByte_eq vm frame callers byte hframe hbyte]
  simp only [hop]

theorem VM.readShort_eq (vm : VM) (frame : CallFrame) (callers : List CallFrame)
    (high low : Byte) (hframe : vm.frames = frame :: callers)
    (hhigh : frame.function.chunk.get frame.ip = some high)
    (hlow : frame.function.chunk.get (frame.ip + 1) = some low) :
    vm.readShort = some ((high * 256 + low) % 65536,
      { vm with frames := { frame with ip := frame.ip + 1 + 1 } :: callers }) := by
  unfold VM.readShort
  rw [VM.readByte_eq vm frame callers high hframe hhigh]
  simp only []
  rw [VM.readByte_eq _ { frame with ip := frame.ip + 1 } callers low rfl hlow]

/-- `JumpIfFalse` with its operand bytes `high`, `low` at `ip`. -/
theorem VM.dispatch_jumpIfFalse (vm : VM) (frame : CallFrame) (callers : List CallFrame)
    (high low : Byte) (hframe : vm.frames = frame :: callers)
    (hhigh : frame.function.chunk.get frame.ip = some high)
    (hlow : frame.function.chunk.get (frame.ip + 1) = some low)
    (h1 : 1 ≤ vm.stackTop) (h2 : vm.stackTop ≤ STACK_SIZE) :
    vm.dispatch OpCode.JumpIfFalse = StepResult.next
      (if (vm.cell (vm.stackTop - 1)).isFalsey then
        { vm with frames := { frame with
            ip := (frame.ip + 1 + 1 + (high * 256 + low) % 65536) % 4294967296 } :: callers }
      else { vm with frames := { frame with ip := frame.ip + 1 + 1 } :: callers }) := by
  have hpeek := VM.peek_eq
    ({ vm with frames := { frame with ip := frame.ip + 1 + 1 } :: callers } : VM) h1 h2
  simp only [VM.dispatch, VM.readShort_eq vm frame callers high low hframe hhigh hlow, hpeek]
  rfl

/-- `Jump` with its operand bytes `high`, `low` at `ip`. -/
theorem VM.dispatch_jump (vm : VM) (frame : CallFrame) (callers : List CallFrame)
    (high low : Byte) (hframe : vm.frames = frame :: callers)
    (hhigh : frame.function.chunk.get frame.ip = some high)
    (hlow : frame.function.chunk.get (frame.ip + 1) = some low) :
    vm.dispatch OpCode.Jump = StepResult.next
      { vm with frames := { frame with
          ip := (frame.ip + 1 + 1 + (high * 256 + low) % 65536) % 4294967296 } :: callers } := by
  simp only [VM.dispatch, VM.readShort_eq vm frame callers high low hframe hhigh hlow]
  rfl

/-- `Loop` with its operand bytes `high`, `low` at `ip`. -/
theorem VM.dispatch_loop (vm : VM) (frame : CallFrame) (callers : List CallFrame)
    (high low : Byte) (hframe : vm.frames = frame :: callers)
    (hhigh : frame.function.chunk.get frame.ip = some high)
    (hlow : frame.function.chunk.get (frame.ip + 1) = some low) :
    vm.dispatch OpCode.Loop = StepResult.next
      { vm with frames := { frame with
          ip := (frame.ip + 1 + 1 + 4294967296 - (high * 256 + low) % 65536) % 4294967296 }
            :: callers } := by
  simp only [VM.dispatch, VM.readShort_eq vm frame callers high low hframe hhigh hlow]
  rfl

/-- `Pop`. -/
theorem VM.dispatch_pop (vm : VM) (h1 : 1 ≤ vm.stackTop) (h2 : vm.stackTop ≤ STACK_SIZE) :
    vm.dispatch OpCode.Pop = StepResult.next { vm with stackTop := vm.stackTop - 1 } := by
  simp only [VM.dispatch, VM.pop_eq vm h1 h2]

/-- `PushConstant` with its operand byte at `ip`, below the end of the stack. -/
theorem VM.dispatch_pushConstant (vm : VM) (frame : CallFrame) (callers : List CallFrame)
    (index : Byte) (v : Value) (hframe : vm.frames = frame :: callers)
    (hbyte : frame.function.chunk.get frame.ip = some index)
    (hconstant : frame.function.chunk.getConstant index = some v)
    (h : vm.stackTop < STACK_SIZE) :
    vm.dispatch OpCode.PushConstant = StepResult.next
      { vm with frames := { frame with ip := frame.ip + 1 } :: callers,
                stack := writeCell vm.stack vm.stackTop v, stackTop := vm.stackTop + 1 } := by
  have hpush := VM.push_eq
    ({ vm with frames := { frame with ip := frame.ip + 1 } :: callers } : VM) v h
  simp only [VM.dispatch, VM.readConstant_eq vm frame callers index v hframe hbyte hconstant,
    hpush, StepResult.ofOption]

/-- `PushConstant` at the end of the stack: the write is outside the array. -/
theorem VM.dispatch_pushConstant_full (vm : VM) (frame : CallFrame)
    (callers : List CallFrame) (index : Byte) (v : Value)
    (hframe : vm.frames = frame :: callers)
    (hbyte : frame.function.chunk.get frame.ip = some index)
    (hconstant : frame.function.chunk.getConstant index = some v)
    (h : ¬ vm.stackTop < STACK_SIZE) :
    vm.dispatch OpCode.PushConstant = StepResult.done InterpreterResult.Undefined
      { vm with frames := { frame with ip := frame.ip + 1 } :: callers } := by
  have hpush : ({ vm with frames := { frame with ip := frame.ip + 1 } :: callers }
      : VM).push v = none := by
    unfold VM.push
    rw [if_neg h]
  simp only [VM.dispatch, VM.readConstant_eq vm frame callers index v hframe hbyte hconstant,
    hpush, StepResult.ofOption]

/-- `True`, below the end of the stack. -/
theorem VM.dispatch_true (vm : VM) (h : vm.stackTop < STACK_SIZE) :
    vm.dispatch OpCode.True = StepResult.next
      { vm with stack := writeCell vm.stack vm.stackTop (Value.boolean true),
                stackTop := vm.stackTop + 1 } := by
  simp only [VM.dispatch, VM.push_eq vm _ h, StepResult.ofOption]

/-- `GetLocal` with its operand byte at `ip`. -/
theorem VM.dispatch_getLocal (vm : VM) (frame : CallFrame) (callers : List CallFrame)
    (slot : Byte) (hframe : vm.frames = frame :: callers)
    (hbyte : frame.function.chunk.get frame.ip = some slot)
    (h : vm.stackTop < STACK_SIZE) (hslot : frame.slots + slot < STACK_SIZE) :
    vm.dispatch OpCode.GetLocal = StepResult.next
      { vm with frames := { frame with ip := frame.ip + 1 } :: callers,
                stack := writeCell vm.stack vm.stackTop (vm.cell (frame.slots + slot)),
                stackTop := vm.stackTop + 1 } := by
  have hpush := VM.push_eq
    ({ vm with frames := { frame with ip := frame.ip + 1 } :: callers } : VM)
    (vm.cell (frame.slots + slot)) h
  have hslot1 : ({ frame with ip := frame.ip + 1 } : CallFrame).slots + slot < STACK_SIZE :=
    hslot
  simp only [VM.dispatch, VM.readByte_eq vm frame callers slot hframe hbyte, hslot1, if_true]
  rw [show ({ vm with frames := { frame with ip := frame.ip + 1 } :: callers } : VM).cell
      (frame.slots + slot) = vm.cell (frame.slots + slot) from rfl, hpush]
  rfl

end scriptlang

namespace scriptlang

/-- `Call` with its operand byte at `ip`, the callee being a function of that arity. -/
theorem VM.dispatch_call (vm : VM) (frame : CallFrame) (callers : List CallFrame)
    (argc : Byte) (g : ObjectFunction) (hframe : vm.frames = frame :: callers)
    (hbyte : frame.function.chunk.get frame.ip = some argc)
    (hpeek : ({ vm with frames := { frame with ip := frame.ip + 1 } :: callers } : VM).peek
      argc = some (Value.function g))
    (hlen : vm.frames.length ≠ CALL_FRAMES) (harity : (argc : Int) = g.arity) :
    vm.dispatch OpCode.Call = StepResult.next
      { vm with frames :=
          ⟨g, 0, vm.stackTop - argc - 1⟩ :: { frame with ip := frame.ip + 1 } :: callers } := by
  have hlen1 : ¬ ({ vm with frames := { frame with ip := frame.ip + 1 } :: callers }
      : VM).frames.length = CALL_FRAMES := by
    rw [hframe] at hlen
    exact hlen
  have hargs : ¬ vm.stackTop < argc + 1 := by
    unfold VM.peek at hpeek
    split at hpeek
    · rename_i h
      have := h.1
      simp only [] at this
      omega
    · exact Option.noConfusion hpeek
  have hcall : ({ vm with frames := { frame with ip := frame.ip + 1 } :: callers }
      : VM).call g argc = Except.ok
      { vm with frames :=
          ⟨g, 0, vm.stackTop - argc - 1⟩ :: { frame with ip := frame.ip + 1 } :: callers } := by
    unfold VM.call
    rw [if_neg hlen1, if_neg (by simpa using harity), if_neg hargs]
  simp only [VM.dispatch, VM.readByte_eq vm frame callers argc hframe hbyte, hpeek,
    VM.callValue, hcall]

end scriptlang

namespace scriptlang

/-- `Loop` that lands at offset `target`. -/
theorem VM.dispatch_loop_to (vm : VM) (function : ObjectFunction) (ip slots : Nat)
    (callers : List CallFrame) (high low : Byte) (target : Nat)
    (hframe : vm.frames = ⟨function, ip, slots⟩ :: callers)
    (hhigh : function.chunk.get ip = some high)
    (hlow : function.chunk.get (ip + 1) = some low)
    (htarget : (ip + 1 + 1 + 4294967296 - (high * 256 + low) % 65536) % 4294967296 = target) :
    vm.dispatch OpCode.Loop = StepResult.next
      { vm with frames := ⟨function, target, slots⟩ :: callers } := by
  rw [VM.dispatch_loop vm ⟨function, ip, slots⟩ callers high low hframe hhigh hlow]
  simp only [htarget]

end scriptlang

namespace scriptlang

/-! ## A loop that pushes one value per iteration

The chunk `True; JumpIfFalse +9; Pop; PushConstant 0; PushConstant 1; Pop; Loop -13;
Pop; Nil; Return` is what the compiler emits for
`while true { defun f() {} defun g() {} }`. -/

theorem VM.overflow_get {function : ObjectFunction}
    (hcode : function.chunk.code = [23, 13, 0, 9, 1, 0, 0, 0, 1, 1, 15, 0, 13, 1, 25, 22])
    (i : Nat) (byte : Byte)
    (h : [23, 13, 0, 9, 1, 0, 0, 0, 1, 1, 15, 0, 13, 1, 25, 22].get? i = some byte) :
    function.chunk.get i = some byte := by
  unfold Chunk.get
  rw [hcode]
  exact h

/-- One iteration of the loop: the stack is one cell higher. -/
theorem VM.overflow_iteration (function : ObjectFunction) (v0 v1 : Value)
    (hcode : function.chunk.code = [23, 13, 0, 9, 1, 0, 0, 0, 1, 1, 15, 0, 13, 1, 25, 22])
    (h0 : function.chunk.getConstant 0 = some v0)
    (h1 : function.chunk.getConstant 1 = some v1)
    (stack : List Value) (s : Nat) (hs : 1 ≤ s) (hlt : s + 1 < STACK_SIZE) (fuel : Nat) :
    VM.run (fuel + 7) ⟨[⟨function, 0, 0⟩], stack, s, [], ""⟩ =
      VM.run fuel ⟨[⟨function, 0, 0⟩],
        writeCell (writeCell (writeCell stack s (Value.boolean true)) s v0) (s + 1) v1,
        s + 1, [], ""⟩ := by
  have step1 : VM.step ⟨[⟨function, 0, 0⟩], stack, s, [], ""⟩ = StepResult.next
      ⟨[⟨function, 1, 0⟩], writeCell stack s (Value.boolean true), s + 1, [], ""⟩ := by
    rw [VM.step_eq _ ⟨function, 0, 0⟩ [] 23 OpCode.True rfl (VM.overflow_get hcode 0 23 rfl)
      rfl]
    exact VM.dispatch_true _ (show s < STACK_SIZE by omega)
  have step2 : VM.step
      ⟨[⟨function, 1, 0⟩], writeCell stack s (Value.boolean true), s + 1, [], ""⟩ =
      StepResult.next
        ⟨[⟨function, 4, 0⟩], writeCell stack s (Value.boolean true), s + 1, [], ""⟩ := by
    rw [VM.step_eq _ ⟨function, 1, 0⟩ [] 13 OpCode.JumpIfFalse rfl
      (VM.overflow_get hcode 1 13 rfl) rfl,
      VM.dispatch_jumpIfFalse _ ⟨function, 2, 0⟩ [] 0 9 rfl (VM.overflow_get hcode 2 0 rfl)
        (VM.overflow_get hcode 3 9 rfl) (show 1 ≤ s + 1 by omega)
        (show s + 1 ≤ STACK_SIZE by omega)]
    simp only [VM.cell, Nat.add_sub_cancel, getD_writeCell_self, Value.isFalsey]
    rfl
  have step3 : VM.step
      ⟨[⟨function, 4, 0⟩], writeCell stack s (Value.boolean true), s + 1, [], ""⟩ =
      StepResult.next
        ⟨[⟨function, 5, 0⟩], writeCell stack s (Value.boolean true), s, [], ""⟩ := by
    rw [VM.step_eq _ ⟨function, 4, 0⟩ [] 1 OpCode.Pop rfl (VM.overflow_get hcode 4 1 rfl) rfl]
    exact VM.dispatch_pop _ (show 1 ≤ s + 1 by omega) (show s + 1 ≤ STACK_SIZE by omega)
  have step4 : VM.step
      ⟨[⟨function, 5, 0⟩], writeCell stack s (Value.boolean true), s, [], ""⟩ =
      StepResult.next
        ⟨[⟨function, 7, 0⟩], writeCell (writeCell stack s (Value.boolean true)) s v0,
          s + 1, [], ""⟩ := by
    rw [VM.step_eq _ ⟨function, 5, 0⟩ [] 0 OpCode.PushConstant rfl
      (VM.overflow_get hcode 5 0 rfl) rfl]
    exact VM.dispatch_pushConstant _ ⟨function, 6, 0⟩ [] 0 v0 rfl
      (VM.overflow_get hcode 6 0 rfl) h0 (show s < STACK_SIZE by omega)
  have step5 : VM.step
      ⟨[⟨function, 7, 0⟩], writeCell (writeCell stack s (Value.boolean true)) s v0,
        s + 1, [], ""⟩ =
      StepResult.next
        ⟨[⟨function, 9, 0⟩],
          writeCell (writeCell (writeCell stack s (Value.boolean true)) s v0) (s + 1) v1,
          s + 1 + 1, [], ""⟩ := by
    rw [VM.step_eq _ ⟨function, 7, 0⟩ [] 0 OpCode.PushConstant rfl
      (VM.overflow_get hcode 7 0 rfl) rfl]
    exact VM.dispatch_pushConstant _ ⟨function, 8, 0⟩ [] 1 v1 rfl
      (VM.overflow_get hcode 8 1 rfl) h1 hlt
  have step6 : VM.step
      ⟨[⟨function, 9, 0⟩],
        writeCell (writeCell (writeCell stack s (Value.boolean true)) s v0) (s + 1) v1,
        s + 1 + 1, [], ""⟩ =
      StepResult.next
        ⟨[⟨function, 10, 0⟩],
          writeCell (writeCell (writeCell stack s (Value.boolean true)) s v0) (s + 1) v1,
          s + 1, [], ""⟩ := by
    rw [VM.step_eq _ ⟨function, 9, 0⟩ [] 1 OpCode.Pop rfl (VM.overflow_get hcode 9 1 rfl) rfl]
    exact VM.dispatch_pop _ (show 1 ≤ s + 1 + 1 by omega)
      (show s + 1 + 1 ≤ STACK_SIZE by omega)
  have step7 : VM.step
      ⟨[⟨function, 10, 0⟩],
        writeCell (writeCell (writeCell stack s (Value.boolean true)) s v0) (s + 1) v1,
        s + 1, [], ""⟩ =
      StepResult.next
        ⟨[⟨function, 0, 0⟩],
          writeCell (writeCell (writeCell stack s (Value.boolean true)) s v0) (s + 1) v1,
          s + 1, [], ""⟩ := by
    rw [VM.step_eq _ ⟨function, 10, 0⟩ [] 15 OpCode.Loop rfl
      (VM.overflow_get hcode 10 15 rfl) rfl]
    exact VM.dispatch_loop_to _ function 11 0 [] 0 13 0 rfl (VM.overflow_get hcode 11 0 rfl)
      (VM.overflow_get hcode 12 13 rfl) (by norm_num)
  rw [VM.run_next step1, VM.run_next step2, VM.run_next step3, VM.run_next step4,
    VM.run_next step5, VM.run_next step6, VM.run_next step7]

/-- After `k` iterations the stack is `k` cells higher. -/
theorem VM.overflow_iterations (function : ObjectFunction) (v0 v1 : Value)
    (hcode : function.chunk.code = [23, 13, 0, 9, 1, 0, 0, 0, 1, 1, 15, 0, 13, 1, 25, 22])
    (h0 : function.chunk.getConstant 0 = some v0)
    (h1 : function.chunk.getConstant 1 = some v1) (fuel : Nat) :
    ∀ (k : Nat) (stack : List Value) (s : Nat), 1 ≤ s → s + k < STACK_SIZE →
      ∃ stack1, VM.run (fuel + 7 * k) ⟨[⟨function, 0, 0⟩], stack, s, [], ""⟩ =
        VM.run fuel ⟨[⟨function, 0, 0⟩], stack1, s + k, [], ""⟩
  | 0, stack, s, _, _ => ⟨stack, rfl⟩
  | k + 1, stack, s, hs, hlt => by
    obtain ⟨stack1, ih⟩ := VM.overflow_iterations function v0 v1 hcode h0 h1 fuel k
      (writeCell (writeCell (writeCell stack s (Value.boolean true)) s v0) (s + 1) v1) (s + 1)
      (by omega) (by omega)
    refine ⟨stack1, ?_⟩
    have hfuel : fuel + 7 * (k + 1) = fuel + 7 * k + 7 := by omega
    have hsum : s + (k + 1) = s + 1 + k := by omega
    rw [hfuel, hsum, VM.overflow_iteration function v0 v1 hcode h0 h1 stack s hs (by omega)]
    exact ih

/-- The iteration that starts one cell below the end of the stack: its second
`PushConstant` writes outside the stack. -/
theorem VM.overflow_last (function : ObjectFunction) (v0 v1 : Value)
    (hcode : function.chunk.code = [23, 13, 0, 9, 1, 0, 0, 0, 1, 1, 15, 0, 13, 1, 25, 22])
    (h0 : function.chunk.getConstant 0 = some v0)
    (h1 : function.chunk.getConstant 1 = some v1)
    (stack : List Value) (fuel : Nat) :
    VM.run (fuel + 5) ⟨[⟨function, 0, 0⟩], stack, 16319, [], ""⟩ =
      some (InterpreterResult.Undefined,
        ⟨[⟨function, 9, 0⟩], writeCell (writeCell stack 16319 (Value.boolean true)) 16319 v0,
          16320, [], ""⟩) := by
  have step1 : VM.step ⟨[⟨function, 0, 0⟩], stack, 16319, [], ""⟩ = StepResult.next
      ⟨[⟨function, 1, 0⟩], writeCell stack 16319 (Value.boolean true), 16320, [], ""⟩ := by
    rw [VM.step_eq _ ⟨function, 0, 0⟩ [] 23 OpCode.True rfl (VM.overflow_get hcode 0 23 rfl)
      rfl]
    exact VM.dispatch_true _ (show (16319 : Nat) < STACK_SIZE by decide)
  have step2 : VM.step
      ⟨[⟨function, 1, 0⟩], writeCell stack 16319 (Value.boolean true), 16320, [], ""⟩ =
      StepResult.next
        ⟨[⟨function, 4, 0⟩], writeCell stack 16319 (Value.boolean true), 16320, [],
          ""⟩ := by
    rw [VM.step_eq _ ⟨function, 1, 0⟩ [] 13 OpCode.JumpIfFalse rfl
      (VM.overflow_get hcode 1 13 rfl) rfl,
      VM.dispatch_jumpIfFalse _ ⟨function, 2, 0⟩ [] 0 9 rfl (VM.overflow_get hcode 2 0 rfl)
        (VM.overflow_get hcode 3 9 rfl) (show 1 ≤ 16320 by decide)
        (show 16320 ≤ STACK_SIZE by decide)]
    have hcell : (⟨[⟨function, 1 + 1, 0⟩], writeCell stack 16319 (Value.boolean true), 16320,
        [], ""⟩ : VM).cell (16320 - 1) = Value.boolean true :=
      getD_writeCell_self stack 16319 (Value.boolean true)
    simp only [hcell, Value.isFalsey]
    rfl
  have step3 : VM.step
      ⟨[⟨function, 4, 0⟩], writeCell stack 16319 (Value.boolean true), 16320, [], ""⟩ =
      StepResult.next
        ⟨[⟨function, 5, 0⟩], writeCell stack 16319 (Value.boolean true), 16319, [],
          ""⟩ := by
    rw [VM.step_eq _ ⟨function, 4, 0⟩ [] 1 OpCode.Pop rfl (VM.overflow_get hcode 4 1 rfl) rfl]
    exact VM.dispatch_pop _ (show 1 ≤ 16320 by decide) (show 16320 ≤ STACK_SIZE by decide)
  have step4 : VM.step
      ⟨[⟨function, 5, 0⟩], writeCell stack 16319 (Value.boolean true), 16319, [], ""⟩ =
      StepResult.next
        ⟨[⟨function, 7, 0⟩], writeCell (writeCell stack 16319 (Value.boolean true)) 16319 v0,
          16320, [], ""⟩ := by
    rw [VM.step_eq _ ⟨function, 5, 0⟩ [] 0 OpCode.PushConstant rfl
      (VM.overflow_get hcode 5 0 rfl) rfl]
    exact VM.dispatch_pushConstant _ ⟨function, 6, 0⟩ [] 0 v0 rfl
      (VM.overflow_get hcode 6 0 rfl) h0 (show (16319 : Nat) < STACK_SIZE by decide)
  have step5 : VM.step
      ⟨[⟨function, 7, 0⟩], writeCell (writeCell stack 16319 (Value.boolean true)) 16319 v0,
        16320, [], ""⟩ =
      StepResult.done InterpreterResult.Undefined
        ⟨[⟨function, 9, 0⟩], writeCell (writeCell stack 16319 (Value.boolean true)) 16319 v0,
          16320, [], ""⟩ := by
    rw [VM.step_eq _ ⟨function, 7, 0⟩ [] 0 OpCode.PushConstant rfl
      (VM.overflow_get hcode 7 0 rfl) rfl]
    exact VM.dispatch_pushConstant_full _ ⟨function, 8, 0⟩ [] 1 v1 rfl
      (VM.overflow_get hcode 8 1 rfl) h1 (show ¬ (16320 : Nat) < STACK_SIZE by decide)
  rw [VM.run_next step1, VM.run_next step2, VM.run_next step3, VM.run_next step4,
    VM.run_done step5]

/-- `execute` on a new machine with a function of that code: after 16318 iterations
of the loop, the `PushConstant` at offset 7 finds `stackTop_` at the end of the stack. -/
theorem VM.execute_overflow (function : ObjectFunction) (v0 v1 : Value)
    (hcode : function.chunk.code = [23, 13, 0, 9, 1, 0, 0, 0, 1, 1, 15, 0, 13, 1, 25, 22])
    (h0 : function.chunk.getConstant 0 = some v0)
    (h1 : function.chunk.getConstant 1 = some v1)
    (harity : function.arity = 0) (fuel : Nat) :
    ∃ stack, VM.execute (fuel + 114231) VM.new function =
      some (InterpreterResult.Undefined, ⟨[⟨function, 9, 0⟩], stack, 16320, [], ""⟩) := by
  have hstart : VM.execute (fuel + 114231) VM.new function =
      VM.run (fuel + 114231)
        ⟨[⟨function, 0, 0⟩], writeCell [] 0 (Value.function function), 1, [], ""⟩ := by
    have hpush : VM.new.push (Value.function function) =
        some ⟨[], writeCell [] 0 (Value.function function), 1, [], ""⟩ :=
      VM.push_eq VM.new _ (show 0 < STACK_SIZE by decide)
    have hcall : (⟨[], writeCell [] 0 (Value.function function), 1, [], ""⟩ : VM).call
        function 0 =
        Except.ok
          ⟨[⟨function, 0, 0⟩], writeCell [] 0 (Value.function function), 1, [], ""⟩ := by
      unfold VM.call
      simp [CALL_FRAMES, harity]
    unfold VM.execute
    rw [hpush]
    simp only [hcall]
  obtain ⟨stack1, hloop⟩ := VM.overflow_iterations function v0 v1 hcode h0 h1 (fuel + 5)
    16318 (writeCell [] 0 (Value.function function)) 1 (le_refl 1)
    (show 1 + 16318 < STACK_SIZE by decide)
  refine ⟨writeCell (writeCell stack1 16319 (Value.boolean true)) 16319 v0, ?_⟩
  have hfuel : fuel + 114231 = fuel + 5 + 7 * 16318 := by omega
  rw [hstart, hfuel, hloop]
  exact VM.overflow_last function v0 v1 hcode h0 h1 stack1 fuel

end scriptlang

namespace scriptlang

/-- `runCode` with the flags `EXECUTE` when the parser and the compiler report
nothing: the compiled function is executed. -/
theorem runCode_executed (fuel : Nat) (u : Uninitialized) (source : List Char) (vm : VM)
    (parsed : List Statement × Parser) (compiled : ObjectFunction × Compiler)
    (hparse : Parser.parseSoruce fuel (Parser.new source ErrorReporter.new) = some parsed)
    (hperr : parsed.2.reporter.hadError = false)
    (hcompile : Compiler.compile u
      (Compiler.new u FunctionType.Script parsed.2.reporter.reset) parsed.1 = some compiled)
    (hcerr : compiled.2.reporter.hadError = false) :
    runCode fuel u source EXECUTE vm =
      (vm.execute fuel compiled.1).map
        (fun r => ⟨compiled.2.reporter, RunStatus.executed r.1, r.2⟩) := by
  unfold runCode
  rw [hparse]
  simp only [hperr, hcompile, hcerr, if_true, Bool.false_eq_true, if_false]
  cases vm.execute fuel compiled.1 with
  | none => rfl
  | some r => rfl

end scriptlang

namespace scriptlang

/-! ## Expressions append their code -/

theorem Compiler.Appends.unchanged (c : Compiler) : c.Appends c :=
  fun h => ⟨h, [], (List.append_nil _).symm⟩

theorem Compiler.Appends.andThen {c c1 c2 : Compiler} (h1 : c.Appends c1) (h2 : c1.Appends c2) :
    c.Appends c2 := by
  intro hok
  obtain ⟨hok1, ext2, e2⟩ := h2 hok
  obtain ⟨hok0, ext1, e1⟩ := h1 hok1
  exact ⟨hok0, ext1 ++ ext2, by rw [e2, e1, List.append_assoc]⟩

/-- A step that keeps the reporter and appends to the code. -/
theorem Compiler.Appends.of_code {c c1 : Compiler} (hrep : c1.reporter = c.reporter)
    (ext : List Byte) (hcode : c1.currentChunk.code = c.currentChunk.code ++ ext) :
    c.Appends c1 := by
  intro hok
  rw [hrep] at hok
  exact ⟨hok, ext, hcode⟩

/-- A step that ends with a diagnostic. -/
theorem Compiler.Appends.of_diagnostic {c c1 : Compiler} (herr : c1.reporter.hadError = true) :
    c.Appends c1 := by
  intro hok
  rw [herr] at hok
  exact Bool.noConfusion hok

theorem Compiler.appends_location (c : Compiler) (location : SourceRange) :
    c.Appends { c with currentNodeLocation := location } :=
  Compiler.Appends.of_code rfl [] (List.append_nil _).symm

theorem Compiler.appends_emitOp (c : Compiler) (op : OpCode) : c.Appends (c.emitOp op) :=
  Compiler.Appends.of_code rfl [op.toByte] (Compiler.emitOp_code c op)

theorem Compiler.appends_emitError (c : Compiler) (message : String) :
    c.Appends (c.emitError message) :=
  Compiler.Appends.of_diagnostic rfl

theorem Compiler.appends_resolveVariableName (c : Compiler) (name : Token) :
    c.Appends (c.resolveVariableName name).2 := by
  unfold Compiler.resolveVariableName
  simp only []
  split
  · exact Compiler.appends_emitError c _
  · exact Compiler.Appends.unchanged c

theorem Compiler.appends_emitVariableAccess (c : Compiler) (name : Token)
    (global local_ : OpCode) : c.Appends (c.emitVariableAccess name global local_) := by
  refine Compiler.Appends.andThen (Compiler.appends_resolveVariableName c name) ?_
  unfold Compiler.emitVariableAccess
  split
  · refine Compiler.Appends.of_code rfl
      [global.toByte, (c.resolveVariableName name).2.currentChunk.constants.length % 256] ?_
    rw [Compiler.emit_code, Compiler.emitOp_code, Compiler.setChunk_currentChunk,
      Chunk.addConstant_code, Chunk.addConstant_index, List.append_assoc]
    rfl
  · refine Compiler.Appends.of_code rfl
      [local_.toByte, (c.resolveVariableName name).1.toNat % 256] ?_
    rw [Compiler.emit_code, Compiler.emitOp_code, List.append_assoc]
    rfl

theorem Compiler.appends_visitLiteralExpression (c : Compiler) (value : Literal) :
    c.Appends (c.visitLiteralExpression value) := by
  cases value with
  | boolean b => exact Compiler.appends_emitOp c _
  | nil => exact Compiler.appends_emitOp c _
  | number n =>
    exact Compiler.Appends.of_code rfl _ (c.visitLiteralExpression_number n).1
  | string s =>
    refine Compiler.Appends.of_code rfl [0, c.currentChunk.constants.length % 256] ?_
    unfold Compiler.visitLiteralExpression
    rw [Compiler.emit_code, Compiler.setChunk_currentChunk, Chunk.addConstant_code,
      Compiler.emitOp_code, Chunk.addConstant_index, Compiler.emitOp, Compiler.emit_constants,
      List.append_assoc]
    rfl

theorem Compiler.appends_emitBinaryOperator (c : Compiler) (op : Token) :
    c.Appends (c.emitBinaryOperator op) := by
  unfold Compiler.emitBinaryOperator
  split
  · exact Compiler.appends_emitOp c _
  · exact Compiler.appends_emitOp c _
  · exact Compiler.appends_emitOp c _
  · exact Compiler.appends_emitOp c _
  · exact Compiler.appends_emitOp c _
  · exact Compiler.appends_emitOp c _
  · exact Compiler.appends_emitOp c _
  · exact (Compiler.appends_emitOp c _).andThen (Compiler.appends_emitOp _ _)
  · exact (Compiler.appends_emitOp c _).andThen (Compiler.appends_emitOp _ _)
  · exact Compiler.appends_emitOp c _
  · exact (Compiler.appends_emitOp c _).andThen (Compiler.appends_emitOp _ _)
  · exact Compiler.appends_emitError c _

theorem Compiler.appends_emitUnaryOperator (c : Compiler) (op : Token) :
    c.Appends (c.emitUnaryOperator op) := by
  unfold Compiler.emitUnaryOperator
  split
  · exact Compiler.appends_emitOp c _
  · exact Compiler.appends_emitOp c _
  · exact Compiler.Appends.unchanged c
  · exact Compiler.appends_emitError c _

theorem Compiler.appends_emitCall (c : Compiler) (n : Nat) :
    c.Appends ((c.emitOp OpCode.Call).emit (n % 256)) :=
  (Compiler.appends_emitOp c OpCode.Call).andThen
    (Compiler.Appends.of_code rfl [n % 256] (Compiler.emit_code _ _))

/-- Two bytes overwritten behind the prefix `pre` and one byte. -/
theorem set_operand_bytes (pre mid : List Byte) (op x y high low : Byte) :
    ((pre ++ op :: x :: y :: mid).set (pre.length + 1) high).set (pre.length + 1 + 1) low =
      pre ++ op :: high :: low :: mid := by
  induction pre with
  | nil => rfl
  | cons b pre ih =>
    simp only [List.cons_append, List.length_cons, List.set_cons_succ]
    rw [ih]

/-- `patchJump` on the jump behind `pre`, when nothing is reported: the offset it
was given is that of the operand, and the operand becomes the number of bytes behind
the jump. -/
theorem Compiler.patchJump_layout {c c1 : Compiler} {r : Nat} {pre mid : List Byte}
    {op x y : Byte} (h : c.patchJump r = some c1) (hok : c1.reporter.hadError = false)
    (hcode : c.currentChunk.code = pre ++ op :: x :: y :: mid)
    (hr : r = (pre.length + 1) % 65536) :
    c1.currentChunk.code = pre ++ op :: (mid.length / 256) :: (mid.length % 256) :: mid ∧
    mid.length ≤ 65535 ∧ c.reporter.hadError = false := by
  have hlen : c.currentChunk.code.length = pre.length + 3 + mid.length := by
    rw [hcode]
    simp only [List.length_append, List.length_cons]
    omega
  unfold Compiler.patchJump at h
  have hsize : c.currentChunk.size = c.currentChunk.code.length := rfl
  rw [hsize] at h
  have hshort : SHORT_MAX = 65535 := rfl
  rw [hshort] at h
  by_cases hbig : c.currentChunk.code.length - r - 2 > 65535
  · rw [if_pos hbig] at h
    rw [← Option.some.inj h] at hok
    exact Bool.noConfusion hok
  · rw [if_neg hbig] at h
    have hri : r = pre.length + 1 := by omega
    have hjump : c.currentChunk.code.length - r - 2 = mid.length := by omega
    rw [hjump, hri] at h
    cases hs1 : c.currentChunk.set (pre.length + 1) (mid.length / 256 % 256) with
    | none =>
      rw [hs1] at h
      exact Option.noConfusion h
    | some chunk1 =>
      rw [hs1] at h
      simp only [] at h
      cases hs2 : chunk1.set (pre.length + 1 + 1) (mid.length % 256) with
      | none =>
        rw [hs2] at h
        exact Option.noConfusion h
      | some chunk2 =>
        rw [hs2] at h
        simp only [] at h
        have hc1 : c1 = c.setChunk chunk2 := (Option.some.inj h).symm
        have hmid : mid.length ≤ 65535 := by omega
        have hhigh : mid.length / 256 % 256 = mid.length / 256 := by omega
        refine ⟨?_, hmid, ?_⟩
        · rw [hc1, Compiler.setChunk_currentChunk, Chunk.set_code hs2, Chunk.set_code hs1,
            hcode, hhigh]
          exact set_operand_bytes pre mid op x y _ _
        · rw [hc1] at hok
          exact hok

end scriptlang

namespace scriptlang

/-! ## Layout of the code of `and` and `or` -/

/-- `visitBinaryExpression` for `and`, from the compiler `c1` that has compiled the
left operand: the code is that of `c1`, `JumpIfFalse` over `Pop` and the code of the
right operand, `Pop`, and the code of the right operand. -/
theorem Compiler.and_layout {c1 c2 c3 : Compiler}
    (hright : ((c1.emitJump OpCode.JumpIfFalse).2.emitOp OpCode.Pop).Appends c2)
    (h : c2.patchJump (c1.emitJump OpCode.JumpIfFalse).1 = some c3)
    (hok : c3.reporter.hadError = false) :
    c1.reporter.hadError = false ∧
    ∃ codeB : List Byte,
      c2.currentChunk.code = c1.currentChunk.code ++ [13, 255, 255, 1] ++ codeB ∧
      c3.currentChunk.code = c1.currentChunk.code ++
        [13, (codeB.length + 1) / 256, (codeB.length + 1) % 256, 1] ++ codeB ∧
      codeB.length + 1 ≤ 65535 := by
  have hok2 : c2.reporter.hadError = false := (Compiler.patchJump_rest h).2.2 hok
  obtain ⟨hokP, codeB, e2⟩ := hright hok2
  have hglue : ((c1.emitJump OpCode.JumpIfFalse).2.emitOp OpCode.Pop).currentChunk.code =
      c1.currentChunk.code ++ [13, 255, 255, 1] := by
    rw [Compiler.emitOp_code, Compiler.emitJump_code, List.append_assoc]
    rfl
  have hcode2 : c2.currentChunk.code =
      c1.currentChunk.code ++ 13 :: 255 :: 255 :: (1 :: codeB) := by
    rw [e2, hglue, List.append_assoc]
    rfl
  obtain ⟨e3, hmid, _⟩ := Compiler.patchJump_layout h hok hcode2
    (Compiler.emitJump_offset c1 OpCode.JumpIfFalse)
  refine ⟨hokP, codeB, ?_, ?_, hmid⟩
  · rw [hcode2, List.append_assoc]
    rfl
  · rw [e3, List.append_assoc]
    rfl

/-- `visitBinaryExpression` for `or`, from the compiler `c1` that has compiled the
left operand: the code is that of `c1`, `JumpIfFalse` over the `Jump`, `Jump` over
`Pop` and the code of the right operand, `Pop`, and the code of the right operand. -/
theorem Compiler.or_layout {c1 c2 c3 c4 : Compiler}
    (h2 : ((c1.emitJump OpCode.JumpIfFalse).2.emitJump OpCode.Jump).2.patchJump
      (c1.emitJump OpCode.JumpIfFalse).1 = some c2)
    (hright : (c2.emitOp OpCode.Pop).Appends c3)
    (h : c3.patchJump ((c1.emitJump OpCode.JumpIfFalse).2.emitJump OpCode.Jump).1 = some c4)
    (hok : c4.reporter.hadError = false) :
    c1.reporter.hadError = false ∧
    ∃ codeB : List Byte,
      c3.currentChunk.code = c1.currentChunk.code ++ [13, 0, 3, 14, 255, 255, 1] ++ codeB ∧
      c4.currentChunk.code = c1.currentChunk.code ++
        [13, 0, 3, 14, (codeB.length + 1) / 256, (codeB.length + 1) % 256, 1] ++ codeB ∧
      codeB.length + 1 ≤ 65535 := by
  have hok3 : c3.reporter.hadError = false := (Compiler.patchJump_rest h).2.2 hok
  obtain ⟨hokP, codeB, e3⟩ := hright hok3
  have hok2 : c2.reporter.hadError = false := hokP
  have hjumps : ((c1.emitJump OpCode.JumpIfFalse).2.emitJump OpCode.Jump).2.currentChunk.code =
      c1.currentChunk.code ++ 13 :: 255 :: 255 :: [14, 255, 255] := by
    rw [Compiler.emitJump_code, Compiler.emitJump_code, List.append_assoc]
    rfl
  obtain ⟨e2, _, hok1⟩ := Compiler.patchJump_layout h2 hok2 hjumps
    (Compiler.emitJump_offset c1 OpCode.JumpIfFalse)
  have hcode3 : c3.currentChunk.code =
      (c1.currentChunk.code ++ [13, 0, 3]) ++ 14 :: 255 :: 255 :: (1 :: codeB) := by
    rw [e3, Compiler.emitOp_code, e2]
    simp only [List.append_assoc, List.cons_append, List.nil_append, List.length_cons,
      List.length_nil]
    rfl
  have hoffset : ((c1.emitJump OpCode.JumpIfFalse).2.emitJump OpCode.Jump).1 =
      ((c1.currentChunk.code ++ [13, 0, 3]).length + 1) % 65536 := by
    rw [Compiler.emitJump_offset, Compiler.emitJump_code]
    simp only [List.length_append, List.length_cons, List.length_nil]
  obtain ⟨e4, hmid, _⟩ := Compiler.patchJump_layout h hok hcode3 hoffset
  refine ⟨hok1, codeB, ?_, ?_, hmid⟩
  · rw [hcode3]
    simp only [List.append_assoc, List.cons_append, List.nil_append]
  · rw [e4]
    simp only [List.append_assoc, List.cons_append, List.nil_append, List.length_cons]

mutual

/-- Compiling an expression appends to the code. -/
theorem Compiler.compileExpression_appends (u : Uninitialized) :
    ∀ (e : Expression) (c c1 : Compiler), Compiler.compileExpression u e c = some c1 →
      c.Appends c1
  | Expression.null, c, c1, h => Option.noConfusion h
  | Expression.Assignment location name value, c, c1, h => by
    rw [Compiler.compileExpression_assignment] at h
    obtain ⟨c2, h2, h⟩ := of_match_some h
    have ih := Compiler.compileExpression_appends u value _ _ h2
    rw [← Option.some.inj h]
    exact (Compiler.appends_location c location).andThen
      (ih.andThen (Compiler.appends_emitVariableAccess _ _ _ _))
  | Expression.Binary location op left right, c, c1, h => by
    rw [Compiler.compileExpression_binary] at h
    split at h
    · obtain ⟨c2, h2, h⟩ := of_match_some h
      obtain ⟨c3, h3, h⟩ := of_match_some h
      have ih1 := Compiler.compileExpression_appends u left _ _ h2
      have ih2 := Compiler.compileExpression_appends u right _ _ h3
      refine (Compiler.appends_location c location).andThen ?_
      intro hok
      obtain ⟨hok2, codeB, _, e3, _⟩ := Compiler.and_layout ih2 h hok
      obtain ⟨hok0, ext, e1⟩ := ih1 hok2
      exact ⟨hok0, ext ++ ([13, (codeB.length + 1) / 256, (codeB.length + 1) % 256, 1] ++ codeB),
        by rw [e3, e1]; simp only [List.append_assoc]⟩
    · split at h
      · obtain ⟨c2, h2, h⟩ := of_match_some h
        obtain ⟨c3, h3, h⟩ := of_match_some h
        obtain ⟨c4, h4, h⟩ := of_match_some h
        have ih1 := Compiler.compileExpression_appends u left _ _ h2
        have ih2 := Compiler.compileExpression_appends u right _ _ h4
        refine (Compiler.appends_location c location).andThen ?_
        intro hok
        obtain ⟨hok2, codeB, _, e4, _⟩ := Compiler.or_layout h3 ih2 h hok
        obtain ⟨hok0, ext, e1⟩ := ih1 hok2
        exact ⟨hok0, ext ++ ([13, 0, 3, 14, (codeB.length + 1) / 256,
          (codeB.length + 1) % 256, 1] ++ codeB),
          by rw [e4, e1]; simp only [List.append_assoc]⟩
      · obtain ⟨c2, h2, h⟩ := of_match_some h
        obtain ⟨c3, h3, h⟩ := of_match_some h
        have ih1 := Compiler.compileExpression_appends u left _ _ h2
        have ih2 := Compiler.compileExpression_appends u right _ _ h3
        rw [← Option.some.inj h]
        exact (Compiler.appends_location c location).andThen (ih1.andThen
          (ih2.andThen (Compiler.appends_emitBinaryOperator _ _)))
  | Expression.Unary location op right, c, c1, h => by
    rw [Compiler.compileExpression_unary] at h
    obtain ⟨c2, h2, h⟩ := of_match_some h
    have ih := Compiler.compileExpression_appends u right _ _ h2
    rw [← Option.some.inj h]
    exact (Compiler.appends_location c location).andThen
      (ih.andThen (Compiler.appends_emitUnaryOperator _ _))
  | Expression.Call location callee arguments, c, c1, h => by
    rw [Compiler.compileExpression_call] at h
    obtain ⟨c2, h2, h⟩ := of_match_some h
    obtain ⟨c3, h3, h⟩ := of_match_some h
    have ih1 := Compiler.compileExpression_appends u callee _ _ h2
    have ih2 := Compiler.compileExpressions_appends u arguments _ _ h3
    rw [← Option.some.inj h]
    exact (Compiler.appends_location c location).andThen (ih1.andThen
      (ih2.andThen (Compiler.appends_emitCall _ _)))
  | Expression.Grouping location expression, c, c1, h => by
    rw [Compiler.compileExpression_grouping] at h
    have ih := Compiler.compileExpression_appends u expression _ _ h
    exact (Compiler.appends_location c location).andThen ih
  | Expression.Variable location name, c, c1, h => by
    rw [Compiler.compileExpression_variable] at h
    rw [← Option.some.inj h]
    exact (Compiler.appends_location c location).andThen
      (Compiler.appends_emitVariableAccess _ _ _ _)
  | Expression.Literal location value, c, c1, h => by
    rw [Compiler.compileExpression_literal] at h
    rw [← Option.some.inj h]
    exact (Compiler.appends_location c location).andThen
      (Compiler.appends_visitLiteralExpression _ _)

/-- Compiling the arguments of a call appends to the code. -/
theorem Compiler.compileExpressions_appends (u : Uninitialized) :
    ∀ (es : List Expression) (c c1 : Compiler), Compiler.compileExpressions u es c = some c1 →
      c.Appends c1
  | [], c, c1, h => by
    have h1 : some c = some c1 := h
    rw [← Option.some.inj h1]
    exact Compiler.Appends.unchanged c
  | e :: es, c, c1, h => by
    rw [Compiler.compileExpressions_cons] at h
    obtain ⟨c2, h2, h⟩ := of_match_some h
    exact (Compiler.compileExpression_appends u e _ _ h2).andThen
      (Compiler.compileExpressions_appends u es _ _ h)

end

end scriptlang

namespace scriptlang

/-! ## Steps of the machine over the code of `and` and `or` -/

/-- The iteration of `run` at a `JumpIfFalse` whose target is inside 32 bits. -/
theorem VM.step_jumpIfFalse (vm : VM) (function : ObjectFunction) (ip slots : Nat)
    (callers : List CallFrame) (high low jump : Nat)
    (hframe : vm.frames = ⟨function, ip, slots⟩ :: callers)
    (hop : function.chunk.get ip = some 13)
    (hhigh : function.chunk.get (ip + 1) = some high)
    (hlow : function.chunk.get (ip + 1 + 1) = some low)
    (hjump : (high * 256 + low) % 65536 = jump) (hsize : ip + 3 + jump < 4294967296)
    (h1 : 1 ≤ vm.stackTop) (h2 : vm.stackTop ≤ STACK_SIZE) :
    vm.step = StepResult.next
      (if (vm.cell (vm.stackTop - 1)).isFalsey then
        { vm with frames := ⟨function, ip + 3 + jump, slots⟩ :: callers }
      else { vm with frames := ⟨function, ip + 3, slots⟩ :: callers }) := by
  have htarget : (ip + 1 + 1 + 1 + (high * 256 + low) % 65536) % 4294967296 =
      ip + 3 + jump := by
    rw [hjump]
    omega
  have hd := VM.dispatch_jumpIfFalse
    ({ vm with frames := ⟨function, ip + 1, slots⟩ :: callers } : VM)
    ⟨function, ip + 1, slots⟩ callers high low rfl hhigh hlow h1 h2
  rw [VM.step_eq vm ⟨function, ip, slots⟩ callers 13 OpCode.JumpIfFalse hframe hop rfl]
  refine hd.trans ?_
  simp only [htarget]
  rfl

/-- The iteration of `run` at a `Jump` whose target is inside 32 bits. -/
theorem VM.step_jump (vm : VM) (function : ObjectFunction) (ip slots : Nat)
    (callers : List CallFrame) (high low jump : Nat)
    (hframe : vm.frames = ⟨function, ip, slots⟩ :: callers)
    (hop : function.chunk.get ip = some 14)
    (hhigh : function.chunk.get (ip + 1) = some high)
    (hlow : function.chunk.get (ip + 1 + 1) = some low)
    (hjump : (high * 256 + low) % 65536 = jump) (hsize : ip + 3 + jump < 4294967296) :
    vm.step = StepResult.next
      { vm with frames := ⟨function, ip + 3 + jump, slots⟩ :: callers } := by
  have htarget : (ip + 1 + 1 + 1 + (high * 256 + low) % 65536) % 4294967296 =
      ip + 3 + jump := by
    rw [hjump]
    omega
  have hd := VM.dispatch_jump
    ({ vm with frames := ⟨function, ip + 1, slots⟩ :: callers } : VM)
    ⟨function, ip + 1, slots⟩ callers high low rfl hhigh hlow
  rw [VM.step_eq vm ⟨function, ip, slots⟩ callers 14 OpCode.Jump hframe hop rfl]
  refine hd.trans ?_
  simp only [htarget]

/-- The iteration of `run` at a `Pop`. -/
theorem VM.step_pop (vm : VM) (function : ObjectFunction) (ip slots : Nat)
    (callers : List CallFrame) (hframe : vm.frames = ⟨function, ip, slots⟩ :: callers)
    (hop : function.chunk.get ip = some 1)
    (h1 : 1 ≤ vm.stackTop) (h2 : vm.stackTop ≤ STACK_SIZE) :
    vm.step = StepResult.next
      { vm with frames := ⟨function, ip + 1, slots⟩ :: callers,
                stackTop := vm.stackTop - 1 } := by
  rw [VM.step_eq vm ⟨function, ip, slots⟩ callers 1 OpCode.Pop hframe hop rfl]
  exact VM.dispatch_pop _ h1 h2

/-- The bytes of a chunk that holds `glue` at offset `base`. -/
theorem get_of_layout (function : ObjectFunction) {code pre glue post : List Byte}
    (hcode : code = pre ++ glue ++ post)
    (hchunk : ∀ i, pre.length ≤ i → i < code.length →
      function.chunk.code.get? i = code.get? i)
    (k : Nat) (byte : Byte) (hk : glue.get? k = some byte) :
    function.chunk.get (pre.length + k) = some byte := by
  have hlt : k < glue.length := by
    rw [List.get?_eq_some] at hk
    exact hk.1
  unfold Chunk.get
  rw [hchunk (pre.length + k) (Nat.le_add_right _ _)
    (by rw [hcode]; simp only [List.length_append]; omega), hcode, List.append_assoc,
    List.get?_eq_getElem?, List.getElem?_append_right (Nat.le_add_right _ _),
    Nat.add_sub_cancel_left, List.getElem?_append_left hlt, ← List.get?_eq_getElem?]
  exact hk

end scriptlang

namespace scriptlang

theorem Lexer.advance_line (l : Lexer) : l.advance.2.line = l.line := by
  unfold Lexer.advance
  split <;> rfl

theorem Lexer.advanceWhileLoop_line (p : Char → Bool) :
    ∀ (fuel : Nat) (l : Lexer), (Lexer.advanceWhileLoop p fuel l).line = l.line := by
  intro fuel
  induction fuel with
  | zero => intro l; rfl
  | succ n ih =>
    intro l
    unfold Lexer.advanceWhileLoop
    split
    · rw [ih, Lexer.advance_line]
    · rfl

theorem Lexer.advanceWhile_line (p : Char → Bool) (l : Lexer) :
    (l.advanceWhile p).line = l.line :=
  Lexer.advanceWhileLoop_line p _ l

/-- `Lexer::stringLiteral` leaves `line_` as it is, whatever characters it reads. -/
theorem Lexer.stringLiteral_line (l : Lexer) : l.stringLiteral.2.line = l.line := by
  unfold Lexer.stringLiteral
  simp only []
  split
  · exact Lexer.advanceWhile_line _ l
  · rw [Lexer.advance_line]
    exact Lexer.advanceWhile_line _ l

end scriptlang

namespace scriptlang

/-- `markVariableAsDefined` changes the depth of the top local and nothing else: the
names of the locals, their number and the chunk stay as they are. -/
theorem Compiler.markVariableAsDefined_names {c c1 : Compiler}
    (h : c.markVariableAsDefined = some c1) :
    c1.locals.map Local.name = c.locals.map Local.name ∧
    c1.locals.length = c.locals.length ∧ c1.currentChunk = c.currentChunk := by
  unfold Compiler.markVariableAsDefined at h
  cases hlast : c.locals.getLast? with
  | none =>
    rw [hlast] at h
    exact Option.noConfusion h
  | some top =>
    rw [hlast] at h
    simp only [] at h
    rw [← Option.some.inj h]
    have hsplit : c.locals = c.locals.dropLast ++ [top] :=
      (List.dropLast_append_getLast? top (by simpa using hlast)).symm
    refine ⟨?_, ?_, rfl⟩
    · show (c.locals.dropLast ++ [_]).map Local.name = c.locals.map Local.name
      conv_rhs => rw [hsplit]
      simp
    · show (c.locals.dropLast ++ [_]).length = c.locals.length
      conv_rhs => rw [hsplit]
      simp

theorem Compiler.defineVariable_local {c : Compiler} (name : Token) (h : 0 < c.scopeDepth) :
    c.defineVariable name = c.markVariableAsDefined := by
  unfold Compiler.defineVariable
  rw [if_pos h]

end scriptlang

namespace scriptlang

theorem Compiler.addLocal_full {c : Compiler} (name : Token)
    (hlen : ¬ c.locals.length < MAX_LOCALS) : c.addLocal name = none := by
  unfold Compiler.addLocal
  exact if_neg hlen

theorem Compiler.addLocal_room {c : Compiler} (name : Token)
    (hlen : c.locals.length < MAX_LOCALS) :
    c.addLocal name = some { c with locals := c.locals ++ [⟨name, -1⟩] } := by
  unfold Compiler.addLocal
  exact if_pos hlen

/-- With `localsCount_` equal to `MAX_LOCALS` the check of `declareVariable` passes
and `addLocal` writes outside `locals_`. -/
theorem Compiler.declareVariable_full {c : Compiler} (name : Token) (hdepth : 0 < c.scopeDepth)
    (hlen : c.locals.length = MAX_LOCALS) : c.declareVariable name = none := by
  unfold Compiler.declareVariable
  rw [if_neg (by omega), if_neg (by omega), Compiler.addLocal_full (c := c) name (by omega),
    Compiler.addLocal_full (c := c.emitError "Variable already declared.") name
      (by show ¬ c.locals.length < MAX_LOCALS; omega)]
  simp

/-- Below `MAX_LOCALS` locals `declareVariable` returns. -/
theorem Compiler.declareVariable_isSome {c : Compiler} (name : Token)
    (hlen : c.locals.length < MAX_LOCALS) : (c.declareVariable name).isSome = true := by
  unfold Compiler.declareVariable
  split
  · rfl
  · rw [if_neg (by omega), Compiler.addLocal_room (c := c) name hlen,
      Compiler.addLocal_room (c := c.emitError "Variable already declared.") name hlen]
    split <;> rfl

/-- A sequence of declarations returns exactly when the locals it adds fit below
`MAX_LOCALS`. -/
theorem Compiler.declareAll_isSome : ∀ (names : List Token) (c : Compiler),
    0 < c.scopeDepth → c.locals.length ≤ MAX_LOCALS →
    ((Compiler.declareAll names c).isSome = true ↔ c.locals.length + names.length ≤ MAX_LOCALS)
  | [], c, _, hlen => by
    simp [Compiler.declareAll, hlen]
  | name :: names, c, hdepth, hlen => by
    unfold Compiler.declareAll
    cases h1 : c.declareVariable name with
    | none =>
      have hfull : ¬ c.locals.length < MAX_LOCALS := by
        intro hlt
        have := Compiler.declareVariable_isSome name hlt
        rw [h1] at this
        exact absurd this (by simp)
      simp only [Option.isSome_none, List.length_cons]
      constructor
      · intro h
        exact absurd h (by simp)
      · intro h
        omega
    | some c1 =>
      simp only []
      obtain ⟨e1, e2, _, e4⟩ := Compiler.declareVariable_locals hdepth hlen h1
      have hlen1 : c1.locals.length = c.locals.length + 1 := by
        rw [e1, List.length_append]
        rfl
      rw [Compiler.declareAll_isSome names c1 (by omega) (by omega), hlen1, List.length_cons]
      omega

/-- The parameter loop does not return when the parameters do not fit below
`MAX_LOCALS`. -/
theorem Compiler.declareParameters_full (params : List Token) (c : Compiler)
    (hdepth : 0 < c.scopeDepth) (hlen : c.locals.length ≤ MAX_LOCALS)
    (hfull : MAX_LOCALS < c.locals.length + params.length) :
    Compiler.declareParameters params c = none := by
  cases h : Compiler.declareParameters params c with
  | none => rfl
  | some sub =>
    obtain ⟨e1, _, _, e4⟩ := Compiler.declareParameters_locals params c sub hdepth hlen h
    rw [e1, List.length_append, List.length_map] at e4
    omega

/-- A function declaration with `MAX_LOCALS` parameters or more, compiled in `Script`
mode, writes outside `locals_` of the function's compiler. -/
theorem Compiler.compileStatement_parameters_full (u : Uninitialized) (c : Compiler)
    (location : SourceRange) (name : Token) (params : List Token) (body : Statement)
    (htype : c.type = FunctionType.Script) (hparams : MAX_LOCALS ≤ params.length) :
    Compiler.compileStatement u (Statement.FunctionDeclaration location name params body) c =
      none := by
  have hsub := Compiler.declareParameters_full params
    (({ Compiler.new u FunctionType.Function c.reporter with
        compilingFunction := ObjectFunction.mk name.lexeme u.arity Chunk.empty }
      : Compiler).beginScope)
    (show 0 < (0 + 1) % 65536 by decide) (show (1 : Nat) ≤ MAX_LOCALS by decide)
    (show MAX_LOCALS < 1 + params.length by omega)
  rw [Compiler.compileStatement_functionDeclaration, if_neg (by rw [htype]; decide), hsub]

theorem identifiers_length (n : Nat) : (identifiers n).length = n := by
  simp [identifiers]

end scriptlang

namespace scriptlang

/-- At the end of input `Parser::advance` reads nothing. -/
theorem Parser.advance_at_end {p : Parser} (h : p.isAtEnd = true) : p.advance = p := by
  unfold Parser.advance
  rw [if_pos h]

/-- At the end of input, with a previous token whose prefix rule parses an operand
first (`+`, `-`, `not`, `(`), the calls of `parsePrecedence`, `unaryExpression`,
`expression` and `primaryExpression` nest without end: no amount of fuel lets them
return. -/
theorem Parser.prefix_diverges : ∀ (fuel : Nat) (p : Parser), p.isAtEnd = true →
    (p.previous.type = TokenType.Plus ∨ p.previous.type = TokenType.Minus ∨
      p.previous.type = TokenType.NotKeyword ∨ p.previous.type = TokenType.LeftParen) →
    (∀ prec, Parser.parsePrecedence fuel prec p = none) ∧
    Parser.unaryExpression fuel p = none ∧ Parser.expression fuel p = none ∧
    (p.previous.type = TokenType.LeftParen → Parser.primaryExpression fuel p = none) := by
  intro fuel
  induction fuel with
  | zero =>
    intro p _ _
    exact ⟨fun _ => rfl, rfl, rfl, fun _ => rfl⟩
  | succ n ih =>
    intro p hend htype
    obtain ⟨h1, h2, h3, h4⟩ := ih p hend htype
    refine ⟨?_, ?_, ?_, ?_⟩
    · intro prec
      rw [Parser.parsePrecedence, Parser.advance_at_end hend]
      rcases htype with h | h | h | h
      · rw [h]
        show (match Parser.unaryExpression n p with
          | none => none
          | some (left, p1) => Parser.infixLoop n prec left p1) = none
        rw [h2]
      · rw [h]
        show (match Parser.unaryExpression n p with
          | none => none
          | some (left, p1) => Parser.infixLoop n prec left p1) = none
        rw [h2]
      · rw [h]
        show (match Parser.unaryExpression n p with
          | none => none
          | some (left, p1) => Parser.infixLoop n prec left p1) = none
        rw [h2]
      · rw [h]
        show (match Parser.primaryExpression n p with
          | none => none
          | some (left, p1) => Parser.infixLoop n prec left p1) = none
        rw [h4 h]
    · rw [Parser.unaryExpression, h1 Precedence.Unary]
    · rw [Parser.expression, h1 Precedence.None]
    · intro h
      rw [Parser.primaryExpression, if_pos h, h3]

/-- A source whose first expression statement never returns is never parsed. -/
theorem Parser.parseSoruce_diverges {p : Parser} (hend : p.isAtEnd = false)
    (hkind : startsOtherStatement p.peek.type = false)
    (hexpr : ∀ fuel, Parser.expression fuel { p with start := p.peek } = none) :
    ∀ fuel, Parser.parseSoruce fuel p = none := by
  have hkind2 : startsOtherStatement ({ p with start := p.peek } : Parser).peek.type = false :=
    hkind
  have hstmt : ∀ fuel, Parser.expressionStatement fuel { p with start := p.peek } = none := by
    intro fuel
    cases fuel with
    | zero => rfl
    | succ n => rw [Parser.expressionStatement, hexpr n]
  have hdecl : ∀ fuel, Parser.declaration fuel { p with start := p.peek } = none := by
    intro fuel
    match fuel with
    | 0 => rfl
    | 1 =>
      simp only [startsOtherStatement, decide_eq_false_iff_not, not_or] at hkind2
      obtain ⟨e1, e2, _⟩ := hkind2
      rw [Parser.declaration, Parser.match_of_ne e1, Parser.match_of_ne e2]
      rfl
    | k + 2 => rw [Parser.declaration_eq_expressionStatement k hkind2, hstmt k]
  intro fuel
  cases fuel with
  | zero => rfl
  | succ n =>
    unfold Parser.parseSoruce
    rw [Parser.parseSoruceLoop, hend]
    simp only [Bool.false_eq_true, if_false]
    rw [hdecl n]

/-- A source that is one prefix operator or one opening parenthesis. -/
theorem Parser.expression_prefix_diverges {p : Parser} (hend : p.advance.isAtEnd = true)
    (htype : p.advance.previous.type = TokenType.Plus ∨
      p.advance.previous.type = TokenType.Minus ∨
      p.advance.previous.type = TokenType.NotKeyword ∨
      p.advance.previous.type = TokenType.LeftParen) :
    ∀ fuel, Parser.expression fuel p = none := by
  intro fuel
  match fuel with
  | 0 => rfl
  | 1 => rfl
  | k + 2 =>
    obtain ⟨_, h2, _, h4⟩ := Parser.prefix_diverges k p.advance hend htype
    rw [Parser.expression, Parser.parsePrecedence]
    rcases htype with h | h | h | h
    · rw [h]
      show (match Parser.unaryExpression k p.advance with
        | none => none
        | some (left, p1) => Parser.infixLoop k Precedence.None left p1) = none
      rw [h2]
    · rw [h]
      show (match Parser.unaryExpression k p.advance with
        | none => none
        | some (left, p1) => Parser.infixLoop k Precedence.None left p1) = none
      rw [h2]
    · rw [h]
      show (match Parser.unaryExpression k p.advance with
        | none => none
        | some (left, p1) => Parser.infixLoop k Precedence.None left p1) = none
      rw [h2]
    · rw [h]
      show (match Parser.primaryExpression k p.advance with
        | none => none
        | some (left, p1) => Parser.infixLoop k Precedence.None left p1) = none
      rw [h4 h]

/-- A source that ends after an operand and a binary `+` or `-`: the right operand
is parsed at the end of input with the operator as previous token. -/
theorem Parser.expression_binary_diverges {p : Parser} (left : Expression)
    (hrule : (getParseRules p.advance.previous.type).prefixRule =
      some ParsePrefix.primaryExpression)
    (hparen : p.advance.previous.type ≠ TokenType.LeftParen)
    (hliteral : p.advance.literalExpression p.advance.previous = some left)
    (hprec : Precedence.None < (getParseRules p.advance.peek.type).prec)
    (hbinary : (getParseRules p.advance.advance.previous.type).infixRule =
      some ParseInfix.binaryExpression)
    (hend : p.advance.advance.isAtEnd = true)
    (htype : p.advance.advance.previous.type = TokenType.Plus ∨
      p.advance.advance.previous.type = TokenType.Minus) :
    ∀ fuel, Parser.expression fuel p = none := by
  have hdiv : ∀ k prec, Parser.parsePrecedence k prec p.advance.advance = none := by
    intro k prec
    refine (Parser.prefix_diverges k p.advance.advance hend ?_).1 prec
    rcases htype with h | h
    · exact Or.inl h
    · exact Or.inr (Or.inl h)
  have hloop : ∀ k, Parser.infixLoop k Precedence.None left p.advance = none := by
    intro k
    match k with
    | 0 => rfl
    | 1 =>
      rw [Parser.infixLoop, if_pos hprec, hbinary]
      rfl
    | k + 2 =>
      rw [Parser.infixLoop, if_pos hprec, hbinary]
      show (match Parser.binaryExpression (k + 1) left p.advance.advance with
        | none => none
        | some (left1, p1) => Parser.infixLoop (k + 1) Precedence.None left1 p1) = none
      rw [Parser.binaryExpression, hdiv]
  intro fuel
  match fuel with
  | 0 => rfl
  | 1 => rfl
  | 2 =>
    rw [Parser.expression, Parser.parsePrecedence, hrule]
    rfl
  | k + 3 =>
    rw [Parser.expression, Parser.parsePrecedence, hrule]
    show (match Parser.primaryExpression (k + 1) p.advance with
      | none => none
      | some (left, p1) => Parser.infixLoop (k + 1) Precedence.None left p1) = none
    rw [Parser.primaryExpression, if_neg hparen, hliteral]
    show Parser.infixLoop (k + 1) Precedence.None left p.advance = none
    exact hloop (k + 1)

end scriptlang

namespace scriptlang

/-- The scan of `declareVariable` over locals that are all at a shallower depth
finds nothing: it stops at the first one. -/
theorem Compiler.alreadyDeclared_below (scopeDepth : Nat) (name : Token) (below : List Local)
    (hbelow : ∀ l ∈ below, l.depth ≠ -1 ∧ l.depth < (scopeDepth : Int)) :
    Compiler.alreadyDeclared scopeDepth name below = false := by
  cases below with
  | nil => rfl
  | cons l rest =>
    unfold Compiler.alreadyDeclared
    rw [if_pos (hbelow l (List.mem_cons_self _ _))]

/-- The scan of `declareVariable`, from the top local down, over the locals of the
current scope followed by locals of shallower scopes: it finds a local exactly when
one of the current scope has the name. -/
theorem Compiler.alreadyDeclared_iff (scopeDepth : Nat) (name : Token) (below : List Local)
    (hbelow : ∀ l ∈ below, l.depth ≠ -1 ∧ l.depth < (scopeDepth : Int)) :
    ∀ (current : List Local),
      (∀ l ∈ current, l.depth = (scopeDepth : Int) ∨ l.depth = -1) →
      (Compiler.alreadyDeclared scopeDepth name (current ++ below) = true ↔
        ∃ l ∈ current, l.name.lexeme = name.lexeme)
  | [], _ => by
    rw [List.nil_append, Compiler.alreadyDeclared_below scopeDepth name below hbelow]
    simp
  | l :: rest, hcurrent => by
    have hl := hcurrent l (List.mem_cons_self _ _)
    have hrest : ∀ x ∈ rest, x.depth = (scopeDepth : Int) ∨ x.depth = -1 :=
      fun x hx => hcurrent x (List.mem_cons_of_mem _ hx)
    have hnot : ¬ (l.depth ≠ -1 ∧ l.depth < (scopeDepth : Int)) := by
      rcases hl with h | h
      · intro hc
        omega
      · intro hc
        exact hc.1 h
    rw [List.cons_append, Compiler.alreadyDeclared, if_neg hnot]
    by_cases hname : name.lexeme = l.name.lexeme
    · rw [if_pos hname]
      simp only [true_iff]
      exact ⟨l, List.mem_cons_self _ _, hname.symm⟩
    · rw [if_neg hname, Compiler.alreadyDeclared_iff scopeDepth name below hbelow rest hrest]
      constructor
      · rintro ⟨x, hx, hxn⟩
        exact ⟨x, List.mem_cons_of_mem _ hx, hxn⟩
      · rintro ⟨x, hx, hxn⟩
        rcases List.mem_cons.mp hx with h | h
        · exact absurd (h ▸ hxn).symm hname
        · exact ⟨x, h, hxn⟩

/-- What `declareVariable` does in a scope with room for a local. -/
theorem Compiler.declareVariable_eq {c : Compiler} (name : Token) (hdepth : 0 < c.scopeDepth)
    (hroom : c.locals.length < MAX_LOCALS) :
    c.declareVariable name =
      some (if Compiler.alreadyDeclared c.scopeDepth name c.locals.reverse then
        { c.emitError "Variable already declared." with locals := c.locals ++ [⟨name, -1⟩] }
      else { c with locals := c.locals ++ [⟨name, -1⟩] }) := by
  unfold Compiler.declareVariable
  rw [if_neg (by omega), if_neg (by omega), Compiler.addLocal_room (c := c) name hroom,
    Compiler.addLocal_room (c := c.emitError "Variable already declared.") name hroom]
  split <;> rfl

theorem ErrorReporter.error_ne (r : ErrorReporter) (location : SourceRange) (message : String) :
    r.error location message ≠ r := by
  intro h
  have hlen := congrArg (fun x => x.errors.length) h
  simp [ErrorReporter.error] at hlen

end scriptlang

namespace scriptlang

/-- With the locals of the current scope on top of those of shallower scopes,
`declareVariable` scans exactly the locals of the current scope. -/
theorem Compiler.alreadyDeclared_locals {c : Compiler} (name : Token) {below current : List Local}
    (hlocals : c.locals = below ++ current)
    (hbelow : ∀ l ∈ below, l.depth ≠ -1 ∧ l.depth < (c.scopeDepth : Int))
    (hcurrent : ∀ l ∈ current, l.depth = (c.scopeDepth : Int) ∨ l.depth = -1) :
    (Compiler.alreadyDeclared c.scopeDepth name c.locals.reverse = true ↔
      ∃ l ∈ current, l.name.lexeme = name.lexeme) ∧
    ((∃ l ∈ c.locals, (l.depth = (c.scopeDepth : Int) ∨ l.depth = -1) ∧
        l.name.lexeme = name.lexeme) ↔
      ∃ l ∈ current, l.name.lexeme = name.lexeme) := by
  constructor
  · rw [hlocals, List.reverse_append,
      Compiler.alreadyDeclared_iff c.scopeDepth name below.reverse
        (fun l hl => hbelow l (List.mem_reverse.mp hl)) current.reverse
        (fun l hl => hcurrent l (List.mem_reverse.mp hl))]
    constructor
    · rintro ⟨l, hl, hn⟩
      exact ⟨l, List.mem_reverse.mp hl, hn⟩
    · rintro ⟨l, hl, hn⟩
      exact ⟨l, List.mem_reverse.mpr hl, hn⟩
  · constructor
    · rintro ⟨l, hl, hd, hn⟩
      rw [hlocals] at hl
      rcases List.mem_append.mp hl with h | h
      · have hb := hbelow l h
        rcases hd with hd | hd
        · omega
        · exact absurd hd hb.1
      · exact ⟨l, h, hn⟩
    · rintro ⟨l, hl, hn⟩
      refine ⟨l, ?_, hcurrent l hl, hn⟩
      rw [hlocals]
      exact List.mem_append_right _ hl

end scriptlang

namespace scriptlang

/-- `emitLoop(start)` when the distance fits 16 bits: the three bytes appended. -/
theorem Compiler.emitLoop_fits {c : Compiler} {loop : Loop} {enclosing : List Loop}
    (start : Nat) (hloop : c.loop = loop :: enclosing) (hstart : start ≤ c.currentChunk.size)
    (hfits : c.currentChunk.size + 3 - start ≤ 65535) :
    ∃ c1, c.emitLoop start = some c1 ∧ c1.reporter = c.reporter ∧
      c1.loop = { loop with end_ := c.currentChunk.size } :: enclosing ∧
      c1.currentChunk.code = c.currentChunk.code ++
        [OpCode.Loop.toByte, (c.currentChunk.size + 3 - start) / 256 % 256,
          (c.currentChunk.size + 3 - start) % 256] := by
  unfold Chunk.size at hstart hfits
  unfold Compiler.emitLoop
  rw [hloop]
  simp only []
  have hsize : (({ c with loop := { loop with end_ := c.currentChunk.size } :: enclosing }
      : Compiler).emitOp OpCode.Loop).currentChunk.size = c.currentChunk.code.length + 1 := by
    unfold Chunk.size
    rw [Compiler.emitOp_code, List.length_append]
    rfl
  rw [hsize]
  have hshort : SHORT_MAX = 65535 := rfl
  rw [hshort]
  have hsmall : ¬ (((c.currentChunk.code.length + 1 : Nat) : Int) - start + 2) >
      ((65535 : Nat) : Int) := by omega
  rw [if_neg hsmall]
  have hhi : ((((c.currentChunk.code.length + 1 : Nat) : Int) - start + 2) / 256 % 256).toNat =
      (c.currentChunk.code.length + 3 - start) / 256 % 256 := by omega
  have hlo : ((((c.currentChunk.code.length + 1 : Nat) : Int) - start + 2) % 256).toNat =
      (c.currentChunk.code.length + 3 - start) % 256 := by omega
  refine ⟨_, rfl, rfl, rfl, ?_⟩
  rw [Compiler.emit_code, Compiler.emit_code, Compiler.emitOp_code, List.append_assoc,
    List.append_assoc, hhi, hlo]
  rfl

/-- `emitLoop(start)` when the distance does not fit 16 bits: `Loop` is appended
without an operand and "Loop body too large." is reported. -/
theorem Compiler.emitLoop_too_large {c : Compiler} {loop : Loop} {enclosing : List Loop}
    (start : Nat) (hloop : c.loop = loop :: enclosing)
    (hlarge : 65535 + start < c.currentChunk.size + 3) :
    ∃ c1, c.emitLoop start = some c1 ∧
      c1.reporter = c.reporter.error c.currentNodeLocation "Loop body too large." ∧
      c1.currentChunk.code = c.currentChunk.code ++ [OpCode.Loop.toByte] := by
  unfold Chunk.size at hlarge
  unfold Compiler.emitLoop
  rw [hloop]
  simp only []
  have hsize : (({ c with loop := { loop with end_ := c.currentChunk.size } :: enclosing }
      : Compiler).emitOp OpCode.Loop).currentChunk.size = c.currentChunk.code.length + 1 := by
    unfold Chunk.size
    rw [Compiler.emitOp_code, List.length_append]
    rfl
  rw [hsize]
  have hshort : SHORT_MAX = 65535 := rfl
  rw [hshort]
  have hbig : (((c.currentChunk.code.length + 1 : Nat) : Int) - start + 2) >
      ((65535 : Nat) : Int) := by omega
  rw [if_pos hbig]
  refine ⟨_, rfl, rfl, ?_⟩
  show (({ c with loop := { loop with end_ := c.currentChunk.size } :: enclosing }
      : Compiler).emitOp OpCode.Loop).currentChunk.code = _
  rw [Compiler.emitOp_code]
  rfl

/-- One iteration of `run` at a `Loop` instruction whose operand is `offset`. -/
theorem VM.step_loop (vm : VM) (function : ObjectFunction) (ip slots : Nat)
    (callers : List CallFrame) (high low offset : Nat)
    (hframe : vm.frames = ⟨function, ip, slots⟩ :: callers)
    (hop : function.chunk.get ip = some 15)
    (hhigh : function.chunk.get (ip + 1) = some high)
    (hlow : function.chunk.get (ip + 1 + 1) = some low)
    (hoffset : (high * 256 + low) % 65536 = offset) (hle : offset ≤ ip + 3)
    (hsize : ip + 3 - offset < 4294967296) :
    vm.step = StepResult.next
      { vm with frames := ⟨function, ip + 3 - offset, slots⟩ :: callers } := by
  have htarget : (ip + 1 + 1 + 1 + 4294967296 - (high * 256 + low) % 65536) % 4294967296 =
      ip + 3 - offset := by
    rw [hoffset]
    omega
  have hd := VM.dispatch_loop_to
    ({ vm with frames := ⟨function, ip + 1, slots⟩ :: callers } : VM)
    function (ip + 1) slots callers high low (ip + 3 - offset) rfl hhigh hlow htarget
  rw [VM.step_eq vm ⟨function, ip, slots⟩ callers 15 OpCode.Loop hframe hop rfl]
  exact hd

end scriptlang

namespace scriptlang

theorem Chunk.set_lines {c c1 : Chunk} {index : Nat} {byte : Byte}
    (h : c.set index byte = some c1) : c1.lines = c.lines := by
  unfold Chunk.set at h
  split at h
  · rw [← Option.some.inj h]
    rfl
  · exact Option.noConfusion h

theorem Chunk.set_of_lt (c : Chunk) {index : Nat} (byte : Byte) (h : index < c.code.length) :
    c.set index byte = some (Chunk.mk c.constants (c.code.set index byte) c.lines) := by
  unfold Chunk.set
  rw [if_pos h]

theorem spanLength_of_ne {byte : Byte} (h : byte ≠ BREAK_PLACEHOLDER) :
    spanLength byte = instructionLength byte := by
  unfold spanLength
  rw [if_neg h]

theorem spanLength_placeholder {byte : Byte} (h : byte = BREAK_PLACEHOLDER) :
    spanLength byte = 3 := by
  unfold spanLength
  rw [if_pos h]

/-- The first step of a scan path. -/
theorem Steps.cases_first {code : List Byte} {i k : Nat} (h : Steps code i k) :
    k = i ∨ Steps code (i + spanLength (code.getD i 0)) k := by
  cases h with
  | here => exact Or.inl rfl
  | next _ _ h1 => exact Or.inr h1

/-- A scan path depends only on the bytes from its start on. -/
theorem Steps.congr_from {code code1 : List Byte} {a j : Nat} (h : Steps code a j)
    (hsame : ∀ k, a ≤ k → code1.getD k 0 = code.getD k 0) : Steps code1 a j := by
  refine Steps.congr_code h ?_
  intro k hk _
  rw [hsame k (Steps.le hk)]

/-- What the scan of `patchLoopBreaks` from offset `i` does, given enough
iterations: the length, the constants and the line table stay; a placeholder at an
offset the scan reaches becomes `Jump` with the two bytes of `(end_ - k) mod 65536`;
a byte outside every such placeholder stays. -/
theorem patchLoopBreaksLoop_spec (end_ : Nat) :
    ∀ (fuel i : Nat) (chunk chunk1 : Chunk), patchLoopBreaksLoop end_ fuel i chunk = some chunk1 →
      end_ - i < fuel →
      chunk1.code.length = chunk.code.length ∧ chunk1.constants = chunk.constants ∧
      chunk1.lines = chunk.lines ∧
      (∀ k, Steps chunk.code i k → k < end_ → chunk.code.getD k 0 = BREAK_PLACEHOLDER →
        k + 2 < chunk.code.length ∧
        chunk1.code.getD k 0 = OpCode.Jump.toByte ∧
        chunk1.code.getD (k + 1) 0 = (end_ - k) % 65536 / 256 % 256 ∧
        chunk1.code.getD (k + 2) 0 = (end_ - k) % 65536 % 256) ∧
      (∀ j, (∀ k, Steps chunk.code i k → k < end_ →
          chunk.code.getD k 0 = BREAK_PLACEHOLDER → j < k ∨ k + 3 ≤ j) →
        chunk1.code.getD j 0 = chunk.code.getD j 0) := by
  intro fuel
  induction fuel with
  | zero =>
    intro i chunk chunk1 _ hfuel
    omega
  | succ fuel ih =>
    intro i chunk chunk1 h hfuel
    unfold patchLoopBreaksLoop at h
    by_cases hi : i < end_
    · rw [if_pos hi] at h
      cases hb : chunk.get i with
      | none =>
        rw [hb] at h
        exact Option.noConfusion h
      | some byte =>
        rw [hb] at h
        simp only [] at h
        have hbyte : chunk.code.getD i 0 = byte := Chunk.get_getD hb
        by_cases hp : byte = BREAK_PLACEHOLDER
        · rw [if_pos hp] at h
          cases h1 : chunk.set i OpCode.Jump.toByte with
          | none =>
            rw [h1] at h
            exact Option.noConfusion h
          | some c1 =>
            rw [h1] at h
            simp only [] at h
            cases h2 : c1.set (i + 1) ((end_ - i) % 65536 / 256 % 256) with
            | none =>
              rw [h2] at h
              exact Option.noConfusion h
            | some c2 =>
              rw [h2] at h
              simp only [] at h
              cases h3 : c2.set (i + 2) ((end_ - i) % 65536 % 256) with
              | none =>
                rw [h3] at h
                exact Option.noConfusion h
              | some c3 =>
                rw [h3] at h
                simp only [] at h
                have hcode3 : c3.code = ((chunk.code.set i OpCode.Jump.toByte).set (i + 1)
                    ((end_ - i) % 65536 / 256 % 256)).set (i + 2) ((end_ - i) % 65536 % 256) := by
                  rw [Chunk.set_code h3, Chunk.set_code h2, Chunk.set_code h1]
                have hlt : i + 2 < chunk.code.length := by
                  have := Chunk.set_lt h3
                  rw [Chunk.set_code h2, Chunk.set_code h1] at this
                  simpa using this
                have hlen3 : c3.code.length = chunk.code.length := by
                  rw [hcode3]
                  simp
                have hout : ∀ k, k < i ∨ i + 3 ≤ k → c3.code.getD k 0 = chunk.code.getD k 0 := by
                  intro k hk
                  rw [hcode3, getD_set_ne _ (by omega), getD_set_ne _ (by omega),
                    getD_set_ne _ (by omega)]
                have h0 : c3.code.getD i 0 = OpCode.Jump.toByte := by
                  rw [hcode3, getD_set_ne _ (by omega), getD_set_ne _ (by omega),
                    getD_set_self _ (by omega)]
                have h1b : c3.code.getD (i + 1) 0 = (end_ - i) % 65536 / 256 % 256 := by
                  rw [hcode3, getD_set_ne _ (by omega), getD_set_self _ (by simp; omega)]
                have h2b : c3.code.getD (i + 2) 0 = (end_ - i) % 65536 % 256 := by
                  rw [hcode3, getD_set_self _ (by simp; omega)]
                obtain ⟨r1, r2, r3, r4, r5⟩ := ih (i + 3) c3 chunk1 h (by omega)
                have hspan : spanLength (chunk.code.getD i 0) = 3 := by
                  rw [hbyte]
                  exact spanLength_placeholder hp
                have hto3 : ∀ k, Steps chunk.code (i + 3) k → Steps c3.code (i + 3) k :=
                  fun k hk => Steps.congr_from hk (fun x hx => hout x (Or.inr hx))
                have hfrom3 : ∀ k, Steps c3.code (i + 3) k → Steps chunk.code i k := by
                  intro k hk
                  refine Steps.next _ _ ?_
                  rw [hspan]
                  exact Steps.congr_from hk (fun x hx => (hout x (Or.inr hx)).symm)
                have hkeep : ∀ j, j < i + 3 → chunk1.code.getD j 0 = c3.code.getD j 0 := by
                  intro j hj
                  refine r5 j ?_
                  intro k hk _ _
                  exact Or.inl (lt_of_lt_of_le hj (Steps.le hk))
                refine ⟨by rw [r1, hlen3], ?_, ?_, ?_, ?_⟩
                · rw [r2, Chunk.set_constants h3, Chunk.set_constants h2, Chunk.set_constants h1]
                · rw [r3, Chunk.set_lines h3, Chunk.set_lines h2, Chunk.set_lines h1]
                · intro k hk hkend hkb
                  rcases Steps.cases_first hk with hki | hk3
                  · rw [hki]
                    exact ⟨hlt, by rw [hkeep i (by omega), h0],
                      by rw [hkeep (i + 1) (by omega), h1b],
                      by rw [hkeep (i + 2) (by omega), h2b]⟩
                  · rw [hspan] at hk3
                    have hge := Steps.le hk3
                    obtain ⟨q1, q2, q3, q4⟩ := r4 k (hto3 k hk3) hkend
                      (by rw [hout k (Or.inr hge)]; exact hkb)
                    exact ⟨by rw [← hlen3]; exact q1, q2, q3, q4⟩
                · intro j hj
                  have hji := hj i (Steps.here i) hi (by rw [hbyte]; exact hp)
                  rw [r5 j ?_, hout j hji]
                  intro k hk hkend hkb
                  have hge := Steps.le hk
                  exact hj k (hfrom3 k hk) hkend (by rw [← hout k (Or.inr hge)]; exact hkb)
        · rw [if_neg hp] at h
          have hspan : spanLength (chunk.code.getD i 0) = instructionLength byte := by
            rw [hbyte]
            exact spanLength_of_ne hp
          have hpos := instructionLength_pos byte
          obtain ⟨r1, r2, r3, r4, r5⟩ := ih (i + instructionLength byte) chunk chunk1 h
            (by omega)
          refine ⟨r1, r2, r3, ?_, ?_⟩
          · intro k hk hkend hkb
            rcases Steps.cases_first hk with hki | hk3
            · rw [hki, hbyte] at hkb
              exact absurd hkb hp
            · rw [hspan] at hk3
              exact r4 k hk3 hkend hkb
          · intro j hj
            refine r5 j ?_
            intro k hk hkend hkb
            refine hj k (Steps.next _ _ ?_) hkend hkb
            rw [hspan]
            exact hk
    · rw [if_neg hi] at h
      rw [← Option.some.inj h]
      refine ⟨rfl, rfl, rfl, ?_, fun _ _ => rfl⟩
      intro k hk hkend _
      have := Steps.le hk
      omega

/-- The scan returns when every offset it reaches below `end_` lies in the chunk,
a placeholder with its two operand bytes. -/
theorem patchLoopBreaksLoop_isSome (end_ : Nat) :
    ∀ (fuel i : Nat) (chunk : Chunk),
      (∀ k, Steps chunk.code i k → k < end_ →
        k < chunk.code.length ∧
        (chunk.code.getD k 0 = BREAK_PLACEHOLDER → k + 2 < chunk.code.length)) →
      ∃ chunk1, patchLoopBreaksLoop end_ fuel i chunk = some chunk1 := by
  intro fuel
  induction fuel with
  | zero =>
    intro i chunk _
    exact ⟨chunk, rfl⟩
  | succ fuel ih =>
    intro i chunk hin
    unfold patchLoopBreaksLoop
    by_cases hi : i < end_
    · rw [if_pos hi]
      obtain ⟨hlt, hph⟩ := hin i (Steps.here i) hi
      have hb : chunk.get i = some (chunk.code.getD i 0) := by
        unfold Chunk.get
        rw [List.get?_eq_getElem?, List.getD_eq_getElem?_getD, List.getElem?_eq_getElem hlt]
        rfl
      rw [hb]
      simp only []
      by_cases hp : chunk.code.getD i 0 = BREAK_PLACEHOLDER
      · rw [if_pos hp]
        have hlt2 := hph hp
        have e1 : chunk.set i OpCode.Jump.toByte =
            some (Chunk.mk chunk.constants (chunk.code.set i OpCode.Jump.toByte) chunk.lines) :=
          Chunk.set_of_lt chunk _ (by omega)
        have e2 : (Chunk.mk chunk.constants (chunk.code.set i OpCode.Jump.toByte)
              chunk.lines).set (i + 1) ((end_ - i) % 65536 / 256 % 256) =
            some (Chunk.mk chunk.constants ((chunk.code.set i OpCode.Jump.toByte).set (i + 1)
              ((end_ - i) % 65536 / 256 % 256)) chunk.lines) :=
          Chunk.set_of_lt _ _ (by
            show i + 1 < (chunk.code.set i OpCode.Jump.toByte).length
            rw [List.length_set]
            omega)
        have e3 : (Chunk.mk chunk.constants ((chunk.code.set i OpCode.Jump.toByte).set (i + 1)
              ((end_ - i) % 65536 / 256 % 256)) chunk.lines).set (i + 2)
              ((end_ - i) % 65536 % 256) =
            some (Chunk.mk chunk.constants (((chunk.code.set i OpCode.Jump.toByte).set (i + 1)
              ((end_ - i) % 65536 / 256 % 256)).set (i + 2) ((end_ - i) % 65536 % 256))
              chunk.lines) :=
          Chunk.set_of_lt _ _ (by
            show i + 2 < ((chunk.code.set i OpCode.Jump.toByte).set (i + 1)
              ((end_ - i) % 65536 / 256 % 256)).length
            rw [List.length_set, List.length_set]
            omega)
        rw [e1]
        simp only []
        rw [e2]
        simp only []
        rw [e3]
        simp only []
        refine ih (i + 3) _ ?_
        intro k hk hkend
        have hge := Steps.le hk
        have hsame : ∀ x, i + 3 ≤ x →
            (((chunk.code.set i OpCode.Jump.toByte).set (i + 1)
              ((end_ - i) % 65536 / 256 % 256)).set (i + 2)
              ((end_ - i) % 65536 % 256)).getD x 0 = chunk.code.getD x 0 := by
          intro x hx
          rw [getD_set_ne _ (by omega), getD_set_ne _ (by omega), getD_set_ne _ (by omega)]
        have hk0 : Steps chunk.code i k := by
          refine Steps.next _ _ ?_
          rw [spanLength_placeholder hp]
          exact Steps.congr_from hk (fun x hx => (hsame x hx).symm)
        obtain ⟨a1, a2⟩ := hin k hk0 hkend
        have hlen : (((chunk.code.set i OpCode.Jump.toByte).set (i + 1)
              ((end_ - i) % 65536 / 256 % 256)).set (i + 2)
              ((end_ - i) % 65536 % 256)).length = chunk.code.length := by
          rw [List.length_set, List.length_set, List.length_set]
        refine ⟨?_, ?_⟩
        · show k < (((chunk.code.set i OpCode.Jump.toByte).set (i + 1)
              ((end_ - i) % 65536 / 256 % 256)).set (i + 2)
              ((end_ - i) % 65536 % 256)).length
          rw [hlen]
          exact a1
        · intro hkb
          have hkb0 : chunk.code.getD k 0 = BREAK_PLACEHOLDER := by
            rw [← hsame k hge]
            exact hkb
          show k + 2 < (((chunk.code.set i OpCode.Jump.toByte).set (i + 1)
              ((end_ - i) % 65536 / 256 % 256)).set (i + 2)
              ((end_ - i) % 65536 % 256)).length
          rw [hlen]
          exact a2 hkb0
      · rw [if_neg hp]
        refine ih _ chunk ?_
        intro k hk hkend
        refine hin k (Steps.next _ _ ?_) hkend
        rw [spanLength_of_ne hp]
        exact hk
    · rw [if_neg hi]
      exact ⟨chunk, rfl⟩

end scriptlang

namespace scriptlang

/-- `patchLoopBreaks` inside a loop: the scan of the range of the innermost loop. -/
theorem Compiler.patchLoopBreaks_eq {c : Compiler} (loop : Loop) (enclosing : List Loop)
    (hloop : c.loop = loop :: enclosing) :
    c.patchLoopBreaks =
      (patchLoopBreaksLoop loop.end_ (loop.end_ - loop.start + 1) loop.start
        c.currentChunk).map c.setChunk := by
  unfold Compiler.patchLoopBreaks
  rw [hloop]
  simp only []
  cases patchLoopBreaksLoop loop.end_ (loop.end_ - loop.start + 1) loop.start c.currentChunk with
  | none => rfl
  | some chunk => rfl

theorem get?_of_getD {l1 l2 : List Byte} {j : Nat} (hlen : l1.length = l2.length)
    (h : l1.getD j 0 = l2.getD j 0) : l1.get? j = l2.get? j := by
  rw [List.get?_eq_getElem?, List.get?_eq_getElem?]
  by_cases hj : j < l1.length
  · have hj2 : j < l2.length := by omega
    rw [List.getD_eq_getElem?_getD, List.getD_eq_getElem?_getD, List.getElem?_eq_getElem hj,
      List.getElem?_eq_getElem hj2] at h
    rw [List.getElem?_eq_getElem hj, List.getElem?_eq_getElem hj2]
    exact congrArg some h
  · rw [List.getElem?_eq_none (by omega), List.getElem?_eq_none (by omega)]

/-- An element read with a default is the default or an element of the list. -/
theorem getD_default_or_mem (l : List Byte) (j : Nat) : l.getD j 0 = 0 ∨ l.getD j 0 ∈ l := by
  rw [List.getD_eq_getElem?_getD]
  cases h : l[j]? with
  | none => exact Or.inl rfl
  | some b => exact Or.inr (List.getElem?_mem h)

/-- What `patchLoopBreaks` does to the chunk. -/
theorem Compiler.patchLoopBreaks_spec {c c1 : Compiler} (loop : Loop) (enclosing : List Loop)
    (hloop : c.loop = loop :: enclosing) (h : c.patchLoopBreaks = some c1) :
    c1 = c.setChunk c1.currentChunk ∧
    c1.currentChunk.code.length = c.currentChunk.code.length ∧
    c1.currentChunk.constants = c.currentChunk.constants ∧
    c1.currentChunk.lines = c.currentChunk.lines ∧
    (∀ i, Steps c.currentChunk.code loop.start i → i < loop.end_ →
      c.currentChunk.code.getD i 0 = BREAK_PLACEHOLDER →
      i + 2 < c.currentChunk.code.length ∧
      c1.currentChunk.code.getD i 0 = OpCode.Jump.toByte ∧
      operandAt c1.currentChunk.code i = (loop.end_ - i) % 65536) ∧
    (∀ j, (∀ i, Steps c.currentChunk.code loop.start i → i < loop.end_ →
        c.currentChunk.code.getD i 0 = BREAK_PLACEHOLDER → j < i ∨ i + 3 ≤ j) →
      c1.currentChunk.code.get? j = c.currentChunk.code.get? j) := by
  rw [Compiler.patchLoopBreaks_eq loop enclosing hloop] at h
  cases hp : patchLoopBreaksLoop loop.end_ (loop.end_ - loop.start + 1) loop.start
      c.currentChunk with
  | none =>
    rw [hp] at h
    exact Option.noConfusion h
  | some chunk =>
    rw [hp] at h
    have hc1 : c1 = c.setChunk chunk := (Option.some.inj h).symm
    have hchunk : c1.currentChunk = chunk := by
      rw [hc1]
      rfl
    obtain ⟨r1, r2, r3, r4, r5⟩ := patchLoopBreaksLoop_spec loop.end_ _ loop.start
      c.currentChunk chunk hp (by omega)
    rw [hchunk]
    refine ⟨hc1, r1, r2, r3, ?_, ?_⟩
    · intro i hi hend hb
      obtain ⟨q1, q2, q3, q4⟩ := r4 i hi hend hb
      refine ⟨q1, q2, ?_⟩
      unfold operandAt
      rw [q3, q4]
      exact operand_bytes _ (Nat.mod_lt _ (by decide))
    · intro j hj
      exact get?_of_getD r1 (r5 j hj)

end scriptlang

namespace scriptlang

theorem getD_writeCell_ne (stack : List Value) {index i : Nat} (v : Value) (h : i ≠ index) :
    (writeCell stack index v).getD i Value.nil = stack.getD i Value.nil := by
  unfold writeCell
  split
  · rw [List.getD_eq_getElem?_getD, List.getD_eq_getElem?_getD,
      List.getElem?_set_ne (Ne.symm h)]
  · rename_i hlen
    rw [List.getD_eq_getElem?_getD, List.getD_eq_getElem?_getD]
    by_cases hi : i < stack.length
    · rw [List.append_assoc, List.getElem?_append_left hi]
    · rw [List.getElem?_eq_none (Nat.le_of_not_lt hi)]
      by_cases hi2 : i < index
      · rw [List.getElem?_append_left (by
          rw [List.length_append, List.length_replicate]
          omega), List.getElem?_append_right (Nat.le_of_not_lt hi),
          List.getElem?_replicate]
        rw [if_pos (by omega)]
        rfl
      · rw [List.getElem?_eq_none (by
          rw [List.length_append, List.length_append, List.length_replicate]
          simp only [List.length_singleton]
          omega)]

theorem VM.Same.of_frames {vm : VM} {frame : CallFrame} {callers : List CallFrame}
    (h : vm.frames = frame :: callers) : VM.Same frame callers vm vm :=
  ⟨⟨frame.ip, h⟩, rfl⟩

theorem VM.Same.readByte {vm vm1 vm2 : VM} {frame : CallFrame} {callers : List CallFrame}
    {byte : Byte} (h : VM.Same frame callers vm vm1) (hr : vm1.readByte = some (byte, vm2)) :
    VM.Same frame callers vm vm2 := by
  obtain ⟨⟨ip, hf⟩, hs⟩ := h
  obtain ⟨fr, cs, e1, _, e3⟩ := VM.readByte_spec hr
  rw [hf] at e1
  obtain ⟨e4, e5⟩ := List.cons.inj e1
  rw [e3, ← e4, ← e5]
  exact ⟨⟨ip + 1, rfl⟩, hs⟩

theorem VM.Same.readShort {vm vm1 vm2 : VM} {frame : CallFrame} {callers : List CallFrame}
    {n : Nat} (h : VM.Same frame callers vm vm1) (hr : vm1.readShort = some (n, vm2)) :
    VM.Same frame callers vm vm2 := by
  unfold VM.readShort at hr
  split at hr
  · exact Option.noConfusion hr
  · rename_i high vm3 h3
    split at hr
    · exact Option.noConfusion hr
    · rename_i low vm4 h4
      simp only [Option.some.injEq, Prod.mk.injEq] at hr
      rw [← hr.2]
      exact (h.readByte h3).readByte h4

theorem VM.Same.readConstant {vm vm1 vm2 : VM} {frame : CallFrame} {callers : List CallFrame}
    {v : Value} (h : VM.Same frame callers vm vm1) (hr : vm1.readConstant = some (v, vm2)) :
    VM.Same frame callers vm vm2 := by
  obtain ⟨⟨ip, hf⟩, hs⟩ := h
  obtain ⟨fr, cs, index, e1, _, _, e3⟩ := VM.readConstant_spec hr
  rw [hf] at e1
  obtain ⟨e4, e5⟩ := List.cons.inj e1
  rw [e3, ← e4, ← e5]
  exact ⟨⟨ip + 1, rfl⟩, hs⟩

theorem VM.Same.readName {vm vm1 vm2 : VM} {frame : CallFrame} {callers : List CallFrame}
    {name : List Char} (h : VM.Same frame callers vm vm1)
    (hr : vm1.readName = some (name, vm2)) : VM.Same frame callers vm vm2 := by
  obtain ⟨⟨ip, hf⟩, hs⟩ := h
  obtain ⟨fr, cs, index, e1, _, _, e3⟩ := VM.readName_spec hr
  rw [hf] at e1
  obtain ⟨e4, e5⟩ := List.cons.inj e1
  rw [e3, ← e4, ← e5]
  exact ⟨⟨ip + 1, rfl⟩, hs⟩

theorem VM.pop_spec {vm vm1 : VM} {v : Value} (h : vm.pop = some (v, vm1)) :
    vm1 = { vm with stackTop := vm.stackTop - 1 } ∧ v = vm.cell (vm.stackTop - 1) ∧
    0 < vm.stackTop ∧ vm.stackTop ≤ STACK_SIZE := by
  unfold VM.pop at h
  split at h
  · rename_i hc
    simp only [Option.some.injEq, Prod.mk.injEq] at h
    exact ⟨h.2.symm, h.1.symm, hc.1, hc.2⟩
  · exact Option.noConfusion h

theorem VM.Same.pop_value {vm vm1 vm2 : VM} {frame : CallFrame} {callers : List CallFrame}
    {v : Value} (h : VM.Same frame callers vm vm1) (hr : vm1.pop = some (v, vm2)) :
    VM.Same frame callers vm vm2 := by
  rw [(VM.pop_spec hr).1]
  exact h

theorem VM.Same.setIp {vm vm1 : VM} {frame : CallFrame} {callers : List CallFrame}
    (h : VM.Same frame callers vm vm1) (f : Nat → Nat) :
    VM.Same frame callers vm (vm1.setIp f) := by
  obtain ⟨⟨ip, hf⟩, hs⟩ := h
  unfold VM.setIp
  rw [hf]
  exact ⟨⟨_, rfl⟩, hs⟩

theorem VM.Same.local {vm vm1 : VM} {frame : CallFrame} {callers : List CallFrame}
    (h : VM.Same frame callers vm vm1) : VM.Local frame callers vm vm1 := by
  refine ⟨Or.inl h.1, ?_⟩
  intro i _ _
  unfold VM.cell
  rw [h.2]

theorem VM.Same.push_value {vm vm1 vm2 : VM} {frame : CallFrame} {callers : List CallFrame}
    {v : Value} (h : VM.Same frame callers vm vm1) (hp : vm1.push v = some vm2) :
    VM.Local frame callers vm vm2 := by
  unfold VM.push at hp
  split at hp
  · rw [← Option.some.inj hp]
    refine ⟨Or.inl h.1, ?_⟩
    intro i _ hi
    show (writeCell vm1.stack vm1.stackTop v).getD i Value.nil = vm.stack.getD i Value.nil
    have hne : i ≠ vm1.stackTop := by
      have : i + 1 < vm1.stackTop + 1 := hi
      omega
    rw [getD_writeCell_ne _ _ hne, h.2]
  · exact Option.noConfusion hp

theorem VM.Same.ofOption_push {vm vm1 : VM} {frame : CallFrame} {callers : List CallFrame}
    (h : VM.Same frame callers vm vm1) (other : VM) (v : Value) :
    (StepResult.ofOption other (vm1.push v)).Local frame callers vm := by
  cases hp : vm1.push v with
  | none => exact True.intro
  | some vm2 => exact h.push_value hp

theorem VM.local_runtimeError (vm other : VM) (frame : CallFrame) (callers : List CallFrame)
    (message : String) : (other.runtimeError message).Local frame callers vm := by
  unfold VM.runtimeError
  split
  · exact True.intro
  · split
    · exact True.intro
    · exact True.intro

theorem VM.Same.binaryOperation {vm vm1 : VM} {frame : CallFrame} {callers : List CallFrame}
    (h : VM.Same frame callers vm vm1) (op : Number → Number → Value) :
    (vm1.binaryOperation op).Local frame callers vm := by
  unfold VM.binaryOperation
  split
  · exact True.intro
  · rename_i b vm2 h2
    split
    · exact True.intro
    · rename_i a vm3 h3
      split
      · exact ((h.pop_value h2).pop_value h3).ofOption_push _ _
      · exact VM.local_runtimeError _ _ _ _ _

end scriptlang

namespace scriptlang

theorem VM.Same.call {vm vm1 : VM} {frame : CallFrame} {callers : List CallFrame}
    (h : VM.Same frame callers vm vm1) (function : ObjectFunction) (argc : Nat) :
    match vm1.call function argc with
    | Except.error r => r.Local frame callers vm
    | Except.ok vm2 => VM.Local frame callers vm vm2 := by
  obtain ⟨⟨ip, hf⟩, hs⟩ := h
  unfold VM.call
  by_cases h1 : vm1.frames.length = CALL_FRAMES
  · rw [if_pos h1]
    exact VM.local_runtimeError _ _ _ _ _
  · rw [if_neg h1]
    by_cases h2 : (argc : Int) ≠ function.arity
    · rw [if_pos h2]
      exact VM.local_runtimeError _ _ _ _ _
    · rw [if_neg h2]
      by_cases h3 : vm1.stackTop < argc + 1
      · rw [if_pos h3]
        exact True.intro
      · rw [if_neg h3]
        refine ⟨Or.inr (Or.inl ⟨ip, ⟨function, 0, vm1.stackTop - argc - 1⟩, ?_⟩), ?_⟩
        · show _ :: vm1.frames = _
          rw [hf]
        · intro i _ _
          show vm1.stack.getD i Value.nil = vm.stack.getD i Value.nil
          rw [hs]

theorem VM.Same.dispatch {vm vm1 : VM} {frame : CallFrame} {callers : List CallFrame}
    (h : VM.Same frame callers vm vm1) (op : OpCode) :
    (vm1.dispatch op).Local frame callers vm := by
  cases op
  case PushConstant =>
    simp only [VM.dispatch]
    split
    · exact True.intro
    · rename_i v vm2 h2
      exact (h.readConstant h2).ofOption_push _ _
  case Pop =>
    simp only [VM.dispatch]
    split
    · exact True.intro
    · rename_i v vm2 h2
      exact (h.pop_value h2).local
  case Add =>
    simp only [VM.dispatch]
    split
    · exact True.intro
    · rename_i b vm2 h2
      split
      · exact True.intro
      · rename_i a vm3 h3
        split
        · exact ((h.pop_value h2).pop_value h3).ofOption_push _ _
        · exact ((h.pop_value h2).pop_value h3).ofOption_push _ _
        · exact VM.local_runtimeError _ _ _ _ _
  case Sub => exact h.binaryOperation _
  case Div => exact h.binaryOperation _
  case Mult => exact h.binaryOperation _
  case Less => exact h.binaryOperation _
  case Greater => exact h.binaryOperation _
  case Equal =>
    simp only [VM.dispatch]
    split
    · exact True.intro
    · rename_i b vm2 h2
      split
      · exact True.intro
      · rename_i a vm3 h3
        exact ((h.pop_value h2).pop_value h3).ofOption_push _ _
  case Pow =>
    simp only [VM.dispatch]
    split
    · exact True.intro
    · rename_i b vm2 h2
      split
      · exact True.intro
      · rename_i a vm3 h3
        split
        · exact ((h.pop_value h2).pop_value h3).ofOption_push _ _
        · exact VM.local_runtimeError _ _ _ _ _
  case Not =>
    simp only [VM.dispatch]
    split
    · exact True.intro
    · rename_i v vm2 h2
      exact (h.pop_value h2).ofOption_push _ _
  case Negate =>
    simp only [VM.dispatch]
    split
    · exact True.intro
    · split
      · exact True.intro
      · rename_i v vm2 h2
        exact (h.pop_value h2).ofOption_push _ _
    · exact VM.local_runtimeError _ _ _ _ _
  case Print =>
    simp only [VM.dispatch]
    split
    · exact True.intro
    · rename_i v vm2 h2
      have h3 := h.pop_value h2
      exact VM.Same.local ⟨h3.1, h3.2⟩
  case JumpIfFalse =>
    simp only [VM.dispatch]
    split
    · exact True.intro
    · rename_i n vm2 h2
      split
      · exact True.intro
      · split
        · exact ((h.readShort h2).setIp _).local
        · exact (h.readShort h2).local
  case Jump =>
    simp only [VM.dispatch]
    split
    · exact True.intro
    · rename_i n vm2 h2
      exact ((h.readShort h2).setIp _).local
  case Loop =>
    simp only [VM.dispatch]
    split
    · exact True.intro
    · rename_i n vm2 h2
      exact ((h.readShort h2).setIp _).local
  case DefineGlobal =>
    simp only [VM.dispatch]
    split
    · exact True.intro
    · rename_i name vm2 h2
      split
      · exact VM.local_runtimeError _ _ _ _ _
      · split
        · exact True.intro
        · rename_i v vm3 h3
          have h4 := (h.readName h2).pop_value h3
          exact VM.Same.local ⟨h4.1, h4.2⟩
  case GetGlobal =>
    simp only [VM.dispatch]
    split
    · exact True.intro
    · rename_i name vm2 h2
      split
      · exact VM.local_runtimeError _ _ _ _ _
      · exact (h.readName h2).ofOption_push _ _
  case SetGlobal =>
    simp only [VM.dispatch]
    split
    · exact True.intro
    · rename_i name vm2 h2
      split
      · split
        · exact True.intro
        · have h4 := h.readName h2
          exact VM.Same.local ⟨h4.1, h4.2⟩
      · exact VM.local_runtimeError _ _ _ _ _
  case GetLocal =>
    simp only [VM.dispatch]
    split
    · exact True.intro
    · rename_i slot vm2 h2
      split
      · exact True.intro
      · split
        · exact (h.readByte h2).ofOption_push _ _
        · exact True.intro
  case SetLocal =>
    simp only [VM.dispatch]
    split
    · exact True.intro
    · rename_i slot vm2 h2
      split
      · rename_i fr cs v hfr hpeek
        split
        · obtain ⟨⟨ip, hf⟩, hs⟩ := h.readByte h2
          rw [hf] at hfr
          obtain ⟨e1, _⟩ := List.cons.inj hfr
          refine ⟨Or.inl ⟨ip, hf⟩, ?_⟩
          intro i hi _
          show (writeCell vm2.stack (fr.slots + slot) v).getD i Value.nil =
            vm.stack.getD i Value.nil
          have hslots : fr.slots = frame.slots := by rw [← e1]
          rw [getD_writeCell_ne _ _ (by omega), hs]
        · exact True.intro
      · exact True.intro
  case Call =>
    simp only [VM.dispatch]
    split
    · exact True.intro
    · rename_i argc vm2 h2
      split
      · exact True.intro
      · rename_i callee h3
        cases callee with
        | function g =>
          have hc := (h.readByte h2).call g argc
          simp only [VM.callValue]
          split
          · rename_i r hr
            rw [hr] at hc
            exact hc
          · rename_i vm3 hr
            rw [hr] at hc
            exact hc
        | number n => simp only [VM.callValue]; exact VM.local_runtimeError _ _ _ _ _
        | string s => simp only [VM.callValue]; exact VM.local_runtimeError _ _ _ _ _
        | boolean b => simp only [VM.callValue]; exact VM.local_runtimeError _ _ _ _ _
        | nil => simp only [VM.callValue]; exact VM.local_runtimeError _ _ _ _ _
  case Return =>
    simp only [VM.dispatch]
    split
    · exact True.intro
    · rename_i v vm2 h2
      obtain ⟨⟨ip, hf⟩, hs⟩ := h.pop_value h2
      split
      · exact True.intro
      · rename_i fr cs hfr
        rw [hf] at hfr
        obtain ⟨e1, e2⟩ := List.cons.inj hfr
        split
        · split
          · exact True.intro
          · exact True.intro
        · have hslots : fr.slots = frame.slots := by rw [← e1]
          cases hp : ({ vm2 with frames := cs, stackTop := fr.slots } : VM).push v with
          | none => exact True.intro
          | some vm3 =>
            unfold VM.push at hp
            split at hp
            · rw [← Option.some.inj hp]
              refine ⟨Or.inr (Or.inr e2.symm), ?_⟩
              intro i hi _
              show (writeCell vm2.stack fr.slots v).getD i Value.nil =
                vm.stack.getD i Value.nil
              rw [getD_writeCell_ne _ _ (by omega), hs]
            · exact Option.noConfusion hp
  case True => exact h.ofOption_push _ _
  case False => exact h.ofOption_push _ _
  case Nil => exact h.ofOption_push _ _

/-- An iteration of `run` changes the frames and the stack only locally. -/
theorem VM.local_step {vm : VM} {frame : CallFrame} {callers : List CallFrame}
    (h : vm.frames = frame :: callers) : vm.step.Local frame callers vm := by
  unfold VM.step
  rw [h]
  simp only []
  split
  · split
    · exact True.intro
    · rename_i b vm1 h1
      have hs := (VM.Same.of_frames h).readByte h1
      split
      · exact VM.local_runtimeError _ _ _ _ _
      · exact hs.dispatch _
  · exact True.intro

end scriptlang

namespace scriptlang

theorem VM.within_spec {depth base : Nat} {vm : VM} (h : vm.within depth base = true) :
    depth < vm.frames.length ∧ base < vm.stackTop ∧
    ∀ frame ∈ vm.frames.take (vm.frames.length - depth), base ≤ frame.slots := by
  unfold VM.within at h
  simp only [Bool.and_eq_true, decide_eq_true_eq, List.all_eq_true] at h
  exact ⟨h.1.1, h.1.2, h.2⟩

/-- The frame on top is among those that `VM.within` checks. -/
theorem VM.within_head {depth base : Nat} {vm : VM} {frame : CallFrame}
    {rest : List CallFrame} (h : vm.within depth base = true)
    (hframes : vm.frames = frame :: rest) : base ≤ frame.slots := by
  obtain ⟨h1, _, h3⟩ := VM.within_spec h
  refine h3 frame ?_
  rw [hframes] at h1 ⊢
  have hpos : (frame :: rest).length - depth = ((frame :: rest).length - depth - 1) + 1 := by
    omega
  rw [hpos, List.take_succ_cons]
  exact List.mem_cons_self _ _

/-- An iteration that leaves the machine inside the call keeps the frames below the
call and the stack cells below its base. -/
theorem VM.Inside.step {f : ObjectFunction} {base : Nat} {callers : List CallFrame}
    {vm0 vm vm1 : VM} (h : VM.Inside f base callers vm0 vm)
    (hstep : vm.step = StepResult.next vm1)
    (hwithin : vm1.within (callers.length) base = true) :
    VM.Inside f base callers vm0 vm1 := by
  obtain ⟨inner, ip, hframes, hinner, htop, hcells⟩ := h
  obtain ⟨w1, w2, _⟩ := VM.within_spec hwithin
  cases inner with
  | nil =>
    have hframes0 : vm.frames = ⟨f, ip, base⟩ :: callers := hframes
    have hloc := VM.local_step hframes0
    rw [hstep] at hloc
    obtain ⟨hshape, hkeep⟩ := hloc
    have hcells1 : ∀ i, i < base → vm1.cell i = vm0.cell i := by
      intro i hi
      rw [hkeep i hi (by omega), hcells i hi]
    rcases hshape with ⟨ip1, e⟩ | ⟨ip1, pushed, e⟩ | e
    · exact ⟨[], ip1, e, fun _ hfr => absurd hfr (List.not_mem_nil _), w2, hcells1⟩
    · refine ⟨[pushed], ip1, e, ?_, w2, hcells1⟩
      intro fr hfr
      rw [List.mem_singleton] at hfr
      rw [hfr]
      exact VM.within_head hwithin e
    · rw [e] at w1
      omega
  | cons fr inner1 =>
    have hframes1 : vm.frames = fr :: (inner1 ++ ⟨f, ip, base⟩ :: callers) := hframes
    have hloc := VM.local_step hframes1
    rw [hstep] at hloc
    obtain ⟨hshape, hkeep⟩ := hloc
    have hfr : base ≤ fr.slots := hinner fr (List.mem_cons_self _ _)
    have hinner1 : ∀ x ∈ inner1, base ≤ x.slots :=
      fun x hx => hinner x (List.mem_cons_of_mem _ hx)
    have hcells1 : ∀ i, i < base → vm1.cell i = vm0.cell i := by
      intro i hi
      rw [hkeep i (by omega) (by omega), hcells i hi]
    rcases hshape with ⟨ip1, e⟩ | ⟨ip1, pushed, e⟩ | e
    · refine ⟨⟨fr.function, ip1, fr.slots⟩ :: inner1, ip, e, ?_, w2, hcells1⟩
      intro x hx
      rcases List.mem_cons.mp hx with hx | hx
      · rw [hx]
        exact hfr
      · exact hinner1 x hx
    · refine ⟨pushed :: ⟨fr.function, ip1, fr.slots⟩ :: inner1, ip, e, ?_, w2, hcells1⟩
      intro x hx
      rcases List.mem_cons.mp hx with hx | hx
      · rw [hx]
        exact VM.within_head hwithin e
      · rcases List.mem_cons.mp hx with hx | hx
        · rw [hx]
          exact hfr
        · exact hinner1 x hx
    · exact ⟨inner1, ip, e, hinner1, w2, hcells1⟩

/-- Iterations that leave the machine inside the call keep the frames below the call
and the stack cells below its base. -/
theorem VM.Inside.runWithin {f : ObjectFunction} {base : Nat} {callers : List CallFrame}
    {vm0 : VM} : ∀ (k : Nat) (vm vm1 : VM), VM.Inside f base callers vm0 vm →
      VM.runWithin callers.length base k vm = some vm1 → VM.Inside f base callers vm0 vm1 := by
  intro k
  induction k with
  | zero =>
    intro vm vm1 h hrun
    have : some vm = some vm1 := hrun
    rw [← Option.some.inj this]
    exact h
  | succ k ih =>
    intro vm vm1 h hrun
    unfold VM.runWithin at hrun
    cases hstep : vm.step with
    | done result vm2 =>
      rw [hstep] at hrun
      exact Option.noConfusion hrun
    | next vm2 =>
      rw [hstep] at hrun
      simp only [] at hrun
      by_cases hw : vm2.within callers.length base = true
      · rw [if_pos hw] at hrun
        exact ih vm2 vm1 (h.step hstep hw) hrun
      · rw [if_neg hw] at hrun
        exact Option.noConfusion hrun

/-- One iteration of `run` at a `Call` instruction whose callee is a function of the
arity given by the operand. -/
theorem VM.step_call (vm : VM) (frame : CallFrame) (callers : List CallFrame)
    (g : ObjectFunction) (argc : Nat) (hframe : vm.frames = frame :: callers)
    (hop : frame.function.chunk.get frame.ip = some OpCode.Call.toByte)
    (hargc : frame.function.chunk.get (frame.ip + 1) = some argc)
    (hn : argc < vm.stackTop) (htop : vm.stackTop ≤ STACK_SIZE)
    (hcallee : vm.cell (vm.stackTop - 1 - argc) = Value.function g)
    (harity : g.arity = (argc : Int)) (hdepth : vm.frames.length < CALL_FRAMES) :
    vm.step = StepResult.next
      { vm with frames :=
          ⟨g, 0, vm.stackTop - argc - 1⟩ :: { frame with ip := frame.ip + 2 } :: callers } := by
  rw [VM.step_eq vm frame callers OpCode.Call.toByte OpCode.Call hframe hop rfl]
  have hpeek : ({ vm with frames := { { frame with ip := frame.ip + 1 } with
      ip := frame.ip + 1 + 1 } :: callers } : VM).peek argc = some (Value.function g) := by
    unfold VM.peek
    rw [if_pos ⟨hn, by
      show vm.stackTop - 1 - argc < STACK_SIZE
      omega⟩]
    exact congrArg some hcallee
  have hd := VM.dispatch_call
    ({ vm with frames := { frame with ip := frame.ip + 1 } :: callers } : VM)
    { frame with ip := frame.ip + 1 } callers argc g rfl hargc hpeek
    (by
      show ({ frame with ip := frame.ip + 1 } :: callers).length ≠ CALL_FRAMES
      rw [hframe] at hdepth
      exact Nat.ne_of_lt hdepth)
    harity.symm
  exact hd

/-- One iteration of `run` at a `Return` instruction in a frame that has a caller. -/
theorem VM.step_return (vm : VM) (frame caller : CallFrame) (callers : List CallFrame)
    (hframe : vm.frames = frame :: caller :: callers)
    (hop : frame.function.chunk.get frame.ip = some OpCode.Return.toByte)
    (h1 : 0 < vm.stackTop) (h2 : vm.stackTop ≤ STACK_SIZE) (hslots : frame.slots < STACK_SIZE) :
    vm.step = StepResult.next
      { vm with frames := caller :: callers,
                stack := writeCell vm.stack frame.slots (vm.cell (vm.stackTop - 1)),
                stackTop := frame.slots + 1 } := by
  rw [VM.step_eq vm frame (caller :: callers) OpCode.Return.toByte OpCode.Return hframe hop rfl]
  have hpop := VM.pop_eq
    ({ vm with frames := { frame with ip := frame.ip + 1 } :: caller :: callers } : VM) h1 h2
  have hpush := VM.push_eq
    ({ vm with frames := caller :: callers, stackTop := frame.slots } : VM)
    (vm.cell (vm.stackTop - 1)) hslots
  simp only [VM.dispatch, hpop]
  rw [if_neg (by simp)]
  show StepResult.ofOption _
    (({ vm with frames := caller :: callers, stackTop := frame.slots } : VM).push
      (vm.cell (vm.stackTop - 1))) = _
  rw [hpush]
  rfl

end scriptlang

namespace scriptlang

theorem Parser.afterOperand_spec {p : Parser} (h : p.afterOperand = true) :
    (getParseRules p.previous.type).prefixRule = some ParsePrefix.primaryExpression ∧
    p.previous.type ≠ TokenType.LeftParen ∧
    p.literalExpression p.previous = some p.operand := by
  unfold Parser.afterOperand at h
  simp only [Bool.and_eq_true, decide_eq_true_eq] at h
  exact ⟨h.1.1, h.1.2, eq_some_getD _ h.2⟩

/-- `primaryExpression` on an operand. -/
theorem Parser.primaryExpression_operand (k : Nat) {p : Parser} (h : p.afterOperand = true) :
    Parser.primaryExpression (k + 1) p = some (p.operand, p) := by
  obtain ⟨_, h2, h3⟩ := Parser.afterOperand_spec h
  rw [Parser.primaryExpression, if_neg h2, h3]

/-- `parsePrecedence` on an operand followed by a token whose precedence is not above
the current one: the operand alone. -/
theorem Parser.parsePrecedence_operand (k : Nat) (prec : Precedence) {p : Parser}
    (h : p.advance.afterOperand = true)
    (hstop : (getParseRules p.advance.peek.type).prec ≤ prec) :
    Parser.parsePrecedence (k + 2) prec p = some (p.advance.operand, p.advance) := by
  obtain ⟨h1, _, _⟩ := Parser.afterOperand_spec h
  rw [Parser.parsePrecedence, h1]
  show (match Parser.primaryExpression (k + 1) p.advance with
    | none => none
    | some (left, p1) => Parser.infixLoop (k + 1) prec left p1) = _
  rw [Parser.primaryExpression_operand k h]
  show Parser.infixLoop (k + 1) prec p.advance.operand p.advance = _
  rw [Parser.infixLoop, if_neg (Nat.not_lt.mpr hstop)]

/-- `binaryExpression` whose right operand is a single operand. -/
theorem Parser.binaryExpression_operand (k : Nat) (left : Expression) {p : Parser}
    (h : p.advance.afterOperand = true)
    (hstop : (getParseRules p.advance.peek.type).prec ≤ (getParseRules p.previous.type).prec) :
    Parser.binaryExpression (k + 3) left p =
      some (Expression.Binary p.advance.currentSourceRange p.previous left p.advance.operand,
        p.advance) := by
  rw [Parser.binaryExpression, Parser.parsePrecedence_operand k _ h hstop]

/-- `a op b op' c` with `op'` of a precedence not above that of `op` is parsed as
`(a op b) op' c`. -/
theorem Parser.parsePrecedence_chain (k : Nat) {p : Parser} (h : p.atBinaryChain = true) :
    Parser.parsePrecedence (k + 6) Precedence.None p =
      some (Expression.Binary p.advance.advance.advance.advance.advance.currentSourceRange
          p.advance.advance.advance.advance.previous
          (Expression.Binary p.advance.advance.advance.currentSourceRange
            p.advance.advance.previous p.advance.operand p.advance.advance.advance.operand)
          p.advance.advance.advance.advance.advance.operand,
        p.advance.advance.advance.advance.advance) := by
  unfold Parser.atBinaryChain at h
  simp only [Bool.and_eq_true, decide_eq_true_eq] at h
  obtain ⟨⟨⟨⟨⟨⟨⟨⟨ha, hop⟩, hrule⟩, hb⟩, hle⟩, hop1⟩, hrule1⟩, hc⟩, hend⟩ := h
  obtain ⟨ha1, _, _⟩ := Parser.afterOperand_spec ha
  rw [Parser.parsePrecedence, ha1]
  show (match Parser.primaryExpression (k + 5) p.advance with
    | none => none
    | some (left, p1) => Parser.infixLoop (k + 5) Precedence.None left p1) = _
  rw [Parser.primaryExpression_operand (k + 4) ha]
  show Parser.infixLoop (k + 5) Precedence.None p.advance.operand p.advance = _
  rw [Parser.infixLoop, if_pos hop, hrule]
  show (match Parser.binaryExpression (k + 4) p.advance.operand p.advance.advance with
    | none => none
    | some (left1, p1) => Parser.infixLoop (k + 4) Precedence.None left1 p1) = _
  rw [Parser.binaryExpression_operand (k + 1) _ hb hle]
  show Parser.infixLoop (k + 4) Precedence.None _ p.advance.advance.advance = _
  rw [Parser.infixLoop, if_pos hop1, hrule1]
  show (match Parser.binaryExpression (k + 3) _ p.advance.advance.advance.advance with
    | none => none
    | some (left1, p1) => Parser.infixLoop (k + 3) Precedence.None left1 p1) = _
  rw [Parser.binaryExpression_operand k _ hc (by rw [hend]; exact Nat.zero_le _)]
  show Parser.infixLoop (k + 3) Precedence.None _
    p.advance.advance.advance.advance.advance = _
  rw [Parser.infixLoop, if_neg (by rw [hend]; exact Nat.lt_irrefl _)]

end scriptlang

namespace scriptlang

/-! ### Where the `Eof` token lies -/

theorem keywords_lookup_ne_eof (key : List Char) (type : TokenType)
    (h : keywords.lookup key = some type) : type ≠ TokenType.Eof := by
  simp only [keywords, List.lookup] at h
  repeat' split at h
  all_goals first
    | (cases h; decide)
    | exact absurd h (by simp)

theorem Lexer.getIdentiferType_ne_eof (l : Lexer) : l.getIdentiferType ≠ TokenType.Eof := by
  unfold Lexer.getIdentiferType
  split
  · next type h => exact keywords_lookup_ne_eof _ _ h
  · decide

theorem ite_type_ne_eof {b : Bool} {x y : TokenType} (hx : x ≠ TokenType.Eof)
    (hy : y ≠ TokenType.Eof) : (if b = true then x else y) ≠ TokenType.Eof := by
  cases b
  · exact hy
  · exact hx

/-- Only the character `'\0'` makes `next` return an `Eof` token. -/
theorem Lexer.scanToken_type_eof {c : Char} {l : Lexer}
    (h : (Lexer.scanToken c l).1.type = TokenType.Eof) : c = NUL := by
  by_contra h0
  unfold Lexer.scanToken at h
  rw [if_neg h0] at h
  by_cases h0 : c = '+'
  · rw [if_pos h0] at h
    simp [Lexer.makeToken] at h
  rw [if_neg h0] at h
  by_cases h1 : c = '-'
  · rw [if_pos h1] at h
    simp [Lexer.makeToken] at h
  rw [if_neg h1] at h
  by_cases h2 : c = '*'
  · rw [if_pos h2] at h
    exact ite_type_ne_eof (by decide) (by decide) h
  rw [if_neg h2] at h
  by_cases h3 : c = '/'
  · rw [if_pos h3] at h
    simp [Lexer.makeToken] at h
  rw [if_neg h3] at h
  by_cases h4 : c = '>'
  · rw [if_pos h4] at h
    exact ite_type_ne_eof (by decide) (by decide) h
  rw [if_neg h4] at h
  by_cases h5 : c = '<'
  · rw [if_pos h5] at h
    exact ite_type_ne_eof (by decide) (by decide) h
  rw [if_neg h5] at h
  by_cases h6 : c = '='
  · rw [if_pos h6] at h
    exact ite_type_ne_eof (by decide) (by decide) h
  rw [if_neg h6] at h
  by_cases h7 : c = '!'
  · rw [if_pos h7] at h
    exact ite_type_ne_eof (by decide) (by decide) h
  rw [if_neg h7] at h
  by_cases h8 : c = '.'
  · rw [if_pos h8] at h
    simp [Lexer.makeToken] at h
  rw [if_neg h8] at h
  by_cases h9 : c = ','
  · rw [if_pos h9] at h
    simp [Lexer.makeToken] at h
  rw [if_neg h9] at h
  by_cases h10 : c = ';'
  · rw [if_pos h10] at h
    simp [Lexer.makeToken] at h
  rw [if_neg h10] at h
  by_cases h11 : c = '('
  · rw [if_pos h11] at h
    simp [Lexer.makeToken] at h
  rw [if_neg h11] at h
  by_cases h12 : c = ')'
  · rw [if_pos h12] at h
    simp [Lexer.makeToken] at h
  rw [if_neg h12] at h
  by_cases h13 : c = '{'
  · rw [if_pos h13] at h
    simp [Lexer.makeToken] at h
  rw [if_neg h13] at h
  by_cases h14 : c = '}'
  · rw [if_pos h14] at h
    simp [Lexer.makeToken] at h
  rw [if_neg h14] at h
  by_cases hq : c = '"'
  · rw [if_pos hq] at h
    unfold Lexer.stringLiteral at h
    simp only at h
    split at h <;> simp [Lexer.makeToken] at h
  rw [if_neg hq] at h
  by_cases hd : c.isDigit = true
  · rw [if_pos hd] at h
    unfold Lexer.numberLiteral at h
    split at h
    · simp [Lexer.makeToken] at h
    · split at h <;> simp [Lexer.makeToken] at h
  rw [if_neg hd] at h
  by_cases ha : c.isAlpha = true ∨ c = '_'
  · rw [if_pos ha] at h
    exact Lexer.getIdentiferType_ne_eof _ h
  rw [if_neg ha] at h
  simp [Lexer.makeToken] at h

/-- An `Eof` token returned by `next` lies at the end of the source, with an empty
lexeme, or on a character `'\0'` of the source, which is its lexeme. -/
theorem Lexer.next_eof (l : Lexer) (hl : l.curr ≤ l.source.length)
    (h : l.next.1.type = TokenType.Eof) :
    (l.next.1.position.start.offset = l.source.length ∧
      l.next.1.position.end_.offset = l.source.length ∧ l.next.1.lexeme = []) ∨
    (l.source.get? l.next.1.position.start.offset = some NUL ∧
      l.next.1.position.end_.offset = l.next.1.position.start.offset + 1 ∧
      l.next.1.lexeme = [NUL]) := by
  obtain ⟨sk, ⟨hsrc0, hcur0, hdrop0⟩, _⟩ := l.skipWhiteSpaces_reads
  have hats : l.atTokenStart.source = l.source := hsrc0
  have hatc : l.atTokenStart.curr = l.curr + sk.length := hcur0
  have hatst : l.atTokenStart.start = l.atTokenStart.curr := rfl
  have hattsp : l.atTokenStart.tokenStartPosition.offset = l.atTokenStart.curr := rfl
  have hbound : l.atTokenStart.curr ≤ l.source.length := by
    have h1 := congrArg List.length hdrop0
    simp only [List.length_append, List.length_drop] at h1
    rw [hatc]
    omega
  have hc : l.atTokenStart.advance.1 = NUL := by
    unfold Lexer.next at h
    exact Lexer.scanToken_type_eof h
  unfold Lexer.next
  generalize l.atTokenStart = l1 at hats hatst hattsp hbound hc
  rw [hc]
  have hscan : ∀ k : Lexer, (Lexer.scanToken NUL k).1 =
      ({ k with hasNext := false } : Lexer).makeToken TokenType.Eof := by
    intro k
    unfold Lexer.scanToken
    rw [if_pos rfl]
  rw [hscan]
  cases hend : l1.isAtEnd with
  | true =>
    left
    have hge : l1.source.length ≤ l1.curr := by simpa [Lexer.isAtEnd] using hend
    rw [hats] at hge
    rw [Lexer.advance_of_isAtEnd hend]
    refine ⟨?_, ?_, ?_⟩
    · show l1.tokenStartPosition.offset = _
      rw [hattsp]
      omega
    · show l1.curr = _
      omega
    · show (l1.source.drop l1.start).take (l1.curr - l1.start) = []
      rw [hatst, Nat.sub_self]
      rfl
  | false =>
    right
    have hlt : l1.curr < l1.source.length := by simpa [Lexer.isAtEnd] using hend
    have hadv := Lexer.advance_of_not_isAtEnd hend
    rw [hadv] at hc
    have hpeek : l1.peek 0 = NUL := hc
    have hdrop := Lexer.drop_of_not_isAtEnd hend
    rw [hpeek] at hdrop
    rw [hadv]
    refine ⟨?_, ?_, ?_⟩
    · show l.source.get? l1.tokenStartPosition.offset = some NUL
      rw [hattsp, ← hats, List.get?_eq_getElem?, ← List.head?_drop, hdrop]
      rfl
    · show l1.curr + 1 = l1.tokenStartPosition.offset + 1
      rw [hattsp]
    · show (l1.source.drop l1.start).take (l1.curr + 1 - l1.start) = [NUL]
      rw [hatst, hdrop, Nat.add_sub_cancel_left]
      rfl

/-- The tokens of `tokensLoop`: those before the `Eof` token are not `Eof` and have
a lexeme; the `Eof` token lies at the end of the source or on a `'\0'`. -/
theorem Lexer.tokensLoop_eof_placed :
    ∀ (fuel : Nat) (l : Lexer), l.curr ≤ l.source.length → l.source.length - l.curr < fuel →
      ∃ toks eof, Lexer.tokensLoop fuel l = toks ++ [eof] ∧ eof.type = TokenType.Eof ∧
        (∀ t ∈ toks, t.type ≠ TokenType.Eof ∧ t.lexeme ≠ []) ∧
        ((eof.position.start.offset = l.source.length ∧
            eof.position.end_.offset = l.source.length ∧ eof.lexeme = []) ∨
          (l.source.get? eof.position.start.offset = some NUL ∧
            eof.position.end_.offset = eof.position.start.offset + 1 ∧
            eof.lexeme = [NUL])) := by
  intro fuel
  induction fuel with
  | zero => intro l _ h; exact absurd h (Nat.not_lt_zero _)
  | succ n ih =>
    intro l hcur hl
    unfold Lexer.tokensLoop
    by_cases he : l.next.1.type = TokenType.Eof
    · rw [if_pos he]
      exact ⟨[], l.next.1, rfl, he, fun t ht => absurd ht (List.not_mem_nil t),
        Lexer.next_eof l hcur he⟩
    · rw [if_neg he]
      obtain ⟨sk, lx, _, hd0, hd1, hsrc, hcur1, hlex, _, _, hne⟩ := l.next_spec
      have hpos : 0 < lx.length := List.length_pos.mpr (hne he)
      have h1 := congrArg List.length hd0
      have h2 := congrArg List.length hd1
      simp only [List.length_append, List.length_drop] at h1 h2
      have hfuel : l.next.2.source.length - l.next.2.curr < n := by
        rw [hsrc, hcur1]
        omega
      have hcur2 : l.next.2.curr ≤ l.next.2.source.length := by
        rw [hsrc, hcur1]
        omega
      obtain ⟨toks, eof, htoks, heof, hall, hplace⟩ := ih l.next.2 hcur2 hfuel
      rw [hsrc] at hplace
      refine ⟨l.next.1 :: toks, eof, by rw [htoks]; rfl, heof, ?_, hplace⟩
      intro t ht
      rcases List.mem_cons.mp ht with h | h
      · rw [h]
        exact ⟨he, by rw [hlex]; exact hne he⟩
      · exact hall t h

end scriptlang

namespace scriptlang

/-! ### The comparison `==` of numbers -/

theorem Number.eq_iff (a b : Number) : a.eq b = true ↔ a = b ∧ a ≠ Number.nan := by
  cases a <;> cases b <;> simp [Number.eq]

theorem Number.eq_nan_left (a : Number) : Number.nan.eq a = false := by
  cases a <;> rfl

theorem Number.eq_nan_right (a : Number) : a.eq Number.nan = false := by
  cases a <;> rfl

theorem Number.eq_zero (n : Number) : n.eq 0 = decide (n = 0) := by
  cases h : n.eq 0 with
  | true => exact (decide_eq_true ((Number.eq_iff n 0).mp h).1).symm
  | false =>
    symm
    apply decide_eq_false
    intro h0
    rw [h0] at h
    exact absurd h (by decide)

end scriptlang

namespace scriptlang

/-! ## The claims of the specification

The concrete runs are evaluated with `Uninitialized.zero`: the two members that the
source leaves uninitialised hold 0. -/

set_option maxRecDepth 100000 in
/-- C1, counterexample: on the Fibonacci source of the specification the pipeline
reports no diagnostic, but `n-1` is one identifier token, compiled to `GetGlobal`;
the run prints a runtime error instead of `55` and `execute` returns
`RuntimeError`. -/
theorem fibonacci_hyphen_counterexample :
    runSource 200 Uninitialized.zero
        "defun f(n)\x7b if n<2 \x7breturn n;\x7d else \x7breturn f(n-1)+f(n-2);\x7d \x7d print f(10);" =
      some ([], RunStatus.executed InterpreterResult.RuntimeError,
        "Runtime error [Ln: 1] Undefined global variable 'n-1'.\n"
          ++ "    in <function 'f' (param count: 1) >\n"
          ++ "    in <function '<script>' (param count: 0) >\n") := by
  decide!

set_option maxRecDepth 1000000 in
/-- C1, amended: the lexer reads `n-1` as one `Identifier` token, so the Fibonacci
source as written does not print `55` with `Success`; with the subtractions written
`n - 1` and `n - 2` the pipeline reports no diagnostic, prints exactly the line `55`
and `execute` returns `Success`. -/
theorem fibonacci_spaced :
    (tokenize "f(n-1)".toList).map (fun t => (String.mk t.lexeme, t.type)) =
      [("f", TokenType.Identifier), ("(", TokenType.LeftParen), ("n-1", TokenType.Identifier),
        (")", TokenType.RightParen), ("", TokenType.Eof)] ∧
    runSource 200 Uninitialized.zero
        "defun f(n)\x7b if n<2 \x7breturn n;\x7d else \x7breturn f(n-1)+f(n-2);\x7d \x7d print f(10);" ≠
      some ([], RunStatus.executed InterpreterResult.Success, "55\n") ∧
    runSource 10000 Uninitialized.zero
        "defun f(n)\x7b if n<2 \x7breturn n;\x7d else \x7breturn f(n - 1)+f(n - 2);\x7d \x7d print f(10);" =
      some ([], RunStatus.executed InterpreterResult.Success, "55\n") := by
  decide!

set_option maxRecDepth 100000 in
/-- C2: the pipeline on
`let x = 0; while x < 5 { if x == 3 { break; } x = x + 1; } print x;` reports no
diagnostic and the machine prints exactly the line `3`. (After the `print` the final
`Return` pops below the stack base, the `break` having popped the script function:
the run leaves defined behaviour, see C3.) -/
theorem while_break_prints_three :
    runSource 300 Uninitialized.zero
        "let x = 0; while x < 5 \x7b if x == 3 \x7b break; \x7d x = x + 1; \x7d print x;" =
      some ([], RunStatus.executed InterpreterResult.Undefined, "3\n") := by
  decide!

set_option maxRecDepth 100000 in
/-- C3, the code at the failing input `while true { break; }`: the chunk is
`True; JumpIfFalse +7; Pop; Jump +3; Loop -11; Pop; Nil; Return`, the patched
`break` jumping to the `Pop` at offset 11 that follows the loop. The stack height is
1 when the loop starts (offset 0), still 1 at that `Pop`, the condition having been
popped at offset 4 already, and 0 after the loop (offset 12): the script function
in slot 0 has been popped, and the run ends with `Return` popping below the stack
base. Leaving through a falsy condition (`while false { break; }`) gives height 1
after the loop. -/
theorem break_pops_below_loop :
    compiledCode 100 Uninitialized.zero "while true \x7b break; \x7d" =
      some [23, 13, 0, 7, 1, 14, 0, 3, 15, 0, 11, 1, 25, 22] ∧
    heightsAt 100 Uninitialized.zero "while true \x7b break; \x7d" 0 = some [1] ∧
    heightsAt 100 Uninitialized.zero "while true \x7b break; \x7d" 11 = some [1] ∧
    heightsAt 100 Uninitialized.zero "while true \x7b break; \x7d" 12 = some [0] ∧
    runSource 100 Uninitialized.zero "while true \x7b break; \x7d" =
      some ([], RunStatus.executed InterpreterResult.Undefined, "") ∧
    heightsAt 100 Uninitialized.zero "while false \x7b break; \x7d" 12 = some [1] := by
  decide!

end scriptlang

namespace scriptlang

/-! ## The claims of the specification -/

set_option maxRecDepth 100000 in
/-- C4: the parser gives `1 + 2 * 3 ** 2` the shape
`Binary(+, 1, Binary(*, 2, Binary(**, 3, 2)))`; the thirteen operators listed are
exactly those whose infix rule is `binaryExpression`, and for every two of them
with `precedence(op1) < precedence(op2)` the text `a op1 b op2 c` is parsed without
diagnostic as `a op1 (b op2 c)`; compiling and executing `print 1 + 2 * 3 ** 2;`
prints `19` and returns `Success`. -/
theorem precedence_climbing :
    parseShapes 100 "1 + 2 * 3 ** 2;" =
      some (["ExprStmt(Binary(+, Literal(1), Binary(*, Literal(2), Binary(**, Literal(3), Literal(2)))))"],
        []) ∧
    (∀ type : TokenType,
      (getParseRules type).infixRule = some ParseInfix.binaryExpression ↔
        type ∈ binaryOperators.map operatorType) ∧
    (∀ op1 ∈ binaryOperators, ∀ op2 ∈ binaryOperators,
      operatorPrecedence op1 < operatorPrecedence op2 →
        parseShapes 100 ("a " ++ op1 ++ " b " ++ op2 ++ " c;") =
          some (["ExprStmt(Binary(" ++ op1 ++ ", Variable(a), Binary(" ++ op2
            ++ ", Variable(b), Variable(c))))"], [])) ∧
    runSource 200 Uninitialized.zero "print 1 + 2 * 3 ** 2;" =
      some ([], RunStatus.executed InterpreterResult.Success, "19\n") := by
  refine ⟨by decide!, ?_, by decide!, by decide!⟩
  intro type
  cases type <;> decide!

end scriptlang

namespace scriptlang

set_option maxRecDepth 100000 in
/-- C5: parsing `a = b = 1;` reports nothing and yields
`ExprStmt(Assign(a, Assign(b, 1)))`; parsing `a + b = 1;` reports
"Expect an lvalue."; and the `=` infix rule reports "Expect an lvalue." (returning
null, in panic mode) when its left operand is not a `Variable`, while with a
`Variable` on the left the reporter it leaves is the one left by parsing the right
operand at precedence `Assignment - 1`: the rule itself reports nothing. -/
theorem assignment_lvalue :
    parseShapes 100 "a = b = 1;" =
      some (["ExprStmt(Assign(a, Assign(b, Literal(1))))"], []) ∧
    parseShapes 100 "a + b = 1;" = some (["ExprStmt(null)"], ["Expect an lvalue."]) ∧
    (∀ (fuel : Nat) (left : Expression) (p : Parser),
      (left.isVariable = false →
        Parser.assignmentExpression (fuel + 1) left p =
          some (Expression.null, p.error "Expect an lvalue.") ∧
        (p.error "Expect an lvalue.").reporter.messages =
          p.reporter.messages ++ ["Expect an lvalue."] ∧
        (p.error "Expect an lvalue.").panicMode = true) ∧
      (left.isVariable = true →
        (Parser.assignmentExpression (fuel + 1) left p).map (fun r => r.2.reporter) =
          (Parser.parsePrecedence fuel (Precedence.Assignment - 1) p).map
            (fun r => r.2.reporter))) := by
  refine ⟨by decide!, by decide!, ?_⟩
  intro fuel left p
  exact ⟨fun h => ⟨Parser.assignmentExpression_not_variable fuel p h,
      Parser.error_messages p _, rfl⟩,
    fun h => Parser.assignmentExpression_variable fuel p h⟩

set_option maxRecDepth 100000 in
/-- C6, counterexample: in `1 print 2;` the expression statement `1` lacks its `;`;
one diagnostic is reported, but the well-formed statement `print 2;` that follows is
not parsed: `synchronize` skips it, `print` not being a synchronisation keyword. And
in `1 * ) let x = 2;` the expression statement `1 * )` lacks its `;` and two
diagnostics are reported for it, one by the expression and one for the `;`. -/
theorem missing_semicolon_skips_print :
    parseShapes 100 "1 print 2;" =
      some (["ExprStmt(Literal(1))"], ["Expect ';' after expression."]) ∧
    parseShapes 100 "1 * ) let x = 2;" =
      some (["ExprStmt(Binary(*, Literal(1), null))", "VarDecl(x, Literal(2))"],
        ["Expect an expression.", "Expect ';' after expression."]) := by
  exact ⟨by decide!, by decide!⟩

/-- C6, amended: when `parseSoruce` meets a top-level expression statement whose
expression is parsed without a diagnostic (the reporter after the expression holds
the messages it held before the statement) and the token after the expression is
not `;`, that turn of the loop adds the statement, reports exactly one diagnostic,
"Expect ';' after expression.", so that the messages are those held before the
statement followed by that one, and goes on from the parser that `synchronize`
leaves, which stands at the end of input or in front of one of
`defun let if while break continue return`, where the next turn of the loop parses
the next declaration. -/
theorem missing_semicolon_resync (k : Nat) (p p1 : Parser) (e : Expression)
    (statements : List Statement)
    (hend : p.isAtEnd = false)
    (hkind : startsOtherStatement p.peek.type = false)
    (hexpr : Parser.expression k { p with start := p.peek } = some (e, p1))
    (hquiet : p1.reporter.messages = p.reporter.messages)
    (hsemi : p1.peek.type ≠ TokenType.Semicolon) :
    Parser.parseSoruceLoop (k + 4) p statements =
      Parser.parseSoruceLoop (k + 3) (p1.error "Expect ';' after expression.").synchronize
        (statements ++ [Statement.ExpressionStatement
          (p1.error "Expect ';' after expression.").currentSourceRange e]) ∧
    (p1.error "Expect ';' after expression.").synchronize.reporter.messages =
      p.reporter.messages ++ ["Expect ';' after expression."] ∧
    ((p1.error "Expect ';' after expression.").synchronize.isAtEnd = true ∨
      isSynchronizePoint (p1.error "Expect ';' after expression.").synchronize.peek.type = true) := by
  refine ⟨Parser.parseSoruceLoop_missing_semicolon k statements hend hkind hexpr hsemi, ?_, ?_⟩
  · rw [(Parser.synchronize_spec _).1, ← hquiet]
    exact Parser.error_messages p1 _
  · rcases (Parser.synchronize_spec (p1.error "Expect ';' after expression.")).2 with h | h
    · exact Or.inl h.1
    · exact Or.inr h.2.1

set_option maxRecDepth 100000 in
/-- Witness of `missing_semicolon_resync`: the source `1 let x = 2;`. The
expression `1` is parsed without a diagnostic and is followed by `let`; the one
diagnostic of the whole source is reported and the declaration `let x = 2;` is
parsed. -/
theorem missing_semicolon_resync_witness :
    parseShapes 100 "1 let x = 2;" =
      some (["ExprStmt(Literal(1))", "VarDecl(x, Literal(2))"],
        ["Expect ';' after expression."]) ∧
    (Parser.ofSource "1 let x = 2;").reporter.messages = [] ∧
    ∃ (p1 : Parser) (e : Expression),
      Parser.expression 5 { Parser.ofSource "1 let x = 2;" with
        start := (Parser.ofSource "1 let x = 2;").peek } = some (e, p1) ∧
      p1.reporter.messages = (Parser.ofSource "1 let x = 2;").reporter.messages ∧
      p1.peek.type ≠ TokenType.Semicolon ∧
      Parser.parseSoruceLoop 9 (Parser.ofSource "1 let x = 2;") [] =
        Parser.parseSoruceLoop 8 (p1.error "Expect ';' after expression.").synchronize
          ([] ++ [Statement.ExpressionStatement
            (p1.error "Expect ';' after expression.").currentSourceRange e]) ∧
      (p1.error "Expect ';' after expression.").synchronize.reporter.messages =
        (Parser.ofSource "1 let x = 2;").reporter.messages ++
          ["Expect ';' after expression."] ∧
      ((p1.error "Expect ';' after expression.").synchronize.isAtEnd = true ∨
        isSynchronizePoint
          (p1.error "Expect ';' after expression.").synchronize.peek.type = true) := by
  refine ⟨by decide!, by decide!, ?_⟩
  have hexpr := eq_some_getD (Expression.null, Parser.ofSource "")
    (show (Parser.expression 5 { Parser.ofSource "1 let x = 2;" with
      start := (Parser.ofSource "1 let x = 2;").peek }).isSome = true by decide!)
  have hquiet : ((Parser.expression 5 { Parser.ofSource "1 let x = 2;" with
      start := (Parser.ofSource "1 let x = 2;").peek }).getD
        (Expression.null, Parser.ofSource "")).2.reporter.messages =
      (Parser.ofSource "1 let x = 2;").reporter.messages := by decide!
  have hsemi : ((Parser.expression 5 { Parser.ofSource "1 let x = 2;" with
      start := (Parser.ofSource "1 let x = 2;").peek }).getD
        (Expression.null, Parser.ofSource "")).2.peek.type ≠ TokenType.Semicolon := by decide!
  exact ⟨_, _, hexpr, hquiet, hsemi,
    missing_semicolon_resync 5 (Parser.ofSource "1 let x = 2;") _ _ []
      (by decide!) (by decide!) hexpr hquiet hsemi⟩

set_option maxRecDepth 100000 in
/-- C7, the code at the failing input `1 let x = 1; print x;`: the `synchronize()`
that follows the failed statement `1` stops in front of `let` and returns
with the panic flag still set, so after the well-formed `let x = 1;` the parser
synchronises again and `print x;` is skipped. In general `synchronize()` in front
of a synchronisation keyword changes nothing, the panic flag included. -/
theorem synchronize_keeps_panic :
    (Parser.afterFirstDeclaration 10 (Parser.ofSource "1 let x = 1; print x;")).map
        (fun r => (r.1.panicMode, r.2.panicMode, r.2.isAtEnd, r.2.peek.type)) =
      some (true, true, false, TokenType.LetKeyword) ∧
    parseShapes 100 "1 let x = 1; print x;" =
      some (["ExprStmt(Literal(1))", "VarDecl(x, Literal(1))"],
        ["Expect ';' after expression."]) ∧
    (∀ p : Parser, p.isAtEnd = false → isSynchronizePoint p.peek.type = true →
      p.synchronize = p) := by
  refine ⟨by decide!, by decide!, ?_⟩
  intro p hend hsync
  exact Parser.synchronize_at_keyword hend hsync

set_option maxRecDepth 100000 in
/-- C8: for every source text the tokens returned by successive `next()` calls end
with the first `Eof` token, and every token before it has a lexeme of at least one
character; they lie in the source in order, without overlap, each lexeme being the
text between its start and end offsets; the text between two consecutive lexemes
(and before the first) consists of blanks, tabs, carriage returns, line feeds and
`#` comments; writing the skipped texts and the lexemes one after the other gives
back the source up to the end of the `Eof` token; and the `Eof` token lies at the
end of the source, with an empty lexeme, or on a character `'\0'` of the source,
which is then its lexeme. So for a source without `'\0'` the skipped texts and the
lexemes give back the whole source. The tokens of `let x = 1; # c`, line feed,
`print x;` are listed with their offsets. -/
theorem lexemes_reproduce_source (src : List Char) :
    (∃ (toks : List Token) (eof : Token),
      tokenize src = toks ++ [eof] ∧ eof.type = TokenType.Eof ∧
      (∀ t ∈ toks, t.type ≠ TokenType.Eof ∧ t.lexeme ≠ []) ∧
      Contiguous src 0 (tokenize src) ∧
      interleave src 0 (tokenize src) = src.take eof.position.end_.offset ∧
      ((eof.position.start.offset = src.length ∧ eof.position.end_.offset = src.length ∧
          eof.lexeme = []) ∨
        (src.get? eof.position.start.offset = some NUL ∧
          eof.position.end_.offset = eof.position.start.offset + 1 ∧ eof.lexeme = [NUL])) ∧
      (NUL ∉ src →
        eof.position.start.offset = src.length ∧ interleave src 0 (tokenize src) = src)) ∧
    (tokenize "let x = 1; # c\nprint x;".toList).map
        (fun t => (t.type, String.mk t.lexeme, t.position.start.offset,
          t.position.end_.offset)) =
      [(TokenType.LetKeyword, "let", 0, 3), (TokenType.Identifier, "x", 4, 5),
        (TokenType.Assign, "=", 6, 7), (TokenType.NumberLiteral, "1", 8, 9),
        (TokenType.Semicolon, ";", 9, 10), (TokenType.PrintKeyword, "print", 15, 20),
        (TokenType.Identifier, "x", 21, 22), (TokenType.Semicolon, ";", 22, 23),
        (TokenType.Eof, "", 23, 23)] ∧
    interleave "let x = 1; # c\nprint x;".toList 0
        (tokenize "let x = 1; # c\nprint x;".toList) = "let x = 1; # c\nprint x;".toList ∧
    (tokenize ['a', NUL, 'b']).map
        (fun t => (t.type, t.lexeme, t.position.start.offset, t.position.end_.offset)) =
      [(TokenType.Identifier, ['a'], 0, 1), (TokenType.Eof, [NUL], 1, 2)] := by
  refine ⟨?_, by decide!, by decide!, by decide!⟩
  have hnew : (Lexer.new src).source = src := rfl
  have hcur : (Lexer.new src).curr = 0 := rfl
  obtain ⟨toks, eof, htoks, heof, hall, hplace⟩ :=
    Lexer.tokensLoop_eof_placed (src.length + 1) (Lexer.new src)
      (by rw [hcur]; exact Nat.zero_le _) (by rw [hnew, hcur]; omega)
  have hcont := Lexer.tokensLoop_contiguous (src.length + 1) (Lexer.new src)
    (by rw [hcur]; exact Nat.zero_le _)
  rw [hnew, hcur] at hcont
  rw [hnew] at hplace
  have hinter : interleave src 0 (tokenize src) = src.take eof.position.end_.offset := by
    have h := (interleave_eq_slice src _ 0 hcont).1
    unfold tokenize at h ⊢
    rw [h, htoks, endOffset_append_singleton, slice_zero]
  refine ⟨toks, eof, htoks, heof, hall, hcont, hinter, hplace, ?_⟩
  intro hnul
  rcases hplace with ⟨h1, h2, _⟩ | ⟨h1, _, _⟩
  · refine ⟨h1, ?_⟩
    rw [hinter, h2, List.take_length]
  · exact absurd (List.get?_mem h1) hnul

/-- C9: when the text at the cursor starts with a letter or `_`, the token that
`next()` returns has as lexeme that character followed by the longest run of
identifier characters (letters, digits, `-`, `_`), and its type is the entry of the
keyword table for exactly that lexeme, or `Identifier` when the table has none; the
table has 15 entries with distinct keys. So `let` is `LetKeyword`, while `lets` and
`let-x` are `Identifier`. -/
theorem keyword_or_identifier (l : Lexer) (c : Char) (rest : List Char)
    (hsrc : l.source.drop l.curr = c :: rest) (hc : c.isAlpha = true ∨ c = '_') :
    l.next.1.lexeme = c :: rest.takeWhile isValidIdentiferCharacter ∧
    l.next.1.type =
      (match keywords.lookup l.next.1.lexeme with
        | some type => type
        | none => TokenType.Identifier) ∧
    keywords.length = 15 ∧ (keywords.map Prod.fst).Nodup ∧
    (tokenize "let lets let-x".toList).map (fun t => (String.mk t.lexeme, t.type)) =
      [("let", TokenType.LetKeyword), ("lets", TokenType.Identifier),
        ("let-x", TokenType.Identifier), ("", TokenType.Eof)] := by
  obtain ⟨h1, h2⟩ := Lexer.next_of_identStart hsrc hc
  exact ⟨h1, h2, by decide, by decide, by decide!⟩

/-- Witness of `keyword_or_identifier`: the lexer at the start of `let-x = 1`. -/
theorem keyword_or_identifier_witness :
    ((Lexer.new "let-x = 1".toList).source.drop (Lexer.new "let-x = 1".toList).curr
        = 'l' :: "et-x = 1".toList ∧
      ('l'.isAlpha = true ∨ 'l' = '_')) ∧
    (Lexer.new "let-x = 1".toList).next.1.lexeme
      = 'l' :: ("et-x = 1".toList).takeWhile isValidIdentiferCharacter ∧
    (Lexer.new "let-x = 1".toList).next.1.type = TokenType.Identifier := by
  have h := keyword_or_identifier (Lexer.new "let-x = 1".toList) 'l' "et-x = 1".toList
    (by decide) (by decide)
  exact ⟨⟨by decide, by decide⟩, h.1, by decide!⟩

/-- C10: for every list of statements and every compiler state, in `Script` mode
as in `Function` mode, a chunk returned by `Compiler::compile` has at least two
bytes and its last two bytes are the opcodes `Nil` and `Return`. -/
theorem compile_ends_with_nil_return (u : Uninitialized) (c c1 : Compiler)
    (ast : List Statement) (function : ObjectFunction)
    (h : Compiler.compile u c ast = some (function, c1)) :
    2 ≤ function.chunk.size ∧
    function.chunk.code.drop (function.chunk.size - 2) =
      [OpCode.Nil.toByte, OpCode.Return.toByte] := by
  obtain ⟨body, hbody⟩ := Compiler.compile_code h
  unfold Chunk.size
  rw [hbody]
  refine ⟨by simp, ?_⟩
  simp

end scriptlang

namespace scriptlang

set_option maxRecDepth 100000 in
/-- Witness of `compile_ends_with_nil_return`: the statements of
`let x = 1; print x;` compiled in `Script` mode. -/
theorem compile_ends_with_nil_return_witness :
    compiledCode 100 Uninitialized.zero "let x = 1; print x;" =
      some [0, 0, 18, 1, 19, 2, 12, 25, 22] ∧
    ∃ (function : ObjectFunction) (c1 : Compiler),
      Compiler.compile Uninitialized.zero
        (Compiler.new Uninitialized.zero FunctionType.Script ErrorReporter.new)
        ((Parser.parseSoruce 100 (Parser.ofSource "let x = 1; print x;")).getD
          ([], Parser.ofSource "")).1 = some (function, c1) ∧
      2 ≤ function.chunk.size ∧
      function.chunk.code.drop (function.chunk.size - 2) =
        [OpCode.Nil.toByte, OpCode.Return.toByte] := by
  refine ⟨by decide!, ?_⟩
  have h := eq_some_getD
    (ObjectFunction.mk [] 0 Chunk.empty,
      Compiler.new Uninitialized.zero FunctionType.Script ErrorReporter.new)
    (show (Compiler.compile Uninitialized.zero
        (Compiler.new Uninitialized.zero FunctionType.Script ErrorReporter.new)
        ((Parser.parseSoruce 100 (Parser.ofSource "let x = 1; print x;")).getD
          ([], Parser.ofSource "")).1).isSome = true by decide!)
  exact ⟨_, _, h, compile_ends_with_nil_return _ _ _ _ _ h⟩

end scriptlang

namespace scriptlang

set_option maxRecDepth 100000 in
/-- C11: `Compiler::visitBreakStatement` with a null `loop_` does not stop after
the diagnostic "Can't use 'break' outside a loop.": with at least one local (slot 0
is always there while a function is compiled) it reads `loop_->scopeDepth` through
the null pointer, and with no local it appends the placeholder `0xBB 0xFF 0xFF`. The
sources `break;` and `defun f() { break; }` are not compiled to a chunk. -/
theorem break_outside_loop_goes_on (c : Compiler) (local_ : Local) (locals : List Local) :
    ({ c with loop := [], locals := local_ :: locals } : Compiler).visitBreakStatement = none ∧
    (({ c with loop := [], locals := [] } : Compiler).visitBreakStatement.map
      (fun c1 => (c1.currentChunk.code, c1.reporter.messages))) =
      some (c.currentChunk.code ++ [BREAK_PLACEHOLDER, 255, 255],
        c.reporter.messages ++ ["Can't use 'break' outside a loop."]) ∧
    runSource 100 Uninitialized.zero "break;" = some ([], RunStatus.compilerUndefined, "") ∧
    runSource 100 Uninitialized.zero "defun f() \x7b break; \x7d" =
      some ([], RunStatus.compilerUndefined, "") := by
  refine ⟨rfl, ?_, by decide!, by decide!⟩
  simp only [Compiler.visitBreakStatement, List.length_nil, if_true, Option.map_some',
    Compiler.emit_code]
  simp [Compiler.emit_reporter, Compiler.emitError, Compiler.currentChunk,
    ErrorReporter.messages, ErrorReporter.error]

end scriptlang

namespace scriptlang

set_option maxRecDepth 100000 in
/-- C17, counterexample: a NaN is a number whose payload is equal to itself, and
`Value::operator==` of it and itself is false. `0 / 0` is a NaN, and
`let n = 0 / 0; print n == n;` prints `false`. -/
theorem nan_unequal_to_itself :
    (Value.number Number.nan).eq (Value.number Number.nan) = false ∧
    (0 : Number) / 0 = Number.nan ∧
    runSource 100 Uninitialized.zero "let n = 0 / 0; print n == n;" =
      some ([], RunStatus.executed InterpreterResult.Success, "false\n") := by
  exact ⟨rfl, by decide, by decide!⟩

set_option maxRecDepth 100000 in
/-- C17, amended: `Value::operator==` is true exactly for two `Nil`, two equal
booleans, two equal numbers that are not NaN, or two equal strings, hence false for
values of different variants, for a NaN and every number, and for every pair of
functions, a function and itself included. The `Equal` opcode replaces the two top
cells by the boolean of that comparison, so it pushes `false` for two functions;
`print f == f;` prints `false`, and `1 == 1`, `1 == 2`, `1 / 0 == 1 / 0` print `true`,
`false`, `true`. -/
theorem value_equality (a b : Value) (f g : ObjectFunction) (vm : VM) :
    (a.eq b = true ↔
      (a = Value.nil ∧ b = Value.nil) ∨ (∃ x, a = Value.boolean x ∧ b = Value.boolean x) ∨
      (∃ x, x ≠ Number.nan ∧ a = Value.number x ∧ b = Value.number x) ∨
      (∃ x, a = Value.string x ∧ b = Value.string x)) ∧
    (∀ x : Number, (Value.number Number.nan).eq (Value.number x) = false ∧
      (Value.number x).eq (Value.number Number.nan) = false) ∧
    (Value.function f).eq (Value.function g) = false ∧
    (Value.function f).eq (Value.function f) = false ∧
    (2 ≤ vm.stackTop → vm.stackTop ≤ STACK_SIZE →
      vm.dispatch OpCode.Equal = StepResult.next (vm.replaceTop 2
        (Value.boolean ((vm.cell (vm.stackTop - 1)).eq (vm.cell (vm.stackTop - 2)))))) ∧
    (2 ≤ vm.stackTop → vm.stackTop ≤ STACK_SIZE →
      vm.cell (vm.stackTop - 2) = Value.function f →
      vm.cell (vm.stackTop - 1) = Value.function g →
      vm.dispatch OpCode.Equal = StepResult.next (vm.replaceTop 2 (Value.boolean false))) ∧
    runSource 100 Uninitialized.zero "defun f() \x7b \x7d print f == f;" =
      some ([], RunStatus.executed InterpreterResult.Success, "false\n") ∧
    runSource 100 Uninitialized.zero "print 1 == 1; print 1 == 2; print 1 / 0 == 1 / 0;" =
      some ([], RunStatus.executed InterpreterResult.Success, "true\nfalse\ntrue\n") := by
  have hop : 2 ≤ vm.stackTop → vm.stackTop ≤ STACK_SIZE →
      vm.dispatch OpCode.Equal = StepResult.next (vm.replaceTop 2
        (Value.boolean ((vm.cell (vm.stackTop - 1)).eq (vm.cell (vm.stackTop - 2))))) := by
    intro h1 h2
    obtain ⟨e1, e2, e3⟩ := VM.pop_pop_push vm h1 h2
    simp only [VM.dispatch, e1, e2, e3, StepResult.ofOption]
  refine ⟨?_, ?_, rfl, rfl, hop, ?_, by decide!, by decide!⟩
  · cases a with
    | number x =>
      cases b with
      | number y =>
        show x.eq y = true ↔ _
        rw [Number.eq_iff]
        constructor
        · rintro ⟨hxy, hx⟩
          exact Or.inr (Or.inr (Or.inl ⟨x, hx, rfl, by rw [hxy]⟩))
        · rintro (⟨h, _⟩ | ⟨_, h, _⟩ | ⟨z, hz, h1, h2⟩ | ⟨_, h, _⟩)
          · exact Value.noConfusion h
          · exact Value.noConfusion h
          · cases h1
            cases h2
            exact ⟨rfl, hz⟩
          · exact Value.noConfusion h
      | _ => simp [Value.eq]
    | _ => cases b <;> simp [Value.eq, eq_comm]
  · intro x
    exact ⟨Number.eq_nan_left x, Number.eq_nan_right x⟩
  · intro h1 h2 ha hb
    rw [hop h1 h2, ha, hb]
    rfl

end scriptlang

namespace scriptlang

set_option maxRecDepth 100000 in
/-- C18: `Value::isFalsey` is true exactly for `Nil`, `false` and the number zero; it
is false for `true`, every other number, every string (the empty one too) and every
function. The `Not` opcode replaces the top cell `v` by the boolean `isFalsey(v)`. -/
theorem falsey_values (v : Value) (vm : VM) :
    (v.isFalsey = true ↔ v = Value.nil ∨ v = Value.boolean false ∨ v = Value.number 0) ∧
    (Value.boolean true).isFalsey = false ∧
    (∀ n : Number, n ≠ 0 → (Value.number n).isFalsey = false) ∧
    (∀ s : List Char, (Value.string s).isFalsey = false) ∧
    (Value.string []).isFalsey = false ∧
    (∀ f : ObjectFunction, (Value.function f).isFalsey = false) ∧
    (1 ≤ vm.stackTop → vm.stackTop ≤ STACK_SIZE →
      vm.dispatch OpCode.Not = StepResult.next
        (vm.replaceTop 1 (Value.boolean (vm.cell (vm.stackTop - 1)).isFalsey))) ∧
    runSource 100 Uninitialized.zero
        "print not 0; print not 2; print not \"\"; print not nil; print not false;" =
      some ([], RunStatus.executed InterpreterResult.Success,
        "true\nfalse\nfalse\ntrue\ntrue\n") := by
  refine ⟨?_, rfl, ?_, fun _ => rfl, rfl, fun _ => rfl, ?_, by decide!⟩
  · cases v with
    | boolean b => cases b <;> simp [Value.isFalsey]
    | _ => simp [Value.isFalsey, Number.eq_zero]
  · intro n hn
    simp [Value.isFalsey, Number.eq_zero, hn]
  · intro h1 h2
    obtain ⟨vm1, e1, e2⟩ := VM.pop_push vm
      (Value.boolean (vm.cell (vm.stackTop - 1)).isFalsey) h1 h2
    simp only [VM.dispatch, e1, e2, StepResult.ofOption]

set_option maxRecDepth 100000 in
/-- C19: the `Add` opcode with `a` in the cell below the top and `b` in the top cell
replaces them by the sum when both are numbers and by the string `a` followed by `b`
when both are strings; in every other case the run stops with `RuntimeError` after the
report "Expect two numbers or two strings.". `print "foo" + "bar";` prints `foobar`
and `print 1 + "x";` returns `RuntimeError`. -/
theorem add_numbers_or_strings (vm : VM) (frame : CallFrame) (callers : List CallFrame)
    (line : Nat) :
    (2 ≤ vm.stackTop → vm.stackTop ≤ STACK_SIZE →
      (∀ x y : Number, vm.cell (vm.stackTop - 2) = Value.number x →
        vm.cell (vm.stackTop - 1) = Value.number y →
        vm.dispatch OpCode.Add = StepResult.next (vm.replaceTop 2 (Value.number (x + y)))) ∧
      (∀ x y : List Char, vm.cell (vm.stackTop - 2) = Value.string x →
        vm.cell (vm.stackTop - 1) = Value.string y →
        vm.dispatch OpCode.Add = StepResult.next (vm.replaceTop 2 (Value.string (x ++ y)))) ∧
      (¬ ((vm.cell (vm.stackTop - 2)).isNumber = true ∧
          (vm.cell (vm.stackTop - 1)).isNumber = true) →
        ¬ ((vm.cell (vm.stackTop - 2)).isString = true ∧
          (vm.cell (vm.stackTop - 1)).isString = true) →
        vm.frames = frame :: callers →
        frame.function.chunk.getLine ((frame.ip + 4294967295) % 4294967296) = some line →
        vm.dispatch OpCode.Add = StepResult.done InterpreterResult.RuntimeError
          (vm.afterError line "Expect two numbers or two strings."))) ∧
    runSource 100 Uninitialized.zero "print \"foo\" + \"bar\";" =
      some ([], RunStatus.executed InterpreterResult.Success, "foobar\n") ∧
    runSource 100 Uninitialized.zero "print 1 + 2;" =
      some ([], RunStatus.executed InterpreterResult.Success, "3\n") ∧
    runSource 100 Uninitialized.zero "print 1 + \"x\";" =
      some ([], RunStatus.executed InterpreterResult.RuntimeError,
        "Runtime error [Ln: 1] Expect two numbers or two strings.\n" ++
        "    in <function '<script>' (param count: 0) >\n") := by
  refine ⟨?_, by decide!, by decide!, by decide!⟩
  intro h1 h2
  obtain ⟨e1, e2, hpush⟩ := VM.pop_pop_push vm h1 h2
  refine ⟨?_, ?_, ?_⟩
  · intro x y ha hb
    simp only [VM.dispatch, e1, e2, ha, hb, hpush, StepResult.ofOption]
  · intro x y ha hb
    simp only [VM.dispatch, e1, e2, ha, hb, hpush, StepResult.ofOption]
  · intro hn hs hframe hline
    have herr : ({ vm with stackTop := vm.stackTop - 2 } : VM).runtimeError
          "Expect two numbers or two strings." =
        StepResult.done InterpreterResult.RuntimeError
          (vm.afterError line "Expect two numbers or two strings.") := by
      exact VM.runtimeError_eq ({ vm with stackTop := vm.stackTop - 2 } : VM) _ frame callers
        line hframe hline
    simp only [VM.dispatch, e1, e2]
    generalize vm.cell (vm.stackTop - 2) = a at hn hs ⊢
    generalize vm.cell (vm.stackTop - 1) = b at hn hs ⊢
    cases a <;> cases b <;> simp_all [Value.isNumber, Value.isString]

end scriptlang

namespace scriptlang

set_option maxRecDepth 1000000 in
/-- C20: `VM::call(function, argc)`, entered while a frame is running (`line` is the
line of the instruction being executed) with the callee and its arguments on the
stack: it fails, and then with the report "Stack overflow.", exactly when
`frameCount_` is 64; otherwise it fails, with the report "Expect N arguments, got M.",
exactly when `argc` differs from the arity; otherwise it seats one more frame with
`ip = 0` and `slots = stackTop_ - argc - 1`. The function `f` that calls itself
without condition stops with `RuntimeError` and the report "Stack overflow." when 64
frames are seated: the script's and 63 of `f`. -/
theorem call_frame_rules (vm : VM) (function : ObjectFunction) (argc : Nat) (frame : CallFrame)
    (callers : List CallFrame) (line : Nat) :
    (vm.frames = frame :: callers →
      frame.function.chunk.getLine ((frame.ip + 4294967295) % 4294967296) = some line →
      argc + 1 ≤ vm.stackTop →
      (vm.call function argc = Except.error (StepResult.done InterpreterResult.RuntimeError
          (vm.afterError line "Stack overflow.")) ↔ vm.frames.length = CALL_FRAMES) ∧
      (vm.frames.length ≠ CALL_FRAMES →
        (vm.call function argc = Except.error (StepResult.done InterpreterResult.RuntimeError
          (vm.afterError line ("Expect " ++ toString function.arity ++ " arguments, got "
            ++ toString argc ++ "."))) ↔ (argc : Int) ≠ function.arity)) ∧
      (vm.frames.length ≠ CALL_FRAMES → (argc : Int) = function.arity →
        vm.call function argc =
          Except.ok { vm with frames := ⟨function, 0, vm.stackTop - argc - 1⟩ :: vm.frames } ∧
        (⟨function, 0, vm.stackTop - argc - 1⟩ :: vm.frames).length = vm.frames.length + 1)) ∧
    runSource 1000 Uninitialized.zero "defun f() \x7b f(); \x7d f();" =
      some ([], RunStatus.executed InterpreterResult.RuntimeError,
        "Runtime error [Ln: 1] Stack overflow.\n" ++
        String.join (List.replicate 63 "    in <function 'f' (param count: 0) >\n") ++
        "    in <function '<script>' (param count: 0) >\n") := by
  refine ⟨?_, by decide!⟩
  intro hframe hline hargs
  have herr : ∀ message, vm.runtimeError message =
      StepResult.done InterpreterResult.RuntimeError (vm.afterError line message) :=
    fun message => VM.runtimeError_eq vm message frame callers line hframe hline
  refine ⟨?_, ?_, ?_⟩
  · constructor
    · intro h
      by_contra hlen
      unfold VM.call at h
      rw [if_neg hlen] at h
      by_cases harity : (argc : Int) ≠ function.arity
      · rw [if_pos harity, herr] at h
        injection h with h
        injection h with _ h
        exact arity_message_ne _ _ (VM.afterError_inj h)
      · rw [if_neg harity, if_neg (by omega)] at h
        exact Except.noConfusion h
    · intro hlen
      unfold VM.call
      rw [if_pos hlen, herr]
  · intro hlen
    constructor
    · intro h
      by_contra harity
      unfold VM.call at h
      rw [if_neg hlen, if_neg (not_not.mpr harity), if_neg (by omega)] at h
      exact Except.noConfusion h
    · intro harity
      unfold VM.call
      rw [if_neg hlen, if_pos harity, herr]
  · intro hlen harity
    refine ⟨?_, by simp⟩
    unfold VM.call
    rw [if_neg hlen, if_neg (by simpa using harity), if_neg (by omega)]

end scriptlang

namespace scriptlang

set_option maxRecDepth 1000000 in
/-- C16: `Chunk::addConstant` appends the value and returns `constants_.size() - 1`
converted to one byte. The constants already there keep their indices, and the
returned index leads back to the value while the pool had fewer than 256 entries.
With 256 entries the returned index is 0, which is the first constant, and the
compiler reports nothing: the literal `1` is then compiled to `PushConstant 0`, and
`print 1;` compiled after 256 constants `0` prints `0`. -/
theorem constant_index_wraps (c : Chunk) (v first : Value) (rest : List Value)
    (compiler : Compiler) :
    (∀ i, i < c.constants.length → (c.addConstant v).2.getConstant i = c.getConstant i) ∧
    (c.constants.length < 256 →
      (c.addConstant v).2.getConstant (c.addConstant v).1 = some v) ∧
    (c.constants = first :: rest → c.constants.length = 256 →
      (c.addConstant v).1 = 0 ∧
      (c.addConstant v).2.getConstant (c.addConstant v).1 = some first) ∧
    (compiler.currentChunk.constants = first :: rest →
      compiler.currentChunk.constants.length = 256 →
      (compiler.visitLiteralExpression (Literal.number 1)).currentChunk.code =
        compiler.currentChunk.code ++ [OpCode.PushConstant.toByte, 0] ∧
      (compiler.visitLiteralExpression (Literal.number 1)).currentChunk.getConstant 0 =
        some first ∧
      (compiler.visitLiteralExpression (Literal.number 1)).reporter = compiler.reporter) ∧
    compileAndRun 100 Uninitialized.zero
        (Compiler.withConstants Uninitialized.zero (List.replicate 256 (Value.number 0)))
        [Statement.Print SourceRange.zero
          (Expression.Literal SourceRange.zero (Literal.number 1))] =
      some (InterpreterResult.Success, "0\n") := by
  refine ⟨?_, ?_, ?_, ?_, by decide!⟩
  · intro i hi
    unfold Chunk.getConstant
    rw [Chunk.addConstant_constants, List.get?_eq_getElem?, List.get?_eq_getElem?,
      List.getElem?_append_left hi]
  · intro h
    unfold Chunk.getConstant
    rw [Chunk.addConstant_constants, Chunk.addConstant_index, Nat.mod_eq_of_lt h]
    simp
  · intro h1 h2
    unfold Chunk.getConstant
    rw [Chunk.addConstant_constants, Chunk.addConstant_index, h2, h1]
    exact ⟨rfl, rfl⟩
  · intro h1 h2
    obtain ⟨e1, e2⟩ := compiler.visitLiteralExpression_number 1
    refine ⟨by rw [e1, h2], ?_, rfl⟩
    unfold Chunk.getConstant
    rw [e2, h1]
    rfl

end scriptlang

namespace scriptlang

/-- C14: after any sequence of `Chunk::write` calls on an empty chunk whose offsets
fit the 32-bit field of `LineInfo` (at most `2^32` bytes), the code is the bytes
written, the line table is non-empty exactly when the code is, its first entry has
offset 0, the offsets are strictly increasing and below the code size, and
consecutive entries have different lines. -/
theorem line_table_invariant (ws : List (Byte × Nat)) (hsize : ws.length ≤ 4294967296) :
    (Chunk.empty.writeAll ws).code = ws.map Prod.fst ∧
    ((Chunk.empty.writeAll ws).lines ≠ [] ↔ (Chunk.empty.writeAll ws).code ≠ []) ∧
    (∀ first, (Chunk.empty.writeAll ws).lines.head? = some first → first.offset = 0) ∧
    (Chunk.empty.writeAll ws).lines.Pairwise (fun a b => a.offset < b.offset) ∧
    (∀ e ∈ (Chunk.empty.writeAll ws).lines, e.offset < (Chunk.empty.writeAll ws).size) ∧
    (Chunk.empty.writeAll ws).lines.Chain' (fun a b => a.line ≠ b.line) := by
  have h := Chunk.records_writeAll ws Chunk.empty [] Chunk.records_empty
    (by rw [List.length_nil]; omega)
  rw [List.nil_append] at h
  obtain ⟨hcode, hempty, hhead, hpair, hoff, hchain, _⟩ := h
  exact ⟨hcode, not_congr hempty, hhead, hpair, hoff, hchain⟩

/-- Witness of `line_table_invariant`: four writes on the lines 1, 1, 2, 1. -/
theorem line_table_invariant_witness :
    (Chunk.empty.writeAll [(25, 1), (1, 1), (25, 2), (22, 1)]).lines =
      [⟨1, 0⟩, ⟨2, 2⟩, ⟨1, 3⟩] ∧
    (Chunk.empty.writeAll [(25, 1), (1, 1), (25, 2), (22, 1)]).lines.Pairwise
      (fun a b => a.offset < b.offset) := by
  exact ⟨by decide,
    (line_table_invariant [(25, 1), (1, 1), (25, 2), (22, 1)] (by decide)).2.2.2.1⟩

/-- C15: for a chunk built by `Chunk::write` calls on an empty chunk, of at most
`2^31` bytes (the range in which the 32-bit sum `start + end` of the search is
exact), and every offset `i` below the code size, the binary search of
`Chunk::getLine(i)` ends, within as many iterations as the table has entries, and
returns the line argument of the write call that appended byte `i`. -/
theorem get_line_of_written_byte (ws : List (Byte × Nat)) (i : Nat)
    (hsize : ws.length ≤ 2147483648) (hi : i < ws.length) :
    (Chunk.empty.writeAll ws).code.get? i = some (ws.get ⟨i, hi⟩).1 ∧
    (Chunk.empty.writeAll ws).getLine i = some (ws.get ⟨i, hi⟩).2 := by
  have h := Chunk.records_writeAll ws Chunk.empty [] Chunk.records_empty
    (by rw [List.length_nil]; omega)
  rw [List.nil_append] at h
  have hget : ws[i]? = some (ws.get ⟨i, hi⟩) := List.getElem?_eq_getElem hi
  refine ⟨?_, Chunk.getLine_of_records _ ws h hsize i _ hget⟩
  rw [h.1, List.get?_eq_getElem?, List.getElem?_map, hget]
  rfl

/-- Witness of `get_line_of_written_byte`: the third of four writes. -/
theorem get_line_of_written_byte_witness :
    (Chunk.empty.writeAll [(25, 1), (1, 1), (25, 2), (22, 1)]).getLine 2 = some 2 :=
  (get_line_of_written_byte [(25, 1), (1, 1), (25, 2), (22, 1)] 2 (by decide) (by decide)).2

end scriptlang

namespace scriptlang

set_option maxRecDepth 1000000 in
/-- C12, as stated, fails: the loop `while false { 0; ... 0; }` with 61 statements
`0;` is compiled without a diagnostic, its range is `[0, 188)`, and right after
`patchLoopBreaks` the byte at offset 3 is `0xBB`: it is the low operand byte of the
loop's `JumpIfFalse` (a jump over 187 bytes), which the scan steps over. -/
theorem placeholder_value_operand_remains :
    (patchedLoop 1000 Uninitialized.zero
        ("while false \x7b" ++ String.join (List.replicate 61 "0;") ++ "\x7d")).map
      (fun r => (r.1, r.2.1, r.2.2.1, r.2.2.2.take 5, r.2.2.2.get? 3)) =
      some (false, 0, 188, [OpCode.False.toByte, OpCode.JumpIfFalse.toByte, 0, 187,
        OpCode.Pop.toByte], some BREAK_PLACEHOLDER) := by
  decide!

/-- C12, amended: after `patchLoopBreaks` has run for the innermost loop, no
instruction of the range `[loop.start, loop.end)` has the byte `0xBB` as its opcode:
at every offset below `loop.end` that the decoding from `loop.start` reaches, the byte
is not the placeholder. (An operand byte may have the value `0xBB`.) -/
theorem patch_loop_breaks_opcodes (c c1 : Compiler) (loop : Loop) (enclosing : List Loop)
    (hloop : c.loop = loop :: enclosing) (h : c.patchLoopBreaks = some c1) :
    ∀ j, Reaches c1.currentChunk.code loop.start j → j < loop.end_ →
      c1.currentChunk.code.get? j ≠ some BREAK_PLACEHOLDER := by
  unfold Compiler.patchLoopBreaks at h
  rw [hloop] at h
  simp only [] at h
  cases hp : patchLoopBreaksLoop loop.end_ (loop.end_ - loop.start + 1) loop.start
      c.currentChunk with
  | none =>
    rw [hp] at h
    exact Option.noConfusion h
  | some chunk =>
    rw [hp] at h
    rw [← Option.some.inj h, Compiler.setChunk_currentChunk]
    exact patchLoopBreaksLoop_reaches loop.end_ _ loop.start c.currentChunk chunk hp (by omega)

/-- Witness of `patch_loop_breaks_opcodes`: the chunk `0xBB 0xFF 0xFF Pop` with the
loop range `[0, 3)`; the placeholder becomes `Jump 3`. -/
theorem patch_loop_breaks_opcodes_witness :
    (Chunk.mk [] [OpCode.Jump.toByte, 0, 3, OpCode.Pop.toByte] [⟨1, 0⟩]).code.get? 0 ≠
      some BREAK_PLACEHOLDER :=
  patch_loop_breaks_opcodes
    (({ Compiler.new Uninitialized.zero FunctionType.Script ErrorReporter.new with
        loop := [⟨0, 0, 3⟩] } : Compiler).setChunk
      (Chunk.mk [] [BREAK_PLACEHOLDER, 255, 255, OpCode.Pop.toByte] [⟨1, 0⟩]))
    (({ Compiler.new Uninitialized.zero FunctionType.Script ErrorReporter.new with
        loop := [⟨0, 0, 3⟩] } : Compiler).setChunk
      (Chunk.mk [] [OpCode.Jump.toByte, 0, 3, OpCode.Pop.toByte] [⟨1, 0⟩]))
    ⟨0, 0, 3⟩ [] rfl rfl 0 (Reaches.here 0) (by decide)

end scriptlang

namespace scriptlang

/-- C13: for every program that `Compiler::compile` compiles in `Script` mode without
a diagnostic, in every emitted chunk (the chunk of the script and the chunk of every
function of its constant pool, which are all the chunks: the pool of such a function
holds no function) every `Jump`, `JumpIfFalse` and `Loop` instruction has its two
operand bytes in the chunk, and its target, `offset + 3 + operand` for the jumps and
`offset + 3 - operand` for `Loop` with the operand read high byte first, is not
negative and is the offset of the first byte of an instruction of the same chunk. -/
theorem jump_targets_valid (u : Uninitialized) (reporter : ErrorReporter)
    (ast : List Statement) (function : ObjectFunction) (c1 : Compiler)
    (h : Compiler.compile u (Compiler.new u FunctionType.Script reporter) ast =
      some (function, c1))
    (hok : c1.reporter.hadError = false) :
    (∀ chunk ∈ emittedChunks function, ValidJumps chunk.code) ∧
    ∀ g, Value.function g ∈ function.chunk.constants →
      ∀ w ∈ g.chunk.constants, w.isFunction = false := by
  unfold Compiler.compile at h
  cases hs : Compiler.compileStatements u ast (Compiler.new u FunctionType.Script reporter) with
  | none =>
    rw [hs] at h
    exact Option.noConfusion h
  | some c2 =>
    rw [hs] at h
    have hpair := Option.some.inj h
    have hf : function = c2.finish.compilingFunction := (congrArg Prod.fst hpair).symm
    have hc : c1 = c2.finish := (congrArg Prod.snd hpair).symm
    have hok2 : c2.reporter.hadError = false := by
      rw [hc] at hok
      exact hok
    obtain ⟨_, k2, k3⟩ := Compiler.compileStatements_keeps u ast _ _ hs
    obtain ⟨i1, i2⟩ := (k3 hok2).2 (fun _ => False)
      ⟨InvCode.empty, fun g hg => absurd hg (List.not_mem_nil _)⟩
    rw [k2] at i1
    have hcode : ValidJumps function.chunk.code := by
      rw [hf, Compiler.finish_code]
      exact InvCode.validJumps i1
    have hconst : function.chunk.constants = c2.currentChunk.constants := by
      rw [hf, Compiler.finish_constants]
    constructor
    · intro chunk hchunk
      unfold emittedChunks at hchunk
      rw [List.mem_cons, List.mem_filterMap] at hchunk
      cases hchunk with
      | inl hchunk =>
        rw [hchunk]
        exact hcode
      | inr hchunk =>
        obtain ⟨v, hv, hvc⟩ := hchunk
        cases v with
        | function g =>
          rw [hconst] at hv
          have hg : g.chunk = chunk := Option.some.inj hvc
          rw [← hg]
          exact (i2 g hv).2.1
        | number n => exact Option.noConfusion hvc
        | string s => exact Option.noConfusion hvc
        | boolean b => exact Option.noConfusion hvc
        | nil => exact Option.noConfusion hvc
    · intro g hg
      rw [hconst] at hg
      exact (i2 g hg).2.2

set_option maxRecDepth 1000000 in
/-- Witness of `jump_targets_valid`: the program
`defun f(a) { while a { if a { break; } else { continue; } } }` is compiled without a
diagnostic; the chunk of `f` holds two `JumpIfFalse`, two `Jump` (one of them the
patched `break`) and two `Loop` instructions. -/
theorem jump_targets_valid_witness :
    (Compiler.compile Uninitialized.zero
          (Compiler.new Uninitialized.zero FunctionType.Script ErrorReporter.new)
          ((Parser.parseSoruce 100 (Parser.ofSource
            "defun f(a) \x7b while a \x7b if a \x7b break; \x7d else \x7b continue; \x7d \x7d \x7d")).getD
            ([], Parser.ofSource "")).1).isSome = true ∧
    ((Compiler.compile Uninitialized.zero
          (Compiler.new Uninitialized.zero FunctionType.Script ErrorReporter.new)
          ((Parser.parseSoruce 100 (Parser.ofSource
            "defun f(a) \x7b while a \x7b if a \x7b break; \x7d else \x7b continue; \x7d \x7d \x7d")).getD
            ([], Parser.ofSource "")).1).getD
          (ObjectFunction.mk [] 0 Chunk.empty,
            Compiler.new Uninitialized.zero FunctionType.Script ErrorReporter.new)).2.reporter.hadError = false ∧
    (∀ chunk ∈ emittedChunks
        ((Compiler.compile Uninitialized.zero
          (Compiler.new Uninitialized.zero FunctionType.Script ErrorReporter.new)
          ((Parser.parseSoruce 100 (Parser.ofSource
            "defun f(a) \x7b while a \x7b if a \x7b break; \x7d else \x7b continue; \x7d \x7d \x7d")).getD
            ([], Parser.ofSource "")).1).getD
          (ObjectFunction.mk [] 0 Chunk.empty,
            Compiler.new Uninitialized.zero FunctionType.Script ErrorReporter.new)).1,
      ValidJumps chunk.code) ∧
    ∀ g, Value.function g ∈
        ((Compiler.compile Uninitialized.zero
          (Compiler.new Uninitialized.zero FunctionType.Script ErrorReporter.new)
          ((Parser.parseSoruce 100 (Parser.ofSource
            "defun f(a) \x7b while a \x7b if a \x7b break; \x7d else \x7b continue; \x7d \x7d \x7d")).getD
            ([], Parser.ofSource "")).1).getD
          (ObjectFunction.mk [] 0 Chunk.empty,
            Compiler.new Uninitialized.zero FunctionType.Script ErrorReporter.new)).1.chunk.constants →
      ∀ w ∈ g.chunk.constants, w.isFunction = false :=
  ⟨by decide!, by decide!,
    jump_targets_valid Uninitialized.zero ErrorReporter.new _ _ _
      (eq_some_getD
        (ObjectFunction.mk [] 0 Chunk.empty,
            Compiler.new Uninitialized.zero FunctionType.Script ErrorReporter.new)
        (show (Compiler.compile Uninitialized.zero
          (Compiler.new Uninitialized.zero FunctionType.Script ErrorReporter.new)
          ((Parser.parseSoruce 100 (Parser.ofSource
            "defun f(a) \x7b while a \x7b if a \x7b break; \x7d else \x7b continue; \x7d \x7d \x7d")).getD
            ([], Parser.ofSource "")).1).isSome = true by decide!))
      (by decide!)⟩

end scriptlang

namespace scriptlang

set_option maxRecDepth 1000000 in
/-- C22: the `DefineGlobal` opcode, in a frame whose operand byte is the index of the
string constant `name` (`line` is the line of the instruction): when `name` is a key of
`globals_` the run stops with `RuntimeError` after the report "Global variable 'name'
already defined." and the globals are what they were; otherwise the top cell is popped
and `name` is bound to it, the other bindings being what they were. The program
`let x = 1;` followed on line 2 by `let x = 2;` returns `RuntimeError`, reported for
line 2. -/
theorem define_global_rules (vm : VM) (frame : CallFrame) (callers : List CallFrame)
    (index : Byte) (name : List Char) (line : Nat) :
    (vm.frames = frame :: callers →
      frame.function.chunk.get frame.ip = some index →
      frame.function.chunk.getConstant index = some (Value.string name) →
      (vm.hasGlobal name = true →
        frame.function.chunk.getLine ((frame.ip + 1 + 4294967295) % 4294967296) = some line →
        vm.dispatch OpCode.DefineGlobal = StepResult.done InterpreterResult.RuntimeError
          (({ vm with frames := { frame with ip := frame.ip + 1 } :: callers } : VM).afterError
            line ("Global variable '" ++ String.mk name ++ "' already defined.")) ∧
        (({ vm with frames := { frame with ip := frame.ip + 1 } :: callers } : VM).afterError
            line ("Global variable '" ++ String.mk name ++ "' already defined.")).globals =
          vm.globals) ∧
      (vm.hasGlobal name = false → 1 ≤ vm.stackTop → vm.stackTop ≤ STACK_SIZE →
        vm.dispatch OpCode.DefineGlobal = StepResult.next
          { vm with
            frames := { frame with ip := frame.ip + 1 } :: callers,
            stackTop := vm.stackTop - 1,
            globals := assignGlobal vm.globals name (vm.cell (vm.stackTop - 1)) } ∧
        (assignGlobal vm.globals name (vm.cell (vm.stackTop - 1))).lookup name =
          some (vm.cell (vm.stackTop - 1)) ∧
        ∀ other, other ≠ name →
          (assignGlobal vm.globals name (vm.cell (vm.stackTop - 1))).lookup other =
            vm.globals.lookup other)) ∧
    runSource 1000 Uninitialized.zero "let x = 1;\nlet x = 2;" =
      some ([], RunStatus.executed InterpreterResult.RuntimeError,
        "Runtime error [Ln: 2] Global variable 'x' already defined.\n" ++
        "    in <function '<script>' (param count: 0) >\n") ∧
    runSource 1000 Uninitialized.zero "let x = 1;\nlet y = 2; print x + y;" =
      some ([], RunStatus.executed InterpreterResult.Success, "3\n") := by
  refine ⟨?_, by decide!, by decide!⟩
  intro hframe hbyte hconstant
  have hread := VM.readName_eq vm frame callers index name hframe hbyte hconstant
  constructor
  · intro hhas hline
    refine ⟨?_, rfl⟩
    have hhas1 : ({ vm with frames := { frame with ip := frame.ip + 1 } :: callers }
        : VM).hasGlobal name = true := hhas
    simp only [VM.dispatch, hread, hhas1, if_true]
    exact VM.runtimeError_after_read vm frame callers line _ hline
  · intro hhas h1 h2
    refine ⟨?_, assignGlobal_lookup_self _ _ _, fun other hne =>
      assignGlobal_lookup_ne _ _ _ _ hne⟩
    have hhas1 : ({ vm with frames := { frame with ip := frame.ip + 1 } :: callers }
        : VM).hasGlobal name = false := hhas
    have hpop := VM.pop_eq ({ vm with frames := { frame with ip := frame.ip + 1 } :: callers }
      : VM) h1 h2
    simp only [VM.dispatch, hread, hhas1, hpop]
    rfl

set_option maxRecDepth 1000000 in
/-- C23: the `SetGlobal` opcode, in a frame whose operand byte is the index of the
string constant `name`: when `name` is not a key of `globals_` the run stops with
`RuntimeError` after the report "Undefined global variable 'name'." and the globals are
what they were, `name` not being bound; otherwise `name` is bound to the value of the
top cell, the keys and the other bindings are what they were, and the stack and its
top are unchanged. -/
theorem set_global_rules (vm : VM) (frame : CallFrame) (callers : List CallFrame)
    (index : Byte) (name : List Char) (line : Nat) :
    (vm.frames = frame :: callers →
      frame.function.chunk.get frame.ip = some index →
      frame.function.chunk.getConstant index = some (Value.string name) →
      (vm.hasGlobal name = false →
        frame.function.chunk.getLine ((frame.ip + 1 + 4294967295) % 4294967296) = some line →
        vm.dispatch OpCode.SetGlobal = StepResult.done InterpreterResult.RuntimeError
          (({ vm with frames := { frame with ip := frame.ip + 1 } :: callers } : VM).afterError
            line ("Undefined global variable '" ++ String.mk name ++ "'.")) ∧
        (({ vm with frames := { frame with ip := frame.ip + 1 } :: callers } : VM).afterError
            line ("Undefined global variable '" ++ String.mk name ++ "'.")).globals =
          vm.globals ∧
        (({ vm with frames := { frame with ip := frame.ip + 1 } :: callers } : VM).afterError
            line ("Undefined global variable '" ++ String.mk name ++ "'.")).hasGlobal name =
          false) ∧
      (vm.hasGlobal name = true → 1 ≤ vm.stackTop → vm.stackTop ≤ STACK_SIZE →
        vm.dispatch OpCode.SetGlobal = StepResult.next
          { vm with
            frames := { frame with ip := frame.ip + 1 } :: callers,
            globals := assignGlobal vm.globals name (vm.cell (vm.stackTop - 1)) } ∧
        (assignGlobal vm.globals name (vm.cell (vm.stackTop - 1))).lookup name =
          some (vm.cell (vm.stackTop - 1)) ∧
        (∀ other, other ≠ name →
          (assignGlobal vm.globals name (vm.cell (vm.stackTop - 1))).lookup other =
            vm.globals.lookup other) ∧
        (assignGlobal vm.globals name (vm.cell (vm.stackTop - 1))).map Prod.fst =
          vm.globals.map Prod.fst)) ∧
    runSource 1000 Uninitialized.zero "x = 1;" =
      some ([], RunStatus.executed InterpreterResult.RuntimeError,
        "Runtime error [Ln: 1] Undefined global variable 'x'.\n" ++
        "    in <function '<script>' (param count: 0) >\n") ∧
    runSource 1000 Uninitialized.zero "let x = 1; let y = 5; print (x = 2) + x + y;" =
      some ([], RunStatus.executed InterpreterResult.Success, "9\n") := by
  refine ⟨?_, by decide!, by decide!⟩
  intro hframe hbyte hconstant
  have hread := VM.readName_eq vm frame callers index name hframe hbyte hconstant
  constructor
  · intro hhas hline
    refine ⟨?_, rfl, hhas⟩
    have hhas1 : ({ vm with frames := { frame with ip := frame.ip + 1 } :: callers }
        : VM).hasGlobal name = false := hhas
    simp only [VM.dispatch, hread, hhas1]
    exact VM.runtimeError_after_read vm frame callers line _ hline
  · intro hhas h1 h2
    refine ⟨?_, assignGlobal_lookup_self _ _ _, fun other hne =>
      assignGlobal_lookup_ne _ _ _ _ hne, assignGlobal_keys _ _ _ hhas⟩
    have hhas1 : ({ vm with frames := { frame with ip := frame.ip + 1 } :: callers }
        : VM).hasGlobal name = true := hhas
    have hpeek := VM.peek_eq ({ vm with frames := { frame with ip := frame.ip + 1 } :: callers }
      : VM) h1 h2
    simp only [VM.dispatch, hread, hhas1, hpeek, if_true]
    rfl

end scriptlang

namespace scriptlang

set_option maxRecDepth 1000000 in
/-- C25: the `Call` opcode with operand `argc`, in a frame on line `line`, `callee`
being the value at `peek(argc)`: the run stops with `RuntimeError` after the report
"Can only call functions." if and only if `callee` is not a function. The program
`let x = 1; x();` returns `RuntimeError` with that report, and the trace shows the
frame of the script alone. -/
theorem call_non_function (vm : VM) (frame : CallFrame) (callers : List CallFrame)
    (argc : Byte) (callee : Value) (line : Nat) :
    (vm.frames = frame :: callers →
      frame.function.chunk.get frame.ip = some argc →
      ({ vm with frames := { frame with ip := frame.ip + 1 } :: callers } : VM).peek argc =
        some callee →
      frame.function.chunk.getLine ((frame.ip + 1 + 4294967295) % 4294967296) = some line →
      (vm.dispatch OpCode.Call = StepResult.done InterpreterResult.RuntimeError
          (({ vm with frames := { frame with ip := frame.ip + 1 } :: callers } : VM).afterError
            line "Can only call functions.") ↔
        callee.isFunction = false)) ∧
    runSource 1000 Uninitialized.zero "let x = 1; x();" =
      some ([], RunStatus.executed InterpreterResult.RuntimeError,
        "Runtime error [Ln: 1] Can only call functions.\n" ++
        "    in <function '<script>' (param count: 0) >\n") ∧
    runSource 1000 Uninitialized.zero "defun f() \x7b print 1; \x7d f();" =
      some ([], RunStatus.executed InterpreterResult.Success, "1\n") := by
  refine ⟨?_, by decide!, by decide!⟩
  intro hframe hbyte hpeek hline
  have hread := VM.readByte_eq vm frame callers argc hframe hbyte
  have herr : ∀ message,
      ({ vm with frames := { frame with ip := frame.ip + 1 } :: callers } : VM).runtimeError
          message =
        StepResult.done InterpreterResult.RuntimeError
          (({ vm with frames := { frame with ip := frame.ip + 1 } :: callers } : VM).afterError
            line message) :=
    fun message => VM.runtimeError_after_read vm frame callers line message hline
  have hdispatch : vm.dispatch OpCode.Call =
      match ({ vm with frames := { frame with ip := frame.ip + 1 } :: callers }
          : VM).callValue callee argc with
      | Except.error r => r
      | Except.ok vm2 => StepResult.next vm2 := by
    simp only [VM.dispatch, hread, hpeek]
  rw [hdispatch]
  cases callee with
  | function g =>
    simp only [VM.callValue, Value.isFunction]
    constructor
    · intro h
      exfalso
      by_cases hlen : ({ vm with frames := { frame with ip := frame.ip + 1 } :: callers }
          : VM).frames.length = CALL_FRAMES
      · unfold VM.call at h
        rw [if_pos hlen, herr] at h
        simp only [StepResult.done.injEq, true_and] at h
        exact absurd (VM.afterError_inj h) (by decide)
      · by_cases harity : (argc : Int) ≠ g.arity
        · unfold VM.call at h
          rw [if_neg hlen, if_pos harity, herr] at h
          simp only [StepResult.done.injEq, true_and] at h
          have h1 := congrArg String.data (VM.afterError_inj h)
          simp only [String.data_append] at h1
          have h2 := congrArg List.head? h1
          simp at h2
        · by_cases hargs : ({ vm with frames := { frame with ip := frame.ip + 1 } :: callers }
              : VM).stackTop < argc + 1
          · unfold VM.call at h
            rw [if_neg hlen, if_neg harity, if_pos hargs] at h
            simp only [StepResult.done.injEq] at h
            exact InterpreterResult.noConfusion h.1
          · unfold VM.call at h
            rw [if_neg hlen, if_neg harity, if_neg hargs] at h
            exact StepResult.noConfusion h
    · intro h
      exact Bool.noConfusion h
  | number n => simp only [VM.callValue, Value.isFunction, herr]
  | string s => simp only [VM.callValue, Value.isFunction, herr]
  | boolean b => simp only [VM.callValue, Value.isFunction, herr]
  | nil => simp only [VM.callValue, Value.isFunction, herr]

end scriptlang

namespace scriptlang

set_option maxRecDepth 1000000 in
/-- C24: the globals outlive a call of `execute`. `resetStack` leaves them as they
are; the step with which a run returns, whatever the result, leaves them as they are;
and the next `execute` on the machine starts its run with them. In two successive
`runCode` calls on the static machine the second sees the globals of the first, whether
the first returned `Success` or `RuntimeError`. -/
theorem globals_persist (fuel : Nat) (vm : VM) (function : ObjectFunction) :
    vm.resetStack.globals = vm.globals ∧
    (∀ result vm1, vm.step = StepResult.done result vm1 → vm1.globals = vm.globals) ∧
    (VM.execute fuel vm function = some (InterpreterResult.Undefined, vm) ∨
      ∃ vm1, vm1.globals = vm.globals ∧ VM.execute fuel vm function = VM.run fuel vm1) ∧
    runTwice 1000 Uninitialized.zero "let x = 1; let y = \"a\";" "print x; print y;" =
      some (RunStatus.executed InterpreterResult.Success,
        RunStatus.executed InterpreterResult.Success, "1\na\n") ∧
    runTwice 1000 Uninitialized.zero "let x = 1; print x + nil;" "print x;" =
      some (RunStatus.executed InterpreterResult.RuntimeError,
        RunStatus.executed InterpreterResult.Success,
        "Runtime error [Ln: 1] Expect two numbers or two strings.\n" ++
        "    in <function '<script>' (param count: 0) >\n1\n") := by
  refine ⟨rfl, ?_, VM.execute_globals fuel vm function, by decide!, by decide!⟩
  intro result vm1 h
  have h1 := VM.doneWith_step vm
  rw [h] at h1
  exact h1

set_option maxRecDepth 1000000 in
/-- C26, the code at two programs that are compiled without a diagnostic. For
`{ defun f() {} defun g() {} }` `execute` returns `Success` with one value left on the
stack: both function values are pushed, the end of the block pops one, and the final
`Return` pops the other in place of the script function. For `while true { break; }`
the final `Return` pops below the base of the stack. When `runtimeError` reports, it
does leave no frame and an empty stack. -/
theorem execute_leaves_stack (vm vm1 : VM) (message : String) :
    (runCode 1000 Uninitialized.zero "\x7b defun f() \x7b\x7d defun g() \x7b\x7d \x7d".toList
        EXECUTE VM.new).map
      (fun outcome => (outcome.reporter.hadError, outcome.status, outcome.vm.frames.length,
        outcome.vm.stackTop)) =
      some (false, RunStatus.executed InterpreterResult.Success, 0, 1) ∧
    (runCode 1000 Uninitialized.zero "while true \x7b break; \x7d".toList EXECUTE VM.new).map
      (fun outcome => (outcome.reporter.hadError, outcome.status, outcome.vm.frames.length,
        outcome.vm.stackTop)) =
      some (false, RunStatus.executed InterpreterResult.Undefined, 0, 0) ∧
    (vm.runtimeError message = StepResult.done InterpreterResult.RuntimeError vm1 →
      vm1.frames.length = 0 ∧ vm1.stackTop = 0) := by
  refine ⟨by decide!, by decide!, ?_⟩
  intro h
  unfold VM.runtimeError at h
  split at h
  · simp only [StepResult.done.injEq] at h
    exact InterpreterResult.noConfusion h.1
  · split at h
    · simp only [StepResult.done.injEq] at h
      exact InterpreterResult.noConfusion h.1
    · simp only [StepResult.done.injEq, true_and] at h
      rw [← h]
      exact ⟨rfl, rfl⟩

/-- C29: when `runCode` has called `vm.execute`, the parser had reported no error,
the compiler had reported no error, and the flags were `EXECUTE`; in every other case
the machine is left as it was. -/
theorem run_code_skips_execution (fuel : Nat) (u : Uninitialized) (source : List Char)
    (flags : Nat) (vm : VM) (outcome : RunOutcome)
    (h : runCode fuel u source flags vm = some outcome) :
    (∀ result, outcome.status = RunStatus.executed result →
      ∃ ast parser function compiler,
        Parser.parseSoruce fuel (Parser.new source ErrorReporter.new) = some (ast, parser) ∧
        parser.reporter.hadError = false ∧
        Compiler.compile u (Compiler.new u FunctionType.Script parser.reporter.reset) ast =
          some (function, compiler) ∧
        compiler.reporter.hadError = false ∧
        flags = EXECUTE ∧
        vm.execute fuel function = some (result, outcome.vm)) ∧
    ((∀ result, outcome.status ≠ RunStatus.executed result) → outcome.vm = vm) := by
  unfold runCode at h
  cases hp : Parser.parseSoruce fuel (Parser.new source ErrorReporter.new) with
  | none =>
    rw [hp] at h
    exact Option.noConfusion h
  | some r =>
    obtain ⟨ast, parser⟩ := r
    rw [hp] at h
    simp only [] at h
    by_cases herr : parser.reporter.hadError = true
    · rw [if_pos herr] at h
      rw [← Option.some.inj h]
      exact ⟨fun result hs => RunStatus.noConfusion hs, fun _ => rfl⟩
    · rw [if_neg herr] at h
      cases hc : Compiler.compile u
          (Compiler.new u FunctionType.Script parser.reporter.reset) ast with
      | none =>
        rw [hc] at h
        rw [← Option.some.inj h]
        exact ⟨fun result hs => RunStatus.noConfusion hs, fun _ => rfl⟩
      | some q =>
        obtain ⟨function, compiler⟩ := q
        rw [hc] at h
        simp only [] at h
        by_cases herr2 : compiler.reporter.hadError = true
        · rw [if_pos herr2] at h
          rw [← Option.some.inj h]
          exact ⟨fun result hs => RunStatus.noConfusion hs, fun _ => rfl⟩
        · rw [if_neg herr2] at h
          by_cases hflags : flags = EXECUTE
          · rw [if_pos hflags] at h
            cases he : vm.execute fuel function with
            | none =>
              rw [he] at h
              exact Option.noConfusion h
            | some e =>
              obtain ⟨result1, vm1⟩ := e
              rw [he] at h
              rw [← Option.some.inj h]
              refine ⟨?_, fun hne => absurd rfl (hne result1)⟩
              intro result hs
              have hr : result1 = result := RunStatus.executed.inj hs
              rw [← hr]
              exact ⟨ast, parser, function, compiler, rfl, by simpa using herr, hc,
                by simpa using herr2, hflags, he⟩
          · rw [if_neg hflags] at h
            rw [← Option.some.inj h]
            exact ⟨fun result hs => RunStatus.noConfusion hs, fun _ => rfl⟩

set_option maxRecDepth 1000000 in
/-- Witness of `run_code_skips_execution`: `return 1;` is parsed without error and
the compiler reports "Can't return from top-level."; the machine is not run. -/
theorem run_code_skips_execution_witness :
    (runCode 1000 Uninitialized.zero "return 1;".toList EXECUTE VM.new).isSome = true ∧
    ((runCode 1000 Uninitialized.zero "return 1;".toList EXECUTE VM.new).getD
      ⟨ErrorReporter.new, RunStatus.parseError, VM.new⟩).status = RunStatus.compileError ∧
    ((∀ result,
      ((runCode 1000 Uninitialized.zero "return 1;".toList EXECUTE VM.new).getD
        ⟨ErrorReporter.new, RunStatus.parseError, VM.new⟩).status ≠
        RunStatus.executed result) →
      ((runCode 1000 Uninitialized.zero "return 1;".toList EXECUTE VM.new).getD
        ⟨ErrorReporter.new, RunStatus.parseError, VM.new⟩).vm = VM.new) :=
  ⟨by decide!, by decide!,
    (run_code_skips_execution 1000 Uninitialized.zero "return 1;".toList EXECUTE VM.new _
      (eq_some_getD ⟨ErrorReporter.new, RunStatus.parseError, VM.new⟩ (by decide!))).2⟩

end scriptlang

namespace scriptlang

set_option maxRecDepth 1000000 in
/-- C28: `resolveVariableName(name)` returns `-1`, and reports nothing, when no local
has the name; otherwise it returns the largest index `i` of a local with the name, and
it reports "You can't use a variable in it's own initializer." exactly when that local
has depth `-1`. So `let x = x;` in a block is reported, and at global scope it is not
(the run then fails on the undefined global); an inner `x` hides an outer one. -/
theorem resolve_innermost (c : Compiler) (name : Token) :
    ((∀ local_ ∈ c.locals, local_.name.lexeme ≠ name.lexeme) →
      c.resolveVariableName name = (-1, c)) ∧
    (∀ (i : Nat) (local_ : Local), c.locals.get? i = some local_ →
      local_.name.lexeme = name.lexeme →
      (∀ j other, i < j → c.locals.get? j = some other →
        other.name.lexeme ≠ name.lexeme) →
      (c.resolveVariableName name).1 = (i : Int) ∧
      (local_.depth = -1 → (c.resolveVariableName name).2 =
        c.emitError "You can't use a variable in it's own initializer.") ∧
      (local_.depth ≠ -1 → (c.resolveVariableName name).2 = c)) ∧
    runSource 1000 Uninitialized.zero "\x7b let x = x; \x7d" =
      some (["You can't use a variable in it's own initializer."],
        RunStatus.compileError, "") ∧
    runSource 1000 Uninitialized.zero "let x = x;" =
      some ([], RunStatus.executed InterpreterResult.RuntimeError,
        "Runtime error [Ln: 1] Undefined global variable 'x'.\n" ++
        "    in <function '<script>' (param count: 0) >\n") ∧
    runSource 1000 Uninitialized.zero
        "\x7b let x = 1; \x7b let x = 2; print x; \x7d print x; \x7d" =
      some ([], RunStatus.executed InterpreterResult.Success, "2\n1\n") := by
  exact ⟨Compiler.resolveVariableName_none c name,
    fun i local_ hi hname habove =>
      Compiler.resolveVariableName_at c name i local_ hi hname habove,
    by decide!, by decide!, by decide!⟩

end scriptlang

namespace scriptlang

set_option maxRecDepth 1000000 in
/-- C30: parameters are the local slots `1..n`. In the compiler of a function, after
the parameter loop of `visitFunctionDeclaration`, slot 0 is the reserved local, and a
parameter `p` that is the `k`-th one (counted from 1; `index + 1` below) and is not
named again by a later parameter resolves to slot `k`: a use of it is compiled to
`GetLocal k`. In the machine, `Call` with `argc` arguments on a function of that arity
seats a frame whose `slots[0]` is the cell of the callee and whose `slots[k]` is the
cell of the `k`-th argument, and `GetLocal k` in a frame pushes the value of
`slots[k]`. The function `f(a, b, c)` that prints `c`, `a`, `b` is compiled to
`GetLocal 3`, `GetLocal 1`, `GetLocal 2`, and `f(1, 2, 3)` prints 3, 1, 2. -/
theorem parameters_are_slots (u : Uninitialized) (reporter : ErrorReporter) (name : Token)
    (params : List Token) (sub : Compiler) (index : Nat) (p : Token) (location : SourceRange)
    (vm : VM) (frame : CallFrame) (callers : List CallFrame) (argc slot : Nat)
    (g : ObjectFunction) :
    (Compiler.declareParameters params
        ({ Compiler.new u FunctionType.Function reporter with
            compilingFunction := ObjectFunction.mk name.lexeme u.arity Chunk.empty }
          : Compiler).beginScope = some sub →
      sub.locals.get? 0 = some ⟨Token.default, u.depth⟩ ∧
      (params.get? index = some p →
        (∀ j other, index < j → params.get? j = some other → other.lexeme ≠ p.lexeme) →
        sub.resolveVariableName p = (((index + 1 : Nat) : Int), sub) ∧
        (Compiler.compileExpression u (Expression.Variable location p) sub).map
            (fun c1 => c1.currentChunk.code) =
          some [OpCode.GetLocal.toByte, index + 1])) ∧
    (vm.frames = frame :: callers →
      frame.function.chunk.get frame.ip = some argc →
      ({ vm with frames := { frame with ip := frame.ip + 1 } :: callers } : VM).peek argc =
        some (Value.function g) →
      vm.frames.length ≠ CALL_FRAMES → (argc : Int) = g.arity → vm.stackTop ≤ STACK_SIZE →
      vm.dispatch OpCode.Call = StepResult.next
        { vm with frames :=
            ⟨g, 0, vm.stackTop - argc - 1⟩ :: { frame with ip := frame.ip + 1 } :: callers } ∧
      vm.cell (vm.stackTop - argc - 1 + 0) = Value.function g ∧
      ∀ k, 1 ≤ k → k ≤ argc →
        vm.peek (argc - k) = some (vm.cell (vm.stackTop - argc - 1 + k))) ∧
    (vm.frames = frame :: callers →
      frame.function.chunk.get frame.ip = some slot →
      vm.stackTop < STACK_SIZE → frame.slots + slot < STACK_SIZE →
      vm.dispatch OpCode.GetLocal = StepResult.next
        { vm with frames := { frame with ip := frame.ip + 1 } :: callers,
                  stack := writeCell vm.stack vm.stackTop (vm.cell (frame.slots + slot)),
                  stackTop := vm.stackTop + 1 } ∧
      (writeCell vm.stack vm.stackTop (vm.cell (frame.slots + slot))).getD vm.stackTop
          Value.nil = vm.cell (frame.slots + slot)) ∧
    (compileSource 1000 Uninitialized.zero
        "defun f(a, b, c) \x7b print c; print a; print b; \x7d f(1, 2, 3);").map
      (fun function => function.chunk.constants.filterMap
        (fun v => v.functionChunk.map (fun chunk => chunk.code))) =
      some [[OpCode.GetLocal.toByte, 3, OpCode.Print.toByte,
        OpCode.GetLocal.toByte, 1, OpCode.Print.toByte,
        OpCode.GetLocal.toByte, 2, OpCode.Print.toByte,
        OpCode.Nil.toByte, OpCode.Return.toByte]] ∧
    runSource 1000 Uninitialized.zero
        "defun f(a, b, c) \x7b print c; print a; print b; \x7d f(1, 2, 3);" =
      some ([], RunStatus.executed InterpreterResult.Success, "3\n1\n2\n") := by
  refine ⟨?_, ?_, ?_, by decide!, by decide!⟩
  · intro hsub
    obtain ⟨e1, e2, e3, e4⟩ := Compiler.declareParameters_locals params _ sub
      (by show 0 < (0 + 1) % 65536; decide) (by show 1 ≤ 255; decide) hsub
    have hlocals : sub.locals = ⟨Token.default, u.depth⟩ ::
        params.map (fun q => (⟨q, 1⟩ : Local)) := e1
    refine ⟨by rw [hlocals]; rfl, ?_⟩
    intro hp hlater
    have hat : sub.locals.get? (index + 1) = some ⟨p, 1⟩ := by
      rw [hlocals, List.get?_eq_getElem?, List.getElem?_cons_succ, List.getElem?_map]
      rw [List.get?_eq_getElem?] at hp
      rw [hp]
      rfl
    have hlt : index + 1 < sub.locals.length := by
      rw [List.get?_eq_some] at hat
      exact hat.1
    have key : ∀ c : Compiler, c.locals = sub.locals →
        c.resolveVariableName p = (((index + 1 : Nat) : Int), c) := by
      intro c hc
      obtain ⟨r1, _, r3⟩ := Compiler.resolveVariableName_at c p (index + 1) ⟨p, 1⟩
        (by rw [hc]; exact hat) rfl
        (by
          intro j other hj ho
          rw [hc, hlocals] at ho
          cases j with
          | zero => omega
          | succ j =>
            rw [List.get?_eq_getElem?, List.getElem?_cons_succ, List.getElem?_map] at ho
            cases hq : params[j]? with
            | none =>
              rw [hq] at ho
              exact Option.noConfusion ho
            | some q =>
              rw [hq] at ho
              simp only [Option.map_some', Option.some.injEq] at ho
              rw [← ho]
              exact hlater j q (by omega) (by rw [List.get?_eq_getElem?]; exact hq))
      exact Prod.ext r1 (r3 (by show (1 : Int) ≠ -1; decide))
    refine ⟨key sub rfl, ?_⟩
    have hres1 := key ({ sub with currentNodeLocation := location } : Compiler) rfl
    rw [Compiler.compileExpression_variable]
    simp only [Option.map_some', Option.some.injEq]
    unfold Compiler.emitVariableAccess
    rw [hres1]
    simp only []
    rw [if_neg (by omega)]
    rw [Compiler.emit_code, Compiler.emitOp_code]
    have hcode : ({ sub with currentNodeLocation := location }
        : Compiler).currentChunk.code = [] := by
      show sub.currentChunk.code = []
      rw [e3]
      rfl
    rw [hcode]
    have hmax : MAX_LOCALS = 255 := rfl
    rw [hmax] at e4
    have hlen : sub.locals.length = params.length + 1 := by
      rw [hlocals]
      simp
    have hidx : index < params.length := by
      rw [List.get?_eq_some] at hp
      exact hp.1
    have hmod : ((index + 1 : Nat) : Int).toNat % 256 = index + 1 := by
      rw [Int.toNat_ofNat]
      omega
    rw [hmod]
    rfl
  · intro hframe hbyte hpeek hlen harity htop
    refine ⟨VM.dispatch_call vm frame callers argc g hframe hbyte hpeek hlen harity, ?_, ?_⟩
    · unfold VM.peek at hpeek
      split at hpeek
      · have h1 := Option.some.inj hpeek
        rw [← h1]
        show vm.cell (vm.stackTop - argc - 1 + 0) = vm.cell (vm.stackTop - 1 - argc)
        congr 1
        omega
      · exact Option.noConfusion hpeek
    · intro k hk1 hk2
      have hargs : (argc : Nat) < vm.stackTop := by
        unfold VM.peek at hpeek
        split at hpeek
        · rename_i h
          exact h.1
        · exact Option.noConfusion hpeek
      unfold VM.peek
      rw [if_pos ⟨by omega, by omega⟩]
      congr 2
      omega
  · intro hframe hbyte htop hslot
    exact ⟨VM.dispatch_getLocal vm frame callers slot hframe hbyte htop hslot,
      getD_writeCell_self _ _ _⟩

end scriptlang

namespace scriptlang

set_option maxRecDepth 1000000 in
/-- C21, the code at the program `while true { defun f() {} defun g() {} }`: it is
compiled without a diagnostic, each iteration of its loop leaves one more value on the
stack of the machine, and after 16318 iterations a `PushConstant` is executed with
`stackTop_` at the end of `stack_` (`STACK_SIZE` is 16320): `push` has no check, no
runtime error is reported (nothing is written to the output), and the value is written
past the end of the array. -/
theorem push_writes_past_stack :
    STACK_SIZE = 16320 ∧
    (runCode 200000 Uninitialized.zero
        "while true \x7b defun f() \x7b\x7d defun g() \x7b\x7d \x7d".toList EXECUTE VM.new).map
      (fun outcome => (outcome.reporter.hadError, outcome.status, outcome.vm.stackTop,
        outcome.vm.frames.map (fun frame => frame.ip), outcome.vm.output)) =
      some (false, RunStatus.executed InterpreterResult.Undefined, 16320, [9], "") := by
  refine ⟨rfl, ?_⟩
  have hparse := eq_some_getD ([], Parser.new [] ErrorReporter.new)
    (show (Parser.parseSoruce 200000 (Parser.new
      "while true \x7b defun f() \x7b\x7d defun g() \x7b\x7d \x7d".toList
      ErrorReporter.new)).isSome = true by decide!)
  have hperr : ((Parser.parseSoruce 200000 (Parser.new
      "while true \x7b defun f() \x7b\x7d defun g() \x7b\x7d \x7d".toList
      ErrorReporter.new)).getD ([], Parser.new [] ErrorReporter.new)).2.reporter.hadError =
      false := by decide!
  have hcompile := eq_some_getD
    (ObjectFunction.mk [] 0 Chunk.empty,
      Compiler.new Uninitialized.zero FunctionType.Script ErrorReporter.new)
    (show (Compiler.compile Uninitialized.zero
      (Compiler.new Uninitialized.zero FunctionType.Script
        ((Parser.parseSoruce 200000 (Parser.new
      "while true \x7b defun f() \x7b\x7d defun g() \x7b\x7d \x7d".toList
      ErrorReporter.new)).getD ([], Parser.new [] ErrorReporter.new)).2.reporter.reset)
      ((Parser.parseSoruce 200000 (Parser.new
      "while true \x7b defun f() \x7b\x7d defun g() \x7b\x7d \x7d".toList
      ErrorReporter.new)).getD ([], Parser.new [] ErrorReporter.new)).1).isSome = true by decide!)
  have hcerr : ((Compiler.compile Uninitialized.zero
      (Compiler.new Uninitialized.zero FunctionType.Script
        ((Parser.parseSoruce 200000 (Parser.new
      "while true \x7b defun f() \x7b\x7d defun g() \x7b\x7d \x7d".toList
      ErrorReporter.new)).getD ([], Parser.new [] ErrorReporter.new)).2.reporter.reset)
      ((Parser.parseSoruce 200000 (Parser.new
      "while true \x7b defun f() \x7b\x7d defun g() \x7b\x7d \x7d".toList
      ErrorReporter.new)).getD ([], Parser.new [] ErrorReporter.new)).1).getD
      (ObjectFunction.mk [] 0 Chunk.empty,
        Compiler.new Uninitialized.zero FunctionType.Script ErrorReporter.new)).2.reporter.hadError =
      false := by decide!
  have hcode : ((Compiler.compile Uninitialized.zero
      (Compiler.new Uninitialized.zero FunctionType.Script
        ((Parser.parseSoruce 200000 (Parser.new
      "while true \x7b defun f() \x7b\x7d defun g() \x7b\x7d \x7d".toList
      ErrorReporter.new)).getD ([], Parser.new [] ErrorReporter.new)).2.reporter.reset)
      ((Parser.parseSoruce 200000 (Parser.new
      "while true \x7b defun f() \x7b\x7d defun g() \x7b\x7d \x7d".toList
      ErrorReporter.new)).getD ([], Parser.new [] ErrorReporter.new)).1).getD
      (ObjectFunction.mk [] 0 Chunk.empty,
        Compiler.new Uninitialized.zero FunctionType.Script ErrorReporter.new)).1.chunk.code =
      [23, 13, 0, 9, 1, 0, 0, 0, 1, 1, 15, 0, 13, 1, 25, 22] := by decide!
  have harity : ((Compiler.compile Uninitialized.zero
      (Compiler.new Uninitialized.zero FunctionType.Script
        ((Parser.parseSoruce 200000 (Parser.new
      "while true \x7b defun f() \x7b\x7d defun g() \x7b\x7d \x7d".toList
      ErrorReporter.new)).getD ([], Parser.new [] ErrorReporter.new)).2.reporter.reset)
      ((Parser.parseSoruce 200000 (Parser.new
      "while true \x7b defun f() \x7b\x7d defun g() \x7b\x7d \x7d".toList
      ErrorReporter.new)).getD ([], Parser.new [] ErrorReporter.new)).1).getD
      (ObjectFunction.mk [] 0 Chunk.empty,
        Compiler.new Uninitialized.zero FunctionType.Script ErrorReporter.new)).1.arity =
      0 := by decide!
  have h0 := eq_some_getD Value.nil
    (show (((Compiler.compile Uninitialized.zero
      (Compiler.new Uninitialized.zero FunctionType.Script
        ((Parser.parseSoruce 200000 (Parser.new
      "while true \x7b defun f() \x7b\x7d defun g() \x7b\x7d \x7d".toList
      ErrorReporter.new)).getD ([], Parser.new [] ErrorReporter.new)).2.reporter.reset)
      ((Parser.parseSoruce 200000 (Parser.new
      "while true \x7b defun f() \x7b\x7d defun g() \x7b\x7d \x7d".toList
      ErrorReporter.new)).getD ([], Parser.new [] ErrorReporter.new)).1).getD
      (ObjectFunction.mk [] 0 Chunk.empty,
        Compiler.new Uninitialized.zero FunctionType.Script ErrorReporter.new)).1.chunk.getConstant
      0).isSome = true by decide!)
  have h1 := eq_some_getD Value.nil
    (show (((Compiler.compile Uninitialized.zero
      (Compiler.new Uninitialized.zero FunctionType.Script
        ((Parser.parseSoruce 200000 (Parser.new
      "while true \x7b defun f() \x7b\x7d defun g() \x7b\x7d \x7d".toList
      ErrorReporter.new)).getD ([], Parser.new [] ErrorReporter.new)).2.reporter.reset)
      ((Parser.parseSoruce 200000 (Parser.new
      "while true \x7b defun f() \x7b\x7d defun g() \x7b\x7d \x7d".toList
      ErrorReporter.new)).getD ([], Parser.new [] ErrorReporter.new)).1).getD
      (ObjectFunction.mk [] 0 Chunk.empty,
        Compiler.new Uninitialized.zero FunctionType.Script ErrorReporter.new)).1.chunk.getConstant
      1).isSome = true by decide!)
  obtain ⟨stack, hexec⟩ := VM.execute_overflow _ _ _ hcode h0 h1 harity 85769
  rw [runCode_executed 200000 Uninitialized.zero _ VM.new _ _ hparse hperr hcompile hcerr]
  have hfuel : VM.execute 200000 VM.new ((Compiler.compile Uninitialized.zero
      (Compiler.new Uninitialized.zero FunctionType.Script
        ((Parser.parseSoruce 200000 (Parser.new
      "while true \x7b defun f() \x7b\x7d defun g() \x7b\x7d \x7d".toList
      ErrorReporter.new)).getD ([], Parser.new [] ErrorReporter.new)).2.reporter.reset)
      ((Parser.parseSoruce 200000 (Parser.new
      "while true \x7b defun f() \x7b\x7d defun g() \x7b\x7d \x7d".toList
      ErrorReporter.new)).getD ([], Parser.new [] ErrorReporter.new)).1).getD
      (ObjectFunction.mk [] 0 Chunk.empty,
        Compiler.new Uninitialized.zero FunctionType.Script ErrorReporter.new)).1 =
      VM.execute (85769 + 114231) VM.new ((Compiler.compile Uninitialized.zero
      (Compiler.new Uninitialized.zero FunctionType.Script
        ((Parser.parseSoruce 200000 (Parser.new
      "while true \x7b defun f() \x7b\x7d defun g() \x7b\x7d \x7d".toList
      ErrorReporter.new)).getD ([], Parser.new [] ErrorReporter.new)).2.reporter.reset)
      ((Parser.parseSoruce 200000 (Parser.new
      "while true \x7b defun f() \x7b\x7d defun g() \x7b\x7d \x7d".toList
      ErrorReporter.new)).getD ([], Parser.new [] ErrorReporter.new)).1).getD
      (ObjectFunction.mk [] 0 Chunk.empty,
        Compiler.new Uninitialized.zero FunctionType.Script ErrorReporter.new)).1 := rfl
  rw [hfuel, hexec]
  simp only [Option.map_some', hcerr]
  rfl

end scriptlang

namespace scriptlang

/-- C27: short-circuit evaluation. Let `a and b` or `a or b` be compiled, without a
diagnostic, from the compiler `c` to the compiler `c3`, and let a machine run a chunk
that holds this code, at the offset where the code of `a` ends (that is the code length
of the compiler `c1` that has compiled `a`), the value of `a` being the top cell.
For `and`: if the value is falsy, one step (`JumpIfFalse`) leads to the end of the code
of the expression with the stack as it is, the value of `a` on top; otherwise two steps
(`JumpIfFalse`, `Pop`) pop it and lead to the first byte of the code of `b`, which
extends to the end of the code of the expression. For `or`: if the value is truthy, two
steps (`JumpIfFalse`, `Jump`) lead to the end of the code of the expression with the
stack as it is; otherwise two steps (`JumpIfFalse`, `Pop`) pop it and lead to the first
byte of the code of `b`, which extends to the end of the code of the expression. -/
theorem short_circuit (u : Uninitialized) (c c3 : Compiler) (location : SourceRange)
    (op : Token) (left right : Expression) (vm : VM) (function : ObjectFunction)
    (ip slots : Nat) (callers : List CallFrame)
    (h : Compiler.compileExpression u (Expression.Binary location op left right) c = some c3)
    (hok : c3.reporter.hadError = false)
    (hframe : vm.frames = ⟨function, ip, slots⟩ :: callers)
    (hchunk : ∀ i, c.currentChunk.code.length ≤ i → i < c3.currentChunk.code.length →
      function.chunk.code.get? i = c3.currentChunk.code.get? i)
    (hsize : c3.currentChunk.code.length < 4294967296)
    (h1 : 1 ≤ vm.stackTop) (h2 : vm.stackTop ≤ STACK_SIZE) :
    (op.type = TokenType.AndKeyword →
      ∃ c1 c2,
        Compiler.compileExpression u left { c with currentNodeLocation := location } =
          some c1 ∧
        Compiler.compileExpression u right
          ((c1.emitJump OpCode.JumpIfFalse).2.emitOp OpCode.Pop) = some c2 ∧
        ((c1.emitJump OpCode.JumpIfFalse).2.emitOp OpCode.Pop).currentChunk.code.length =
          c1.currentChunk.code.length + 4 ∧
        c2.currentChunk.code.length = c3.currentChunk.code.length ∧
        (ip = c1.currentChunk.code.length →
          ((vm.cell (vm.stackTop - 1)).isFalsey = true →
            vm.step = StepResult.next
              { vm with frames :=
                  ⟨function, c3.currentChunk.code.length, slots⟩ :: callers }) ∧
          ((vm.cell (vm.stackTop - 1)).isFalsey = false →
            ∃ vm1, vm.step = StepResult.next vm1 ∧
              vm1.step = StepResult.next
                { vm with
                  frames := ⟨function, c1.currentChunk.code.length + 4, slots⟩ :: callers,
                  stackTop := vm.stackTop - 1 }))) ∧
    (op.type = TokenType.OrKeyword →
      ∃ c1 c2 c4,
        Compiler.compileExpression u left { c with currentNodeLocation := location } =
          some c1 ∧
        ((c1.emitJump OpCode.JumpIfFalse).2.emitJump OpCode.Jump).2.patchJump
          (c1.emitJump OpCode.JumpIfFalse).1 = some c2 ∧
        Compiler.compileExpression u right (c2.emitOp OpCode.Pop) = some c4 ∧
        (c2.emitOp OpCode.Pop).currentChunk.code.length = c1.currentChunk.code.length + 7 ∧
        c4.currentChunk.code.length = c3.currentChunk.code.length ∧
        (ip = c1.currentChunk.code.length →
          ((vm.cell (vm.stackTop - 1)).isFalsey = false →
            ∃ vm1, vm.step = StepResult.next vm1 ∧
              vm1.step = StepResult.next
                { vm with frames :=
                    ⟨function, c3.currentChunk.code.length, slots⟩ :: callers }) ∧
          ((vm.cell (vm.stackTop - 1)).isFalsey = true →
            ∃ vm1, vm.step = StepResult.next vm1 ∧
              vm1.step = StepResult.next
                { vm with
                  frames := ⟨function, c1.currentChunk.code.length + 7, slots⟩ :: callers,
                  stackTop := vm.stackTop - 1 }))) := by
  rw [Compiler.compileExpression_binary] at h
  constructor
  · intro hand
    rw [if_pos hand] at h
    obtain ⟨c1, hleft, h⟩ := of_match_some h
    obtain ⟨c2, hright, h⟩ := of_match_some h
    have A1 := Compiler.compileExpression_appends u left _ _ hleft
    have A2 := Compiler.compileExpression_appends u right _ _ hright
    obtain ⟨hok1, codeB, e2, e3, hL⟩ := Compiler.and_layout A2 h hok
    obtain ⟨_, ext, e1⟩ := A1 hok1
    have hle : c.currentChunk.code.length ≤ c1.currentChunk.code.length := by
      rw [e1, List.length_append]
      exact Nat.le_add_right _ _
    have hlen2 : c2.currentChunk.code.length =
        c1.currentChunk.code.length + 4 + codeB.length := by
      rw [e2]
      simp only [List.length_append, List.length_cons, List.length_nil]
    have hlen3 : c3.currentChunk.code.length =
        c1.currentChunk.code.length + 4 + codeB.length := by
      rw [e3]
      simp only [List.length_append, List.length_cons, List.length_nil]
    refine ⟨c1, c2, hleft, hright, ?_, by rw [hlen2, hlen3], ?_⟩
    · rw [Compiler.emitOp_code, Compiler.emitJump_code]
      simp only [List.length_append, List.length_cons, List.length_nil]
    · intro hip
      rw [hip] at hframe
      have hget := fun k byte hk => get_of_layout function e3
        (fun i hi hlt => hchunk i (le_trans hle hi) hlt) k byte hk
      have hjump : (((codeB.length + 1) / 256 : Nat) * 256 + (codeB.length + 1) % 256) %
          65536 = codeB.length + 1 := by omega
      have hstep := VM.step_jumpIfFalse vm function c1.currentChunk.code.length slots callers
        ((codeB.length + 1) / 256) ((codeB.length + 1) % 256) (codeB.length + 1) hframe
        (hget 0 13 rfl) (hget 1 _ rfl) (hget 2 _ rfl) hjump (by omega) h1 h2
      have hend : c1.currentChunk.code.length + 3 + (codeB.length + 1) =
          c3.currentChunk.code.length := by omega
      rw [hend] at hstep
      constructor
      · intro hfalsy
        rw [hstep, if_pos hfalsy]
      · intro htruthy
        refine ⟨_, by rw [hstep, if_neg (by simp [htruthy])], ?_⟩
        exact VM.step_pop
          ({ vm with frames := ⟨function, c1.currentChunk.code.length + 3, slots⟩ :: callers }
            : VM) function (c1.currentChunk.code.length + 3) slots callers rfl
          (hget 3 1 rfl) h1 h2
  · intro hor
    have hnand : ¬ op.type = TokenType.AndKeyword := by
      rw [hor]
      decide
    rw [if_neg hnand, if_pos hor] at h
    obtain ⟨c1, hleft, h⟩ := of_match_some h
    obtain ⟨c2, hpatch, h⟩ := of_match_some h
    obtain ⟨c4, hright, h⟩ := of_match_some h
    have A1 := Compiler.compileExpression_appends u left _ _ hleft
    have A2 := Compiler.compileExpression_appends u right _ _ hright
    obtain ⟨hok1, codeB, e4, e3, hL⟩ := Compiler.or_layout hpatch A2 h hok
    obtain ⟨_, ext, e1⟩ := A1 hok1
    have hle : c.currentChunk.code.length ≤ c1.currentChunk.code.length := by
      rw [e1, List.length_append]
      exact Nat.le_add_right _ _
    have hlen4 : c4.currentChunk.code.length =
        c1.currentChunk.code.length + 7 + codeB.length := by
      rw [e4]
      simp only [List.length_append, List.length_cons, List.length_nil]
    have hlen3 : c3.currentChunk.code.length =
        c1.currentChunk.code.length + 7 + codeB.length := by
      rw [e3]
      simp only [List.length_append, List.length_cons, List.length_nil]
    have hlenP : (c2.emitOp OpCode.Pop).currentChunk.code.length =
        c1.currentChunk.code.length + 7 := by
      have hsame : c2.currentChunk.code.length =
          ((c1.emitJump OpCode.JumpIfFalse).2.emitJump
            OpCode.Jump).2.currentChunk.code.length := by
        unfold Compiler.patchJump at hpatch
        split at hpatch
        · rw [← Option.some.inj hpatch]
          rfl
        · split at hpatch
          · exact Option.noConfusion hpatch
          · rename_i chunk1 hs1
            split at hpatch
            · exact Option.noConfusion hpatch
            · rename_i chunk2 hs2
              rw [← Option.some.inj hpatch, Compiler.setChunk_currentChunk,
                Chunk.set_code hs2, Chunk.set_code hs1]
              simp only [List.length_set]
      rw [Compiler.emitOp_code, List.length_append, hsame, Compiler.emitJump_code,
        Compiler.emitJump_code]
      simp only [List.length_append, List.length_cons, List.length_nil]
    refine ⟨c1, c2, c4, hleft, hpatch, hright, hlenP, by rw [hlen4, hlen3], ?_⟩
    intro hip
    rw [hip] at hframe
    have hget := fun k byte hk => get_of_layout function e3
      (fun i hi hlt => hchunk i (le_trans hle hi) hlt) k byte hk
    have hjump : (((codeB.length + 1) / 256 : Nat) * 256 + (codeB.length + 1) % 256) %
        65536 = codeB.length + 1 := by omega
    have hstep := VM.step_jumpIfFalse vm function c1.currentChunk.code.length slots callers
      0 3 3 hframe (hget 0 13 rfl) (hget 1 0 rfl) (hget 2 3 rfl) rfl (by omega) h1 h2
    constructor
    · intro htruthy
      refine ⟨_, by rw [hstep, if_neg (by simp [htruthy])], ?_⟩
      have hjmp := VM.step_jump
        ({ vm with frames := ⟨function, c1.currentChunk.code.length + 3, slots⟩ :: callers }
          : VM) function (c1.currentChunk.code.length + 3) slots callers
        ((codeB.length + 1) / 256) ((codeB.length + 1) % 256) (codeB.length + 1) rfl
        (hget 3 14 rfl) (hget 4 _ rfl) (hget 5 _ rfl) hjump (by omega)
      have hend : c1.currentChunk.code.length + 3 + 3 + (codeB.length + 1) =
          c3.currentChunk.code.length := by omega
      rw [hend] at hjmp
      exact hjmp
    · intro hfalsy
      refine ⟨_, by rw [hstep, if_pos hfalsy], ?_⟩
      exact VM.step_pop
        ({ vm with frames := ⟨function, c1.currentChunk.code.length + 3 + 3, slots⟩ :: callers }
          : VM) function (c1.currentChunk.code.length + 3 + 3) slots callers rfl
        (hget 6 1 rfl) h1 h2

set_option maxRecDepth 1000000 in
/-- Witness of `short_circuit`: `false and 1`, compiled by a new compiler, gives the 7
bytes `False; JumpIfFalse +3; Pop; PushConstant 0`; a machine that runs them, at offset
1 with `false` in the top cell, steps to offset 7 with its stack as it is. In a run,
the assignment in the right operand is executed only when the left operand does not
decide. -/
theorem short_circuit_witness :
    (Compiler.compileExpression Uninitialized.zero
      (Expression.Binary SourceRange.zero
        ⟨TokenType.AndKeyword, "and".toList, SourceRange.zero⟩
        (Expression.Literal SourceRange.zero (Literal.boolean false))
        (Expression.Literal SourceRange.zero (Literal.number 1)))
      (Compiler.new Uninitialized.zero FunctionType.Script ErrorReporter.new)).map
      (fun c3 => (c3.reporter.hadError, c3.currentChunk.code)) =
      some (false, [24, 13, 0, 3, 1, 0, 0]) ∧
    runSource 1000 Uninitialized.zero
        ("let x = 0; print false and (x = 1); print x; print 2 and (x = 1); print x; " ++
          "print 0 or 5; print 3 or (x = 7); print x;") =
      some ([], RunStatus.executed InterpreterResult.Success, "false\n0\n1\n1\n5\n3\n1\n") ∧
    VM.step ⟨[⟨ObjectFunction.mk [] 0 (Chunk.mk [Value.number 1] [24, 13, 0, 3, 1, 0, 0] []),
        1, 0⟩], [Value.nil, Value.boolean false], 2, [], ""⟩ =
      StepResult.next
        ⟨[⟨ObjectFunction.mk [] 0 (Chunk.mk [Value.number 1] [24, 13, 0, 3, 1, 0, 0] []),
          7, 0⟩], [Value.nil, Value.boolean false], 2, [], ""⟩ := by
  refine ⟨by decide!, by decide!, ?_⟩
  have hcompile := eq_some_getD
    (Compiler.new Uninitialized.zero FunctionType.Script ErrorReporter.new)
    (show (Compiler.compileExpression Uninitialized.zero
      (Expression.Binary SourceRange.zero
        ⟨TokenType.AndKeyword, "and".toList, SourceRange.zero⟩
        (Expression.Literal SourceRange.zero (Literal.boolean false))
        (Expression.Literal SourceRange.zero (Literal.number 1)))
      (Compiler.new Uninitialized.zero FunctionType.Script ErrorReporter.new)).isSome = true
      by decide!)
  have hcode : ((Compiler.compileExpression Uninitialized.zero
      (Expression.Binary SourceRange.zero
        ⟨TokenType.AndKeyword, "and".toList, SourceRange.zero⟩
        (Expression.Literal SourceRange.zero (Literal.boolean false))
        (Expression.Literal SourceRange.zero (Literal.number 1)))
      (Compiler.new Uninitialized.zero FunctionType.Script ErrorReporter.new)).getD
      (Compiler.new Uninitialized.zero FunctionType.Script
        ErrorReporter.new)).currentChunk.code = [24, 13, 0, 3, 1, 0, 0] := by decide!
  have hleft := eq_some_getD
    (Compiler.new Uninitialized.zero FunctionType.Script ErrorReporter.new)
    (show (Compiler.compileExpression Uninitialized.zero
      (Expression.Literal SourceRange.zero (Literal.boolean false))
      { Compiler.new Uninitialized.zero FunctionType.Script ErrorReporter.new with
        currentNodeLocation := SourceRange.zero }).isSome = true by decide!)
  have hlength : ((Compiler.compileExpression Uninitialized.zero
      (Expression.Literal SourceRange.zero (Literal.boolean false))
      { Compiler.new Uninitialized.zero FunctionType.Script ErrorReporter.new with
        currentNodeLocation := SourceRange.zero }).getD
      (Compiler.new Uninitialized.zero FunctionType.Script
        ErrorReporter.new)).currentChunk.code.length = 1 := by decide!
  obtain ⟨c1, c2, h1, _, _, _, hvm⟩ := (short_circuit Uninitialized.zero
    (Compiler.new Uninitialized.zero FunctionType.Script ErrorReporter.new) _
    SourceRange.zero ⟨TokenType.AndKeyword, "and".toList, SourceRange.zero⟩
    (Expression.Literal SourceRange.zero (Literal.boolean false))
    (Expression.Literal SourceRange.zero (Literal.number 1))
    ⟨[⟨ObjectFunction.mk [] 0 (Chunk.mk [Value.number 1] [24, 13, 0, 3, 1, 0, 0] []), 1, 0⟩],
      [Value.nil, Value.boolean false], 2, [], ""⟩
    (ObjectFunction.mk [] 0 (Chunk.mk [Value.number 1] [24, 13, 0, 3, 1, 0, 0] [])) 1 0 []
    hcompile (by decide!) rfl (by intro i _ _; rw [hcode]; rfl) (by rw [hcode]; decide)
    (by decide) (by decide)).1 rfl
  have hc1 := Option.some.inj (h1.symm.trans hleft)
  have hstep := (hvm (by rw [hc1, hlength])).1 rfl
  rw [hcode] at hstep
  exact hstep

end scriptlang

namespace scriptlang

set_option maxRecDepth 100000 in
/-- C34: the thirteen operators listed are exactly those whose infix rule is
`binaryExpression`, and for each of them, `**` included, the text `a op b op c` is
parsed without diagnostic as `Binary(op, Binary(op, a, b), c)`, and `2 ** 3 ** 2` as
`(2 ** 3) ** 2` (executing `print 2 ** 3 ** 2;` prints `64`). In general, for every
parser whose next tokens are `a op b op' c` (operands, and operators parsed by
`binaryExpression`, `op'` of a precedence not above that of `op`) followed by a token
without precedence, `parsePrecedence(None)` returns, with enough fuel,
`Binary(op', Binary(op, a, b), c)`; each text `a op b op c;` is such an input. The
reason: `binaryExpression` parses its right operand with `parsePrecedence` at the
operator's own precedence, and the loop of `parsePrecedence` leaves a token whose
precedence is not greater than that where it is. -/
theorem binary_left_associative :
    (∀ type : TokenType,
      (getParseRules type).infixRule = some ParseInfix.binaryExpression ↔
        type ∈ binaryOperators.map operatorType) ∧
    (∀ op ∈ binaryOperators,
      parseShapes 100 ("a " ++ op ++ " b " ++ op ++ " c;") =
        some (["ExprStmt(Binary(" ++ op ++ ", Binary(" ++ op
          ++ ", Variable(a), Variable(b)), Variable(c)))"], [])) ∧
    parseShapes 100 "2 ** 3 ** 2;" =
      some (["ExprStmt(Binary(**, Binary(**, Literal(2), Literal(3)), Literal(2)))"], []) ∧
    runSource 200 Uninitialized.zero "print 2 ** 3 ** 2;" =
      some ([], RunStatus.executed InterpreterResult.Success, "64\n") ∧
    (∀ (k : Nat) (p : Parser), p.atBinaryChain = true →
      Parser.parsePrecedence (k + 6) Precedence.None p =
        some (Expression.Binary p.advance.advance.advance.advance.advance.currentSourceRange
            p.advance.advance.advance.advance.previous
            (Expression.Binary p.advance.advance.advance.currentSourceRange
              p.advance.advance.previous p.advance.operand
              p.advance.advance.advance.operand)
            p.advance.advance.advance.advance.advance.operand,
          p.advance.advance.advance.advance.advance)) ∧
    (∀ op ∈ binaryOperators,
      (Parser.ofSource ("a " ++ op ++ " b " ++ op ++ " c;")).atBinaryChain = true) ∧
    (Parser.ofSource "1 - 2 + 3;").atBinaryChain = true ∧
    (∀ (fuel : Nat) (left : Expression) (p : Parser),
      Parser.binaryExpression (fuel + 1) left p =
        (Parser.parsePrecedence fuel (getParseRules p.previous.type).prec p).map
          (fun r => (Expression.Binary r.2.currentSourceRange p.previous left r.1, r.2))) ∧
    (∀ (fuel : Nat) (prec : Precedence) (left : Expression) (p : Parser),
      (getParseRules p.peek.type).prec ≤ prec →
        Parser.infixLoop (fuel + 1) prec left p = some (left, p)) := by
  refine ⟨?_, by decide!, by decide!, by decide!,
    fun k p h => Parser.parsePrecedence_chain k h, by decide!, by decide!, ?_, ?_⟩
  · intro type
    cases type <;> decide!
  · intro fuel left p
    rw [Parser.binaryExpression]
    cases Parser.parsePrecedence fuel (getParseRules p.previous.type).prec p with
    | none => rfl
    | some r => rfl
  · intro fuel prec left p h
    rw [Parser.infixLoop, if_neg (Nat.not_lt.mpr h)]

set_option maxRecDepth 100000 in
/-- C37: `1 2;` and `a b;` are parsed without any diagnostic, as the expression
statements `1` and `a`: the second operand is dropped. The loop of `parsePrecedence`
is entered for every token whose precedence exceeds the current one and reads the
token before it looks for the infix rule; the token types with a precedence above
`None` and no infix rule are `not`, identifiers, number and string literals, `true`,
`false` and `nil`, and for them the loop returns the left operand with the token
consumed and nothing reported. Executing `let a = 1; a 2; print a;` prints `1`. -/
theorem adjacent_operands_accepted :
    parseShapes 100 "1 2;" = some (["ExprStmt(Literal(1))"], []) ∧
    parseShapes 100 "a b;" = some (["ExprStmt(Variable(a))"], []) ∧
    parseShapes 100 "f(1 2);" = some (["ExprStmt(Call(Variable(f), [Literal(1)]))"], []) ∧
    runSource 200 Uninitialized.zero "let a = 1; a 2; print a;" =
      some ([], RunStatus.executed InterpreterResult.Success, "1\n") ∧
    (∀ type : TokenType,
      (Precedence.None < (getParseRules type).prec ∧ (getParseRules type).infixRule = none) ↔
        type ∈ [TokenType.NotKeyword, TokenType.Identifier, TokenType.NumberLiteral,
          TokenType.StringLiteral, TokenType.TrueKeyword, TokenType.FalseKeyword,
          TokenType.NilKeyword]) ∧
    (∀ (fuel : Nat) (prec : Precedence) (left : Expression) (p : Parser),
      prec < (getParseRules p.peek.type).prec →
      (getParseRules p.advance.previous.type).infixRule = none →
        Parser.infixLoop (fuel + 1) prec left p = some (left, p.advance) ∧
        p.advance.reporter = p.reporter) := by
  refine ⟨by decide!, by decide!, by decide!, by decide!, ?_, ?_⟩
  · intro type
    cases type <;> decide!
  · intro fuel prec left p h hrule
    refine ⟨?_, Parser.advance_reporter p⟩
    rw [Parser.infixLoop, if_pos h, hrule]

set_option maxRecDepth 100000 in
/-- C40: in the source that consists of a string literal with a newline between
its characters `a` and `b`, a blank and the identifier `x`, the lexer gives the
identifier, which starts at offset 6 after one newline, the start line 1, not 2:
`Lexer::stringLiteral` never changes `line_`. Newlines between tokens and at the end
of comments are counted: in the source `1`, newline, `# c`, newline, `x` the
identifier has start line 3. -/
theorem string_newline_not_counted :
    (tokenize "\"a\nb\" x".toList).map
        (fun t => (t.type, t.position.start.offset, t.position.start.line,
          1 + newlinesBefore "\"a\nb\" x".toList t.position.start.offset)) =
      [(TokenType.StringLiteral, 0, 1, 1), (TokenType.Identifier, 6, 1, 2),
        (TokenType.Eof, 7, 1, 2)] ∧
    (tokenize "1\n# c\nx".toList).map
        (fun t => (t.type, t.position.start.offset, t.position.start.line,
          1 + newlinesBefore "1\n# c\nx".toList t.position.start.offset)) =
      [(TokenType.NumberLiteral, 0, 1, 1), (TokenType.Identifier, 6, 3, 3),
        (TokenType.Eof, 7, 3, 3)] ∧
    (∀ l : Lexer, l.stringLiteral.2.line = l.line) := by
  refine ⟨by decide!, by decide!, Lexer.stringLiteral_line⟩

end scriptlang

namespace scriptlang

set_option maxRecDepth 100000 in
/-- C35: a function declared inside a block is bound to no name. In
`{ defun f() { print 1; } f(); }` the call compiles to `GetGlobal f` and the run
stops with "Undefined global variable 'f'."; in `{ defun f() {} let x = 5; print x; }`
the local `x` gets slot 1, the slot that holds the function, and the function is
printed instead of `5`. At scope depth 0 the same declaration is bound through
`DefineGlobal` and `f()` prints `1`. The reason: `visitFunctionDeclaration` calls
`defineVariable` without `declareVariable`, and at a scope depth above 0
`defineVariable` is `markVariableAsDefined`, which adds no local and emits nothing:
the number of locals stays one below the height of the stack. -/
theorem function_in_block_unbound :
    runSource 200 Uninitialized.zero "\x7b defun f() \x7b print 1; \x7d f(); \x7d" =
      some ([], RunStatus.executed InterpreterResult.RuntimeError,
        "Runtime error [Ln: 1] Undefined global variable 'f'.\n"
          ++ "    in <function '<script>' (param count: 0) >\n") ∧
    compiledCode 200 Uninitialized.zero "\x7b defun f() \x7b\x7d f(); \x7d" =
      some [OpCode.PushConstant.toByte, 0, OpCode.GetGlobal.toByte, 1, OpCode.Call.toByte, 0,
        OpCode.Pop.toByte, OpCode.Pop.toByte, OpCode.Nil.toByte, OpCode.Return.toByte] ∧
    runSource 200 Uninitialized.zero "\x7b defun f() \x7b\x7d let x = 5; print x; \x7d" =
      some ([], RunStatus.executed InterpreterResult.Success,
        "<function 'f' (param count: 0) >\n") ∧
    compiledCode 200 Uninitialized.zero "\x7b defun f() \x7b\x7d let x = 5; print x; \x7d" =
      some [OpCode.PushConstant.toByte, 0, OpCode.PushConstant.toByte, 1,
        OpCode.GetLocal.toByte, 1, OpCode.Print.toByte, OpCode.Pop.toByte, OpCode.Pop.toByte,
        OpCode.Nil.toByte, OpCode.Return.toByte] ∧
    runSource 200 Uninitialized.zero "defun f() \x7b print 1; \x7d f();" =
      some ([], RunStatus.executed InterpreterResult.Success, "1\n") ∧
    (∀ (c : Compiler) (name : Token), 0 < c.scopeDepth →
      c.defineVariable name = c.markVariableAsDefined ∧
      ∀ c1, c.markVariableAsDefined = some c1 →
        c1.locals.map Local.name = c.locals.map Local.name ∧
        c1.locals.length = c.locals.length ∧ c1.currentChunk = c.currentChunk) := by
  refine ⟨by decide!, by decide!, by decide!, by decide!, by decide!, ?_⟩
  intro c name h
  exact ⟨Compiler.defineVariable_local name h,
    fun c1 h1 => Compiler.markVariableAsDefined_names h1⟩

end scriptlang

namespace scriptlang

/-- C39: `declareVariable` rejects a declaration only when `localsCount_` exceeds
`MAX_LOCALS` (255), but `locals_` has `MAX_LOCALS` entries: with `localsCount_` equal
to 255 the check passes and `addLocal` writes `locals_[255]`, outside the array.
A sequence of declarations in a scope stays inside the array exactly when the locals
it adds fit below `MAX_LOCALS`, and no check stops a longer one: in a new function
compiler (slot 0 taken) 254 declarations fill the array and the 255th is the write
outside it, and a function declared with 255 parameters or more is not compiled. -/
theorem declare_overruns_locals :
    (∀ (c : Compiler) (name : Token), 0 < c.scopeDepth → c.locals.length = MAX_LOCALS →
      ¬ c.locals.length > MAX_LOCALS ∧ c.declareVariable name = none) ∧
    (∀ (names : List Token) (c : Compiler), 0 < c.scopeDepth → c.locals.length ≤ MAX_LOCALS →
      ((Compiler.declareAll names c).isSome = true ↔
        c.locals.length + names.length ≤ MAX_LOCALS)) ∧
    ((Compiler.new Uninitialized.zero FunctionType.Function
        ErrorReporter.new).beginScope.declareAll (identifiers 254)).isSome = true ∧
    ((Compiler.new Uninitialized.zero FunctionType.Function
        ErrorReporter.new).beginScope.declareAll (identifiers 255)).isSome = false ∧
    (∀ (u : Uninitialized) (c : Compiler) (location : SourceRange) (name : Token)
        (params : List Token) (body : Statement),
      c.type = FunctionType.Script → MAX_LOCALS ≤ params.length →
        Compiler.compileStatement u
          (Statement.FunctionDeclaration location name params body) c = none) ∧
    Compiler.compileStatement Uninitialized.zero (functionWithParameters 255)
      (Compiler.new Uninitialized.zero FunctionType.Script ErrorReporter.new) = none := by
  refine ⟨fun c name hdepth hlen => ⟨by omega, Compiler.declareVariable_full name hdepth hlen⟩,
    Compiler.declareAll_isSome, ?_, ?_,
    fun u c location name params body => Compiler.compileStatement_parameters_full u c
      location name params body, ?_⟩
  · rw [Compiler.declareAll_isSome _ _ (by decide) (by decide), identifiers_length]
    decide
  · rw [Bool.eq_false_iff]
    intro h
    rw [Compiler.declareAll_isSome _ _ (by decide) (by decide), identifiers_length] at h
    exact absurd h (by decide)
  · exact Compiler.compileStatement_parameters_full _ _ _ _ _ _ rfl
      (by rw [identifiers_length]; decide)

end scriptlang

namespace scriptlang

set_option maxRecDepth 100000 in
/-- C36: `parseSoruce` does not terminate on the sources `-`, `not`, `(` and `1 +`:
for every amount of fuel the parser returns nothing. At the end of input
`Parser::advance` is a no-op, so `previous()` stays the operator (or the
parenthesis), whose prefix rule calls `parsePrecedence` (through `unaryExpression`,
or through `primaryExpression` and `expression`) on the same parser state again,
without end. `+` and `-` have such a prefix rule and an infix rule, which is why
`1 +` does not terminate either, while `1 *` ends with "Expect an expression.". -/
theorem parse_source_diverges :
    (∀ fuel, parseShapes fuel "-" = none) ∧
    (∀ fuel, parseShapes fuel "not" = none) ∧
    (∀ fuel, parseShapes fuel "(" = none) ∧
    (∀ fuel, parseShapes fuel "1 +" = none) ∧
    (∀ fuel, runSource fuel Uninitialized.zero "-" = none) ∧
    (∀ (fuel : Nat) (prec : Precedence) (p : Parser), p.isAtEnd = true →
      (p.previous.type = TokenType.Plus ∨ p.previous.type = TokenType.Minus ∨
        p.previous.type = TokenType.NotKeyword ∨ p.previous.type = TokenType.LeftParen) →
      p.advance = p ∧ Parser.parsePrecedence fuel prec p = none) ∧
    parseShapes 100 "1 *" =
      some (["ExprStmt(Binary(*, Literal(1), null))"],
        ["Expect an expression.", "Expect ';' after expression."]) := by
  refine ⟨?_, ?_, ?_, ?_, ?_, ?_, by decide!⟩
  · intro fuel
    have h := Parser.parseSoruce_diverges (p := Parser.ofSource "-") (by decide!) (by decide!)
      (Parser.expression_prefix_diverges (by decide!) (Or.inr (Or.inl (by decide!)))) fuel
    unfold parseShapes
    rw [show Parser.new "-".toList ErrorReporter.new = Parser.ofSource "-" from rfl, h]
  · intro fuel
    have h := Parser.parseSoruce_diverges (p := Parser.ofSource "not") (by decide!) (by decide!)
      (Parser.expression_prefix_diverges (by decide!)
        (Or.inr (Or.inr (Or.inl (by decide!))))) fuel
    unfold parseShapes
    rw [show Parser.new "not".toList ErrorReporter.new = Parser.ofSource "not" from rfl, h]
  · intro fuel
    have h := Parser.parseSoruce_diverges (p := Parser.ofSource "(") (by decide!) (by decide!)
      (Parser.expression_prefix_diverges (by decide!)
        (Or.inr (Or.inr (Or.inr (by decide!))))) fuel
    unfold parseShapes
    rw [show Parser.new "(".toList ErrorReporter.new = Parser.ofSource "(" from rfl, h]
  · intro fuel
    have h := Parser.parseSoruce_diverges (p := Parser.ofSource "1 +") (by decide!) (by decide!)
      (Parser.expression_binary_diverges
        ((({ Parser.ofSource "1 +" with start := (Parser.ofSource "1 +").peek }
          : Parser).advance.literalExpression
            ({ Parser.ofSource "1 +" with start := (Parser.ofSource "1 +").peek }
              : Parser).advance.previous).getD Expression.null)
        (by decide!) (by decide!) (eq_some_getD _ (by decide!)) (by decide!) (by decide!)
        (by decide!) (Or.inl (by decide!))) fuel
    unfold parseShapes
    rw [show Parser.new "1 +".toList ErrorReporter.new = Parser.ofSource "1 +" from rfl, h]
  · intro fuel
    have h := Parser.parseSoruce_diverges (p := Parser.ofSource "-") (by decide!) (by decide!)
      (Parser.expression_prefix_diverges (by decide!) (Or.inr (Or.inl (by decide!)))) fuel
    unfold runSource runCode
    rw [show Parser.new "-".toList ErrorReporter.new = Parser.ofSource "-" from rfl, h]
  · intro fuel prec p hend htype
    exact ⟨Parser.advance_at_end hend, (Parser.prefix_diverges fuel p hend htype).1 prec⟩

end scriptlang

namespace scriptlang

/-- C33: `declareVariable(name)` in a scope (scope depth above 0, room for a local,
the locals of the current scope on top of those of shallower scopes) adds the local
`(name, -1)` and reports "Variable already declared." exactly when a local of the
current scope (depth equal to the scope depth, or still -1) has the same name;
otherwise the reporter is unchanged, in particular when only locals of shallower
scopes have the name. At scope depth 0 it returns the compiler as it is. -/
theorem declare_variable_reports (c : Compiler) (name : Token) (below current : List Local)
    (hdepth : 0 < c.scopeDepth) (hroom : c.locals.length < MAX_LOCALS)
    (hlocals : c.locals = below ++ current)
    (hbelow : ∀ l ∈ below, l.depth ≠ -1 ∧ l.depth < (c.scopeDepth : Int))
    (hcurrent : ∀ l ∈ current, l.depth = (c.scopeDepth : Int) ∨ l.depth = -1) :
    (∃ c1, c.declareVariable name = some c1 ∧ c1.locals = c.locals ++ [⟨name, -1⟩] ∧
      (c1.reporter = c.reporter.error c.currentNodeLocation "Variable already declared." ↔
        ∃ l ∈ c.locals, (l.depth = (c.scopeDepth : Int) ∨ l.depth = -1) ∧
          l.name.lexeme = name.lexeme) ∧
      (c1.reporter = c.reporter ↔
        ¬ ∃ l ∈ c.locals, (l.depth = (c.scopeDepth : Int) ∨ l.depth = -1) ∧
          l.name.lexeme = name.lexeme) ∧
      ((∀ l ∈ current, l.name.lexeme ≠ name.lexeme) → c1.reporter = c.reporter)) ∧
    ∀ c0 : Compiler, c0.scopeDepth = 0 → c0.declareVariable name = some c0 := by
  obtain ⟨hscan, hscope⟩ := Compiler.alreadyDeclared_locals name hlocals hbelow hcurrent
  refine ⟨?_, ?_⟩
  · rw [Compiler.declareVariable_eq name hdepth hroom]
    by_cases hfound : Compiler.alreadyDeclared c.scopeDepth name c.locals.reverse = true
    · have hex := hscan.mp hfound
      rw [if_pos hfound]
      refine ⟨_, rfl, rfl, ?_, ?_, ?_⟩
      · exact ⟨fun _ => hscope.mpr hex, fun _ => rfl⟩
      · constructor
        · intro h
          exact absurd h (ErrorReporter.error_ne _ _ _)
        · intro h
          exact absurd (hscope.mpr hex) h
      · intro h
        obtain ⟨l, hl, hn⟩ := hex
        exact absurd hn (h l hl)
    · have hex : ¬ ∃ l ∈ current, l.name.lexeme = name.lexeme := fun h => hfound (hscan.mpr h)
      rw [if_neg hfound]
      refine ⟨_, rfl, rfl, ?_, ?_, ?_⟩
      · constructor
        · intro h
          exact absurd h.symm (ErrorReporter.error_ne _ _ _)
        · intro h
          exact absurd (hscope.mp h) hex
      · exact ⟨fun _ h => hex (hscope.mp h), fun _ => rfl⟩
      · intro _
        rfl
  · intro c0 h0
    unfold Compiler.declareVariable
    rw [if_pos h0]

set_option maxRecDepth 100000 in
/-- Witness of `declare_variable_reports`: at scope depth 2 with the locals
`(slot 0, depth 0)`, `(x, depth 1)`, `(y, depth 2)`, declaring `y` is reported and
declaring `x`, which shadows the local of depth 1, is not. In whole programs: an
inner `let x` shadows the outer one and both are usable, a second `let x` in the same
block is reported once. -/
theorem declare_variable_reports_witness :
    (∃ c1,
      ({ Compiler.new Uninitialized.zero FunctionType.Script ErrorReporter.new with
          scopeDepth := 2,
          locals := [⟨Token.default, 0⟩,
            ⟨⟨TokenType.Identifier, ['x'], SourceRange.zero⟩, 1⟩,
            ⟨⟨TokenType.Identifier, ['y'], SourceRange.zero⟩, 2⟩] }
        : Compiler).declareVariable ⟨TokenType.Identifier, ['y'], SourceRange.zero⟩ = some c1 ∧
      c1.reporter.messages = ["Variable already declared."]) ∧
    (∃ c1,
      ({ Compiler.new Uninitialized.zero FunctionType.Script ErrorReporter.new with
          scopeDepth := 2,
          locals := [⟨Token.default, 0⟩,
            ⟨⟨TokenType.Identifier, ['x'], SourceRange.zero⟩, 1⟩,
            ⟨⟨TokenType.Identifier, ['y'], SourceRange.zero⟩, 2⟩] }
        : Compiler).declareVariable ⟨TokenType.Identifier, ['x'], SourceRange.zero⟩ = some c1 ∧
      c1.reporter.messages = []) ∧
    runSource 1000 Uninitialized.zero
        "\x7b let x = 1; \x7b let x = 2; print x; \x7d print x; \x7d" =
      some ([], RunStatus.executed InterpreterResult.Success, "2\n1\n") ∧
    runSource 1000 Uninitialized.zero
        "\x7b let x = 1; \x7b let x = 2; let x = 3; \x7d \x7d" =
      some (["Variable already declared."], RunStatus.compileError, "") := by
  refine ⟨?_, ?_, by decide!, by decide!⟩
  · obtain ⟨⟨c1, h1, _, h3, _, _⟩, _⟩ := declare_variable_reports
      ({ Compiler.new Uninitialized.zero FunctionType.Script ErrorReporter.new with
          scopeDepth := 2,
          locals := [⟨Token.default, 0⟩,
            ⟨⟨TokenType.Identifier, ['x'], SourceRange.zero⟩, 1⟩,
            ⟨⟨TokenType.Identifier, ['y'], SourceRange.zero⟩, 2⟩] } : Compiler)
      ⟨TokenType.Identifier, ['y'], SourceRange.zero⟩
      [⟨Token.default, 0⟩, ⟨⟨TokenType.Identifier, ['x'], SourceRange.zero⟩, 1⟩]
      [⟨⟨TokenType.Identifier, ['y'], SourceRange.zero⟩, 2⟩]
      (by decide) (by decide) rfl (by decide) (by decide)
    refine ⟨c1, h1, ?_⟩
    rw [h3.mpr ⟨⟨⟨TokenType.Identifier, ['y'], SourceRange.zero⟩, 2⟩, by simp, Or.inl rfl, rfl⟩]
    rfl
  · obtain ⟨⟨c1, h1, _, _, _, h5⟩, _⟩ := declare_variable_reports
      ({ Compiler.new Uninitialized.zero FunctionType.Script ErrorReporter.new with
          scopeDepth := 2,
          locals := [⟨Token.default, 0⟩,
            ⟨⟨TokenType.Identifier, ['x'], SourceRange.zero⟩, 1⟩,
            ⟨⟨TokenType.Identifier, ['y'], SourceRange.zero⟩, 2⟩] } : Compiler)
      ⟨TokenType.Identifier, ['x'], SourceRange.zero⟩
      [⟨Token.default, 0⟩, ⟨⟨TokenType.Identifier, ['x'], SourceRange.zero⟩, 1⟩]
      [⟨⟨TokenType.Identifier, ['y'], SourceRange.zero⟩, 2⟩]
      (by decide) (by decide) rfl (by decide) (by decide)
    refine ⟨c1, h1, ?_⟩
    rw [h5 (by decide)]
    rfl

end scriptlang

namespace scriptlang

/-- C32, counterexample: on a chunk of 65533 bytes, inside a loop that starts at
offset 0, `emitLoop(0)` (with `0 <= size`) appends one byte, the opcode `Loop`
without an operand, and reports "Loop body too large.": the distance 65536 does not
fit the 16-bit operand. -/
theorem loop_body_too_large :
    (0 : Nat) ≤ (({ Compiler.new Uninitialized.zero FunctionType.Script ErrorReporter.new with
        loop := [⟨0, 0, 0⟩] } : Compiler).setChunk
      (Chunk.mk [] (List.replicate 65533 OpCode.Pop.toByte) [⟨1, 0⟩])).currentChunk.size ∧
    ∃ c1,
      (({ Compiler.new Uninitialized.zero FunctionType.Script ErrorReporter.new with
          loop := [⟨0, 0, 0⟩] } : Compiler).setChunk
        (Chunk.mk [] (List.replicate 65533 OpCode.Pop.toByte) [⟨1, 0⟩])).emitLoop 0 = some c1 ∧
      c1.currentChunk.code = List.replicate 65533 OpCode.Pop.toByte ++ [OpCode.Loop.toByte] ∧
      c1.currentChunk.code.length = 65533 + 1 ∧
      c1.reporter.messages = ["Loop body too large."] := by
  refine ⟨Nat.zero_le _, ?_⟩
  have hcode : (({ Compiler.new Uninitialized.zero FunctionType.Script ErrorReporter.new with
      loop := [⟨0, 0, 0⟩] } : Compiler).setChunk
    (Chunk.mk [] (List.replicate 65533 OpCode.Pop.toByte) [⟨1, 0⟩])).currentChunk.code =
      List.replicate 65533 OpCode.Pop.toByte := rfl
  have hsize : (({ Compiler.new Uninitialized.zero FunctionType.Script ErrorReporter.new with
      loop := [⟨0, 0, 0⟩] } : Compiler).setChunk
    (Chunk.mk [] (List.replicate 65533 OpCode.Pop.toByte) [⟨1, 0⟩])).currentChunk.size =
      65533 := by
    unfold Chunk.size
    rw [hcode, List.length_replicate]
  obtain ⟨c1, h1, h2, h3⟩ := Compiler.emitLoop_too_large
    (c := ({ Compiler.new Uninitialized.zero FunctionType.Script ErrorReporter.new with
        loop := [⟨0, 0, 0⟩] } : Compiler).setChunk
      (Chunk.mk [] (List.replicate 65533 OpCode.Pop.toByte) [⟨1, 0⟩]))
    0 rfl
    (by
      rw [hsize]
      decide)
  rw [hcode] at h3
  refine ⟨c1, h1, h3, ?_, ?_⟩
  · rw [h3, List.length_append, List.length_replicate]
    rfl
  · rw [h2]
    rfl

/-- C32, amended: while a loop is compiled, `emitLoop(start)` with
`start <= size` and `size + 3 - start <= 65535` (`size` the current size of the
chunk) reports nothing and appends exactly three bytes, `Loop` and the two bytes of
`size + 3 - start`, high byte first; when the machine executes that `Loop`
instruction (its `ip`, a `std::uint32_t`, at offset `size` of a chunk that starts
with this code) the resulting `ip` is `start`. `visitContinueStatement` emits its
jump by `emitLoop(loop_->start)`, after the `Pop`s of the locals of the loop body. -/
theorem emit_loop_lands_on_start (c : Compiler) (loop : Loop) (enclosing : List Loop)
    (start : Nat) (hloop : c.loop = loop :: enclosing) (hstart : start ≤ c.currentChunk.size)
    (hfits : c.currentChunk.size + 3 - start ≤ 65535) :
    (∃ (c1 : Compiler) (high low : Nat), c.emitLoop start = some c1 ∧
      c1.reporter = c.reporter ∧
      c1.currentChunk.code = c.currentChunk.code ++ [OpCode.Loop.toByte, high, low] ∧
      high < 256 ∧ low < 256 ∧ high * 256 + low = c.currentChunk.size + 3 - start ∧
      ∀ (vm : VM) (function : ObjectFunction) (slots : Nat) (callers : List CallFrame)
          (rest : List Byte),
        function.chunk.code = c1.currentChunk.code ++ rest →
        c.currentChunk.size < 4294967296 →
        vm.frames = ⟨function, c.currentChunk.size, slots⟩ :: callers →
        vm.step = StepResult.next { vm with frames := ⟨function, start, slots⟩ :: callers }) ∧
    c.visitContinueStatement =
      (Compiler.popLoopLocals loop.scopeDepth c.locals.reverse c).emitLoop loop.start := by
  constructor
  · obtain ⟨c1, h1, h2, _, h4⟩ := Compiler.emitLoop_fits start hloop hstart hfits
    refine ⟨c1, (c.currentChunk.size + 3 - start) / 256 % 256,
      (c.currentChunk.size + 3 - start) % 256, h1, h2, h4, Nat.mod_lt _ (by decide),
      Nat.mod_lt _ (by decide), operand_bytes _ (by omega), ?_⟩
    intro vm function slots callers rest hcode hsize hframe
    have hlayout : function.chunk.code = c.currentChunk.code ++
        [OpCode.Loop.toByte, (c.currentChunk.size + 3 - start) / 256 % 256,
          (c.currentChunk.size + 3 - start) % 256] ++ rest := by
      rw [hcode, h4]
    have hget : ∀ (k : Nat) (byte : Byte),
        [OpCode.Loop.toByte, (c.currentChunk.size + 3 - start) / 256 % 256,
          (c.currentChunk.size + 3 - start) % 256].get? k = some byte →
        function.chunk.get (c.currentChunk.size + k) = some byte :=
      fun k byte hk => get_of_layout function hlayout (fun i _ _ => rfl) k byte hk
    have hstep := VM.step_loop vm function c.currentChunk.size slots callers
      ((c.currentChunk.size + 3 - start) / 256 % 256) ((c.currentChunk.size + 3 - start) % 256)
      (c.currentChunk.size + 3 - start) hframe (hget 0 _ rfl) (hget 1 _ rfl) (hget 2 _ rfl)
      (by omega) (by omega) (by omega)
    rw [hstep]
    have ht : c.currentChunk.size + 3 - (c.currentChunk.size + 3 - start) = start := by omega
    rw [ht]
  · unfold Compiler.visitContinueStatement
    rw [hloop]

set_option maxRecDepth 100000 in
/-- Witness of `emit_loop_lands_on_start`: the chunk `True JumpIfFalse 255 255 Pop`
of a loop that starts at offset 0; `emitLoop(0)` appends `Loop 0 8`, and the machine
at offset 5 of this code goes to offset 0. The closing jump and the `continue` of
`while true { continue; }` are `Loop 0 8` at offset 5 and `Loop 0 11` at offset 8,
both back to offset 0, and a loop that uses `continue` runs as expected. -/
theorem emit_loop_lands_on_start_witness :
    (∃ c1,
      (({ Compiler.new Uninitialized.zero FunctionType.Script ErrorReporter.new with
          loop := [⟨0, 0, 0⟩] } : Compiler).setChunk
        (Chunk.mk [] [OpCode.True.toByte, OpCode.JumpIfFalse.toByte, 255, 255,
          OpCode.Pop.toByte] [⟨1, 0⟩])).emitLoop 0 = some c1 ∧
      c1.currentChunk.code = [OpCode.True.toByte, OpCode.JumpIfFalse.toByte, 255, 255,
        OpCode.Pop.toByte, OpCode.Loop.toByte, 0, 8] ∧
      ({ VM.new with frames := [⟨ObjectFunction.mk [] 0 c1.currentChunk, 5, 0⟩] } : VM).step =
        StepResult.next
          { VM.new with frames := [⟨ObjectFunction.mk [] 0 c1.currentChunk, 0, 0⟩] }) ∧
    compiledCode 100 Uninitialized.zero "while true \x7b continue; \x7d" =
      some [OpCode.True.toByte, OpCode.JumpIfFalse.toByte, 0, 7, OpCode.Pop.toByte,
        OpCode.Loop.toByte, 0, 8, OpCode.Loop.toByte, 0, 11, OpCode.Pop.toByte,
        OpCode.Nil.toByte, OpCode.Return.toByte] ∧
    runSource 1000 Uninitialized.zero
        "let i = 0; while i < 3 \x7b i = i + 1; if i == 2 \x7b continue; \x7d print i; \x7d" =
      some ([], RunStatus.executed InterpreterResult.Success, "1\n3\n") := by
  refine ⟨?_, by decide!, by decide!⟩
  obtain ⟨⟨c1, high, low, h1, _, h3, hh, hl, hsum, hvm⟩, _⟩ := emit_loop_lands_on_start
    (({ Compiler.new Uninitialized.zero FunctionType.Script ErrorReporter.new with
        loop := [⟨0, 0, 0⟩] } : Compiler).setChunk
      (Chunk.mk [] [OpCode.True.toByte, OpCode.JumpIfFalse.toByte, 255, 255,
        OpCode.Pop.toByte] [⟨1, 0⟩]))
    ⟨0, 0, 0⟩ [] 0 rfl (Nat.zero_le _) (by decide)
  have hsum8 : high * 256 + low = 8 := hsum
  have hhigh : high = 0 := by omega
  have hlow : low = 8 := by omega
  rw [hhigh, hlow] at h3
  refine ⟨c1, h1, h3, ?_⟩
  exact hvm _ (ObjectFunction.mk [] 0 c1.currentChunk) 0 [] [] (List.append_nil _).symm
    (by decide) rfl

end scriptlang

namespace scriptlang

/-- C38, counterexample: a loop range of 65537 bytes, `[0, 65537)`, with a break
placeholder at offset 0, followed by 65534 `Pop` bytes and the `Loop` opcode (the
chunk as `emitLoop` leaves it after "Loop body too large."). `patchLoopBreaks`
rewrites the placeholder to `Jump` with the operand bytes `0, 1`: the operand is 1,
not `loop.end - i = 65537`, because the offset is a `Short`. -/
theorem long_loop_break_operand_wraps :
    ∃ c1,
      (({ Compiler.new Uninitialized.zero FunctionType.Script ErrorReporter.new with
          loop := [⟨0, 0, 65537⟩] } : Compiler).setChunk
        (Chunk.mk [] (BREAK_PLACEHOLDER :: 255 :: 255 ::
          (List.replicate 65534 OpCode.Pop.toByte ++ [OpCode.Loop.toByte]))
          [⟨1, 0⟩])).patchLoopBreaks = some c1 ∧
      c1.currentChunk.code.getD 0 0 = OpCode.Jump.toByte ∧
      operandAt c1.currentChunk.code 0 = 1 ∧
      (⟨0, 0, 65537⟩ : Loop).end_ - 0 = 65537 := by
  have hcode : (({ Compiler.new Uninitialized.zero FunctionType.Script ErrorReporter.new with
      loop := [⟨0, 0, 65537⟩] } : Compiler).setChunk
    (Chunk.mk [] (BREAK_PLACEHOLDER :: 255 :: 255 ::
      (List.replicate 65534 OpCode.Pop.toByte ++ [OpCode.Loop.toByte]))
      [⟨1, 0⟩])).currentChunk.code =
      BREAK_PLACEHOLDER :: 255 :: 255 ::
        (List.replicate 65534 OpCode.Pop.toByte ++ [OpCode.Loop.toByte]) := rfl
  have hlen : (BREAK_PLACEHOLDER :: 255 :: 255 ::
      (List.replicate 65534 OpCode.Pop.toByte ++ [OpCode.Loop.toByte])).length = 65538 := by
    rw [List.length_cons, List.length_cons, List.length_cons, List.length_append,
      List.length_replicate]
    rfl
  have hfirst : ∀ k, (BREAK_PLACEHOLDER :: 255 :: 255 ::
      (List.replicate 65534 OpCode.Pop.toByte ++ [OpCode.Loop.toByte])).getD k 0 =
        BREAK_PLACEHOLDER → k = 0 := by
    intro k hk
    match k with
    | 0 => rfl
    | 1 => exact absurd hk (by rw [List.getD_cons_succ, List.getD_cons_zero]; decide)
    | 2 =>
      exact absurd hk (by
        rw [List.getD_cons_succ, List.getD_cons_succ, List.getD_cons_zero]
        decide)
    | j + 3 =>
      rw [List.getD_cons_succ, List.getD_cons_succ, List.getD_cons_succ] at hk
      rcases getD_default_or_mem
        (List.replicate 65534 OpCode.Pop.toByte ++ [OpCode.Loop.toByte]) j with h0 | hmem
      · rw [h0] at hk
        exact absurd hk (by decide)
      · rw [hk, List.mem_append, List.mem_replicate, List.mem_singleton] at hmem
        rcases hmem with h | h
        · exact absurd h.2 (by decide)
        · exact absurd h (by decide)
  obtain ⟨chunk1, hp⟩ := patchLoopBreaksLoop_isSome 65537 (65537 - 0 + 1) 0
    (Chunk.mk [] (BREAK_PLACEHOLDER :: 255 :: 255 ::
      (List.replicate 65534 OpCode.Pop.toByte ++ [OpCode.Loop.toByte])) [⟨1, 0⟩])
    (by
      intro k _ hk
      refine ⟨?_, ?_⟩
      · show k < (BREAK_PLACEHOLDER :: 255 :: 255 ::
          (List.replicate 65534 OpCode.Pop.toByte ++ [OpCode.Loop.toByte])).length
        rw [hlen]
        omega
      · intro hb
        show k + 2 < (BREAK_PLACEHOLDER :: 255 :: 255 ::
          (List.replicate 65534 OpCode.Pop.toByte ++ [OpCode.Loop.toByte])).length
        rw [hlen, hfirst k hb]
        decide)
  have hpatch : (({ Compiler.new Uninitialized.zero FunctionType.Script ErrorReporter.new with
      loop := [⟨0, 0, 65537⟩] } : Compiler).setChunk
    (Chunk.mk [] (BREAK_PLACEHOLDER :: 255 :: 255 ::
      (List.replicate 65534 OpCode.Pop.toByte ++ [OpCode.Loop.toByte]))
      [⟨1, 0⟩])).patchLoopBreaks = some
        ((({ Compiler.new Uninitialized.zero FunctionType.Script ErrorReporter.new with
          loop := [⟨0, 0, 65537⟩] } : Compiler).setChunk
        (Chunk.mk [] (BREAK_PLACEHOLDER :: 255 :: 255 ::
          (List.replicate 65534 OpCode.Pop.toByte ++ [OpCode.Loop.toByte]))
          [⟨1, 0⟩])).setChunk chunk1) := by
    rw [Compiler.patchLoopBreaks_eq ⟨0, 0, 65537⟩ [] rfl]
    show (patchLoopBreaksLoop 65537 (65537 - 0 + 1) 0
      (Chunk.mk [] (BREAK_PLACEHOLDER :: 255 :: 255 ::
        (List.replicate 65534 OpCode.Pop.toByte ++ [OpCode.Loop.toByte])) [⟨1, 0⟩])).map _ = _
    rw [hp]
    rfl
  obtain ⟨_, _, _, _, h5, _⟩ := Compiler.patchLoopBreaks_spec ⟨0, 0, 65537⟩ [] rfl hpatch
  obtain ⟨_, q2, q3⟩ := h5 0 (Steps.here 0) (by decide) rfl
  exact ⟨_, hpatch, q2, q3, rfl⟩

/-- C38, amended: `patchLoopBreaks` returns when every offset that its scan
reaches in `[loop.start, loop.end)` lies in the chunk, a placeholder with its two
operand bytes; and when it returns, the compiler differs only in the code of the
chunk, which has the same length: at every offset `i` of `[loop.start, loop.end)`
that the scan from `loop.start` reaches (stepping over whole instructions and
placeholders) and that holds `0xBB`, the byte is now `Jump` and the two bytes after
it hold `(loop.end - i) mod 65536`, high byte first, which is `loop.end - i` when
that is at most 65535; every byte outside these three-byte placeholders, operand
bytes equal to `0xBB` included, is unchanged. -/
theorem patch_loop_breaks_frame (c : Compiler) (loop : Loop) (enclosing : List Loop)
    (hloop : c.loop = loop :: enclosing) :
    ((∀ k, Steps c.currentChunk.code loop.start k → k < loop.end_ →
        k < c.currentChunk.code.length ∧
        (c.currentChunk.code.getD k 0 = BREAK_PLACEHOLDER →
          k + 2 < c.currentChunk.code.length)) →
      ∃ c1, c.patchLoopBreaks = some c1) ∧
    ∀ c1, c.patchLoopBreaks = some c1 →
      c1 = c.setChunk c1.currentChunk ∧
      c1.currentChunk.code.length = c.currentChunk.code.length ∧
      c1.currentChunk.constants = c.currentChunk.constants ∧
      c1.currentChunk.lines = c.currentChunk.lines ∧
      (∀ i, Steps c.currentChunk.code loop.start i → i < loop.end_ →
        c.currentChunk.code.getD i 0 = BREAK_PLACEHOLDER →
        c1.currentChunk.code.getD i 0 = OpCode.Jump.toByte ∧
        operandAt c1.currentChunk.code i = (loop.end_ - i) % 65536 ∧
        (loop.end_ - i ≤ 65535 → operandAt c1.currentChunk.code i = loop.end_ - i)) ∧
      (∀ j, (∀ i, Steps c.currentChunk.code loop.start i → i < loop.end_ →
          c.currentChunk.code.getD i 0 = BREAK_PLACEHOLDER → j < i ∨ i + 3 ≤ j) →
        c1.currentChunk.code.get? j = c.currentChunk.code.get? j) := by
  constructor
  · intro hin
    obtain ⟨chunk1, hp⟩ := patchLoopBreaksLoop_isSome loop.end_ (loop.end_ - loop.start + 1)
      loop.start c.currentChunk hin
    refine ⟨c.setChunk chunk1, ?_⟩
    rw [Compiler.patchLoopBreaks_eq loop enclosing hloop, hp]
    rfl
  · intro c1 h
    obtain ⟨h1, h2, h3, h4, h5, h6⟩ := Compiler.patchLoopBreaks_spec loop enclosing hloop h
    refine ⟨h1, h2, h3, h4, ?_, h6⟩
    intro i hi hend hb
    obtain ⟨_, q2, q3⟩ := h5 i hi hend hb
    refine ⟨q2, q3, ?_⟩
    intro hsmall
    rw [q3, Nat.mod_eq_of_lt (by omega)]

/-- Witness of `patch_loop_breaks_frame`: the chunk
`PushConstant 187, 0xBB 255 255, Pop, Loop 0 9` with the loop range `[0, 6)`. The
placeholder at offset 2 becomes `Jump 0 4`; the operand `187` of `PushConstant` at
offset 1 stays. -/
theorem patch_loop_breaks_frame_witness :
    ∃ c1,
      (({ Compiler.new Uninitialized.zero FunctionType.Script ErrorReporter.new with
          loop := [⟨0, 0, 6⟩] } : Compiler).setChunk
        (Chunk.mk [] [OpCode.PushConstant.toByte, 187, BREAK_PLACEHOLDER, 255, 255,
          OpCode.Pop.toByte, OpCode.Loop.toByte, 0, 9] [⟨1, 0⟩])).patchLoopBreaks = some c1 ∧
      c1.currentChunk.code = [OpCode.PushConstant.toByte, 187, OpCode.Jump.toByte, 0, 4,
        OpCode.Pop.toByte, OpCode.Loop.toByte, 0, 9] ∧
      operandAt c1.currentChunk.code 2 = 6 - 2 ∧
      c1.currentChunk.code.get? 1 = some 187 := by
  have h := (patch_loop_breaks_frame
    (({ Compiler.new Uninitialized.zero FunctionType.Script ErrorReporter.new with
        loop := [⟨0, 0, 6⟩] } : Compiler).setChunk
      (Chunk.mk [] [OpCode.PushConstant.toByte, 187, BREAK_PLACEHOLDER, 255, 255,
        OpCode.Pop.toByte, OpCode.Loop.toByte, 0, 9] [⟨1, 0⟩]))
    ⟨0, 0, 6⟩ [] rfl).2
    (({ Compiler.new Uninitialized.zero FunctionType.Script ErrorReporter.new with
        loop := [⟨0, 0, 6⟩] } : Compiler).setChunk
      (Chunk.mk [] [OpCode.PushConstant.toByte, 187, OpCode.Jump.toByte, 0, 4,
        OpCode.Pop.toByte, OpCode.Loop.toByte, 0, 9] [⟨1, 0⟩]))
    rfl
  obtain ⟨_, _, _, _, h5, h6⟩ := h
  refine ⟨_, rfl, rfl, ?_, ?_⟩
  · exact (h5 2 (Steps.next 0 2 (Steps.here 2)) (by decide) rfl).2.2 (by decide)
  · refine (h6 1 ?_).trans rfl
    intro i hi _ hb
    rcases Steps.cases_first hi with h0 | h2
    · rw [h0] at hb
      exact absurd hb (by decide)
    · exact Or.inl (lt_of_lt_of_le (by decide) (Steps.le h2))

end scriptlang

namespace scriptlang

/-- C31: a machine at a `Call n` instruction, with a function `f` of arity `n` in
the cell below the `n` arguments (and fewer than 64 frames), seats the frame of `f`
with its slots at the cell of `f`, on the caller's frame whose `ip` is just after the
instruction. Let that cell lie above the first cell of every active frame, and let
the call run for any number of iterations such that, after each of them, the frames
of the call and of the calls made from it have their slots at or above that cell, the
stack pointer is above it, and the cell of each of these frames holds the function the
frame runs (the code reads the function of such a frame through a pointer into that
cell). When the frame of `f` is then current at a `Return` instruction, the iteration
pops the return value `r`, makes the caller's frame current, with its `ip` just after
the `Call`, and leaves the stack pointer one above the cell where `f` was, that cell
holding `r` and the cells below it being those of the caller before the call, the
first cells of the active frames among them: the callee, its arguments, locals and
temporaries are gone. -/
theorem call_return_stack_effect (vm : VM) (frame : CallFrame) (callers : List CallFrame)
    (f : ObjectFunction) (n : Nat)
    (hframe : vm.frames = frame :: callers)
    (hop : frame.function.chunk.get frame.ip = some OpCode.Call.toByte)
    (hargc : frame.function.chunk.get (frame.ip + 1) = some n)
    (hn : n < vm.stackTop) (htop : vm.stackTop ≤ STACK_SIZE)
    (hcallee : vm.cell (vm.stackTop - 1 - n) = Value.function f)
    (harity : f.arity = (n : Int)) (hdepth : vm.frames.length < CALL_FRAMES)
    (hbelow : ∀ active ∈ vm.frames, active.slots < vm.stackTop - n - 1) :
    vm.step = StepResult.next
      { vm with frames :=
          ⟨f, 0, vm.stackTop - n - 1⟩ :: { frame with ip := frame.ip + 2 } :: callers } ∧
    ∀ (k : Nat) (vmR : VM),
      VM.runWithin (callers.length + 1) (vm.stackTop - n - 1) k
        { vm with frames :=
            ⟨f, 0, vm.stackTop - n - 1⟩ :: { frame with ip := frame.ip + 2 } :: callers } =
          some vmR →
      (∀ (j : Nat) (vmJ : VM), j ≤ k →
        VM.runWithin (callers.length + 1) (vm.stackTop - n - 1) j
          { vm with frames :=
              ⟨f, 0, vm.stackTop - n - 1⟩ :: { frame with ip := frame.ip + 2 } :: callers } =
            some vmJ →
        vmJ.CalleesIntact (callers.length + 1)) →
      vmR.frames.length = callers.length + 2 →
      vmR.frames.head?.bind (fun current => current.function.chunk.get current.ip) =
        some OpCode.Return.toByte →
      vmR.stackTop ≤ STACK_SIZE →
      ∃ vmE, vmR.step = StepResult.next vmE ∧
        vmE.frames = { frame with ip := frame.ip + 2 } :: callers ∧
        vmE.stackTop = vm.stackTop - n ∧
        vmE.cell (vm.stackTop - n - 1) = vmR.cell (vmR.stackTop - 1) ∧
        (∀ i, i < vm.stackTop - n - 1 → vmE.cell i = vm.cell i) ∧
        (∀ active ∈ vm.frames, vmE.cell active.slots = vm.cell active.slots) ∧
        vmE.globals = vmR.globals ∧ vmE.output = vmR.output := by
  refine ⟨VM.step_call vm frame callers f n hframe hop hargc hn htop hcallee harity hdepth, ?_⟩
  intro k vmR hrun _ hlen hret htopR
  have hstart : VM.Inside f (vm.stackTop - n - 1) ({ frame with ip := frame.ip + 2 } :: callers)
      vm { vm with frames :=
        ⟨f, 0, vm.stackTop - n - 1⟩ :: { frame with ip := frame.ip + 2 } :: callers } :=
    ⟨[], 0, rfl, fun _ hfr => absurd hfr (List.not_mem_nil _), by
      show vm.stackTop - n - 1 < vm.stackTop
      omega, fun _ _ => rfl⟩
  obtain ⟨inner, ip, hframes, _, hbase, hcells⟩ := hstart.runWithin k _ vmR hrun
  have hinner : inner = [] := by
    rw [hframes, List.length_append] at hlen
    simp only [List.length_cons] at hlen
    exact List.eq_nil_of_length_eq_zero (by omega)
  rw [hinner] at hframes
  have hframes1 : vmR.frames =
      ⟨f, ip, vm.stackTop - n - 1⟩ :: { frame with ip := frame.ip + 2 } :: callers := hframes
  rw [hframes1] at hret
  have hstep := VM.step_return vmR ⟨f, ip, vm.stackTop - n - 1⟩
    { frame with ip := frame.ip + 2 } callers hframes1 hret (by omega) htopR
    (by
      show vm.stackTop - n - 1 < STACK_SIZE
      omega)
  have hlow : ∀ i, i < vm.stackTop - n - 1 →
      (writeCell vmR.stack (vm.stackTop - n - 1) (vmR.cell (vmR.stackTop - 1))).getD i
        Value.nil = vm.cell i := by
    intro i hi
    rw [getD_writeCell_ne _ _ (by omega)]
    exact hcells i hi
  refine ⟨_, hstep, rfl, ?_, ?_, hlow, ?_, rfl, rfl⟩
  · show vm.stackTop - n - 1 + 1 = vm.stackTop - n
    omega
  · exact getD_writeCell_self _ _ _
  · intro active hactive
    exact hlow _ (hbelow active hactive)

set_option maxRecDepth 100000 in
/-- Witness of `call_return_stack_effect`: the caller's chunk `Call 2; Print; ...`
at offset 0 with the stack `script, 1, f, 2, 3`, where `f` is the function of arity 2
with the code `GetLocal 1; GetLocal 2; Add; PushConstant 0; Mult; Return` and the
constant `2`. After the call and each of the five iterations inside it the cell 2
holds `f`; after the `Return` the frame of the caller is current at offset 2 and the
stack is `script, 1, 10`. A callee with the code
`True; SetLocal 0; Pop; Nil; Return`, which overwrites its own cell, does not meet the
condition on the cells: after two iterations the cell of its frame holds `true`.
Executing `defun f(a, b) { let t = a + b; return t * 2; } print 1 + f(2, 3);` prints
`11`. -/
theorem call_return_stack_effect_witness :
    (∃ vmR vmE,
      VM.runWithin 1 2 5
        ⟨[⟨(ObjectFunction.mk ['f'] 2 (Chunk.mk [Value.number 2]
            [OpCode.GetLocal.toByte, 1, OpCode.GetLocal.toByte, 2, OpCode.Add.toByte,
              OpCode.PushConstant.toByte, 0, OpCode.Mult.toByte, OpCode.Return.toByte]
            [⟨1, 0⟩])), 0, 2⟩,
          ⟨(ObjectFunction.mk [] 0 (Chunk.mk []
            [OpCode.Call.toByte, 2, OpCode.Print.toByte, OpCode.Nil.toByte,
              OpCode.Return.toByte] [⟨1, 0⟩])), 2, 0⟩],
          [Value.nil, Value.number 1,
            Value.function (ObjectFunction.mk ['f'] 2 (Chunk.mk [Value.number 2]
            [OpCode.GetLocal.toByte, 1, OpCode.GetLocal.toByte, 2, OpCode.Add.toByte,
              OpCode.PushConstant.toByte, 0, OpCode.Mult.toByte, OpCode.Return.toByte]
            [⟨1, 0⟩])),
            Value.number 2, Value.number 3], 5, [], ""⟩ = some vmR ∧
      (∀ (j : Nat) (vmJ : VM), j ≤ 5 →
        VM.runWithin 1 2 j
          ⟨[⟨(ObjectFunction.mk ['f'] 2 (Chunk.mk [Value.number 2]
            [OpCode.GetLocal.toByte, 1, OpCode.GetLocal.toByte, 2, OpCode.Add.toByte,
              OpCode.PushConstant.toByte, 0, OpCode.Mult.toByte, OpCode.Return.toByte]
            [⟨1, 0⟩])), 0, 2⟩,
          ⟨(ObjectFunction.mk [] 0 (Chunk.mk []
            [OpCode.Call.toByte, 2, OpCode.Print.toByte, OpCode.Nil.toByte,
              OpCode.Return.toByte] [⟨1, 0⟩])), 2, 0⟩],
          [Value.nil, Value.number 1,
            Value.function (ObjectFunction.mk ['f'] 2 (Chunk.mk [Value.number 2]
            [OpCode.GetLocal.toByte, 1, OpCode.GetLocal.toByte, 2, OpCode.Add.toByte,
              OpCode.PushConstant.toByte, 0, OpCode.Mult.toByte, OpCode.Return.toByte]
            [⟨1, 0⟩])),
            Value.number 2, Value.number 3], 5, [], ""⟩ = some vmJ →
        vmJ.CalleesIntact 1) ∧
      vmR.step = StepResult.next vmE ∧
      vmE.frames.map (fun current => (current.ip, current.slots)) = [(2, 0)] ∧
      vmE.stackTop = 3 ∧ (vmE.cell 2).show = "10" ∧ (vmE.cell 1).show = "1") ∧
    (∃ vmJ,
      VM.runWithin 1 1 2
        ⟨[⟨(ObjectFunction.mk ['g'] 0 (Chunk.mk []
            [OpCode.True.toByte, OpCode.SetLocal.toByte, 0, OpCode.Pop.toByte,
              OpCode.Nil.toByte, OpCode.Return.toByte] [⟨1, 0⟩])), 0, 1⟩,
          ⟨(ObjectFunction.mk [] 0 (Chunk.mk []
            [OpCode.Call.toByte, 0, OpCode.Print.toByte, OpCode.Nil.toByte,
              OpCode.Return.toByte] [⟨1, 0⟩])), 2, 0⟩],
          [Value.nil, Value.function (ObjectFunction.mk ['g'] 0 (Chunk.mk []
            [OpCode.True.toByte, OpCode.SetLocal.toByte, 0, OpCode.Pop.toByte,
              OpCode.Nil.toByte, OpCode.Return.toByte] [⟨1, 0⟩]))], 2, [], ""⟩ = some vmJ ∧
      (vmJ.cell 1).show = "true" ∧ ¬ vmJ.CalleesIntact 1) ∧
    runSource 1000 Uninitialized.zero
        "defun f(a, b) \x7b let t = a + b; return t * 2; \x7d print 1 + f(2, 3);" =
      some ([], RunStatus.executed InterpreterResult.Success, "11\n") := by
  refine ⟨?_, ?_, by decide!⟩
  swap
  · have hrunG := eq_some_getD VM.new
      (show (VM.runWithin 1 1 2
        ⟨[⟨(ObjectFunction.mk ['g'] 0 (Chunk.mk []
            [OpCode.True.toByte, OpCode.SetLocal.toByte, 0, OpCode.Pop.toByte,
              OpCode.Nil.toByte, OpCode.Return.toByte] [⟨1, 0⟩])), 0, 1⟩,
          ⟨(ObjectFunction.mk [] 0 (Chunk.mk []
            [OpCode.Call.toByte, 0, OpCode.Print.toByte, OpCode.Nil.toByte,
              OpCode.Return.toByte] [⟨1, 0⟩])), 2, 0⟩],
          [Value.nil, Value.function (ObjectFunction.mk ['g'] 0 (Chunk.mk []
            [OpCode.True.toByte, OpCode.SetLocal.toByte, 0, OpCode.Pop.toByte,
              OpCode.Nil.toByte, OpCode.Return.toByte] [⟨1, 0⟩]))], 2, [], ""⟩).isSome = true by decide!)
    refine ⟨_, hrunG, by decide!, ?_⟩
    intro hG
    have hcell := hG ⟨(ObjectFunction.mk ['g'] 0 (Chunk.mk []
            [OpCode.True.toByte, OpCode.SetLocal.toByte, 0, OpCode.Pop.toByte,
              OpCode.Nil.toByte, OpCode.Return.toByte] [⟨1, 0⟩])), 3, 1⟩ (List.mem_singleton.mpr rfl)
    have hbool : Value.boolean true = Value.function _ := hcell
    cases hbool
  have hrun := eq_some_getD VM.new
    (show (VM.runWithin 1 2 5
        ⟨[⟨(ObjectFunction.mk ['f'] 2 (Chunk.mk [Value.number 2]
            [OpCode.GetLocal.toByte, 1, OpCode.GetLocal.toByte, 2, OpCode.Add.toByte,
              OpCode.PushConstant.toByte, 0, OpCode.Mult.toByte, OpCode.Return.toByte]
            [⟨1, 0⟩])), 0, 2⟩,
          ⟨(ObjectFunction.mk [] 0 (Chunk.mk []
            [OpCode.Call.toByte, 2, OpCode.Print.toByte, OpCode.Nil.toByte,
              OpCode.Return.toByte] [⟨1, 0⟩])), 2, 0⟩],
          [Value.nil, Value.number 1,
            Value.function (ObjectFunction.mk ['f'] 2 (Chunk.mk [Value.number 2]
            [OpCode.GetLocal.toByte, 1, OpCode.GetLocal.toByte, 2, OpCode.Add.toByte,
              OpCode.PushConstant.toByte, 0, OpCode.Mult.toByte, OpCode.Return.toByte]
            [⟨1, 0⟩])),
            Value.number 2, Value.number 3], 5, [], ""⟩).isSome = true by decide!)
  have hintact : ∀ (j : Nat) (vmJ : VM), j ≤ 5 →
      VM.runWithin 1 2 j
        ⟨[⟨(ObjectFunction.mk ['f'] 2 (Chunk.mk [Value.number 2]
            [OpCode.GetLocal.toByte, 1, OpCode.GetLocal.toByte, 2, OpCode.Add.toByte,
              OpCode.PushConstant.toByte, 0, OpCode.Mult.toByte, OpCode.Return.toByte]
            [⟨1, 0⟩])), 0, 2⟩,
          ⟨(ObjectFunction.mk [] 0 (Chunk.mk []
            [OpCode.Call.toByte, 2, OpCode.Print.toByte, OpCode.Nil.toByte,
              OpCode.Return.toByte] [⟨1, 0⟩])), 2, 0⟩],
          [Value.nil, Value.number 1,
            Value.function (ObjectFunction.mk ['f'] 2 (Chunk.mk [Value.number 2]
            [OpCode.GetLocal.toByte, 1, OpCode.GetLocal.toByte, 2, OpCode.Add.toByte,
              OpCode.PushConstant.toByte, 0, OpCode.Mult.toByte, OpCode.Return.toByte]
            [⟨1, 0⟩])),
            Value.number 2, Value.number 3], 5, [], ""⟩ = some vmJ →
      vmJ.CalleesIntact 1 := by
    intro j vmJ hj hrunJ
    have hcases : j = 0 ∨ j = 1 ∨ j = 2 ∨ j = 3 ∨ j = 4 ∨ j = 5 := by omega
    rcases hcases with h | h | h | h | h | h <;> subst h <;>
      (have hv := Option.some.inj hrunJ
       subst hv
       intro current hcurrent
       have hone : current ∈ [_] := hcurrent
       rw [List.mem_singleton] at hone
       subst hone
       rfl)
  obtain ⟨vmE, h1, h2, h3, h4, h5, _, _, _⟩ := (call_return_stack_effect
    ⟨[⟨(ObjectFunction.mk [] 0 (Chunk.mk []
            [OpCode.Call.toByte, 2, OpCode.Print.toByte, OpCode.Nil.toByte,
              OpCode.Return.toByte] [⟨1, 0⟩])), 0, 0⟩],
          [Value.nil, Value.number 1,
            Value.function (ObjectFunction.mk ['f'] 2 (Chunk.mk [Value.number 2]
            [OpCode.GetLocal.toByte, 1, OpCode.GetLocal.toByte, 2, OpCode.Add.toByte,
              OpCode.PushConstant.toByte, 0, OpCode.Mult.toByte, OpCode.Return.toByte]
            [⟨1, 0⟩])),
            Value.number 2, Value.number 3], 5, [], ""⟩
    ⟨(ObjectFunction.mk [] 0 (Chunk.mk []
            [OpCode.Call.toByte, 2, OpCode.Print.toByte, OpCode.Nil.toByte,
              OpCode.Return.toByte] [⟨1, 0⟩])), 0, 0⟩
    []
    (ObjectFunction.mk ['f'] 2 (Chunk.mk [Value.number 2]
            [OpCode.GetLocal.toByte, 1, OpCode.GetLocal.toByte, 2, OpCode.Add.toByte,
              OpCode.PushConstant.toByte, 0, OpCode.Mult.toByte, OpCode.Return.toByte]
            [⟨1, 0⟩]))
    2 rfl rfl rfl (by decide) (by decide) rfl rfl (by decide)
    (by
      intro active hactive
      have hone : active ∈ [_] := hactive
      rw [List.mem_singleton] at hone
      subst hone
      decide)).2 5 _ hrun hintact
    (by decide!) (by decide!) (by decide!)
  refine ⟨_, vmE, hrun, hintact, h1, ?_, h3, ?_, ?_⟩
  · rw [h2]
    rfl
  · have h4a : vmE.cell 2 = _ := h4
    rw [h4a]
    decide!
  · rw [h5 1 (by decide)]
    rfl

end scriptlang

